import Mathlib

/-! # myspotifypl: job queue, request slots, arena, JSON parser, job processor

A shallow embedding of the C sources (`main.c`, `memory_arena.c`,
`json_parser.c`, `buffer.c`) together with proofs about them.

Conventions of the embedding.

* A `u64` is a natural number; every `u64` operation of the source that can
  leave the range is written with an explicit `% 2^64` (`wrap64`, `sub64`).
* A `Buffer` (`u8 *data; u64 count`) is the list of its bytes; `count` is the
  length of the list.
* A C array living in an arena is the list of its cells.  A read outside the
  list yields the zero value (arena memory past the used part is zero) and a
  write outside the list is dropped; the theorems state where an index is
  inside the storage.
* A `json_Element` owns the chain `firstSubElement`, `nextSibling`, ... of its
  children; the chain is the list `children`, in source order.
-/

namespace MySpotifyPl

/-! ## Machine integers -/

/-- Reduction of a natural number to the `u64` range. -/
def wrap64 (n : Nat) : Nat := n % 2 ^ 64

/-- Subtraction of `u64` values, wrapping below zero. -/
def sub64 (a b : Nat) : Nat := (a + (2 ^ 64 - b % 2 ^ 64)) % 2 ^ 64

/-! ## Buffers and JSON elements (`buffer.c`, `json_parser.c`) -/

/-- The bytes of a `Buffer`. -/
abbrev Buffer := List Char

inductive json_ElementType where
  | json_INVALID_ELEMENT
  | json_ARRAY
  | json_OBJECT
  | json_NUMBER
  | json_TRUE
  | json_FALSE
  | json_NULL
  | json_STRING
  deriving DecidableEq, Repr

/-- The struct `json_Element`; `children` is the chain that starts at
`firstSubElement` and follows `nextSibling`. -/
inductive json_Element where
  | mk (type : json_ElementType) (label : Buffer) (value : Buffer)
      (children : List json_Element)
  deriving Repr

namespace json_Element

def type : json_Element → json_ElementType
  | mk t _ _ _ => t

def label : json_Element → Buffer
  | mk _ l _ _ => l

def value : json_Element → Buffer
  | mk _ _ v _ => v

def children : json_Element → List json_Element
  | mk _ _ _ c => c

/-- The value `(json_Element){0}`. -/
def zero : json_Element := mk .json_INVALID_ELEMENT [] [] []

mutual
def decEq : (a b : json_Element) → Decidable (a = b)
  | mk t1 l1 v1 c1, mk t2 l2 v2 c2 =>
    if ht : t1 = t2 then
      if hl : l1 = l2 then
        if hv : v1 = v2 then
          match decEqList c1 c2 with
          | isTrue hc => isTrue (by subst ht hl hv hc; rfl)
          | isFalse hc => isFalse (by intro h; injection h with _ _ _ h4; exact hc h4)
        else isFalse (by intro h; injection h with _ _ h3 _; exact hv h3)
      else isFalse (by intro h; injection h with _ h2 _ _; exact hl h2)
    else isFalse (by intro h; injection h with h1 _ _ _; exact ht h1)
def decEqList : (a b : List json_Element) → Decidable (a = b)
  | [], [] => isTrue rfl
  | [], _ :: _ => isFalse (by intro h; cases h)
  | _ :: _, [] => isFalse (by intro h; cases h)
  | x :: xs, y :: ys =>
    match decEq x y with
    | isTrue h1 =>
      match decEqList xs ys with
      | isTrue h2 => isTrue (by subst h1 h2; rfl)
      | isFalse h2 => isFalse (by intro h; injection h with _ h4; exact h2 h4)
    | isFalse h1 => isFalse (by intro h; injection h with h3 _; exact h1 h3)
end

instance : DecidableEq json_Element := decEq

end json_Element

/-! ## Jobs and the job queue (`main.c`) -/

inductive JobType where
  | Job_zero
  | Job_playlistListHeader
  | Job_playlistList
  | Job_playlistHeader
  | Job_trackList
  deriving DecidableEq, Repr

structure Job where
  type : JobType
  uri : Buffer
  json : json_Element
  playlistIndex : Nat
  offset : Nat
  deriving DecidableEq

/-- The value `(Job){0}`. -/
def Job.zero : Job :=
  { type := .Job_zero, uri := [], json := json_Element.zero, playlistIndex := 0, offset := 0 }

/-- The struct `JobQueue`; `data` holds the `maxCount` cells that `pushArray`
handed out (the arena pointer is not part of the model). -/
structure JobQueue where
  data : List Job
  maxCount : Nat
  count : Nat
  first : Nat
  last : Nat
  deriving DecidableEq

/-- The queue inside `State state = {0}`, before `initJobQueue`. -/
def JobQueue.zero : JobQueue :=
  { data := [], maxCount := 0, count := 0, first := 0, last := 0 }

/-- The copy loop of `growJobQueue`: `n` iterations remain, `i` is the read
index, `newQueueIndex` the write index. -/
def growLoop (jq : JobQueue) : Nat → Nat → Nat → List Job → Nat × List Job
  | 0, _, newQueueIndex, newData => (newQueueIndex, newData)
  | n + 1, i, newQueueIndex, newData =>
    let i := if i ≥ jq.maxCount then 0 else i
    growLoop jq n (wrap64 (i + 1)) (wrap64 (newQueueIndex + 1))
      (newData.set newQueueIndex (jq.data.getD i Job.zero))

def growJobQueue (jq : JobQueue) : JobQueue :=
  let newMaxCount := wrap64 (2 * jq.maxCount)
  let newData := List.replicate newMaxCount Job.zero
  let r := growLoop jq jq.count jq.first 0 newData
  { jq with first := 0, last := r.1, data := r.2, maxCount := newMaxCount }

/-- The first statement of `enqueueJob`: the queue after
`if(queueIsFull) growJobQueue(jq);`. -/
def enqueueGrow (jq : JobQueue) : JobQueue :=
  let queueIsFull := wrap64 (jq.count + 1) > jq.maxCount
  if queueIsFull then growJobQueue jq else jq

def enqueueJob (jq : JobQueue) (job : Job) : JobQueue :=
  let jq := enqueueGrow jq
  { jq with
    data := jq.data.set jq.last job
    last := if jq.maxCount ≠ 0 then wrap64 (jq.last + 1) % jq.maxCount else 0
    count := wrap64 (jq.count + 1) }

def dequeueJob (jq : JobQueue) : Job × JobQueue :=
  if jq.count ≠ 0 then
    (jq.data.getD jq.first Job.zero,
      { jq with
        data := jq.data.set jq.first Job.zero
        first := if jq.maxCount ≠ 0 then wrap64 (jq.first + 1) % jq.maxCount else 0
        count := jq.count - 1 })
  else (Job.zero, jq)

/-- The function `initJobQueue`: fresh arena cells are zero. -/
def initJobQueue (queue : JobQueue) (count : Nat) : JobQueue :=
  { queue with data := List.replicate count Job.zero, maxCount := count }

def isJobQueueEmpty (jq : JobQueue) : Bool := jq.count == 0

/-- One call made on a queue. -/
inductive QueueOp where
  | enqueue (job : Job)
  | dequeue
  deriving DecidableEq

/-- The queue after a sequence of calls. -/
def runQueue : JobQueue → List QueueOp → JobQueue
  | jq, [] => jq
  | jq, .enqueue job :: ops => runQueue (enqueueJob jq job) ops
  | jq, .dequeue :: ops => runQueue (dequeueJob jq).2 ops

/-- The jobs returned by the `dequeueJob` calls made on a non-empty queue, in
call order. -/
def dequeued : JobQueue → List QueueOp → List Job
  | _, [] => []
  | jq, .enqueue job :: ops => dequeued (enqueueJob jq job) ops
  | jq, .dequeue :: ops =>
    if jq.count ≠ 0 then (dequeueJob jq).1 :: dequeued (dequeueJob jq).2 ops
    else dequeued (dequeueJob jq).2 ops

/-- The jobs passed to `enqueueJob`, in call order. -/
def enqueued : List QueueOp → List Job
  | [] => []
  | .enqueue job :: ops => job :: enqueued ops
  | .dequeue :: ops => enqueued ops

/-- The queued jobs in FIFO order: the cells `first`, `first + 1`, ... taken
modulo the capacity. -/
def JobQueue.contents (jq : JobQueue) : List Job :=
  (List.range jq.count).map fun k => jq.data.getD ((jq.first + k) % jq.maxCount) Job.zero

/-- Well-formed queue states: the storage has `maxCount ≥ 1` cells, it is
addressable (`maxCount < 2^63`), and head, tail and count are consistent. -/
structure JobQueue.WF (jq : JobQueue) : Prop where
  cap_pos : 0 < jq.maxCount
  cap_lt : jq.maxCount < 2 ^ 63
  len : jq.data.length = jq.maxCount
  first_lt : jq.first < jq.maxCount
  count_le : jq.count ≤ jq.maxCount
  last_eq : jq.last = (jq.first + jq.count) % jq.maxCount

/-- Sample jobs used to exercise the queue. -/
def sampleJob (n : Nat) : Job :=
  { type := .Job_trackList, uri := ['u'], json := json_Element.zero, playlistIndex := n,
    offset := 20 * n }

/-- A queue of capacity 2 that holds one job, at the wrapped position 1. -/
def sampleQueue : JobQueue :=
  { data := [Job.zero, sampleJob 7], maxCount := 2, count := 1, first := 1, last := 0 }

/-- A full queue of capacity 2 whose head is at position 1. -/
def sampleFullQueue : JobQueue :=
  { data := [sampleJob 2, sampleJob 1], maxCount := 2, count := 2, first := 1, last := 1 }

/-! ## Request slots (`main.c`) -/

def CONNECTION_COUNT : Nat := 128

/-- The fields of `NetworkState` that the slot bookkeeping reads and writes.
The libcurl handles are outside the model: a slot is registered with the
multi handle exactly while its busy flag is set. -/
structure NetworkState where
  easyHandleCount : Nat
  handleToJobMap : List Job
  busyHandleFlagArray : List Bool
  busyHandleCount : Nat
  deriving DecidableEq

/-- The network state inside `State state = {0}`. -/
def NetworkState.zero : NetworkState :=
  { easyHandleCount := 0, handleToJobMap := [], busyHandleFlagArray := [], busyHandleCount := 0 }

/-- The function `initNetworkState`: the arrays come from a fresh arena and
are zero. -/
def initNetworkState (nst : NetworkState) : NetworkState :=
  let easyCount := CONNECTION_COUNT + 1
  { nst with
    easyHandleCount := easyCount
    handleToJobMap := List.replicate easyCount Job.zero
    busyHandleFlagArray := List.replicate easyCount false }

/-- The check `check(nst->busyHandleCount < nst->easyHandleCount)`. -/
def busyCountCheck (nst : NetworkState) : Bool :=
  decide (nst.busyHandleCount < nst.easyHandleCount)

def configureEasyHandleAndAddToMulti (nst : NetworkState) (handleIndex : Nat) (job : Job) :
    NetworkState :=
  { nst with
    busyHandleFlagArray := nst.busyHandleFlagArray.set handleIndex true
    busyHandleCount := wrap64 (nst.busyHandleCount + 1)
    handleToJobMap := nst.handleToJobMap.set handleIndex job }

/-- The loop of `findFreeHandle`, from index `i` on, with `n` bounding the
number of iterations. -/
def findFreeHandleLoop (nst : NetworkState) : Nat → Nat → Nat
  | 0, _ => 0
  | n + 1, i =>
    if i < nst.easyHandleCount then
      if !(nst.busyHandleFlagArray.getD i false) then i
      else findFreeHandleLoop nst n (wrap64 (i + 1))
    else 0

def findFreeHandle (nst : NetworkState) : Nat :=
  findFreeHandleLoop nst nst.easyHandleCount 1

def removeEasyHandleFromMulti (nst : NetworkState) (handleIndex : Nat) : NetworkState :=
  { nst with
    busyHandleFlagArray := nst.busyHandleFlagArray.set handleIndex false
    busyHandleCount := sub64 nst.busyHandleCount 1 }

def addRequest (nst : NetworkState) (jq : JobQueue) (job : Job) : NetworkState × JobQueue :=
  if job.uri.length = 0 then (nst, jq)
  else
    let handleIndex := findFreeHandle nst
    if handleIndex ≠ 0 then (configureEasyHandleAndAddToMulti nst handleIndex job, jq)
    else (nst, enqueueJob jq job)

/-- The check inside `areAllHandlesBusy`. -/
def areAllHandlesBusyCheck (nst : NetworkState) : Bool :=
  decide (wrap64 (nst.busyHandleCount + 1) ≤ nst.easyHandleCount)

def areAllHandlesBusy (nst : NetworkState) : Bool :=
  wrap64 (nst.busyHandleCount + 1) == nst.easyHandleCount

/-- Scheduler states reached from the initial one by `addRequest` calls and by
releases of busy slots through `removeEasyHandleFromMulti`. -/
inductive Reachable : NetworkState × JobQueue → Prop where
  | init (jq : JobQueue) : Reachable (initNetworkState NetworkState.zero, jq)
  | add {nst : NetworkState} {jq : JobQueue} (job : Job) :
      Reachable (nst, jq) → Reachable (addRequest nst jq job)
  | release {nst : NetworkState} {jq : JobQueue} (handleIndex : Nat) :
      Reachable (nst, jq) → nst.busyHandleFlagArray[handleIndex]? = some true →
      Reachable (removeEasyHandleFromMulti nst handleIndex, jq)

/-- The invariant of the slot table. -/
structure NetworkState.Inv (nst : NetworkState) : Prop where
  slots : nst.easyHandleCount = CONNECTION_COUNT + 1
  flags_len : nst.busyHandleFlagArray.length = nst.easyHandleCount
  jobs_len : nst.handleToJobMap.length = nst.easyHandleCount
  busy_eq : nst.busyHandleCount = nst.busyHandleFlagArray.count true
  slot0_free : nst.busyHandleFlagArray[0]? = some false
  slot0_job : nst.handleToJobMap[0]? = some Job.zero

/-- A slot table with four slots: slots 0 and 1 busy, slots 2 and 3 free. -/
def sampleSlots : NetworkState :=
  { easyHandleCount := 4
    handleToJobMap := [Job.zero, sampleJob 1, Job.zero, Job.zero]
    busyHandleFlagArray := [true, true, false, false]
    busyHandleCount := 1 }

/-! ## Arena allocator (`memory_arena.c`, `platform.c`) -/

def RESERVED_BYTE_COUNT : Nat := 2 ^ 36

def GUARD_SPACE_PAGE_COUNT : Nat := 2

/-- The zero byte. -/
def NUL : Char := Char.ofNat 0

/-- The struct `MemoryArena`: `data` is the base address and `mem` holds the
committed bytes, `mem[i]` being the byte at address `data + i`. -/
structure MemoryArena where
  data : Nat
  count : Nat
  maxCount : Nat
  mem : List Char
  deriving DecidableEq

/-- The platform primitives of `platform.c`, as they answer at the time of a
call: the page size, the address that `reserveVirtualMemory` returns, and the
error flag of `mapReservedMemory`. -/
structure Platform where
  getVirtualPageByteCount : Nat
  reserveVirtualMemory : Nat → Nat
  mapReservedMemory : Nat → Nat → Bool

/-- The function `allocateMemoryArena`; `none` stands for the end of the
process in `panic`.  Freshly committed pages read as zero. -/
def allocateMemoryArena (pf : Platform) (byteCount : Nat) : Option MemoryArena :=
  let pageByteCount := pf.getVirtualPageByteCount
  let guardSpaceByteCount := wrap64 (GUARD_SPACE_PAGE_COUNT * pageByteCount)
  let enoughSpace := sub64 RESERVED_BYTE_COUNT guardSpaceByteCount ≥ byteCount
  if enoughSpace then
    let begin_ := pf.reserveVirtualMemory RESERVED_BYTE_COUNT
    let guardPage := begin_
    let arenaData := guardPage + pageByteCount
    let error := pf.mapReservedMemory arenaData byteCount
    if !error then
      some { data := arenaData, count := 0, maxCount := byteCount,
             mem := List.replicate byteCount NUL }
    else none
  else none

/-- The function `growMemoryArena`; `none` stands for the end of the process in
`panic`, `some` for the return value 0.  The pages committed by the call read
as zero, the bytes committed before keep their value. -/
def growMemoryArena (pf : Platform) (arena : MemoryArena) (count : Nat) : Option MemoryArena :=
  let guardSpaceByteCount := wrap64 (GUARD_SPACE_PAGE_COUNT * pf.getVirtualPageByteCount)
  let enoughMemory := count < sub64 RESERVED_BYTE_COUNT guardSpaceByteCount
  if enoughMemory then
    let error := pf.mapReservedMemory arena.data count
    if error then none
    else
      some { arena with
        maxCount := if count > arena.maxCount then count else arena.maxCount
        mem := arena.mem ++ List.replicate (count - arena.maxCount) NUL }
  else none

/-- The function `pushToMemoryArena`: the address of the region handed out and
the arena after the call; `none` when `growMemoryArena` ends the process. -/
def pushToMemoryArena (pf : Platform) (arena : MemoryArena) (count : Nat) :
    Option (Nat × MemoryArena) :=
  let enoughMemory := sub64 arena.maxCount arena.count ≥ count
  let grown :=
    if !enoughMemory then
      let defaultCount := wrap64 (2 * arena.count)
      let requiredCount := wrap64 (arena.count + count)
      let newMax := if defaultCount > requiredCount then defaultCount else requiredCount
      growMemoryArena pf arena newMax
    else some arena
  match grown with
  | none => none
  | some arena =>
    let reservedData := arena.data + arena.count
    some (reservedData, { arena with count := wrap64 (arena.count + count) })

/-- The zeroing loop of `popFromMemoryArena`: `base[i] = 0` for the `n` offsets
from `i` on. -/
def popLoop (base : Nat) : Nat → Nat → List Char → List Char
  | 0, _, mem => mem
  | n + 1, i, mem => popLoop base n (wrap64 (i + 1)) (mem.set (base + i) NUL)

def popFromMemoryArena (arena : MemoryArena) (count : Nat) : MemoryArena :=
  let enoughMemory := arena.count ≥ count
  let count := if enoughMemory then count else arena.count
  let newCount := arena.count - count
  { arena with count := newCount, mem := popLoop newCount count 0 arena.mem }

def clearMemoryArena (arena : MemoryArena) : MemoryArena :=
  popFromMemoryArena arena arena.count

/-- A sequence of `pushToMemoryArena` calls, each with the platform's answers
at its time: the regions handed out (address, size) in call order and the
arena after the last call; `none` when one of the calls ends the process. -/
def pushAll : MemoryArena → List (Platform × Nat) → Option (List (Nat × Nat) × MemoryArena)
  | arena, [] => some ([], arena)
  | arena, (pf, n) :: calls =>
    match pushToMemoryArena pf arena n with
    | none => none
    | some (p, arena1) =>
      match pushAll arena1 calls with
      | none => none
      | some (regions, arena2) => some ((p, n) :: regions, arena2)

/-- The addresses at which consecutive regions of the given sizes start. -/
def regionsFrom : Nat → List Nat → List (Nat × Nat)
  | _, [] => []
  | start, n :: ns => (start, n) :: regionsFrom (start + n) ns

/-- A platform with pages of 4096 bytes whose commits succeed. -/
def samplePlatform : Platform :=
  { getVirtualPageByteCount := 4096
    reserveVirtualMemory := fun _ => 0
    mapReservedMemory := fun _ _ => false }

/-- An empty arena with four committed bytes. -/
def sampleArena : MemoryArena :=
  { data := 4096, count := 0, maxCount := 4, mem := [NUL, NUL, NUL, NUL] }

/-- Well-formed arenas: the used part lies inside the committed part, whose
bytes `mem` lists. -/
structure MemoryArena.WF (arena : MemoryArena) : Prop where
  count_le : arena.count ≤ arena.maxCount
  max_lt : arena.maxCount < 2 ^ 64
  len : arena.mem.length = arena.maxCount

/-- The ceiling of `allocateMemoryArena` and `growMemoryArena`:
`RESERVED_BYTE_COUNT - guardSpaceByteCount`. -/
def reservationCeiling (pf : Platform) : Nat :=
  sub64 RESERVED_BYTE_COUNT (wrap64 (GUARD_SPACE_PAGE_COUNT * pf.getVirtualPageByteCount))

/-- An arena with four committed bytes, the first of them in use. -/
def sampleUsedArena : MemoryArena :=
  { data := 4096, count := 1, maxCount := 4, mem := ['x', NUL, NUL, NUL] }

/-- The bytes of the region of `n` bytes at address `p`. -/
def regionBytes (arena : MemoryArena) (p n : Nat) : List Char :=
  (arena.mem.drop (p - arena.data)).take n

/-- Every committed byte outside the part in use is zero. -/
def MemoryArena.ZeroAbove (arena : MemoryArena) : Prop :=
  ∀ i, arena.count ≤ i → arena.mem.getD i NUL = NUL

/-- The arena states that a caller reaches from `allocateMemoryArena` through
allocations whose `count + n` stays below `2^64`, stores into the part in use
(the regions handed out and not popped since), pops and clears. -/
inductive ArenaReachable : MemoryArena → Prop where
  | allocate (pf : Platform) (byteCount : Nat) (arena : MemoryArena) :
      byteCount < 2 ^ 64 → allocateMemoryArena pf byteCount = some arena → ArenaReachable arena
  | push (pf : Platform) (arena arena1 : MemoryArena) (n p : Nat) :
      ArenaReachable arena → arena.count + n < 2 ^ 64 →
      pushToMemoryArena pf arena n = some (p, arena1) → ArenaReachable arena1
  | write (arena : MemoryArena) (offset : Nat) (byte : Char) :
      ArenaReachable arena → offset < arena.count →
      ArenaReachable { arena with mem := arena.mem.set offset byte }
  | pop (arena : MemoryArena) (n : Nat) :
      ArenaReachable arena → ArenaReachable (popFromMemoryArena arena n)
  | clear (arena : MemoryArena) :
      ArenaReachable arena → ArenaReachable (clearMemoryArena arena)

/-- The arena that `allocateMemoryArena(2^35)` returns after one
`pushToMemoryArena(2^35)`: every committed byte is in use. -/
def sampleHalfArena : Option MemoryArena :=
  (allocateMemoryArena samplePlatform (2 ^ 35)).bind fun a =>
    (pushToMemoryArena samplePlatform a (2 ^ 35)).map Prod.snd

/-! ## Buffer helpers (`buffer.c`) and JSON accessors (`json_parser.c`) -/

/-- The macro `CONSTANT_STRING`: the bytes of a string literal, without the
terminating zero. -/
def CS (str : String) : Buffer := str.toList

/-- The byte loop of `areEqual`, entered with buffers of equal count. -/
def areEqualLoop : Buffer → Buffer → Bool
  | x :: xs, y :: ys => if x ≠ y then false else areEqualLoop xs ys
  | _, _ => true

def areEqual (a b : Buffer) : Bool :=
  if a.length ≠ b.length then false else areEqualLoop a b

/-- The function `pushBuffer`: a copy of the bytes. -/
def pushBuffer (buf : Buffer) : Buffer := buf

/-- The bytes written by the copy loops of `bufferConcat` and `bufferConcat5`:
zero bytes are skipped. -/
def nonZeroBytes (buf : Buffer) : Buffer := buf.filter fun value => value ≠ NUL

/-- The function `bufferConcat`: `count` is the sum of the counts; the cells
that the copy loops do not reach keep the zero of the fresh arena memory. -/
def bufferConcat (b1 b2 : Buffer) : Buffer :=
  let written := nonZeroBytes b1 ++ nonZeroBytes b2
  written ++ List.replicate (wrap64 (b1.length + b2.length) - written.length) NUL

def bufferConcat5 (b1 b2 b3 b4 b5 : Buffer) : Buffer :=
  let written :=
    nonZeroBytes b1 ++ nonZeroBytes b2 ++ nonZeroBytes b3 ++ nonZeroBytes b4 ++ nonZeroBytes b5
  written ++
    List.replicate
      (wrap64 (b1.length + b2.length + b3.length + b4.length + b5.length) - written.length) NUL

/-- The first loop of `u64ToString`: `x` is divided by ten until it is zero;
a `u64` needs at most 19 rounds. -/
def digitCountLoop : Nat → Nat → Nat → Nat
  | 0, _, bufferCount => bufferCount
  | fuel + 1, x, bufferCount =>
    if x ≠ 0 then digitCountLoop fuel (x / 10) (wrap64 (bufferCount + 1)) else bufferCount

/-- The second loop of `u64ToString`: the digit of round `i` goes to the cell
`bufferCount - i - 1`. -/
def digitFillLoop (bufferCount : Nat) : Nat → Nat → Nat → Buffer → Buffer
  | 0, _, _, buf => buf
  | n + 1, i, y, buf =>
    digitFillLoop bufferCount n (i + 1) (y / 10)
      (buf.set (bufferCount - i - 1) (Char.ofNat (y % 10 + '0'.toNat)))

def u64ToString (number : Nat) : Buffer :=
  let bufferCount := digitCountLoop 20 (number / 10) 1
  digitFillLoop bufferCount bufferCount 0 number (List.replicate bufferCount NUL)

/-- The loop of `json_getElement` over the chain of children. -/
def json_getElementLoop (label : Buffer) : List json_Element → json_Element
  | [] => json_Element.zero
  | newElement :: rest =>
    if areEqual label newElement.label then newElement else json_getElementLoop label rest

/-- The function `json_getElement`; the label `none` is a buffer whose `data`
pointer is null. -/
def json_getElement (element : json_Element) (label : Option Buffer) : json_Element :=
  match label with
  | some label =>
    if element.type = .json_OBJECT then json_getElementLoop label element.children
    else json_Element.zero
  | none => json_Element.zero

/-- The counting loop of `json_getArrayCount`. -/
def json_getArrayCountLoop : List json_Element → Nat → Nat
  | [], count => count
  | _ :: rest, count => json_getArrayCountLoop rest (wrap64 (count + 1))

def json_getArrayCount (array : json_Element) : Nat :=
  if array.type = .json_ARRAY then json_getArrayCountLoop array.children 0 else 0

/-! ## Job processor (`main.c`) -/

def PLAYLIST_URI : String := "https://api.spotify.com/v1/playlists/"

def PLAYLIST_LIST_URI : String := "https://api.spotify.com/v1/me/playlists/"

structure Track where
  title : Buffer
  album : Buffer
  dateAdded : Buffer
  durationInMs : Nat
  artistArray : List Buffer
  artistCount : Nat
  deriving DecidableEq

/-- The value `(Track){0}`. -/
def Track.zero : Track :=
  { title := [], album := [], dateAdded := [], durationInMs := 0, artistArray := [],
    artistCount := 0 }

structure Playlist where
  name : Buffer
  trackArray : List Track
  trackCount : Nat
  filledTrackCount : Nat
  deriving DecidableEq

/-- The value `(Playlist){0}`. -/
def Playlist.zero : Playlist :=
  { name := [], trackArray := [], trackCount := 0, filledTrackCount := 0 }

structure PlaylistArray where
  data : List Playlist
  count : Nat
  deriving DecidableEq

/-- What `processJob` reads and writes: the queue, the playlist array, and the
two outputs, namely the playlists handed to `writePlaylistIntoFile` (in call
order) and the number of warnings printed.  The arenas of `AppMemory` are not
part of the model: their allocations are taken to succeed. -/
structure ProcState where
  jq : JobQueue
  playlistArray : PlaylistArray
  written : List Playlist
  warnings : Nat
  deriving DecidableEq

/-- The macro `printWarning`: a line on stderr, then `check(0)`, which ends the
process when the checks are compiled in (`none`). -/
def printWarning (useChecks : Bool) (st : ProcState) : Option ProcState :=
  if useChecks then none else some { st with warnings := st.warnings + 1 }

/-- The condition of the `check` at the head of `copyString` and of
`copyStringAndEscapeCommas`: the field is a string, or it is absent. -/
def isStringOrInvalid (strElement : json_Element) : Bool :=
  decide (strElement.type = .json_STRING) || decide (strElement.type = .json_INVALID_ELEMENT)

/-- The function `copyString`; `none` when the `check` on the type of the
field fails in a build with the checks compiled in. -/
def copyString (useChecks : Bool) (element : json_Element) (fieldName : Buffer) :
    Option Buffer :=
  let strElement := json_getElement element (some fieldName)
  if useChecks && !isStringOrInvalid strElement then none
  else some (if strElement.type ≠ .json_INVALID_ELEMENT then pushBuffer strElement.value else [])

/-- The copy loop of `copyStringAndEscapeCommas`: every double quote is
written twice. -/
def escapeLoop : Buffer → Buffer
  | [] => []
  | ch :: rest => if ch = '"' then ch :: '"' :: escapeLoop rest else ch :: escapeLoop rest

/-- The function `copyStringAndEscapeCommas`; `none` when the `check` on the
type of the field fails in a build with the checks compiled in.  The two
checks on `newIndex` hold whenever the buffer is allocated and its count does
not wrap: the count allocated is the number of bytes that the loop writes
(`escapeLoop_length`). -/
def copyStringAndEscapeCommas (useChecks : Bool) (element : json_Element) (fieldName : Buffer) :
    Option Buffer :=
  let strElement := json_getElement element (some fieldName)
  if useChecks && !isStringOrInvalid strElement then none
  else some (if strElement.type = .json_STRING then escapeLoop strElement.value else [])

/-- The function `writePlaylistIntoFile`, as far as the model goes: the call
is recorded with the playlist it received. -/
def writePlaylistIntoFile (st : ProcState) (playlist : Playlist) : ProcState :=
  { st with written := st.written ++ [playlist] }

/-- The loop over the artists of a track in `readTracksAndCopyToFileIfDone`:
the names copied, in the order of the chain; `none` when a `check` fails in a
build with the checks compiled in. -/
def readArtistsLoop (useChecks : Bool) (artistCount : Nat) :
    List json_Element → Nat → Option (List Buffer)
  | [], _ => some []
  | artist :: rest, artistIndex =>
    if useChecks && !decide (artistIndex < artistCount) then none
    else
      match copyStringAndEscapeCommas useChecks artist (CS "name") with
      | none => none
      | some artistName =>
        match readArtistsLoop useChecks artistCount rest (wrap64 (artistIndex + 1)) with
        | none => none
        | some names => some (artistName :: names)

/-- The body of the loop of `readTracksAndCopyToFileIfDone` for an item that
has a `track` object: the track built from the item, `none` when a `check`
fails in a build with the checks compiled in.  `numberToU64` is the
conversion `(u64)json_getNumber(element)`, whose floating-point evaluation is
not part of the model. -/
def readTrack (useChecks : Bool) (numberToU64 : json_Element → Nat)
    (item trackJson : json_Element) : Option Track :=
  match copyStringAndEscapeCommas useChecks trackJson (CS "name") with
  | none => none
  | some title =>
    let album := json_getElement trackJson (some (CS "album"))
    match copyStringAndEscapeCommas useChecks album (CS "name") with
    | none => none
    | some albumName =>
      let artistsArray := json_getElement trackJson (some (CS "artists"))
      let artists : Option (List Buffer × Nat) :=
        if artistsArray.type = .json_ARRAY then
          let artistCount := json_getArrayCount artistsArray
          match readArtistsLoop useChecks artistCount artistsArray.children 0 with
          | none => none
          | some names => some (names, artistCount)
        else some ([], 0)
      match artists with
      | none => none
      | some artists =>
        match copyStringAndEscapeCommas useChecks item (CS "added_at") with
        | none => none
        | some dateAdded =>
          let durationElement := json_getElement trackJson (some (CS "duration_ms"))
          some
            { title := title, album := albumName, dateAdded := dateAdded,
              durationInMs := numberToU64 durationElement,
              artistArray := artists.1, artistCount := artists.2 }

/-- The loop of `readTracksAndCopyToFileIfDone` over the items of a page. -/
def readTracksLoop (useChecks : Bool) (numberToU64 : json_Element → Nat) :
    List json_Element → Nat → Playlist → Nat → Option (Playlist × Nat)
  | [], _, playlist, warnings => some (playlist, warnings)
  | item :: rest, trackIndex, playlist, warnings =>
    let trackJson := json_getElement item (some (CS "track"))
    if trackJson.type ≠ .json_OBJECT then
      if useChecks then none
      else readTracksLoop useChecks numberToU64 rest trackIndex playlist (warnings + 1)
    else
      match readTrack useChecks numberToU64 item trackJson with
      | none => none
      | some track =>
        readTracksLoop useChecks numberToU64 rest (wrap64 (trackIndex + 1))
          { playlist with
            trackArray := playlist.trackArray.set trackIndex track
            filledTrackCount := wrap64 (playlist.filledTrackCount + 1) }
          warnings

def readTracksAndCopyToFileIfDone (useChecks : Bool) (numberToU64 : json_Element → Nat)
    (st : ProcState) (playlistIndex : Nat) (tracksJson : json_Element) (trackOffset : Nat) :
    Option ProcState :=
  let playlist := st.playlistArray.data.getD playlistIndex Playlist.zero
  let tracksArrayJson := json_getElement tracksJson (some (CS "items"))
  if useChecks && tracksArrayJson.type ≠ .json_ARRAY then none
  else
    match readTracksLoop useChecks numberToU64 tracksArrayJson.children trackOffset playlist
        st.warnings with
    | none => none
    | some (playlist, warnings) =>
      let st := { st with
        playlistArray :=
          { st.playlistArray with data := st.playlistArray.data.set playlistIndex playlist }
        warnings := warnings }
      if playlist.filledTrackCount ≥ playlist.trackCount then
        if useChecks && playlist.filledTrackCount ≠ playlist.trackCount then none
        else some (writePlaylistIntoFile st playlist)
      else some st

/-- The loop of `readPlaylistIdsAndQueueJobs` over the items of a page. -/
def readPlaylistIdsLoop (useChecks : Bool) (playlistArray : PlaylistArray) :
    List json_Element → Nat → JobQueue → Option JobQueue
  | [], _, jq => some jq
  | item :: rest, playlistIndex, jq =>
    match copyString useChecks item (CS "id") with
    | none => none
    | some playlistId =>
      let playlistJob : Job :=
        { type := .Job_playlistHeader
          uri := bufferConcat (CS PLAYLIST_URI) playlistId
          json := json_Element.zero
          playlistIndex := playlistIndex
          offset := 0 }
      let jq := enqueueJob jq playlistJob
      let playlistIndex := wrap64 (playlistIndex + 1)
      if useChecks && !(decide (playlistIndex ≤ playlistArray.count)) then none
      else readPlaylistIdsLoop useChecks playlistArray rest playlistIndex jq

def readPlaylistIdsAndQueueJobs (useChecks : Bool) (st : ProcState) (playlistOffset : Nat)
    (playlistArrayJson : json_Element) : Option ProcState :=
  match readPlaylistIdsLoop useChecks st.playlistArray playlistArrayJson.children
      playlistOffset st.jq with
  | none => none
  | some jq => some { st with jq := jq }

/-- The page count that both header cases of `processJob` compute from
`total` and `limit`. -/
def pageCount (total perPage : Nat) : Nat :=
  if perPage ≠ 0 then wrap64 (total + perPage - 1) / perPage else 0

/-- The follow-up job that the `Job_playlistListHeader` case builds for a
page. -/
def playlistListPageJob (job : Job) (jsonLimit : json_Element) (playlistsPerPage pageIndex : Nat) :
    Job :=
  let offset := wrap64 (playlistsPerPage * pageIndex)
  let offsetString := u64ToString offset
  let pageUri :=
    bufferConcat5 job.uri (CS "/shows?offset=") offsetString (CS "&limit=") jsonLimit.value
  { type := .Job_playlistList, uri := pageUri, json := json_Element.zero, playlistIndex := 0,
    offset := offset }

/-- The follow-up job that the `Job_playlistHeader` case builds for a page. -/
def trackListPageJob (job : Job) (jsonLimit : json_Element) (tracksPerPage pageIndex : Nat) :
    Job :=
  let offset := wrap64 (tracksPerPage * pageIndex)
  let offsetString := u64ToString offset
  let pageUri :=
    bufferConcat5 job.uri (CS "/tracks?offset=") offsetString (CS "&limit=") jsonLimit.value
  { type := .Job_trackList, uri := pageUri, json := json_Element.zero,
    playlistIndex := job.playlistIndex, offset := offset }

/-- The loop `for(pageIndex = 1; pageIndex < pageCount; ++pageIndex)` of the
header cases: each round enqueues the job of its page; `n` bounds the number
of rounds. -/
def enqueuePagesLoop (newJob : Nat → Job) (pageCount : Nat) : Nat → Nat → JobQueue → JobQueue
  | 0, _, jq => jq
  | n + 1, pageIndex, jq =>
    if pageIndex < pageCount then
      enqueuePagesLoop newJob pageCount n (wrap64 (pageIndex + 1))
        (enqueueJob jq (newJob pageIndex))
    else jq

/-- The function `processJob`; `none` stands for the end of the process
(`errorAndTerminate`, or a failed `check` when the checks are compiled in). -/
def processJob (useChecks : Bool) (numberToU64 : json_Element → Nat) (st : ProcState)
    (job : Job) : Option ProcState :=
  match job.type with
  | .Job_zero => some st
  | .Job_playlistListHeader =>
    let playlistListJson := job.json
    if playlistListJson.type = .json_INVALID_ELEMENT then none
    else
      let jsonTotal := json_getElement playlistListJson (some (CS "total"))
      let jsonLimit := json_getElement playlistListJson (some (CS "limit"))
      let totalPlaylistCount := numberToU64 jsonTotal
      let playlistsPerPage := numberToU64 jsonLimit
      let pageCount := pageCount totalPlaylistCount playlistsPerPage
      let jq := enqueuePagesLoop (playlistListPageJob job jsonLimit playlistsPerPage) pageCount
        pageCount 1 st.jq
      let st := { st with
        jq := jq
        playlistArray :=
          { data := List.replicate totalPlaylistCount Playlist.zero
            count := totalPlaylistCount } }
      if useChecks && job.offset ≠ 0 then none
      else
        let playlistArrayJson := json_getElement playlistListJson (some (CS "items"))
        if playlistArrayJson.type ≠ .json_ARRAY then none
        else readPlaylistIdsAndQueueJobs useChecks st job.offset playlistArrayJson
  | .Job_playlistList =>
    let playlistListJson := job.json
    if playlistListJson.type = .json_INVALID_ELEMENT then none
    else
      let playlistArrayJson := json_getElement playlistListJson (some (CS "items"))
      if playlistArrayJson.type ≠ .json_ARRAY then none
      else readPlaylistIdsAndQueueJobs useChecks st job.offset playlistArrayJson
  | .Job_playlistHeader =>
    let playlistJson := job.json
    if playlistJson.type = .json_INVALID_ELEMENT then printWarning useChecks st
    else
      match copyString useChecks playlistJson (CS "name") with
      | none => none
      | some playlistName =>
        let tracksJson := json_getElement playlistJson (some (CS "tracks"))
        match (if tracksJson.type = .json_INVALID_ELEMENT then printWarning useChecks st
            else some st) with
        | none => none
        | some st =>
          let jsonTotal := json_getElement tracksJson (some (CS "total"))
          let jsonLimit := json_getElement tracksJson (some (CS "limit"))
          let totalTracksCount := numberToU64 jsonTotal
          let tracksPerPage := numberToU64 jsonLimit
          let pageCount := pageCount totalTracksCount tracksPerPage
          let jq := enqueuePagesLoop (trackListPageJob job jsonLimit tracksPerPage) pageCount
            pageCount 1 st.jq
          let trackArray := List.replicate totalTracksCount Track.zero
          let st := { st with
            jq := jq
            playlistArray :=
              { st.playlistArray with
                data := st.playlistArray.data.set job.playlistIndex
                  { name := playlistName, trackArray := trackArray,
                    trackCount := totalTracksCount, filledTrackCount := 0 } } }
          if useChecks && job.offset ≠ 0 then none
          else readTracksAndCopyToFileIfDone useChecks numberToU64 st job.playlistIndex
            tracksJson job.offset
  | .Job_trackList =>
    let tracksJson := job.json
    match (if tracksJson.type = .json_INVALID_ELEMENT then printWarning useChecks st
        else some st) with
    | none => none
    | some st =>
      readTracksAndCopyToFileIfDone useChecks numberToU64 st job.playlistIndex tracksJson
        job.offset

/-- The function `processJob` applied to a sequence of completed jobs, in
completion order. -/
def processJobs (useChecks : Bool) (numberToU64 : json_Element → Nat) :
    ProcState → List Job → Option ProcState
  | st, [] => some st
  | st, job :: jobs =>
    match processJob useChecks numberToU64 st job with
    | none => none
    | some st => processJobs useChecks numberToU64 st jobs

/-! ### Pages of a playlist -/

/-- The items of a page: the children of its `items` member. -/
def pageItems (page : json_Element) : List json_Element :=
  (json_getElement page (some (CS "items"))).children

/-- The text of a field as a record holds it: the value of the member of
that name when it is a string, with every double quote written twice, and
nothing otherwise. -/
def escapedField (element : json_Element) (fieldName : Buffer) : Buffer :=
  let field := json_getElement element (some fieldName)
  if field.type = .json_STRING then
    field.value.flatMap fun ch => if ch = '"' then ['"', '"'] else [ch]
  else []

/-- The record of an item, as the output receives it: the title is the name
of the track, the album is the name of the album of the track, the artists
are the names in the array `artists` of the track, in order, the date is the
field `added_at` of the item, and the duration is the number `duration_ms` of
the track. -/
def trackOfItem (numberToU64 : json_Element → Nat) (item : json_Element) : Track :=
  let track := json_getElement item (some (CS "track"))
  let artists := json_getElement track (some (CS "artists"))
  { title := escapedField track (CS "name")
    album := escapedField (json_getElement track (some (CS "album"))) (CS "name")
    dateAdded := escapedField item (CS "added_at")
    durationInMs := numberToU64 (json_getElement track (some (CS "duration_ms")))
    artistArray :=
      if artists.type = .json_ARRAY then
        artists.children.map fun artist => escapedField artist (CS "name")
      else []
    artistCount := if artists.type = .json_ARRAY then artists.children.length % 2 ^ 64 else 0 }

/-- The name of a playlist as its record holds it: the value of the member
`name`, nothing when there is none. -/
def playlistNameOf (playlistJson : json_Element) : Buffer :=
  let field := json_getElement playlistJson (some (CS "name"))
  if field.type = .json_INVALID_ELEMENT then [] else field.value

/-- The member of that name is a string or absent: the condition under which
a build with the checks compiled in copies it. -/
def stringOrAbsent (element : json_Element) (fieldName : Buffer) : Bool :=
  let field := json_getElement element (some fieldName)
  decide (field.type = .json_STRING) || decide (field.type = .json_INVALID_ELEMENT)

/-- The fields of an item that are copied as text are strings or absent, and
the array of artists has fewer than `2^64` elements. -/
def itemChecked (item : json_Element) : Bool :=
  let track := json_getElement item (some (CS "track"))
  let artists := json_getElement track (some (CS "artists"))
  stringOrAbsent track (CS "name") &&
  stringOrAbsent (json_getElement track (some (CS "album"))) (CS "name") &&
  stringOrAbsent item (CS "added_at") &&
  (decide (artists.type ≠ .json_ARRAY) ||
    (decide (artists.children.length < 2 ^ 64) &&
      artists.children.all fun artist => stringOrAbsent artist (CS "name")))

/-- Every item of the page passes the checks on its fields. -/
def pageChecked (page : json_Element) : Bool :=
  (pageItems page).all itemChecked

/-- A page that carries exactly `n` items, each with a `track` object. -/
def PageCarries (page : json_Element) (n : Nat) : Prop :=
  (json_getElement page (some (CS "items"))).type = .json_ARRAY ∧
  (pageItems page).length = n ∧
  ∀ item ∈ pageItems page, (json_getElement item (some (CS "track"))).type = .json_OBJECT

/-- The completed `Job_trackList` job of the page at `offset`. -/
def trackListJob (uri : Buffer) (page : json_Element) (playlistIndex offset : Nat) : Job :=
  { type := .Job_trackList, uri := uri, json := page, playlistIndex := playlistIndex,
    offset := offset }

/-- The cells `trackArray[i]`, `trackArray[i + 1]`, ... after the loop of
`readTracksAndCopyToFileIfDone` has stored the given tracks. -/
def writeCells : List Track → Nat → List Track → List Track
  | trackArray, _, [] => trackArray
  | trackArray, i, track :: rest => writeCells (trackArray.set i track) (i + 1) rest

/-! ### Sample responses -/

/-- A decoder for the samples: the value of an unsigned decimal literal. -/
def decimalToU64 (element : json_Element) : Nat :=
  wrap64 (element.value.foldl (fun acc ch => 10 * acc + (ch.toNat - '0'.toNat)) 0)

def jsonNumber (label text : String) : json_Element :=
  .mk .json_NUMBER label.toList text.toList []

def jsonString (label text : String) : json_Element :=
  .mk .json_STRING label.toList text.toList []

def jsonObject (label : String) (members : List json_Element) : json_Element :=
  .mk .json_OBJECT label.toList [] members

def jsonArray (label : String) (elements : List json_Element) : json_Element :=
  .mk .json_ARRAY label.toList [] elements

/-- An item of a track page with a `track` object. -/
def sampleItem (title : String) : json_Element :=
  jsonObject "" [jsonString "added_at" "2023-06-09",
    jsonObject "track" [jsonString "name" title, jsonNumber "duration_ms" "1000"]]

/-- A playlist response with the given `total` and `limit` and the given items
on its first page. -/
def samplePlaylist (total limit : String) (items : List json_Element) : json_Element :=
  jsonObject "" [jsonString "name" "mix",
    jsonObject "tracks" [jsonNumber "total" total, jsonNumber "limit" limit,
      jsonArray "items" items]]

/-- A track page response with the given items. -/
def sampleTrackPage (items : List json_Element) : json_Element :=
  jsonObject "" [jsonArray "items" items]

/-- A playlist-list response with the given `total` and `limit` and the given
items on its first page. -/
def samplePlaylistList (total limit : String) (items : List json_Element) : json_Element :=
  jsonObject "" [jsonNumber "total" total, jsonNumber "limit" limit, jsonArray "items" items]

/-- A completed header job for playlist 0. -/
def sampleHeaderJob (json : json_Element) : Job :=
  { type := .Job_playlistHeader, uri := CS "u", json := json, playlistIndex := 0, offset := 0 }

/-- A completed header job for the list of playlists. -/
def sampleListHeaderJob (json : json_Element) : Job :=
  { type := .Job_playlistListHeader, uri := CS "u", json := json, playlistIndex := 0,
    offset := 0 }

/-- A processor state with one playlist slot and an empty queue of capacity 4. -/
def sampleProcState : ProcState :=
  { jq := initJobQueue JobQueue.zero 4
    playlistArray := { data := [Playlist.zero], count := 1 }
    written := []
    warnings := 0 }

/-- The items of page `i` of a playlist, as tracks. -/
def pageTracks (numberToU64 : json_Element → Nat) (pages : Nat → json_Element) (i : Nat) :
    List Track :=
  (pageItems (pages i)).map (trackOfItem numberToU64)

/-- The completed job of page `i` of playlist `playlistIndex`, pages holding
`L` items. -/
def pageJob (uris : Nat → Buffer) (pages : Nat → json_Element) (playlistIndex L i : Nat) : Job :=
  trackListJob (uris i) (pages i) playlistIndex (L * i)

/-- The playlist at an index of the playlist array. -/
def ProcState.playlist (st : ProcState) (playlistIndex : Nat) : Playlist :=
  st.playlistArray.data.getD playlistIndex Playlist.zero

/-- The header job of a playlist of three tracks, two per page, with its first
page. -/
def sampleHeader3 : Job :=
  sampleHeaderJob (samplePlaylist "3" "2" [sampleItem "a", sampleItem "b"])

/-- The pages after the first one of that playlist: one track each. -/
def samplePages3 (_i : Nat) : json_Element :=
  sampleTrackPage [sampleItem "c"]

/-- An item with a `track` object whose member `added_at` is `null`. -/
def sampleNullDateItem : json_Element :=
  jsonObject "" [.mk .json_NULL (CS "added_at") [] [],
    jsonObject "track" [jsonString "name" "a", jsonNumber "duration_ms" "1000"]]

/-- The header job of a playlist of one track, one per page, whose item has
the date `null`. -/
def sampleHeaderNullDate : Job :=
  sampleHeaderJob (samplePlaylist "1" "1" [sampleNullDateItem])

/-- An item with all the members that a record is built from; `title` is the
name of the track. -/
def sampleFullItem (title : Buffer) : json_Element :=
  jsonObject "" [jsonString "added_at" "2023-06-09",
    jsonObject "track" [.mk .json_STRING (CS "name") title [],
      jsonObject "album" [jsonString "name" "lp"],
      jsonArray "artists" [jsonObject "" [jsonString "name" "x"],
        jsonObject "" [jsonString "name" "y"]],
      jsonNumber "duration_ms" "1000"]]

/-- The header job of a playlist of three tracks, two per page, with its first
page; the items have all their members. -/
def sampleHeaderFull : Job :=
  sampleHeaderJob (samplePlaylist "3" "2" [sampleFullItem ['a'], sampleFullItem ['b']])

/-- The pages after the first one of that playlist: one track each, with a
double quote in its name. -/
def samplePagesFull (_i : Nat) : json_Element :=
  sampleTrackPage [sampleFullItem ['c', '"', 'd']]

/-! ## JSON tokenizer and parser (`json_parser.c`)

The cursor keeps the input buffer and an offset.  A byte read at an offset
outside the buffer yields zero: the buffer is a view into an arena, whose
bytes past the used part are zero.  Offsets never come near `2^64` (they stay
within two bytes of the end of the buffer), so they are not reduced.  The
arena of the parser is not part of the model: `pushStruct` and `pushBuffer`
are taken to succeed, and a copy is the list of the bytes copied. -/

structure Cursor where
  buf : Buffer
  offset : Nat
  errorOccurred : Bool
  deriving DecidableEq

inductive TokenType where
  | TK_INVALID
  | TK_END
  | TK_OPEN_BRACE
  | TK_CLOSE_BRACE
  | TK_OPEN_BRACKET
  | TK_CLOSE_BRACKET
  | TK_STRING
  | TK_COLON
  | TK_COMMA
  | TK_TRUE
  | TK_FALSE
  | TK_NULL
  | TK_KEYWORD
  | TK_NUMBER
  deriving DecidableEq, Repr

/-- A `Buffer` that points into the input: `data` is the offset of its first
byte from the start of the input buffer. -/
structure BufferView where
  data : Nat
  count : Nat
  deriving DecidableEq, Repr

structure Token where
  type : TokenType
  content : BufferView
  deriving DecidableEq, Repr

/-- The value `(Token){0}`. -/
def Token.zero : Token := { type := .TK_INVALID, content := { data := 0, count := 0 } }

/-- The bytes of a view into `buf`. -/
def viewBytes (buf : Buffer) (view : BufferView) : Buffer :=
  (List.range view.count).map fun k => buf.getD (view.data + k) NUL

/-- The function `parsingError`: the message is printed when the flag is not
yet set; the flag is what the model keeps. -/
def parsingError (cur : Cursor) : Cursor := { cur with errorOccurred := true }

def peek (cur : Cursor) : Char := cur.buf.getD cur.offset NUL

def isInBounds (buf : Buffer) (offset : Nat) : Bool := decide (offset < buf.length)

def isCursorEnd (cur : Cursor) : Bool := !isInBounds cur.buf cur.offset || peek cur == NUL

def isSpace (ch : Char) : Bool :=
  ch == ' ' || ch == '\t' || ch == '\n' || ch == '\r' || ch == Char.ofNat 11

def isSeparator (ch : Char) : Bool :=
  isSpace ch || ch == ',' || ch == '[' || ch == ']' || ch == '{' || ch == '}' || ch == ':'

def isNumeric (ch : Char) : Bool := decide ('0' ≤ ch) && decide (ch ≤ '9')

/-- The loop of `skipSpaces`; `fuel` bounds the number of rounds, each of
which moves the offset inside the buffer. -/
def skipSpacesLoop : Nat → Cursor → Char → Cursor
  | 0, cur, _ => cur
  | fuel + 1, cur, ch =>
    if (isSpace ch || ch == NUL) && !isCursorEnd cur then
      let cur := { cur with offset := cur.offset + 1 }
      skipSpacesLoop fuel cur (peek cur)
    else cur

def skipSpaces (cur : Cursor) : Cursor :=
  if isCursorEnd cur then cur else skipSpacesLoop cur.buf.length cur (peek cur)

/-- The loop of `parseString`. -/
def parseStringLoop : Nat → Cursor → Char → Cursor × Char
  | 0, cur, ch => (cur, ch)
  | fuel + 1, cur, ch =>
    if ch ≠ '"' && !isCursorEnd cur then
      let cur :=
        if ch = '\\' then { cur with offset := cur.offset + 2 }
        else { cur with offset := cur.offset + 1 }
      parseStringLoop fuel cur (peek cur)
    else (cur, ch)

def parseString (cur : Cursor) : TokenType × Cursor :=
  let cur := { cur with offset := cur.offset + 1 }
  let r := parseStringLoop cur.buf.length cur (peek cur)
  if r.2 = '"' then (.TK_STRING, { r.1 with offset := r.1.offset + 1 })
  else (.TK_INVALID, r.1)

/-- The loop of `parseKeyword`: the cursor and the count of `buf2`. -/
def parseKeywordLoop : Nat → Cursor → Char → Nat → Cursor × Nat
  | 0, cur, _, count => (cur, count)
  | fuel + 1, cur, ch, count =>
    if !isSeparator ch && !isCursorEnd cur then
      let cur := { cur with offset := cur.offset + 1 }
      parseKeywordLoop fuel cur (peek cur) (count + 1)
    else (cur, count)

def parseKeyword (cur : Cursor) (buf : Buffer) : TokenType × Cursor :=
  let r := parseKeywordLoop cur.buf.length cur (peek cur) 0
  let buf2 := viewBytes cur.buf { data := cur.offset, count := r.2 }
  if areEqual buf buf2 then (.TK_KEYWORD, r.1) else (.TK_INVALID, r.1)

/-- The loop `while(isNumeric(ch) && !isCursorEnd(cur))` of `parseNumber`. -/
def digitsLoop : Nat → Cursor → Char → Cursor × Char
  | 0, cur, ch => (cur, ch)
  | fuel + 1, cur, ch =>
    if isNumeric ch && !isCursorEnd cur then
      let cur := { cur with offset := cur.offset + 1 }
      digitsLoop fuel cur (peek cur)
    else (cur, ch)

/-- The exponent part of `parseNumber`, entered with `ch` the byte at the
cursor. -/
def parseNumberExponent (cur : Cursor) (ch : Char) : TokenType × Cursor :=
  if ch = 'e' ∨ ch = 'E' then
    let cur := { cur with offset := cur.offset + 1 }
    let ch := peek cur
    let r : Cursor × Char :=
      if ch = '+' ∨ ch = '-' then
        let cur := { cur with offset := cur.offset + 1 }
        (cur, peek cur)
      else (cur, ch)
    if !isNumeric r.2 then (.TK_INVALID, r.1)
    else
      let r := digitsLoop r.1.buf.length r.1 r.2
      if !isSeparator r.2 && !isCursorEnd r.1 then (.TK_INVALID, r.1) else (.TK_NUMBER, r.1)
  else
    if !isSeparator ch && !isCursorEnd cur then (.TK_INVALID, cur) else (.TK_NUMBER, cur)

/-- The part of `parseNumber` after the integer digits, entered with `ch` the
byte at the cursor. -/
def parseNumberFraction (cur : Cursor) (ch : Char) : TokenType × Cursor :=
  if ch ≠ '.' ∧ ch ≠ 'e' ∧ ch ≠ 'E' then (.TK_NUMBER, cur)
  else if ch = '.' then
    let cur := { cur with offset := cur.offset + 1 }
    let ch := peek cur
    if !isNumeric ch then (.TK_INVALID, cur)
    else
      let r := digitsLoop cur.buf.length cur ch
      parseNumberExponent r.1 r.2
  else parseNumberExponent cur ch

def parseNumber (cur : Cursor) : TokenType × Cursor :=
  let ch := peek cur
  let r : Cursor × Char :=
    if ch = '-' then
      let cur := { cur with offset := cur.offset + 1 }
      (cur, peek cur)
    else (cur, ch)
  if !isNumeric r.2 then (.TK_INVALID, r.1)
  else
    let r := digitsLoop r.1.buf.length r.1 r.2
    parseNumberFraction r.1 r.2

/-- The `switch` of `parseNextToken`: the token type and the cursor after the
case of the byte `ch`. -/
def parseNextTokenSwitch (cur : Cursor) (ch : Char) : TokenType × Cursor :=
  if ch = '{' then (.TK_OPEN_BRACE, { cur with offset := cur.offset + 1 })
  else if ch = '}' then (.TK_CLOSE_BRACE, { cur with offset := cur.offset + 1 })
  else if ch = '[' then (.TK_OPEN_BRACKET, { cur with offset := cur.offset + 1 })
  else if ch = ']' then (.TK_CLOSE_BRACKET, { cur with offset := cur.offset + 1 })
  else if ch = ':' then (.TK_COLON, { cur with offset := cur.offset + 1 })
  else if ch = ',' then (.TK_COMMA, { cur with offset := cur.offset + 1 })
  else if ch = '"' then parseString cur
  else if ch = 't' then
    let r := parseKeyword cur (CS "true")
    (if r.1 = .TK_KEYWORD then .TK_TRUE else r.1, r.2)
  else if ch = 'f' then
    let r := parseKeyword cur (CS "false")
    (if r.1 = .TK_KEYWORD then .TK_FALSE else r.1, r.2)
  else if ch = 'n' then
    let r := parseKeyword cur (CS "null")
    (if r.1 = .TK_KEYWORD then .TK_NULL else r.1, r.2)
  else if ch = '-' ∨ isNumeric ch then (.TK_NUMBER, (parseNumber cur).2)
  else (.TK_INVALID, cur)

def parseNextToken (cur : Cursor) : Token × Cursor :=
  let cur := skipSpaces cur
  if isCursorEnd cur then ({ Token.zero with type := .TK_END }, cur)
  else
    let initialOffset := cur.offset
    let ch := peek cur
    let r := parseNextTokenSwitch cur ch
    let didntMatch := r.2.offset = initialOffset
    let r : TokenType × Cursor :=
      if didntMatch then (.TK_INVALID, { r.2 with offset := r.2.offset + 1 }) else r
    ({ type := r.1, content := { data := initialOffset, count := r.2.offset - initialOffset } },
      r.2)

def takeOffQuotes (buf : BufferView) : BufferView :=
  { data := buf.data + 1, count := sub64 buf.count 2 }

/-- The element with its `label` field replaced. -/
def json_Element.withLabel (element : json_Element) (label : Buffer) : json_Element :=
  .mk element.type label element.value element.children

mutual
/-- The function `parseElementValue`; `fuel` bounds the depth of the calls. -/
def parseElementValue : Nat → Cursor → Token → json_Element × Cursor
  | 0, cur, _ => (json_Element.zero, parsingError cur)
  | fuel + 1, cur, elementValueTk =>
    match elementValueTk.type with
    | .TK_NUMBER => (.mk .json_NUMBER [] (viewBytes cur.buf elementValueTk.content) [], cur)
    | .TK_STRING =>
      (.mk .json_STRING [] (viewBytes cur.buf (takeOffQuotes elementValueTk.content)) [], cur)
    | .TK_FALSE => (.mk .json_FALSE [] [] [], cur)
    | .TK_TRUE => (.mk .json_TRUE [] [] [], cur)
    | .TK_NULL => (.mk .json_NULL [] [] [], cur)
    | .TK_OPEN_BRACE => parseList fuel cur .json_OBJECT
    | .TK_OPEN_BRACKET => parseList fuel cur .json_ARRAY
    | _ => (json_Element.zero, parsingError cur)
/-- The function `parseList`. -/
def parseList : Nat → Cursor → json_ElementType → json_Element × Cursor
  | 0, cur, _ => (json_Element.zero, parsingError cur)
  | fuel + 1, cur, listType =>
    let closingTkType : TokenType :=
      if listType = .json_OBJECT then .TK_CLOSE_BRACE else .TK_CLOSE_BRACKET
    let r := parseNextToken cur
    if r.1.type = closingTkType then (.mk listType [] [] [], r.2)
    else
      let l := parseListLoop fuel r.2 listType closingTkType r.1 Token.zero []
      let cur := if l.2.1.type ≠ closingTkType then parsingError l.2.2 else l.2.2
      (.mk listType [] [] l.1, cur)
/-- The loop of `parseList`: `tk` is the token read last, `separatorTk` the
separator read last, `children` the chain built so far.  The result is the
chain, the last separator and the cursor. -/
def parseListLoop : Nat → Cursor → json_ElementType → TokenType → Token → Token →
    List json_Element → List json_Element × Token × Cursor
  | 0, cur, _, _, _, separatorTk, children => (children, separatorTk, parsingError cur)
  | fuel + 1, cur, listType, closingTkType, tk, separatorTk, children =>
    if isCursorEnd cur then (children, separatorTk, cur)
    else
      let labelled : BufferView × Token × Cursor :=
        if listType = .json_OBJECT then
          let labelTk := tk
          let colon := parseNextToken cur
          let cur :=
            if labelTk.type ≠ .TK_STRING then parsingError colon.2
            else if colon.1.type ≠ .TK_COLON then parsingError colon.2
            else colon.2
          let label := takeOffQuotes labelTk.content
          let value := parseNextToken cur
          (label, value.1, value.2)
        else ({ data := 0, count := 0 }, tk, cur)
      let label := labelled.1
      let elementValueTk := labelled.2.1
      let sub := parseElementValue fuel labelled.2.2 elementValueTk
      let subElement := sub.1.withLabel (viewBytes sub.2.buf label)
      let children := children ++ [subElement]
      let separator := parseNextToken sub.2
      let cur :=
        if separator.1.type ≠ .TK_COMMA ∧ separator.1.type ≠ closingTkType then
          parsingError separator.2
        else separator.2
      if separator.1.type = closingTkType then (children, separator.1, cur)
      else
        let next := parseNextToken cur
        parseListLoop fuel next.2 listType closingTkType next.1 separator.1 children
end

/-- The function `json_parseJson`: the node returned (`none` for the null
pointer) and the cursor at the end, whose flag tells whether a parse error was
reported.  The calls nest at most as deep as there are tokens and a list has
at most as many elements, so three rounds per byte are enough fuel. -/
def json_parseJson (jsonString : Buffer) : Option json_Element × Cursor :=
  let cur : Cursor := { buf := jsonString, offset := 0, errorOccurred := false }
  let r := parseNextToken cur
  if r.1.type ≠ .TK_OPEN_BRACE ∧ r.1.type ≠ .TK_OPEN_BRACKET then (none, parsingError r.2)
  else
    let head := parseElementValue (3 * jsonString.length + 3) r.2 r.1
    (some head.1, head.2)

/-! ### Well-formed documents

The source text of a well-formed document, with the whitespace between its
tokens, as a tree; `render` gives the bytes of the document and `mirror` the
tree that the parser is expected to build. -/

/-- A piece of a string literal: a plain byte, or a backslash with the byte
it escapes. -/
inductive StringItem where
  | plain (ch : Char)
  | escaped (ch : Char)
  deriving DecidableEq

/-- The source text of a number: `-?digits(.digits)?([eE][+-]?digits)?`. -/
structure NumberText where
  negative : Bool
  integerDigits : List Char
  fractionDigits : Option (List Char)
  exponent : Option (Char × Option Char × List Char)
  deriving DecidableEq

mutual
inductive JValue where
  | number (text : NumberText)
  | string (items : List StringItem)
  | true
  | false
  | null
  | array (elements : JElements) (beforeClose : Buffer)
  | object (members : JMembers) (beforeClose : Buffer)
inductive JElements where
  | nil
  | cons (before : Buffer) (value : JValue) (after : Buffer) (rest : JElements)
inductive JMembers where
  | nil
  | cons (before : Buffer) (key : List StringItem) (beforeColon : Buffer) (beforeValue : Buffer)
      (value : JValue) (after : Buffer) (rest : JMembers)
end

def StringItem.render : StringItem → Buffer
  | .plain ch => [ch]
  | .escaped ch => ['\\', ch]

/-- The bytes between the quotes of a string literal. -/
def renderItems : List StringItem → Buffer
  | [] => []
  | item :: rest => item.render ++ renderItems rest

/-- The bytes of the fraction part of a number. -/
def renderFraction : Option (List Char) → Buffer
  | some digits => '.' :: digits
  | none => []

/-- The bytes of the exponent part of a number. -/
def renderExponent : Option (Char × Option Char × List Char) → Buffer
  | some (e, some sign, digits) => e :: sign :: digits
  | some (e, none, digits) => e :: digits
  | none => []

def NumberText.render (text : NumberText) : Buffer :=
  (if text.negative then ['-'] else []) ++ text.integerDigits ++
    renderFraction text.fractionDigits ++ renderExponent text.exponent

def JElements.isEmpty : JElements → Bool
  | .nil => Bool.true
  | .cons _ _ _ _ => Bool.false

def JMembers.isEmpty : JMembers → Bool
  | .nil => Bool.true
  | .cons _ _ _ _ _ _ _ => Bool.false

mutual
/-- The bytes of a value. -/
def JValue.render : JValue → Buffer
  | .number text => text.render
  | .string items => '"' :: renderItems items ++ ['"']
  | .true => CS "true"
  | .false => CS "false"
  | .null => CS "null"
  | .array elements beforeClose => '[' :: elements.render ++ beforeClose ++ [']']
  | .object members beforeClose => '{' :: members.render ++ beforeClose ++ ['}']
/-- The bytes of the elements of an array, commas between them. -/
def JElements.render : JElements → Buffer
  | .nil => []
  | .cons before value after rest =>
    before ++ value.render ++ after ++ (if rest.isEmpty then [] else ',' :: rest.render)
/-- The bytes of the members of an object, commas between them. -/
def JMembers.render : JMembers → Buffer
  | .nil => []
  | .cons before key beforeColon beforeValue value after rest =>
    before ++ '"' :: renderItems key ++ '"' :: beforeColon ++ ':' :: beforeValue ++
      value.render ++ after ++ (if rest.isEmpty then [] else ',' :: rest.render)
end

mutual
/-- The node expected for a value that stands under the given label. -/
def JValue.mirror (label : Buffer) : JValue → json_Element
  | .number text => .mk .json_NUMBER label text.render []
  | .string items => .mk .json_STRING label (renderItems items) []
  | .true => .mk .json_TRUE label [] []
  | .false => .mk .json_FALSE label [] []
  | .null => .mk .json_NULL label [] []
  | .array elements _ => .mk .json_ARRAY label [] elements.mirror
  | .object members _ => .mk .json_OBJECT label [] members.mirror
/-- The chain of children expected for the elements of an array. -/
def JElements.mirror : JElements → List json_Element
  | .nil => []
  | .cons _ value _ rest => value.mirror [] :: rest.mirror
/-- The chain of children expected for the members of an object: each child
is labelled with its key, quotes removed. -/
def JMembers.mirror : JMembers → List json_Element
  | .nil => []
  | .cons _ key _ _ value _ rest => value.mirror (renderItems key) :: rest.mirror
end

/-- Whitespace of the tokenizer. -/
def isWhitespace (ws : Buffer) : Bool := ws.all isSpace

/-- A non-empty run of digits. -/
def isDigits (digits : List Char) : Bool := !digits.isEmpty && digits.all isNumeric

/-- A piece of a string literal without zero byte: a plain byte is neither a
quote nor a backslash. -/
def StringItem.wellFormed : StringItem → Bool
  | .plain ch => ch != '"' && ch != '\\' && ch != NUL
  | .escaped ch => ch != NUL

def fractionWellFormed : Option (List Char) → Bool
  | some digits => isDigits digits
  | none => Bool.true

def exponentWellFormed : Option (Char × Option Char × List Char) → Bool
  | some (e, some sign, digits) =>
    (e == 'e' || e == 'E') && (sign == '+' || sign == '-') && isDigits digits
  | some (e, none, digits) => (e == 'e' || e == 'E') && isDigits digits
  | none => Bool.true

def NumberText.wellFormed (text : NumberText) : Bool :=
  isDigits text.integerDigits && fractionWellFormed text.fractionDigits &&
    exponentWellFormed text.exponent

mutual
/-- A well-formed value: numbers in the grammar of the tokenizer, string
literals without zero byte, whitespace where whitespace is written. -/
def JValue.wellFormed : JValue → Bool
  | .number text => text.wellFormed
  | .string items => items.all StringItem.wellFormed
  | .true => Bool.true
  | .false => Bool.true
  | .null => Bool.true
  | .array elements beforeClose => elements.wellFormed && isWhitespace beforeClose
  | .object members beforeClose => members.wellFormed && isWhitespace beforeClose
def JElements.wellFormed : JElements → Bool
  | .nil => Bool.true
  | .cons before value after rest =>
    isWhitespace before && value.wellFormed && isWhitespace after && rest.wellFormed
def JMembers.wellFormed : JMembers → Bool
  | .nil => Bool.true
  | .cons before key beforeColon beforeValue value after rest =>
    isWhitespace before && key.all StringItem.wellFormed && isWhitespace beforeColon &&
      isWhitespace beforeValue && value.wellFormed && isWhitespace after && rest.wellFormed
end

/-- The top-level value of a document is an object or an array. -/
def JValue.isList : JValue → Bool
  | .array _ _ => Bool.true
  | .object _ _ => Bool.true
  | _ => Bool.false

/-- The document ` {"a" : [1, -2.5e+3 ,true], "b\"":{}, "c":[ ]}`. -/
def sampleDocument : JValue :=
  .object
    (.cons [] [.plain 'a'] [' '] [' ']
      (.array
        (.cons [] (.number ⟨Bool.false, ['1'], none, none⟩) []
          (.cons [' '] (.number ⟨Bool.true, ['2'], some ['5'], some ('e', some '+', ['3'])⟩)
            [' '] (.cons [] .true [] .nil)))
        [])
      []
      (.cons [' '] [.plain 'b', .escaped '"'] [] [] (.object .nil []) []
        (.cons [' '] [.plain 'c'] [] [] (.array .nil [' ']) [] .nil)))
    []

/-- The bytes of `b` from offset `n` on are `s`. -/
def Suffix (b : Buffer) (n : Nat) (s : Buffer) : Prop := n ≤ b.length ∧ b.drop n = s

/-- The bytes `s` that follow a token end it: they start with a separator, or
there is none. -/
def EndsToken (s : Buffer) : Prop := ∀ c s1, s = c :: s1 → isSeparator c = Bool.true

/-- The type and the length of the first token of a value. -/
def JValue.firstToken : JValue → TokenType × Nat
  | .number text => (.TK_NUMBER, text.render.length)
  | .string items => (.TK_STRING, (renderItems items).length + 2)
  | .true => (.TK_TRUE, 4)
  | .false => (.TK_FALSE, 5)
  | .null => (.TK_NULL, 4)
  | .array _ _ => (.TK_OPEN_BRACKET, 1)
  | .object _ _ => (.TK_OPEN_BRACE, 1)

mutual
/-- A bound on the fuel that `parseElementValue` uses on a value. -/
def JValue.size : JValue → Nat
  | .number _ => 1
  | .string _ => 1
  | .true => 1
  | .false => 1
  | .null => 1
  | .array elements _ => 2 + elements.size
  | .object members _ => 2 + members.size
/-- A bound on the fuel that the loop of `parseList` uses on the elements of
an array. -/
def JElements.size : JElements → Nat
  | .nil => 0
  | .cons _ value _ rest => 1 + value.size + rest.size
/-- A bound on the fuel that the loop of `parseList` uses on the members of an
object. -/
def JMembers.size : JMembers → Nat
  | .nil => 0
  | .cons _ _ _ _ value _ rest => 1 + value.size + rest.size
end

/-- The parser reads the value `v` as `v.mirror`: when the first token of `v`
has been read, `parseElementValue` returns the mirror of `v` and leaves the
cursor behind `v`, the error flag as it was. -/
def ValueParses (v : JValue) : Prop :=
  ∀ (b : Buffer) (n : Nat) (e : Bool) (ws s : Buffer) (fuel : Nat),
    isWhitespace ws = Bool.true → Suffix b n (ws ++ (v.render ++ s)) → EndsToken s →
    b.length < 2 ^ 64 → v.size ≤ fuel →
    parseElementValue fuel ⟨b, n + ws.length + v.firstToken.2, e⟩
        ⟨v.firstToken.1, ⟨n + ws.length, v.firstToken.2⟩⟩
      = (v.mirror [], ⟨b, n + ws.length + v.render.length, e⟩)

/-- The loop of `parseList` reads the elements of an array: entered behind the
first token of the first element, it appends the mirrors of the elements to the
chain and stops behind the closing bracket. -/
def ElementsParse : JElements → Prop
  | .nil => True
  | .cons before value after rest =>
    ∀ (b : Buffer) (n : Nat) (e : Bool) (beforeClose s : Buffer) (fuel : Nat)
      (separatorTk : Token) (children : List json_Element),
      isWhitespace beforeClose = Bool.true →
      Suffix b n ((JElements.cons before value after rest).render ++ (beforeClose ++ ']' :: s)) →
      b.length < 2 ^ 64 → (JElements.cons before value after rest).size ≤ fuel →
      parseListLoop fuel ⟨b, n + before.length + value.firstToken.2, e⟩ .json_ARRAY
          .TK_CLOSE_BRACKET ⟨value.firstToken.1, ⟨n + before.length, value.firstToken.2⟩⟩
          separatorTk children
        = (children ++ (JElements.cons before value after rest).mirror,
            ⟨.TK_CLOSE_BRACKET,
              ⟨n + (JElements.cons before value after rest).render.length + beforeClose.length,
                1⟩⟩,
            ⟨b, n + (JElements.cons before value after rest).render.length
              + beforeClose.length + 1, e⟩)

/-- The loop of `parseList` reads the members of an object: entered behind the
key of the first member, it appends the mirrors of the members, labelled with
their keys, to the chain and stops behind the closing brace. -/
def MembersParse : JMembers → Prop
  | .nil => True
  | .cons before key beforeColon beforeValue value after rest =>
    ∀ (b : Buffer) (n : Nat) (e : Bool) (beforeClose s : Buffer) (fuel : Nat)
      (separatorTk : Token) (children : List json_Element),
      isWhitespace beforeClose = Bool.true →
      Suffix b n ((JMembers.cons before key beforeColon beforeValue value after rest).render
        ++ (beforeClose ++ '}' :: s)) →
      b.length < 2 ^ 64 →
      (JMembers.cons before key beforeColon beforeValue value after rest).size ≤ fuel →
      parseListLoop fuel ⟨b, n + before.length + ((renderItems key).length + 2), e⟩ .json_OBJECT
          .TK_CLOSE_BRACE ⟨.TK_STRING, ⟨n + before.length, (renderItems key).length + 2⟩⟩
          separatorTk children
        = (children
            ++ (JMembers.cons before key beforeColon beforeValue value after rest).mirror,
            ⟨.TK_CLOSE_BRACE,
              ⟨n + (JMembers.cons before key beforeColon beforeValue value after
                  rest).render.length + beforeClose.length, 1⟩⟩,
            ⟨b, n + (JMembers.cons before key beforeColon beforeValue value after
                rest).render.length + beforeClose.length + 1, e⟩)


/-! ### The caller of the parser (`main.c`) -/

/-- How a call of `parseBufferToJson` ends: it returns the root, or the process
ends in `errorAndTerminate`, or the null pointer is dereferenced. -/
inductive ParseOutcome where
  | returned (root : json_Element)
  | fatal (message : String)
  | nullDereference
  deriving DecidableEq

/-- The function `parseBufferToJson`: `jsonRoot->type` is read from the pointer
that `json_parseJson` returns. -/
def parseBufferToJson (text : Buffer) : ParseOutcome :=
  match (json_parseJson text).1 with
  | none => .nullDereference
  | some jsonRoot =>
    if jsonRoot.type = .json_INVALID_ELEMENT then .fatal "couldn't read spotify response"
    else .returned jsonRoot

/-! ### Runs of bytes and string literals, for the statements about tokens -/

/-- A byte that the loop of `parseKeyword` steps over: no separator and no
zero byte. -/
def isRunChar (c : Char) : Bool := !isSeparator c && c != NUL

/-- The maximal run, at the start of `text`, of bytes that are neither a
separator nor the end of the input. -/
def maximalRun (text : Buffer) : Buffer := text.takeWhile isRunChar

/-- The bytes `s` that follow a run end it: they start with a separator or a
zero byte, or there is none. -/
def EndsRun (s : Buffer) : Prop := ∀ c s1, s = c :: s1 → isRunChar c = Bool.false

/-- The input from offset `n` on, without the whitespace it starts with: the
text at which the next token starts. -/
def tokenText (b : Buffer) (n : Nat) : Buffer := (b.drop n).dropWhile isSpace

/-- The offset in `text`, the bytes behind an opening quote, of the first
double quote that is not the byte consumed after a backslash: a backslash
consumes the byte behind it, whatever it is, and a zero byte or the end of the
text ends the search without result. -/
def closingQuote : Buffer → Option Nat
  | [] => none
  | c :: rest =>
    if c = '"' then some 0
    else if c = NUL then none
    else if c = '\\' then
      match rest with
      | [] => none
      | _ :: rest1 => (closingQuote rest1).map (· + 2)
    else (closingQuote rest).map (· + 1)

/-! ### Token streams, for the statements about the structure of lists -/

/-- The next `k` tokens at the cursor, in reading order, and the cursor behind
them. -/
def readTokens : Nat → Cursor → List Token × Cursor
  | 0, cur => ([], cur)
  | k + 1, cur =>
    let r := parseNextToken cur
    let rest := readTokens k r.2
    (r.1 :: rest.1, rest.2)

/-- The cursor `c2` reads the same input as `c1` and carries the same error
flag: only the offset may differ. -/
def SameInput (c1 c2 : Cursor) : Prop :=
  c2.buf = c1.buf ∧ c2.errorOccurred = c1.errorOccurred

/-- The closer of a list: `closingTkType` in `parseList`. -/
def closingOf (listType : json_ElementType) : TokenType :=
  if listType = .json_OBJECT then .TK_CLOSE_BRACE else .TK_CLOSE_BRACKET

mutual
/-- The token types of a value all of whose lists are well-formed: the
elements of a list are separated by one comma each, the list is closed by the
closer of its kind, and every member of an object starts with a string token
and a colon. -/
inductive ValueTokens : List TokenType → Prop where
  | number : ValueTokens [.TK_NUMBER]
  | string : ValueTokens [.TK_STRING]
  | true : ValueTokens [.TK_TRUE]
  | false : ValueTokens [.TK_FALSE]
  | null : ValueTokens [.TK_NULL]
  | emptyArray : ValueTokens [.TK_OPEN_BRACKET, .TK_CLOSE_BRACKET]
  | array (ts : List TokenType) : ElementTokens ts → ValueTokens (.TK_OPEN_BRACKET :: ts)
  | emptyObject : ValueTokens [.TK_OPEN_BRACE, .TK_CLOSE_BRACE]
  | object (ts : List TokenType) : MemberTokens ts → ValueTokens (.TK_OPEN_BRACE :: ts)
/-- The token types of the elements of a non-empty array and its closing
bracket. -/
inductive ElementTokens : List TokenType → Prop where
  | last (v : List TokenType) : ValueTokens v → ElementTokens (v ++ [.TK_CLOSE_BRACKET])
  | more (v rest : List TokenType) :
      ValueTokens v → ElementTokens rest → ElementTokens (v ++ .TK_COMMA :: rest)
/-- The token types of the members of a non-empty object and its closing
brace. -/
inductive MemberTokens : List TokenType → Prop where
  | last (v : List TokenType) :
      ValueTokens v → MemberTokens (.TK_STRING :: .TK_COLON :: (v ++ [.TK_CLOSE_BRACE]))
  | more (v rest : List TokenType) :
      ValueTokens v → MemberTokens rest →
      MemberTokens (.TK_STRING :: .TK_COLON :: (v ++ .TK_COMMA :: rest))
end

/-- The cursor of the loop of `parseList` behind the label and the colon of a
member: the two tests on `labelTk` and `colonTk`. -/
def afterLabel (labelTk : Token) (colon : Token × Cursor) : Cursor :=
  if labelTk.type ≠ .TK_STRING then parsingError colon.2
  else if colon.1.type ≠ .TK_COLON then parsingError colon.2
  else colon.2

/-- The cursor of the loop of `parseList` behind the separator of an entry: the
test on `separatorTk`. -/
def afterSeparator (closingTkType : TokenType) (separator : Token × Cursor) : Cursor :=
  if separator.1.type ≠ .TK_COMMA ∧ separator.1.type ≠ closingTkType then
    parsingError separator.2
  else separator.2

/-- The types of the next `k` tokens at the cursor. -/
def tokenTypes (k : Nat) (cur : Cursor) : List TokenType :=
  (readTokens k cur).1.map (fun tk => tk.type)

/-! ### Counting the elements of an array in the source -/

/-- The number of elements written in the source of an array. -/
def JElements.count : JElements → Nat
  | .nil => 0
  | .cons _ _ _ rest => rest.count + 1


/-! ## Completed requests (`processFinishedRequests` in `main.c`) -/

def OK_RESPONSE : Int := 200

def EXPIRED_TOKEN_RESPONSE : Int := 401

/-- The value `(MemoryArena){0}`. -/
def MemoryArena.zero : MemoryArena := { data := 0, count := 0, maxCount := 0, mem := [] }

/-- The part of `State` that the handling of a completed request reads and
writes: the slot table, the response arenas `handleToArenaMap` of the slots
(kept beside the slot table), and the state of the job processor, which holds
the queue, the playlist array and the outputs. -/
structure State where
  networkState : NetworkState
  handleToArenaMap : List MemoryArena
  proc : ProcState
  deriving DecidableEq

/-- The bytes of `Buffer text = {handleArena->data, handleArena->count}`: the
part of the arena in use. -/
def arenaText (handleArena : MemoryArena) : Buffer := handleArena.mem.take handleArena.count

/-- How one round of the loop of `processFinishedRequests` ends when
`curl_multi_info_read` has returned a message: the round returns, with the new
state and the local flag `mustRenewAccessToken`; or the process ends
(`errorAndTerminate`, or a failed `check` when the checks are compiled in); or
the null pointer is dereferenced inside `parseBufferToJson`. -/
inductive FinishOutcome where
  | returned (st : State) (mustRenewAccessToken : Bool)
  | terminated
  | nullDereference
  deriving DecidableEq

/-- One round of the loop of `processFinishedRequests` for a message of the
slot `handleIndex` whose request got the status `responseCode`. -/
def finishRequest (useChecks : Bool) (numberToU64 : json_Element → Nat) (st : State)
    (mustRenewAccessToken : Bool) (handleIndex : Nat) (responseCode : Int) : FinishOutcome :=
  let handleArena := st.handleToArenaMap.getD handleIndex MemoryArena.zero
  let job := st.networkState.handleToJobMap.getD handleIndex Job.zero
  if responseCode ≠ EXPIRED_TOKEN_RESPONSE ∧ responseCode ≠ OK_RESPONSE then .terminated
  else
    let expired : Bool := decide (responseCode = EXPIRED_TOKEN_RESPONSE)
    let mustRenewAccessToken := if expired then true else mustRenewAccessToken
    let jq := if expired then enqueueJob st.proc.jq job else st.proc.jq
    let job := if expired then Job.zero else job
    match parseBufferToJson (arenaText handleArena) with
    | .nullDereference => .nullDereference
    | .fatal _ => .terminated
    | .returned root =>
      let job := { job with json := root }
      let handleToArenaMap := st.handleToArenaMap.set handleIndex (clearMemoryArena handleArena)
      if useChecks && decide (st.networkState.busyHandleCount = 0) then .terminated
      else
        let nst := removeEasyHandleFromMulti st.networkState handleIndex
        match processJob useChecks numberToU64 { st.proc with jq := jq } job with
        | none => .terminated
        | some proc =>
          .returned { networkState := nst, handleToArenaMap := handleToArenaMap, proc := proc }
            mustRenewAccessToken

/-- The first job, which `main` enqueues. -/
def firstJob : Job :=
  { type := .Job_playlistListHeader, uri := CS PLAYLIST_LIST_URI, json := json_Element.zero,
    playlistIndex := 0, offset := 0 }

/-- One round of the inner loop of `main`: the next job is dequeued and handed
to `addRequest`. -/
def requestNext (st : State) : State :=
  let d := dequeueJob st.proc.jq
  let r := addRequest st.networkState d.2 d.1
  { st with networkState := r.1, proc := { st.proc with jq := r.2 } }

/-- A job of a header kind has offset 0. -/
def HeaderAtZero (job : Job) : Prop :=
  job.type = .Job_playlistListHeader ∨ job.type = .Job_playlistHeader → job.offset = 0

/-- The states of the crawl: the state in which `main` enters its loop, with
the first job enqueued, and the states that follow by a round of the inner
loop, by bytes of a response arriving in the arenas of the slots, and by a
round of the loop of `processFinishedRequests` that returns. -/
inductive CrawlReachable (useChecks : Bool) (numberToU64 : json_Element → Nat) : State → Prop where
  | start (handleToArenaMap : List MemoryArena) :
      CrawlReachable useChecks numberToU64
        { networkState := initNetworkState NetworkState.zero
          handleToArenaMap := handleToArenaMap
          proc :=
            { jq := enqueueJob (initJobQueue JobQueue.zero 1024) firstJob
              playlistArray := { data := [], count := 0 }
              written := []
              warnings := 0 } }
  | request {st : State} :
      CrawlReachable useChecks numberToU64 st →
      CrawlReachable useChecks numberToU64 (requestNext st)
  | receive {st : State} (handleToArenaMap : List MemoryArena) :
      CrawlReachable useChecks numberToU64 st →
      CrawlReachable useChecks numberToU64 { st with handleToArenaMap := handleToArenaMap }
  | finish {st st1 : State} (renew renew1 : Bool) (handleIndex : Nat) (responseCode : Int) :
      CrawlReachable useChecks numberToU64 st →
      finishRequest useChecks numberToU64 st renew handleIndex responseCode
        = .returned st1 renew1 →
      CrawlReachable useChecks numberToU64 st1

/-- A state with four slots in which slot 1 is busy with a page job and its
response arena holds the given bytes. -/
def sampleState (body : Buffer) : State :=
  { networkState :=
      { easyHandleCount := 4
        handleToJobMap := [Job.zero, sampleJob 1, Job.zero, Job.zero]
        busyHandleFlagArray := [false, true, false, false]
        busyHandleCount := 1 }
    handleToArenaMap :=
      [MemoryArena.zero, { data := 4096, count := body.length, maxCount := 8, mem := body },
        MemoryArena.zero, MemoryArena.zero]
    proc := sampleProcState }

/-! ### Pages with items that lack a `track` object -/

/-- The test that the loop of `readTracksAndCopyToFileIfDone` makes on an
item: its `track` member is an object. -/
def hasTrack (item : json_Element) : Bool :=
  decide ((json_getElement item (some (CS "track"))).type = .json_OBJECT)

/-- The items of a page that have a `track` object, in page order. -/
def keptItems (page : json_Element) : List json_Element := (pageItems page).filter hasTrack

/-- The items of a page that lack a `track` object. -/
def skippedItems (page : json_Element) : List json_Element :=
  (pageItems page).filter fun item => !hasTrack item

/-- A page that holds exactly `n` items, with or without a `track` object. -/
def PageHolds (page : json_Element) (n : Nat) : Prop :=
  (json_getElement page (some (CS "items"))).type = .json_ARRAY ∧ (pageItems page).length = n

/-- The tracks of the items of page `i` that have a `track` object. -/
def keptTracks (numberToU64 : json_Element → Nat) (pages : Nat → json_Element) (i : Nat) :
    List Track :=
  (keptItems (pages i)).map (trackOfItem numberToU64)

/-- An item of a track page without a `track` member. -/
def sampleBareItem : json_Element := jsonObject "" [jsonString "added_at" "2023-06-09"]

/-- The header job of a playlist of three tracks, two per page, whose first
page has an item without a `track` object. -/
def sampleHeaderBare : Job :=
  sampleHeaderJob (samplePlaylist "3" "2" [sampleItem "a", sampleBareItem])

/-! ### The messages of the parser

The parser with the lines that `parsingError` writes to `stderr`: the same
functions as above, on a cursor that carries the lines written so far.  The
tokenizer writes nothing.  Where the fuel of the model runs out, the flag is
set and nothing is written. -/

/-- A cursor with the lines written to `stderr` so far. -/
structure LoggedCursor where
  cur : Cursor
  stderr : List String
  deriving DecidableEq

/-- The function `parsingError` with its output: the message is printed when
the flag is not yet set, and the flag is set. -/
def parsingErrorLog (lc : LoggedCursor) (message : String) : LoggedCursor :=
  { cur := { lc.cur with errorOccurred := true }
    stderr :=
      if !lc.cur.errorOccurred then lc.stderr ++ ["JSON ERROR: " ++ message] else lc.stderr }

/-- The function `parseNextToken` on a logged cursor. -/
def parseNextTokenLog (lc : LoggedCursor) : Token × LoggedCursor :=
  let r := parseNextToken lc.cur
  (r.1, { lc with cur := r.2 })

/-- The label part of a round of the loop of `parseList`: in an object, `tk`
is the label, and the colon and the first token of the value are read;
the result is the label, the first token of the value and the cursor. -/
def readLabelLog (listType : json_ElementType) (tk : Token) (lc : LoggedCursor) :
    BufferView × Token × LoggedCursor :=
  if listType = .json_OBJECT then
    let labelTk := tk
    let colon := parseNextTokenLog lc
    let lc :=
      if labelTk.type ≠ .TK_STRING then parsingErrorLog colon.2 "expected string as label"
      else if colon.1.type ≠ .TK_COLON then parsingErrorLog colon.2 "expected colon after label"
      else colon.2
    let label := takeOffQuotes labelTk.content
    let value := parseNextTokenLog lc
    (label, value.1, value.2)
  else ({ data := 0, count := 0 }, tk, lc)

/-- The separator part of a round of the loop of `parseList`: the cursor behind
the test on `separatorTk`. -/
def checkSeparatorLog (closingTkType : TokenType) (separator : Token × LoggedCursor) :
    LoggedCursor :=
  if separator.1.type ≠ .TK_COMMA ∧ separator.1.type ≠ closingTkType then
    parsingErrorLog separator.2 "expected a comma"
  else separator.2

mutual
/-- The function `parseElementValue` with its output. -/
def parseElementValueLog : Nat → LoggedCursor → Token → json_Element × LoggedCursor
  | 0, lc, _ => (json_Element.zero, { lc with cur := parsingError lc.cur })
  | fuel + 1, lc, elementValueTk =>
    match elementValueTk.type with
    | .TK_NUMBER => (.mk .json_NUMBER [] (viewBytes lc.cur.buf elementValueTk.content) [], lc)
    | .TK_STRING =>
      (.mk .json_STRING [] (viewBytes lc.cur.buf (takeOffQuotes elementValueTk.content)) [], lc)
    | .TK_FALSE => (.mk .json_FALSE [] [] [], lc)
    | .TK_TRUE => (.mk .json_TRUE [] [] [], lc)
    | .TK_NULL => (.mk .json_NULL [] [] [], lc)
    | .TK_OPEN_BRACE => parseListLog fuel lc .json_OBJECT
    | .TK_OPEN_BRACKET => parseListLog fuel lc .json_ARRAY
    | _ => (json_Element.zero, parsingErrorLog lc "invalid element value")
/-- The function `parseList` with its output. -/
def parseListLog : Nat → LoggedCursor → json_ElementType → json_Element × LoggedCursor
  | 0, lc, _ => (json_Element.zero, { lc with cur := parsingError lc.cur })
  | fuel + 1, lc, listType =>
    let closingTkType : TokenType :=
      if listType = .json_OBJECT then .TK_CLOSE_BRACE else .TK_CLOSE_BRACKET
    let r := parseNextTokenLog lc
    if r.1.type = closingTkType then (.mk listType [] [] [], r.2)
    else
      let l := parseListLoopLog fuel r.2 listType closingTkType r.1 Token.zero []
      let lc :=
        if l.2.1.type ≠ closingTkType then parsingErrorLog l.2.2 "list was not closed"
        else l.2.2
      (.mk listType [] [] l.1, lc)
/-- The loop of `parseList` with its output. -/
def parseListLoopLog : Nat → LoggedCursor → json_ElementType → TokenType → Token → Token →
    List json_Element → List json_Element × Token × LoggedCursor
  | 0, lc, _, _, _, separatorTk, children =>
    (children, separatorTk, { lc with cur := parsingError lc.cur })
  | fuel + 1, lc, listType, closingTkType, tk, separatorTk, children =>
    if isCursorEnd lc.cur then (children, separatorTk, lc)
    else
      let labelled := readLabelLog listType tk lc
      let sub := parseElementValueLog fuel labelled.2.2 labelled.2.1
      let subElement := sub.1.withLabel (viewBytes sub.2.cur.buf labelled.1)
      let children := children ++ [subElement]
      let separator := parseNextTokenLog sub.2
      let lc := checkSeparatorLog closingTkType separator
      if separator.1.type = closingTkType then (children, separator.1, lc)
      else
        let next := parseNextTokenLog lc
        parseListLoopLog fuel next.2 listType closingTkType next.1 separator.1 children
end

/-- The function `json_parseJson` with its output: the node returned and the
cursor at the end with the lines written. -/
def json_parseJsonLog (jsonString : Buffer) : Option json_Element × LoggedCursor :=
  let lc : LoggedCursor :=
    { cur := { buf := jsonString, offset := 0, errorOccurred := false }, stderr := [] }
  let r := parseNextTokenLog lc
  if r.1.type ≠ .TK_OPEN_BRACE ∧ r.1.type ≠ .TK_OPEN_BRACKET then
    (none, parsingErrorLog r.2 "expected opening list")
  else
    let head := parseElementValueLog (3 * jsonString.length + 3) r.2 r.1
    (some head.1, head.2)

/-- The lines that a parse may still write: one as long as the flag is
clear. -/
def LoggedCursor.budget (lc : LoggedCursor) : Nat :=
  lc.stderr.length + if lc.cur.errorOccurred then 0 else 1

/-- The relation between a logged cursor and a later one: lines are only
added, and a line is added only when the flag goes from clear to set. -/
def LoggedCursor.Before (lc lc1 : LoggedCursor) : Prop :=
  lc.stderr <+: lc1.stderr ∧ lc1.budget ≤ lc.budget

/-! ### Numbers (`json_getNumber`), in exact arithmetic

The `f64` values of `json_getNumber` and `takePower` are rational numbers
here, the constant `0.1` is the tenth, and every operation on them is exact.
The `s64` values are integers; an operation on them whose result does not fit
into 64 bits has no defined result, which is `none`. -/

/-- The value `lastRead - '0'`. -/
def digitOf (ch : Char) : Int := (ch.toNat : Int) - ('0'.toNat : Int)

/-- The largest `s64`. -/
def S64_MAX : Int := 2 ^ 63 - 1

/-- The shape of the three loops of `json_getNumber`: while the offset is in
bounds, the byte at the offset is read into `lastRead` and the offset moves
on; a byte that is no digit ends the loop, a digit goes into the accumulator
by `step`.  The result is the offset, `lastRead` and the accumulator; `fuel`
bounds the number of rounds. -/
def digitLoop {α : Type} (buf : Buffer) (step : α → Char → α) :
    Nat → Nat → Char → α → Nat × Char × α
  | 0, offset, lastRead, acc => (offset, lastRead, acc)
  | fuel + 1, offset, lastRead, acc =>
    if isInBounds buf offset then
      let lastRead := buf.getD offset NUL
      let offset := offset + 1
      if !isNumeric lastRead then (offset, lastRead, acc)
      else digitLoop buf step fuel offset lastRead (step acc lastRead)
    else (offset, lastRead, acc)

/-- The body of the first loop: `integerPart = (lastRead - '0') + 10*integerPart`. -/
def integerStep (integerPart : ℚ) (lastRead : Char) : ℚ :=
  (digitOf lastRead : ℚ) + 10 * integerPart

/-- The body of the second loop, on the pair of `c` and `decimalPart`:
`c *= 0.1; decimalPart += c*(lastRead - '0')`. -/
def decimalStep (s : ℚ × ℚ) (lastRead : Char) : ℚ × ℚ :=
  let c := s.1 * (1 / 10)
  (c, s.2 + c * (digitOf lastRead : ℚ))

/-- The body of the third loop, on an `s64`:
`exponent = (lastRead - '0') + 10*exponent`. -/
def exponentStep (exponent : Option Int) (lastRead : Char) : Option Int :=
  match exponent with
  | none => none
  | some e =>
    if digitOf lastRead + 10 * e ≤ S64_MAX then some (digitOf lastRead + 10 * e) else none

/-- The loop of `takePower`; `fuel` bounds the number of rounds. -/
def takePowerLoop (exponentSign : Int) : Nat → ℚ → Int → ℚ → ℚ
  | 0, _, _, a => a
  | fuel + 1, base, exponent, a =>
    if exponent > 0 then
      if exponent % 2 = 0 then takePowerLoop exponentSign fuel (base * base) (exponent / 2) a
      else
        takePowerLoop exponentSign fuel base (exponent - 1)
          (if exponentSign = 1 then a * base else a / base)
    else a

/-- The function `takePower`.  The exponent is an `s64`, so `-exponent` has no
defined result for the least one; an exponent of 63 bits is used up in fewer
than 128 rounds. -/
def takePower (base : ℚ) (exponent : Int) : Option ℚ :=
  if base = 0 then some 0
  else
    let exponentSign : Int := if exponent < 0 then -1 else 1
    if exponent < 0 ∧ S64_MAX < -exponent then none
    else
      let exponent := if exponent < 0 then -exponent else exponent
      some (takePowerLoop exponentSign 128 base exponent 1)

/-- The part of `json_getNumber` behind an `e` or `E`: the sign and the digits
of the exponent, from `offset` on.  The result is `exponent` and
`exponentSign`. -/
def readExponent (buf : Buffer) (offset : Nat) : Option Int × Int :=
  let lastRead := buf.getD offset NUL
  let signed : Bool := lastRead = '+' || lastRead = '-'
  let exponentSign : Int := if lastRead = '-' then -1 else 1
  let offset := if signed then offset + 1 else offset
  let x := digitLoop buf exponentStep buf.length offset lastRead (some 0)
  (x.2.2, exponentSign)

/-- The part of `json_getNumber` before the exponent: the sign, the integer
digits and the fraction digits.  The result is `resultSign`, `integerPart`,
`decimalPart`, and the offset and `lastRead` behind them. -/
def readMantissa (buf : Buffer) : Int × ℚ × ℚ × Nat × Char :=
  let lastRead := buf.getD 0 NUL
  let resultSign : Int := if lastRead = '-' then -1 else 1
  let offset := if lastRead = '-' then 1 else 0
  let i := digitLoop buf integerStep buf.length offset lastRead 0
  let integerPart := i.2.2
  let f : Nat × Char × ℚ × ℚ :=
    if i.2.1 = '.' then digitLoop buf decimalStep buf.length i.1 i.2.1 (1, 0)
    else (i.1, i.2.1, 1, 0)
  let decimalPart := f.2.2.2
  (resultSign, integerPart, decimalPart, f.1, f.2.1)

/-- The function `json_getNumber` in exact arithmetic; `none` where an `s64`
operation has no defined result. -/
def json_getNumber (element : json_Element) : Option ℚ :=
  if element.type ≠ .json_NUMBER then some 0
  else
    let buf := element.value
    let m := readMantissa buf
    let resultSign := m.1
    let integerPart := m.2.1
    let decimalPart := m.2.2.1
    let offset := m.2.2.2.1
    let lastRead := m.2.2.2.2
    let e : Option Int × Int :=
      if lastRead = 'e' ∨ lastRead = 'E' then readExponent buf offset else (some 0, 1)
    match e.1 with
    | none => none
    | some exponent =>
      match takePower 10 (exponent * e.2) with
      | none => none
      | some power => some ((integerPart + decimalPart) * power * (resultSign : ℚ))

/-! The value that the text of a number denotes. -/

/-- The value of a run of decimal digits. -/
def digitsValue (digits : List Char) : Nat :=
  digits.foldl (fun acc ch => 10 * acc + (ch.toNat - '0'.toNat)) 0

/-- The signed exponent that the text of a number denotes; 0 without an
exponent part. -/
def NumberText.signedExponent (text : NumberText) : Int :=
  match text.exponent with
  | some (_, sign, digits) =>
    if sign = some '-' then -(digitsValue digits : Int) else (digitsValue digits : Int)
  | none => 0

/-- The fraction digits of a number read as a decimal fraction; 0 without a
fraction part. -/
def fractionValue : Option (List Char) → ℚ
  | some digits => (digitsValue digits : ℚ) / 10 ^ digits.length
  | none => 0

/-- The value that the text of a number denotes: the sign, times the value of
the integer digits plus the fraction digits read as a decimal fraction, times
the power of ten of the signed exponent. -/
def NumberText.value (text : NumberText) : ℚ :=
  (if text.negative then -1 else 1) *
    ((digitsValue text.integerDigits : ℚ) + fractionValue text.fractionDigits) *
    (10 : ℚ) ^ text.signedExponent

/-- The number element with the given text. -/
def numberElement (text : Buffer) : json_Element := .mk .json_NUMBER [] text []

/-- The text `-12.5e2`. -/
def sampleNumberText : NumberText :=
  { negative := true, integerDigits := ['1', '2'], fractionDigits := some ['5'],
    exponent := some ('e', none, ['2']) }

/-- The text `0`. -/
def sampleZeroText : NumberText :=
  { negative := false, integerDigits := ['0'], fractionDigits := none, exponent := none }

/-- The text `1e9223372036854775808`, whose exponent is `2^63`. -/
def sampleHugeExponent : NumberText :=
  { negative := false, integerDigits := ['1'], fractionDigits := none,
    exponent := some ('e', none, "9223372036854775808".toList) }

/-- One round of the loop of `takePower`, entered with `exponent > 0`: the
values of `base`, `exponent` and `a` after the round. -/
def takePowerStep (exponentSign : Int) (base : ℚ) (exponent : Int) (a : ℚ) : ℚ × Int × ℚ :=
  if exponent % 2 = 0 then (base * base, exponent / 2, a)
  else (base, exponent - 1, if exponentSign = 1 then a * base else a / base)

/-- The check that the loop of `deinit` makes on a playlist:
`check(playlist.filledTrackCount == playlist.trackCount)`. -/
def deinitCheck (playlist : Playlist) : Bool :=
  playlist.filledTrackCount == playlist.trackCount

/-! ### Termination of the parser -/

/-- The cursor `c2` reads the buffer of `c1` at an offset that is not smaller. -/
def Ahead (c1 c2 : Cursor) : Prop := c2.buf = c1.buf ∧ c1.offset ≤ c2.offset

/-- The number of bytes from the cursor to the end of its buffer. -/
def Cursor.remaining (cur : Cursor) : Nat := cur.buf.length - cur.offset

mutual
/-- The depth of a tree: a node without children has depth 1.  Each call of
`parseElementValue` returns one node, and the children of the node are what
the calls nested in it return, so the depth of the tree returned is the
depth that the recursion reached. -/
def json_Element.depth : json_Element → Nat
  | .mk _ _ _ children => json_Element.depthList children + 1
/-- The greatest depth in a chain of siblings. -/
def json_Element.depthList : List json_Element → Nat
  | [] => 0
  | e :: es => max e.depth (json_Element.depthList es)
end

mutual
/-- The function `parseElementValue` with the end of the fuel made visible:
`none` when the fuel runs out before the call returns, where
`parseElementValue` goes on with an error. -/
def parseElementValueChecked : Nat → Cursor → Token → Option (json_Element × Cursor)
  | 0, _, _ => none
  | fuel + 1, cur, elementValueTk =>
    match elementValueTk.type with
    | .TK_NUMBER => some (.mk .json_NUMBER [] (viewBytes cur.buf elementValueTk.content) [], cur)
    | .TK_STRING =>
      some (.mk .json_STRING [] (viewBytes cur.buf (takeOffQuotes elementValueTk.content)) [],
        cur)
    | .TK_FALSE => some (.mk .json_FALSE [] [] [], cur)
    | .TK_TRUE => some (.mk .json_TRUE [] [] [], cur)
    | .TK_NULL => some (.mk .json_NULL [] [] [], cur)
    | .TK_OPEN_BRACE => parseListChecked fuel cur .json_OBJECT
    | .TK_OPEN_BRACKET => parseListChecked fuel cur .json_ARRAY
    | _ => some (json_Element.zero, parsingError cur)
/-- The function `parseList` with the end of the fuel made visible. -/
def parseListChecked : Nat → Cursor → json_ElementType → Option (json_Element × Cursor)
  | 0, _, _ => none
  | fuel + 1, cur, listType =>
    let closingTkType : TokenType :=
      if listType = .json_OBJECT then .TK_CLOSE_BRACE else .TK_CLOSE_BRACKET
    let r := parseNextToken cur
    if r.1.type = closingTkType then some (.mk listType [] [] [], r.2)
    else
      (parseListLoopChecked fuel r.2 listType closingTkType r.1 Token.zero []).map fun l =>
        let cur := if l.2.1.type ≠ closingTkType then parsingError l.2.2 else l.2.2
        (.mk listType [] [] l.1, cur)
/-- The loop of `parseList` with the end of the fuel made visible. -/
def parseListLoopChecked : Nat → Cursor → json_ElementType → TokenType → Token → Token →
    List json_Element → Option (List json_Element × Token × Cursor)
  | 0, _, _, _, _, _, _ => none
  | fuel + 1, cur, listType, closingTkType, tk, separatorTk, children =>
    if isCursorEnd cur then some (children, separatorTk, cur)
    else
      let labelled : BufferView × Token × Cursor :=
        if listType = .json_OBJECT then
          let labelTk := tk
          let colon := parseNextToken cur
          let cur :=
            if labelTk.type ≠ .TK_STRING then parsingError colon.2
            else if colon.1.type ≠ .TK_COLON then parsingError colon.2
            else colon.2
          let label := takeOffQuotes labelTk.content
          let value := parseNextToken cur
          (label, value.1, value.2)
        else ({ data := 0, count := 0 }, tk, cur)
      let label := labelled.1
      let elementValueTk := labelled.2.1
      (parseElementValueChecked fuel labelled.2.2 elementValueTk).bind fun sub =>
        let subElement := sub.1.withLabel (viewBytes sub.2.buf label)
        let children := children ++ [subElement]
        let separator := parseNextToken sub.2
        let cur :=
          if separator.1.type ≠ .TK_COMMA ∧ separator.1.type ≠ closingTkType then
            parsingError separator.2
          else separator.2
        if separator.1.type = closingTkType then some (children, separator.1, cur)
        else
          let next := parseNextToken cur
          parseListLoopChecked fuel next.2 listType closingTkType next.1 separator.1 children
end

/-- The function `json_parseJson` with the end of the fuel made visible:
`none` when the fuel that `json_parseJson` gives to `parseElementValue` runs
out. -/
def json_parseJsonChecked (jsonString : Buffer) : Option (Option json_Element × Cursor) :=
  let cur : Cursor := { buf := jsonString, offset := 0, errorOccurred := false }
  let r := parseNextToken cur
  if r.1.type ≠ .TK_OPEN_BRACE ∧ r.1.type ≠ .TK_OPEN_BRACKET then some (none, parsingError r.2)
  else
    (parseElementValueChecked (3 * jsonString.length + 3) r.2 r.1).map fun head =>
      (some head.1, head.2)

/-! ### Page URIs -/

/-- The canonical decimal text of a number: the digit `0` for zero, and
otherwise its decimal digits, the most significant one first. -/
def decimalText (n : Nat) : Buffer :=
  if n = 0 then ['0'] else (Nat.digits 10 n).reverse.map fun d => Char.ofNat (d + '0'.toNat)

/-- The text of the URI of a page: the URI of the header job, the path with
the start of the query, the decimal text of the offset, `&limit=`, and the
text of the limit. -/
def pageUriText (uri path : Buffer) (offset : Nat) (limit : Buffer) : Buffer :=
  uri ++ path ++ decimalText offset ++ CS "&limit=" ++ limit
/-! ## Job queue: proofs -/

theorem wrap64_of_lt {n : Nat} (h : n < 2 ^ 64) : wrap64 n = n :=
  Nat.mod_eq_of_lt h

theorem growLoop_spec (jq : JobQueue) (hm : 0 < jq.maxCount) (hlt : jq.maxCount < 2 ^ 63) :
    ∀ (n i q : Nat) (nd : List Job), i ≤ jq.maxCount → q + n ≤ nd.length →
      nd.length < 2 ^ 64 →
      growLoop jq n i q nd =
        (q + n, nd.take q ++
          ((List.range n).map fun k => jq.data.getD ((i + k) % jq.maxCount) Job.zero) ++
          nd.drop (q + n)) := by
  intro n
  induction n with
  | zero =>
    intro i q nd _ _ _
    simp [growLoop]
  | succ n ih =>
    intro i q nd hi hq hnd
    have hi' : (if i ≥ jq.maxCount then 0 else i) = i % jq.maxCount := by
      split
      · have : i = jq.maxCount := by omega
        simp [this]
      · rw [Nat.mod_eq_of_lt (by omega)]
    have hlt' : i % jq.maxCount < jq.maxCount := Nat.mod_lt _ hm
    simp only [growLoop, hi']
    rw [wrap64_of_lt (by omega), wrap64_of_lt (by omega)]
    rw [ih _ _ _ (by omega) (by simp; omega) (by simpa using hnd)]
    have hq' : q < nd.length := by omega
    refine Prod.ext (by simp; omega) ?_
    simp only
    rw [List.range_succ_eq_map, List.map_cons, List.map_map]
    have e1 : (nd.set q (jq.data.getD (i % jq.maxCount) Job.zero)).take (q + 1)
        = nd.take q ++ [jq.data.getD (i % jq.maxCount) Job.zero] := by
      rw [List.take_succ, List.set_take, List.set_eq_of_length_le (by simp),
        List.getElem?_set_self hq']
      rfl
    have e2 : (nd.set q (jq.data.getD (i % jq.maxCount) Job.zero)).drop (q + 1 + n)
        = nd.drop (q + (n + 1)) := by
      rw [List.drop_set_of_lt _ _ (by omega)]
      congr 1
      omega
    rw [e1, e2]
    simp only [List.append_assoc, List.singleton_append, List.cons_append, Nat.add_zero]
    have e3 : (List.range n).map
          (fun k => jq.data.getD ((i % jq.maxCount + 1 + k) % jq.maxCount) Job.zero)
        = (List.range n).map
          ((fun k => jq.data.getD ((i + k) % jq.maxCount) Job.zero) ∘ Nat.succ) := by
      apply List.map_congr_left
      intro k _
      simp only [Function.comp]
      congr 1
      rw [Nat.add_assoc, Nat.mod_add_mod, Nat.add_comm 1 k]
    rw [e3, List.nil_append]

theorem JobQueue.contents_length (jq : JobQueue) : jq.contents.length = jq.count := by
  simp [JobQueue.contents]

theorem JobQueue.contents_getElem? (jq : JobQueue) (k : Nat) (hk : k < jq.count) :
    jq.contents[k]? = some (jq.data.getD ((jq.first + k) % jq.maxCount) Job.zero) := by
  simp [JobQueue.contents, List.getElem?_range hk]

/-- Growth re-packs the queued jobs at the start of a storage twice as large. -/
theorem growJobQueue_eq (jq : JobQueue) (hm : 0 < jq.maxCount) (hlt : jq.maxCount < 2 ^ 63)
    (hf : jq.first < jq.maxCount) (hc : jq.count ≤ jq.maxCount) :
    growJobQueue jq =
      { data := jq.contents ++ List.replicate (2 * jq.maxCount - jq.count) Job.zero
        maxCount := 2 * jq.maxCount
        count := jq.count
        first := 0
        last := jq.count } := by
  unfold growJobQueue
  simp only
  rw [wrap64_of_lt (by omega),
    growLoop_spec jq hm hlt _ _ _ _ (Nat.le_of_lt hf) (by simp; omega) (by simp; omega)]
  simp [JobQueue.contents]

theorem enqueueJob_full_eq (jq : JobQueue) (job : Job) (hm : 0 < jq.maxCount)
    (hlt : jq.maxCount < 2 ^ 63) (hf : jq.first < jq.maxCount)
    (hc : jq.count = jq.maxCount) :
    enqueueJob jq job =
      { data := jq.contents ++ job :: List.replicate (jq.maxCount - 1) Job.zero
        maxCount := 2 * jq.maxCount
        count := jq.count + 1
        first := 0
        last := (jq.count + 1) % (2 * jq.maxCount) } := by
  unfold enqueueJob enqueueGrow
  simp only
  have hfull : wrap64 (jq.count + 1) > jq.maxCount := by
    rw [wrap64_of_lt (by omega)]; omega
  rw [if_pos hfull, growJobQueue_eq jq hm hlt hf (by omega)]
  simp only
  rw [wrap64_of_lt (by omega), if_pos (by omega)]
  have h1 : 2 * jq.maxCount - jq.count = (jq.maxCount - 1) + 1 := by omega
  rw [h1, List.replicate_succ,
    List.set_append_right _ _ (by simp [JobQueue.contents_length])]
  simp [JobQueue.contents_length]

theorem enqueueJob_room_eq (jq : JobQueue) (job : Job) (hlt : jq.maxCount < 2 ^ 63)
    (hc : jq.count < jq.maxCount) (hl : jq.last < jq.maxCount) :
    enqueueJob jq job =
      { jq with
        data := jq.data.set jq.last job
        count := jq.count + 1
        last := (jq.last + 1) % jq.maxCount } := by
  unfold enqueueJob enqueueGrow
  simp only
  have hfull : ¬ wrap64 (jq.count + 1) > jq.maxCount := by
    rw [wrap64_of_lt (by omega)]; omega
  rw [if_neg hfull, wrap64_of_lt (by omega), wrap64_of_lt (by omega), if_pos (by omega)]

theorem JobQueue.contents_getElem (jq : JobQueue) (k : Nat) (hk : k < jq.contents.length) :
    jq.contents[k] = jq.data.getD ((jq.first + k) % jq.maxCount) Job.zero := by
  simp [JobQueue.contents]

theorem JobQueue.WF.last_lt {jq : JobQueue} (h : jq.WF) : jq.last < jq.maxCount := by
  rw [h.last_eq]
  exact Nat.mod_lt _ h.cap_pos

/-- Two cells of the ring at distinct distances below the capacity differ. -/
theorem ring_index_ne {m f a b : Nat} (ha : a < b) (hb : b < m) :
    (f + a) % m ≠ (f + b) % m := by
  intro h
  have h1 : (f + b) % m = ((f + a) % m + (b - a)) % m := by
    rw [Nat.mod_add_mod]
    congr 1
    omega
  rw [h] at h1
  have h2 : ((f + b) % m + (b - a)) % m = (f + b) % m := h1.symm
  have hlt : (f + b) % m < m := Nat.mod_lt _ (by omega)
  by_cases hc : (f + b) % m + (b - a) < m
  · rw [Nat.mod_eq_of_lt hc] at h2
    omega
  · have h3 : ((f + b) % m + (b - a)) % m = (f + b) % m + (b - a) - m := by
      rw [Nat.mod_eq_sub_mod (by omega), Nat.mod_eq_of_lt (by omega)]
    omega

theorem enqueueJob_spec (jq : JobQueue) (job : Job) (h : jq.WF) (hb : 2 * jq.count < 2 ^ 63) :
    (enqueueJob jq job).WF ∧ (enqueueJob jq job).contents = jq.contents ++ [job] := by
  by_cases hfull : jq.count = jq.maxCount
  · rw [enqueueJob_full_eq jq job h.cap_pos h.cap_lt h.first_lt hfull]
    have hpos := h.cap_pos
    refine ⟨⟨by simp; omega, by simp; omega, by simp [JobQueue.contents_length]; omega,
      by simp; omega, by simp; omega, by simp⟩, ?_⟩
    apply List.ext_getElem
    · simp [JobQueue.contents_length]
    · intro k h1 h2
      rw [JobQueue.contents_getElem]
      simp only [JobQueue.contents_length] at h1
      simp only [Nat.zero_add]
      rw [Nat.mod_eq_of_lt (by omega), List.getD_eq_getElem?_getD]
      by_cases hk : k < jq.count
      · rw [List.getElem?_append_left (by simpa [JobQueue.contents_length] using hk),
          List.getElem_append_left (by simpa [JobQueue.contents_length] using hk)]
        simp [JobQueue.contents_length, hk]
      · have hk' : k = jq.count := by omega
        subst hk'
        rw [List.getElem?_append_right (by simp [JobQueue.contents_length]),
          List.getElem_append_right (by simp [JobQueue.contents_length])]
        simp [JobQueue.contents_length]
  · have hroom : jq.count < jq.maxCount := Nat.lt_of_le_of_ne h.count_le hfull
    rw [enqueueJob_room_eq jq job h.cap_lt hroom h.last_lt]
    have hpos := h.cap_pos
    refine ⟨⟨hpos, h.cap_lt, by simp [h.len], h.first_lt, by simp; omega, ?_⟩, ?_⟩
    · simp only
      rw [h.last_eq, Nat.mod_add_mod, Nat.add_assoc]
    · apply List.ext_getElem
      · simp [JobQueue.contents_length]
      · intro k h1 h2
        rw [JobQueue.contents_getElem]
        simp only [JobQueue.contents_length] at h1
        simp only [List.getD_eq_getElem?_getD]
        by_cases hk : k < jq.count
        · rw [List.getElem_append_left (by simpa [JobQueue.contents_length] using hk),
            JobQueue.contents_getElem, h.last_eq,
            List.getElem?_set_ne (Ne.symm (ring_index_ne hk hroom))]
          simp
        · have hk' : k = jq.count := by omega
          subst hk'
          rw [List.getElem_append_right (by simp [JobQueue.contents_length]), h.last_eq,
            List.getElem?_set_self (by rw [h.len]; exact Nat.mod_lt _ hpos)]
          simp [JobQueue.contents_length]

theorem dequeueJob_empty (jq : JobQueue) (hc : jq.count = 0) :
    dequeueJob jq = (Job.zero, jq) := by
  simp [dequeueJob, hc]

theorem dequeueJob_nonempty_eq (jq : JobQueue) (hc : jq.count ≠ 0) (hm : 0 < jq.maxCount)
    (hf : jq.first < jq.maxCount) (hlt : jq.maxCount < 2 ^ 63) :
    dequeueJob jq =
      (jq.data.getD jq.first Job.zero,
        { jq with
          data := jq.data.set jq.first Job.zero
          first := (jq.first + 1) % jq.maxCount
          count := jq.count - 1 }) := by
  unfold dequeueJob
  rw [if_pos hc, if_pos (by omega), wrap64_of_lt (by omega)]

theorem dequeueJob_spec (jq : JobQueue) (h : jq.WF) (hc : jq.count ≠ 0) :
    (dequeueJob jq).2.WF ∧ jq.contents = (dequeueJob jq).1 :: (dequeueJob jq).2.contents := by
  rw [dequeueJob_nonempty_eq jq hc h.cap_pos h.first_lt h.cap_lt]
  have hpos := h.cap_pos
  have hcl := h.count_le
  refine ⟨⟨hpos, h.cap_lt, by simp [h.len], Nat.mod_lt _ hpos, by simp; omega, ?_⟩, ?_⟩
  · simp only
    rw [h.last_eq, Nat.mod_add_mod]
    congr 1
    omega
  · apply List.ext_getElem
    · simp [JobQueue.contents_length]; omega
    · intro k h1 h2
      rw [JobQueue.contents_getElem]
      simp only [JobQueue.contents_length] at h1
      cases k with
      | zero =>
        simp [Nat.mod_eq_of_lt h.first_lt]
      | succ k =>
        simp only [List.getElem_cons_succ]
        rw [JobQueue.contents_getElem]
        simp only [List.getD_eq_getElem?_getD, Nat.mod_add_mod]
        have hne : jq.first ≠ (jq.first + 1 + k) % jq.maxCount := by
          have := ring_index_ne (f := jq.first) (a := 0) (b := k + 1) (m := jq.maxCount)
            (by omega) (by omega)
          rw [Nat.add_zero, Nat.mod_eq_of_lt h.first_lt] at this
          rw [Nat.add_assoc, Nat.add_comm 1 k]
          exact this
        rw [List.getElem?_set_ne hne, Nat.add_assoc, Nat.add_comm 1 k]

/-- Running a sequence of calls: what was dequeued, followed by what is still
queued, is what was queued at the start followed by what was enqueued. -/
theorem runQueue_spec :
    ∀ (ops : List QueueOp) (jq : JobQueue), jq.WF → 2 * (jq.count + ops.length) < 2 ^ 63 →
      (runQueue jq ops).WF ∧
        dequeued jq ops ++ (runQueue jq ops).contents = jq.contents ++ enqueued ops := by
  intro ops
  induction ops with
  | nil =>
    intro jq h _
    simp [runQueue, dequeued, enqueued, h]
  | cons op ops ih =>
    intro jq h hb
    simp only [List.length_cons] at hb
    cases op with
    | enqueue job =>
      obtain ⟨hwf, hcont⟩ := enqueueJob_spec jq job h (by omega)
      have hcount : (enqueueJob jq job).count = jq.count + 1 := by
        have := congrArg List.length hcont
        simpa [JobQueue.contents_length] using this
      obtain ⟨h1, h2⟩ := ih (enqueueJob jq job) hwf (by rw [hcount]; omega)
      refine ⟨h1, ?_⟩
      simp only [runQueue, dequeued, enqueued]
      rw [h2, hcont]
      simp
    | dequeue =>
      by_cases hc : jq.count = 0
      · rw [show runQueue jq (QueueOp.dequeue :: ops) = runQueue (dequeueJob jq).2 ops from rfl,
          show dequeued jq (QueueOp.dequeue :: ops) = dequeued (dequeueJob jq).2 ops by
            simp [dequeued, hc],
          dequeueJob_empty jq hc]
        obtain ⟨h1, h2⟩ := ih jq h (by omega)
        exact ⟨h1, by simpa [enqueued] using h2⟩
      · obtain ⟨hwf, hcont⟩ := dequeueJob_spec jq h hc
        have hcount : (dequeueJob jq).2.count + 1 = jq.count := by
          have := congrArg List.length hcont
          simpa [JobQueue.contents_length] using this.symm
        obtain ⟨h1, h2⟩ := ih (dequeueJob jq).2 hwf (by omega)
        refine ⟨h1, ?_⟩
        rw [show runQueue jq (QueueOp.dequeue :: ops) = runQueue (dequeueJob jq).2 ops from rfl,
          show dequeued jq (QueueOp.dequeue :: ops)
            = (dequeueJob jq).1 :: dequeued (dequeueJob jq).2 ops by simp [dequeued, hc]]
        rw [List.cons_append, h2, hcont]
        simp [enqueued]

theorem initJobQueue_WF (cap : Nat) (h1 : 1 ≤ cap) (h2 : cap < 2 ^ 63) :
    (initJobQueue JobQueue.zero cap).WF :=
  ⟨h1, h2, by simp [initJobQueue], h1, Nat.zero_le _, by simp [initJobQueue, JobQueue.zero]⟩

theorem enqueueJob_full_contents (jq : JobQueue) (job : Job) (hm : 0 < jq.maxCount)
    (hlt : jq.maxCount < 2 ^ 63) (hf : jq.first < jq.maxCount)
    (hc : jq.count = jq.maxCount) :
    (enqueueJob jq job).contents = jq.contents ++ [job] := by
  rw [enqueueJob_full_eq jq job hm hlt hf hc]
  apply List.ext_getElem
  · simp [JobQueue.contents_length]
  · intro k h1 h2
    rw [JobQueue.contents_getElem]
    simp only [JobQueue.contents_length] at h1
    simp only [Nat.zero_add]
    rw [Nat.mod_eq_of_lt (by omega), List.getD_eq_getElem?_getD]
    by_cases hk : k < jq.count
    · rw [List.getElem?_append_left (by simpa [JobQueue.contents_length] using hk),
        List.getElem_append_left (by simpa [JobQueue.contents_length] using hk)]
      simp [JobQueue.contents_length, hk]
    · have hk' : k = jq.count := by omega
      subst hk'
      rw [List.getElem?_append_right (by simp [JobQueue.contents_length]),
        List.getElem_append_right (by simp [JobQueue.contents_length])]
      simp [JobQueue.contents_length]

/-! ### Claims about the job queue -/

/-- C1: for a queue initialised by `initJobQueue` with capacity at least 1 and
any sequence of `enqueueJob` and `dequeueJob` calls, the k-th `dequeueJob` call
made on a non-empty queue returns the k-th job that was enqueued.  The two
bounds say that the storage is addressable: a `Job` takes 96 bytes, so no queue
has `2^63` cells and no run makes `2^62` calls between growth events that
succeed. -/
theorem C1_dequeue_order_is_enqueue_order (cap : Nat) (ops : List QueueOp) (k : Nat)
    (hcap : 1 ≤ cap) (hrep : cap < 2 ^ 63) (hlen : ops.length < 2 ^ 62)
    (hk : k < (dequeued (initJobQueue JobQueue.zero cap) ops).length) :
    (dequeued (initJobQueue JobQueue.zero cap) ops)[k]? = (enqueued ops)[k]? := by
  have hwf := initJobQueue_WF cap hcap hrep
  obtain ⟨_, h⟩ := runQueue_spec ops (initJobQueue JobQueue.zero cap) hwf
    (by simp [initJobQueue, JobQueue.zero]; omega)
  have h0 : (initJobQueue JobQueue.zero cap).contents = [] := by
    simp [JobQueue.contents, initJobQueue, JobQueue.zero]
  rw [h0, List.nil_append] at h
  rw [← h, List.getElem?_append_left hk]

theorem C1_dequeue_order_witness :
    (dequeued (initJobQueue JobQueue.zero 1)
        [.enqueue (sampleJob 1), .enqueue (sampleJob 2), .dequeue, .enqueue (sampleJob 3),
          .dequeue, .dequeue, .dequeue, .enqueue (sampleJob 4), .dequeue])[2]?
      = (enqueued
        [.enqueue (sampleJob 1), .enqueue (sampleJob 2), .dequeue, .enqueue (sampleJob 3),
          .dequeue, .dequeue, .dequeue, .enqueue (sampleJob 4), .dequeue])[2]? :=
  C1_dequeue_order_is_enqueue_order 1 _ 2 (by decide) (by decide) (by decide) (by decide)

/-- C2: `enqueueJob` on a full queue (`count = maxCount ≥ 1`, head anywhere)
doubles the capacity, re-packs the queued jobs in FIFO order at the indices
`0 .. count - 1` of the new storage, sets `first` to 0, stores the new job at
index `count`, sets `last` to `(count + 1) mod (2 * maxCount)`, and the queued
jobs are the old ones followed by the new one. -/
theorem C2_enqueue_on_full_queue (jq : JobQueue) (job : Job) (hm : 1 ≤ jq.maxCount)
    (hrep : jq.maxCount < 2 ^ 63) (hlen : jq.data.length = jq.maxCount)
    (hf : jq.first < jq.maxCount) (hc : jq.count = jq.maxCount) :
    (enqueueJob jq job).maxCount = 2 * jq.maxCount ∧
    (enqueueJob jq job).data.length = 2 * jq.maxCount ∧
    (∀ k, k < jq.count →
      (enqueueJob jq job).data[k]? = jq.data[(jq.first + k) % jq.maxCount]?) ∧
    (enqueueJob jq job).first = 0 ∧
    (enqueueJob jq job).data[jq.count]? = some job ∧
    (enqueueJob jq job).last = (jq.count + 1) % (2 * jq.maxCount) ∧
    (enqueueJob jq job).count = jq.count + 1 ∧
    (enqueueJob jq job).contents = jq.contents ++ [job] := by
  refine ⟨?_, ?_, ?_, ?_, ?_, ?_, ?_, enqueueJob_full_contents jq job hm hrep hf hc⟩
  all_goals rw [enqueueJob_full_eq jq job hm hrep hf hc]
  · simp [JobQueue.contents_length]; omega
  · intro k hk
    simp only
    rw [List.getElem?_append_left (by simpa [JobQueue.contents_length] using hk),
      JobQueue.contents_getElem? jq k hk, List.getD_eq_getElem?_getD]
    have hi : (jq.first + k) % jq.maxCount < jq.data.length := by
      rw [hlen]; exact Nat.mod_lt _ hm
    rw [List.getElem?_eq_getElem hi]
    rfl
  · simp only
    rw [List.getElem?_append_right (by simp [JobQueue.contents_length])]
    simp [JobQueue.contents_length]

theorem C2_enqueue_on_full_queue_witness :
    (enqueueJob sampleFullQueue (sampleJob 3)).maxCount = 2 * sampleFullQueue.maxCount ∧
    (enqueueJob sampleFullQueue (sampleJob 3)).data.length = 2 * sampleFullQueue.maxCount ∧
    (∀ k, k < sampleFullQueue.count →
      (enqueueJob sampleFullQueue (sampleJob 3)).data[k]?
        = sampleFullQueue.data[(sampleFullQueue.first + k) % sampleFullQueue.maxCount]?) ∧
    (enqueueJob sampleFullQueue (sampleJob 3)).first = 0 ∧
    (enqueueJob sampleFullQueue (sampleJob 3)).data[sampleFullQueue.count]?
      = some (sampleJob 3) ∧
    (enqueueJob sampleFullQueue (sampleJob 3)).last
      = (sampleFullQueue.count + 1) % (2 * sampleFullQueue.maxCount) ∧
    (enqueueJob sampleFullQueue (sampleJob 3)).count = sampleFullQueue.count + 1 ∧
    (enqueueJob sampleFullQueue (sampleJob 3)).contents
      = sampleFullQueue.contents ++ [sampleJob 3] :=
  C2_enqueue_on_full_queue sampleFullQueue (sampleJob 3) (by decide) (by decide) (by decide)
    (by decide) (by decide)

/-- C3 (as stated, at a concrete input): a queue initialised with capacity 0
breaks the invariant at its first `enqueueJob`: growth doubles 0 to 0, the job
is stored at index 0 of a storage without cells, and `count` becomes 1 while
`maxCount` stays 0. -/
theorem C3_zero_capacity_breaks_invariant :
    (enqueueGrow (initJobQueue JobQueue.zero 0)).maxCount = 0 ∧
    (enqueueGrow (initJobQueue JobQueue.zero 0)).data.length = 0 ∧
    ¬ (enqueueGrow (initJobQueue JobQueue.zero 0)).last
        < (enqueueGrow (initJobQueue JobQueue.zero 0)).data.length ∧
    (enqueueJob (initJobQueue JobQueue.zero 0) (sampleJob 1)).count = 1 ∧
    (enqueueJob (initJobQueue JobQueue.zero 0) (sampleJob 1)).maxCount = 0 ∧
    ¬ (enqueueJob (initJobQueue JobQueue.zero 0) (sampleJob 1)).count
        ≤ (enqueueJob (initJobQueue JobQueue.zero 0) (sampleJob 1)).maxCount := by
  decide

/-- C3 (amended): for every queue state reached from `initJobQueue` with an
initial capacity of at least 1 through any sequence of `enqueueJob` and
`dequeueJob` calls, `count ≤ maxCount` holds, the storage has `maxCount`
cells, and the next `enqueueJob` stores its job at an index inside the
storage that it writes to, grown or not.  The bounds on the capacity and on
the number of calls keep the doubled capacity within a `u64`. -/
theorem C3_invariant_of_positive_capacity (cap : Nat) (ops : List QueueOp)
    (hcap : 1 ≤ cap) (hrep : cap < 2 ^ 63) (hlen : ops.length < 2 ^ 62) :
    (runQueue (initJobQueue JobQueue.zero cap) ops).count
        ≤ (runQueue (initJobQueue JobQueue.zero cap) ops).maxCount ∧
    (runQueue (initJobQueue JobQueue.zero cap) ops).data.length
        = (runQueue (initJobQueue JobQueue.zero cap) ops).maxCount ∧
    (enqueueGrow (runQueue (initJobQueue JobQueue.zero cap) ops)).last
        < (enqueueGrow (runQueue (initJobQueue JobQueue.zero cap) ops)).data.length := by
  have hwf := initJobQueue_WF cap hcap hrep
  obtain ⟨h, _⟩ := runQueue_spec ops (initJobQueue JobQueue.zero cap) hwf
    (by simp [initJobQueue, JobQueue.zero]; omega)
  refine ⟨h.count_le, h.len, ?_⟩
  generalize runQueue (initJobQueue JobQueue.zero cap) ops = jq at h
  unfold enqueueGrow
  simp only
  have hpos := h.cap_pos
  have hlt := h.cap_lt
  have hcl := h.count_le
  rw [wrap64_of_lt (by omega)]
  by_cases hfull : jq.count + 1 > jq.maxCount
  · rw [if_pos hfull, growJobQueue_eq jq h.cap_pos h.cap_lt h.first_lt h.count_le]
    simp [JobQueue.contents_length]
    omega
  · rw [if_neg hfull, h.len]
    exact h.last_lt

theorem C3_invariant_of_positive_capacity_witness :
    (runQueue (initJobQueue JobQueue.zero 1)
        [.enqueue (sampleJob 1), .enqueue (sampleJob 2), .dequeue]).count
      ≤ (runQueue (initJobQueue JobQueue.zero 1)
        [.enqueue (sampleJob 1), .enqueue (sampleJob 2), .dequeue]).maxCount ∧
    (runQueue (initJobQueue JobQueue.zero 1)
        [.enqueue (sampleJob 1), .enqueue (sampleJob 2), .dequeue]).data.length
      = (runQueue (initJobQueue JobQueue.zero 1)
        [.enqueue (sampleJob 1), .enqueue (sampleJob 2), .dequeue]).maxCount ∧
    (enqueueGrow (runQueue (initJobQueue JobQueue.zero 1)
        [.enqueue (sampleJob 1), .enqueue (sampleJob 2), .dequeue])).last
      < (enqueueGrow (runQueue (initJobQueue JobQueue.zero 1)
        [.enqueue (sampleJob 1), .enqueue (sampleJob 2), .dequeue])).data.length :=
  C3_invariant_of_positive_capacity 1 [.enqueue (sampleJob 1), .enqueue (sampleJob 2), .dequeue]
    (by decide) (by norm_num) (by norm_num)

/-- C4: `dequeueJob` on an empty queue returns the zero job and leaves the queue
as it is; on a non-empty queue whose head is inside the storage it returns
`data[first]`, overwrites that cell with the zero job, sets `first` to
`(first + 1) mod maxCount`, decrements `count`, and leaves `last`, `maxCount`
and every other cell unchanged. -/
theorem C4_dequeue_effect (jq : JobQueue) (hmax : jq.maxCount < 2 ^ 64)
    (hlen : jq.data.length = jq.maxCount) (hf : jq.first < jq.maxCount) :
    (jq.count = 0 → dequeueJob jq = (Job.zero, jq)) ∧
    (jq.count ≠ 0 →
      some (dequeueJob jq).1 = jq.data[jq.first]? ∧
      (dequeueJob jq).2.data = jq.data.set jq.first Job.zero ∧
      (dequeueJob jq).2.data[jq.first]? = some Job.zero ∧
      (∀ i, i ≠ jq.first → (dequeueJob jq).2.data[i]? = jq.data[i]?) ∧
      (dequeueJob jq).2.first = (jq.first + 1) % jq.maxCount ∧
      (dequeueJob jq).2.count = jq.count - 1 ∧
      (dequeueJob jq).2.last = jq.last ∧
      (dequeueJob jq).2.maxCount = jq.maxCount) := by
  refine ⟨dequeueJob_empty jq, fun hc => ?_⟩
  have hfl : jq.first < jq.data.length := by omega
  unfold dequeueJob
  rw [if_pos hc, if_pos (by omega), wrap64_of_lt (by omega)]
  refine ⟨?_, rfl, ?_, ?_, rfl, rfl, rfl, rfl⟩
  · simp [List.getElem?_eq_getElem hfl]
  · simp [hfl]
  · intro i hi
    simp [List.getElem?_set_ne (Ne.symm hi)]

theorem C4_dequeue_effect_witness :
    (sampleQueue.count = 0 → dequeueJob sampleQueue = (Job.zero, sampleQueue)) ∧
    (sampleQueue.count ≠ 0 →
      some (dequeueJob sampleQueue).1 = sampleQueue.data[sampleQueue.first]? ∧
      (dequeueJob sampleQueue).2.data = sampleQueue.data.set sampleQueue.first Job.zero ∧
      (dequeueJob sampleQueue).2.data[sampleQueue.first]? = some Job.zero ∧
      (∀ i, i ≠ sampleQueue.first →
        (dequeueJob sampleQueue).2.data[i]? = sampleQueue.data[i]?) ∧
      (dequeueJob sampleQueue).2.first = (sampleQueue.first + 1) % sampleQueue.maxCount ∧
      (dequeueJob sampleQueue).2.count = sampleQueue.count - 1 ∧
      (dequeueJob sampleQueue).2.last = sampleQueue.last ∧
      (dequeueJob sampleQueue).2.maxCount = sampleQueue.maxCount) :=
  C4_dequeue_effect sampleQueue (by decide) (by decide) (by decide)

/-! ## Request slots: proofs -/

/-- The busy flag of a slot, as `findFreeHandle` reads it. -/
theorem findFreeHandleLoop_spec (nst : NetworkState) (hN : nst.easyHandleCount < 2 ^ 64) :
    ∀ (n i : Nat), nst.easyHandleCount ≤ i + n →
      (findFreeHandleLoop nst n i = 0 ∧
        ∀ j, i ≤ j → j < nst.easyHandleCount → nst.busyHandleFlagArray.getD j false = true) ∨
      (i ≤ findFreeHandleLoop nst n i ∧ findFreeHandleLoop nst n i < nst.easyHandleCount ∧
        nst.busyHandleFlagArray.getD (findFreeHandleLoop nst n i) false = false ∧
        ∀ j, i ≤ j → j < findFreeHandleLoop nst n i →
          nst.busyHandleFlagArray.getD j false = true) := by
  intro n
  induction n with
  | zero =>
    intro i hi
    left
    exact ⟨rfl, fun j h1 h2 => by omega⟩
  | succ n ih =>
    intro i hi
    unfold findFreeHandleLoop
    by_cases hlt : i < nst.easyHandleCount
    · rw [if_pos hlt]
      by_cases hflag : nst.busyHandleFlagArray.getD i false = true
      · rw [hflag]
        simp only [Bool.not_true, Bool.false_eq_true, if_false]
        rw [wrap64_of_lt (by omega)]
        rcases ih (i + 1) (by omega) with ⟨h0, hall⟩ | ⟨h1, h2, h3, h4⟩
        · left
          refine ⟨h0, fun j hj1 hj2 => ?_⟩
          by_cases hji : j = i
          · rw [hji]; exact hflag
          · exact hall j (by omega) hj2
        · right
          refine ⟨by omega, h2, h3, fun j hj1 hj2 => ?_⟩
          by_cases hji : j = i
          · rw [hji]; exact hflag
          · exact h4 j (by omega) hj2
      · have hf : nst.busyHandleFlagArray.getD i false = false := by
          cases h : nst.busyHandleFlagArray.getD i false
          · rfl
          · exact absurd h hflag
        rw [hf]
        simp only [Bool.not_false, if_true]
        right
        exact ⟨Nat.le_refl _, hlt, hf, fun j h1 h2 => by omega⟩
    · rw [if_neg hlt]
      left
      exact ⟨rfl, fun j h1 h2 => by omega⟩

theorem findFreeHandle_spec (nst : NetworkState) (hN : nst.easyHandleCount < 2 ^ 64) :
    (findFreeHandle nst = 0 ∧
      ∀ j, 1 ≤ j → j < nst.easyHandleCount → nst.busyHandleFlagArray.getD j false = true) ∨
    (1 ≤ findFreeHandle nst ∧ findFreeHandle nst < nst.easyHandleCount ∧
      nst.busyHandleFlagArray.getD (findFreeHandle nst) false = false ∧
      ∀ j, 1 ≤ j → j < findFreeHandle nst →
        nst.busyHandleFlagArray.getD j false = true) :=
  findFreeHandleLoop_spec nst hN nst.easyHandleCount 1 (by omega)

theorem findFreeHandleLoop_congr (a b : NetworkState)
    (hc : a.easyHandleCount = b.easyHandleCount)
    (hf : ∀ j, 1 ≤ j → a.busyHandleFlagArray.getD j false = b.busyHandleFlagArray.getD j false)
    (hN : a.easyHandleCount < 2 ^ 64) :
    ∀ (n i : Nat), 1 ≤ i → findFreeHandleLoop a n i = findFreeHandleLoop b n i := by
  intro n
  induction n with
  | zero => intro i _; rfl
  | succ n ih =>
    intro i hi
    unfold findFreeHandleLoop
    rw [hc, hf i hi]
    by_cases hlt : i < b.easyHandleCount
    · rw [if_pos hlt, if_pos hlt, wrap64_of_lt (by omega), ih (i + 1) (by omega)]
    · rw [if_neg hlt, if_neg hlt]

theorem count_true_pos_of_getElem? {l : List Bool} {i : Nat} (h : l[i]? = some true) :
    0 < l.count true := by
  rw [List.count_pos_iff]
  exact List.getElem?_mem h

theorem count_true_lt_of_head_free {l : List Bool} (h : l[0]? = some false) :
    l.count true < l.length := by
  cases l with
  | nil => simp at h
  | cons b tl =>
    simp at h
    subst h
    simp only [List.length_cons]
    have := List.count_le_length true tl
    simp
    omega

theorem initNetworkState_inv : (initNetworkState NetworkState.zero).Inv := by
  refine ⟨rfl, ?_, ?_, ?_, ?_, ?_⟩
  · simp [initNetworkState]
  · simp [initNetworkState]
  · simp [initNetworkState, NetworkState.zero, List.count_replicate]
  · simp [initNetworkState, List.replicate_succ]
  · simp [initNetworkState, List.replicate_succ]

theorem NetworkState.Inv.busy_lt {nst : NetworkState} (h : nst.Inv) :
    nst.busyHandleCount < nst.easyHandleCount := by
  rw [h.busy_eq, ← h.flags_len]
  exact count_true_lt_of_head_free h.slot0_free

theorem NetworkState.Inv.slots_lt {nst : NetworkState} (h : nst.Inv) :
    nst.easyHandleCount < 2 ^ 64 := by
  rw [h.slots]
  decide

theorem configure_inv {nst : NetworkState} (h : nst.Inv) (i : Nat) (job : Job) (h1 : 1 ≤ i)
    (h2 : i < nst.easyHandleCount) (h3 : nst.busyHandleFlagArray.getD i false = false) :
    (configureEasyHandleAndAddToMulti nst i job).Inv := by
  have hlen : i < nst.busyHandleFlagArray.length := by rw [h.flags_len]; exact h2
  have hget : nst.busyHandleFlagArray[i] = false := by
    simpa [List.getD_eq_getElem?_getD, List.getElem?_eq_getElem hlen] using h3
  have hblt := h.busy_lt
  have hs := h.slots_lt
  refine ⟨h.slots, ?_, ?_, ?_, ?_, ?_⟩
  · simp [configureEasyHandleAndAddToMulti, h.flags_len]
  · simp [configureEasyHandleAndAddToMulti, h.jobs_len]
  · simp only [configureEasyHandleAndAddToMulti]
    rw [wrap64_of_lt (by omega), List.count_set _ _ _ _ hlen, hget, h.busy_eq]
    simp
  · simp only [configureEasyHandleAndAddToMulti]
    rw [List.getElem?_set_ne (by omega)]
    exact h.slot0_free
  · simp only [configureEasyHandleAndAddToMulti]
    rw [List.getElem?_set_ne (by omega)]
    exact h.slot0_job

theorem addRequest_inv {nst : NetworkState} (h : nst.Inv) (jq : JobQueue) (job : Job) :
    (addRequest nst jq job).1.Inv := by
  unfold addRequest
  by_cases hu : job.uri.length = 0
  · rw [if_pos hu]; exact h
  · rw [if_neg hu]
    simp only
    by_cases hz : findFreeHandle nst = 0
    · rw [if_neg (by simpa using hz)]; exact h
    · rw [if_pos hz]
      rcases findFreeHandle_spec nst h.slots_lt with ⟨h0, _⟩ | ⟨h1, h2, h3, _⟩
      · exact absurd h0 hz
      · exact configure_inv h _ job h1 h2 h3

theorem remove_inv {nst : NetworkState} (h : nst.Inv) (i : Nat)
    (hb : nst.busyHandleFlagArray[i]? = some true) :
    (removeEasyHandleFromMulti nst i).Inv := by
  have hlen : i < nst.busyHandleFlagArray.length := by
    by_contra hc
    rw [List.getElem?_eq_none (by omega)] at hb
    cases hb
  have hget : nst.busyHandleFlagArray[i] = true := by
    rw [List.getElem?_eq_getElem hlen] at hb
    exact Option.some.inj hb
  have hpos := count_true_pos_of_getElem? hb
  have hblt := h.busy_lt
  have hs := h.slots_lt
  have hi0 : i ≠ 0 := by
    intro hi
    rw [hi, h.slot0_free] at hb
    cases hb
  refine ⟨h.slots, ?_, h.jobs_len, ?_, ?_, h.slot0_job⟩
  · simp [removeEasyHandleFromMulti, h.flags_len]
  · simp only [removeEasyHandleFromMulti]
    rw [List.count_set _ _ _ _ hlen, hget, ← h.busy_eq]
    have hb1 : 1 ≤ nst.busyHandleCount := by rw [h.busy_eq]; exact hpos
    simp only [sub64]
    simp
    omega
  · simp only [removeEasyHandleFromMulti]
    rw [List.getElem?_set_ne hi0]
    exact h.slot0_free

theorem reachable_inv {s : NetworkState × JobQueue} (h : Reachable s) : s.1.Inv := by
  induction h with
  | init jq => exact initNetworkState_inv
  | add job _ ih => exact addRequest_inv ih _ job
  | release i _ hb ih => exact remove_inv ih i hb

/-! ### Claims about the request slots -/

/-- C8: in every scheduler state reached from the initial one by `addRequest`
calls and releases of busy slots, `busyHandleCount` is the number of set busy
flags, `busyHandleCount < easyHandleCount` (so the checks of
`configureEasyHandleAndAddToMulti` and `areAllHandlesBusy` hold), slot 0 is not
busy and `handleToJobMap[0]` is still the zero job. -/
theorem C8_slot_reservation_invariant (s : NetworkState × JobQueue) (h : Reachable s) :
    s.1.busyHandleCount = s.1.busyHandleFlagArray.count true ∧
    s.1.busyHandleCount < s.1.easyHandleCount ∧
    busyCountCheck s.1 = true ∧
    areAllHandlesBusyCheck s.1 = true ∧
    s.1.busyHandleFlagArray[0]? = some false ∧
    s.1.handleToJobMap[0]? = some Job.zero := by
  have hinv := reachable_inv h
  have hlt := hinv.busy_lt
  have hs := hinv.slots_lt
  refine ⟨hinv.busy_eq, hlt, ?_, ?_, hinv.slot0_free, hinv.slot0_job⟩
  · simp [busyCountCheck, hlt]
  · simp only [areAllHandlesBusyCheck, decide_eq_true_eq]
    rw [wrap64_of_lt (by omega)]
    omega

theorem C8_slot_reservation_invariant_witness :
    (addRequest (initNetworkState NetworkState.zero) sampleQueue (sampleJob 1)).1.busyHandleCount
      = (addRequest (initNetworkState NetworkState.zero) sampleQueue
          (sampleJob 1)).1.busyHandleFlagArray.count true ∧
    (addRequest (initNetworkState NetworkState.zero) sampleQueue (sampleJob 1)).1.busyHandleCount
      < (addRequest (initNetworkState NetworkState.zero) sampleQueue
          (sampleJob 1)).1.easyHandleCount ∧
    busyCountCheck
      (addRequest (initNetworkState NetworkState.zero) sampleQueue (sampleJob 1)).1 = true ∧
    areAllHandlesBusyCheck
      (addRequest (initNetworkState NetworkState.zero) sampleQueue (sampleJob 1)).1 = true ∧
    (addRequest (initNetworkState NetworkState.zero) sampleQueue
      (sampleJob 1)).1.busyHandleFlagArray[0]? = some false ∧
    (addRequest (initNetworkState NetworkState.zero) sampleQueue
      (sampleJob 1)).1.handleToJobMap[0]? = some Job.zero :=
  C8_slot_reservation_invariant _ (Reachable.add (sampleJob 1) (Reachable.init sampleQueue))

/-- C9: `findFreeHandle` returns the smallest index `i` with
`1 ≤ i < easyHandleCount` whose busy flag is clear, and returns 0 exactly when
no such slot is free, whatever the flag of slot 0; a non-zero result is never
a busy slot; `addRequest` binds the job to a non-zero result, enqueues it again
when the result is 0, and does nothing for a job without uri. -/
theorem C9_findFreeHandle_first_free (nst : NetworkState) (jq : JobQueue) (job : Job)
    (hlen : nst.busyHandleFlagArray.length = nst.easyHandleCount)
    (hN : nst.easyHandleCount < 2 ^ 64) :
    (findFreeHandle nst ≠ 0 →
      1 ≤ findFreeHandle nst ∧ findFreeHandle nst < nst.easyHandleCount ∧
      nst.busyHandleFlagArray[findFreeHandle nst]? = some false ∧
      ∀ j, 1 ≤ j → j < findFreeHandle nst → nst.busyHandleFlagArray[j]? = some true) ∧
    (findFreeHandle nst = 0 ↔
      ∀ j, 1 ≤ j → j < nst.easyHandleCount → nst.busyHandleFlagArray[j]? = some true) ∧
    (∀ b, findFreeHandle
        { nst with busyHandleFlagArray := nst.busyHandleFlagArray.set 0 b }
      = findFreeHandle nst) ∧
    (job.uri.length ≠ 0 → findFreeHandle nst ≠ 0 →
      addRequest nst jq job
        = (configureEasyHandleAndAddToMulti nst (findFreeHandle nst) job, jq)) ∧
    (job.uri.length ≠ 0 → findFreeHandle nst = 0 →
      addRequest nst jq job = (nst, enqueueJob jq job)) ∧
    (job.uri.length = 0 → addRequest nst jq job = (nst, jq)) := by
  have hget : ∀ j, j < nst.easyHandleCount → ∀ b,
      nst.busyHandleFlagArray.getD j false = b → nst.busyHandleFlagArray[j]? = some b := by
    intro j hj b hb
    have hj' : j < nst.busyHandleFlagArray.length := by omega
    rw [List.getD_eq_getElem?_getD, List.getElem?_eq_getElem hj'] at hb
    rw [List.getElem?_eq_getElem hj']
    simpa using hb
  refine ⟨?_, ?_, ?_, ?_, ?_, ?_⟩
  · intro hne
    rcases findFreeHandle_spec nst hN with ⟨h0, _⟩ | ⟨h1, h2, h3, h4⟩
    · exact absurd h0 hne
    · exact ⟨h1, h2, hget _ h2 _ h3, fun j hj1 hj2 => hget j (by omega) _ (h4 j hj1 hj2)⟩
  · constructor
    · intro hz
      rcases findFreeHandle_spec nst hN with ⟨_, hall⟩ | ⟨h1, _, _, _⟩
      · exact fun j hj1 hj2 => hget j hj2 _ (hall j hj1 hj2)
      · omega
    · intro hall
      rcases findFreeHandle_spec nst hN with ⟨h0, _⟩ | ⟨h1, h2, h3, _⟩
      · exact h0
      · have := hall _ h1 h2
        rw [hget _ h2 _ h3] at this
        cases this
  · intro b
    unfold findFreeHandle
    refine findFreeHandleLoop_congr
      { nst with busyHandleFlagArray := nst.busyHandleFlagArray.set 0 b } nst rfl ?_ hN
      nst.easyHandleCount 1 (Nat.le_refl 1)
    intro j hj
    simp only [List.getD_eq_getElem?_getD]
    rw [List.getElem?_set_ne (by omega)]
  · intro hu hne
    simp [addRequest, hu, hne]
  · intro hu hz
    simp [addRequest, hu, hz]
  · intro hu
    simp [addRequest, hu]

theorem C9_findFreeHandle_first_free_witness :
    findFreeHandle sampleSlots = 2 ∧
    ((findFreeHandle sampleSlots ≠ 0 →
      1 ≤ findFreeHandle sampleSlots ∧
      findFreeHandle sampleSlots < sampleSlots.easyHandleCount ∧
      sampleSlots.busyHandleFlagArray[findFreeHandle sampleSlots]? = some false ∧
      ∀ j, 1 ≤ j → j < findFreeHandle sampleSlots →
        sampleSlots.busyHandleFlagArray[j]? = some true) ∧
    (findFreeHandle sampleSlots = 0 ↔
      ∀ j, 1 ≤ j → j < sampleSlots.easyHandleCount →
        sampleSlots.busyHandleFlagArray[j]? = some true) ∧
    (∀ b, findFreeHandle
        { sampleSlots with busyHandleFlagArray := sampleSlots.busyHandleFlagArray.set 0 b }
      = findFreeHandle sampleSlots) ∧
    ((sampleJob 1).uri.length ≠ 0 → findFreeHandle sampleSlots ≠ 0 →
      addRequest sampleSlots sampleQueue (sampleJob 1)
        = (configureEasyHandleAndAddToMulti sampleSlots (findFreeHandle sampleSlots)
            (sampleJob 1), sampleQueue)) ∧
    ((sampleJob 1).uri.length ≠ 0 → findFreeHandle sampleSlots = 0 →
      addRequest sampleSlots sampleQueue (sampleJob 1)
        = (sampleSlots, enqueueJob sampleQueue (sampleJob 1))) ∧
    ((sampleJob 1).uri.length = 0 →
      addRequest sampleSlots sampleQueue (sampleJob 1) = (sampleSlots, sampleQueue))) :=
  ⟨by decide,
    C9_findFreeHandle_first_free sampleSlots sampleQueue (sampleJob 1) (by decide) (by decide)⟩

/-! ## Arena allocator: proofs -/

theorem sub64_of_le {a b : Nat} (h : b ≤ a) (ha : a < 2 ^ 64) : sub64 a b = a - b := by
  unfold sub64
  omega

theorem growMemoryArena_spec (pf : Platform) (a a1 : MemoryArena) (c : Nat)
    (h : growMemoryArena pf a c = some a1) :
    a1.data = a.data ∧ a1.count = a.count ∧ a1.maxCount = max c a.maxCount ∧
    a1.mem = a.mem ++ List.replicate (c - a.maxCount) NUL := by
  unfold growMemoryArena at h
  simp only at h
  split at h
  · split at h
    · cases h
    · cases h
      refine ⟨rfl, rfl, ?_, rfl⟩
      simp only
      split <;> omega
  · cases h

theorem pushToMemoryArena_spec (pf : Platform) (a a1 : MemoryArena) (n p : Nat)
    (h : pushToMemoryArena pf a n = some (p, a1)) (hwf : a.WF)
    (hno : a.count + n < 2 ^ 64) :
    p = a.data + a.count ∧ a1.count = a.count + n ∧ a1.data = a.data ∧ a1.WF ∧
    a.maxCount ≤ a1.maxCount ∧ a.mem <+: a1.mem := by
  have hcl := hwf.count_le
  have hml := hwf.max_lt
  have hlen := hwf.len
  have hw : wrap64 (a.count + n) = a.count + n := wrap64_of_lt hno
  unfold pushToMemoryArena at h
  simp only at h
  rw [sub64_of_le hcl hml, hw] at h
  by_cases hen : a.maxCount - a.count ≥ n
  · simp only [hen, decide_True, Bool.not_true, Bool.false_eq_true, if_false] at h
    cases h
    rw [hw]
    exact ⟨rfl, rfl, rfl, ⟨by simp only; omega, hml, hlen⟩, Nat.le_refl _, List.prefix_refl _⟩
  · simp only [hen, decide_False, Bool.not_false, if_true] at h
    split at h
    · cases h
    · rename_i a2 hg
      have hnew : (if wrap64 (2 * a.count) > a.count + n then wrap64 (2 * a.count)
          else a.count + n) < 2 ^ 64 := by
        split
        · exact Nat.mod_lt _ (by decide)
        · exact hno
      have hge : a.count + n ≤ (if wrap64 (2 * a.count) > a.count + n then wrap64 (2 * a.count)
          else a.count + n) := by
        split <;> omega
      obtain ⟨h1, h2, h3, h4⟩ := growMemoryArena_spec pf a a2 _ hg
      cases h
      rw [h2, hw]
      refine ⟨by rw [h1], rfl, h1, ⟨?_, ?_, ?_⟩, ?_, ?_⟩
      · simp only [h3]; omega
      · simp only [h3]; omega
      · simp only [h3, h4, List.length_append, List.length_replicate, hlen]; omega
      · simp only [h3]; omega
      · simp only [h4]; exact List.prefix_append _ _

theorem regionsFrom_disjoint (start : Nat) (ns : List Nat) :
    (regionsFrom start ns).Pairwise (fun r s => r.1 + r.2 ≤ s.1) ∧
    ∀ r ∈ regionsFrom start ns, start ≤ r.1 := by
  induction ns generalizing start with
  | nil => simp [regionsFrom]
  | cons n ns ih =>
    obtain ⟨h1, h2⟩ := ih (start + n)
    refine ⟨?_, ?_⟩
    · simp only [regionsFrom, List.pairwise_cons]
      exact ⟨fun s hs => h2 s hs, h1⟩
    · intro r hr
      simp only [regionsFrom, List.mem_cons] at hr
      rcases hr with rfl | hr
      · exact Nat.le_refl _
      · have := h2 r hr
        omega

theorem pushAll_spec :
    ∀ (calls : List (Platform × Nat)) (a a1 : MemoryArena) (regions : List (Nat × Nat)),
      pushAll a calls = some (regions, a1) → a.WF →
      a.count + (calls.map Prod.snd).sum < 2 ^ 64 →
      regions = regionsFrom (a.data + a.count) (calls.map Prod.snd) ∧
      a1.count = a.count + (calls.map Prod.snd).sum ∧ a1.data = a.data ∧ a1.WF ∧
      a.mem <+: a1.mem := by
  intro calls
  induction calls with
  | nil =>
    intro a a1 regions h hwf _
    simp only [pushAll, Option.some.injEq, Prod.mk.injEq] at h
    obtain ⟨rfl, rfl⟩ := h
    exact ⟨rfl, by simp, rfl, hwf, List.prefix_refl _⟩
  | cons c calls ih =>
    intro a a1 regions h hwf hsum
    obtain ⟨pf, n⟩ := c
    simp only [List.map_cons, List.sum_cons] at hsum
    simp only [pushAll] at h
    split at h
    · cases h
    · rename_i p a2 hp
      split at h
      · cases h
      · rename_i rs a3 hr
        simp only [Option.some.injEq, Prod.mk.injEq] at h
        obtain ⟨rfl, rfl⟩ := h
        obtain ⟨e1, e2, e3, e4, _, e6⟩ := pushToMemoryArena_spec pf a a2 n p hp hwf (by omega)
        obtain ⟨f1, f2, f3, f4, f5⟩ := ih a2 a3 rs hr e4 (by rw [e2]; omega)
        refine ⟨?_, ?_, ?_, f4, List.IsPrefix.trans e6 f5⟩
        · simp only [List.map_cons, regionsFrom]
          rw [f1, e1, e2, e3, Nat.add_assoc]
        · simp only [List.map_cons, List.sum_cons]
          rw [f2, e2, Nat.add_assoc]
        · rw [f3, e3]

/-! ### Claims about the arena -/

/-- C10 (as stated, at a concrete input): the calls `pushToMemoryArena(2)`,
`pushToMemoryArena(2^64 - 1)`, `pushToMemoryArena(1)` on an empty arena with
four committed bytes all succeed; the sum `count + n` of the second call wraps,
so `count` falls from 2 to 1 and the third region starts inside the first. -/
theorem C10_wrapping_request_overlaps :
    ∃ a1 : MemoryArena,
      pushAll sampleArena
          [(samplePlatform, 2), (samplePlatform, 2 ^ 64 - 1), (samplePlatform, 1)]
        = some ([(4096, 2), (4098, 2 ^ 64 - 1), (4097, 1)], a1) ∧
      a1.count = 2 ∧
      ¬ [(4096, 2), (4098, 2 ^ 64 - 1), (4097, 1)].Pairwise
          (fun r s : Nat × Nat => r.1 + r.2 ≤ s.1) :=
  ⟨{ data := 4096, count := 2, maxCount := 4, mem := [NUL, NUL, NUL, NUL] },
    by decide, by decide, by decide⟩

/-- C10 (amended): for every sequence of successful `pushToMemoryArena` calls
with no pop or clear in between in which `count` plus the requested sizes stays
below `2^64`, each call returns the region that starts at the previous `count`
from the base, `count` advances by the requested sizes, the base pointer and
every committed byte keep their value (also when a call grows the commitment),
and the regions handed out are pairwise disjoint. -/
theorem C10_pushes_are_stable (a a1 : MemoryArena) (calls : List (Platform × Nat))
    (regions : List (Nat × Nat)) (hwf : a.WF)
    (hsum : a.count + (calls.map Prod.snd).sum < 2 ^ 64)
    (h : pushAll a calls = some (regions, a1)) :
    regions = regionsFrom (a.data + a.count) (calls.map Prod.snd) ∧
    a1.count = a.count + (calls.map Prod.snd).sum ∧
    a1.data = a.data ∧
    a.mem <+: a1.mem ∧
    (∀ i, i < a.maxCount → a1.mem[i]? = a.mem[i]?) ∧
    regions.Pairwise (fun r s => r.1 + r.2 ≤ s.1) := by
  obtain ⟨h1, h2, h3, _, h5⟩ := pushAll_spec calls a a1 regions h hwf hsum
  refine ⟨h1, h2, h3, h5, ?_, ?_⟩
  · intro i hi
    obtain ⟨t, ht⟩ := h5
    rw [← ht, List.getElem?_append_left (by rw [hwf.len]; exact hi)]
  · rw [h1]
    exact (regionsFrom_disjoint _ _).1

theorem C10_pushes_are_stable_witness :
    [(4096, 2), (4098, 5), (4103, 1)]
      = regionsFrom (sampleArena.data + sampleArena.count)
          ([(samplePlatform, 2), (samplePlatform, 5), (samplePlatform, 1)].map Prod.snd) ∧
    (8 : Nat) = sampleArena.count
      + ([(samplePlatform, 2), (samplePlatform, 5), (samplePlatform, 1)].map Prod.snd).sum ∧
    (4096 : Nat) = sampleArena.data ∧
    sampleArena.mem <+: List.replicate 14 NUL ∧
    (∀ i, i < sampleArena.maxCount → (List.replicate 14 NUL)[i]? = sampleArena.mem[i]?) ∧
    [(4096, 2), (4098, 5), (4103, 1)].Pairwise (fun r s : Nat × Nat => r.1 + r.2 ≤ s.1) :=
  C10_pushes_are_stable sampleArena
    { data := 4096, count := 8, maxCount := 14, mem := List.replicate 14 NUL }
    [(samplePlatform, 2), (samplePlatform, 5), (samplePlatform, 1)]
    [(4096, 2), (4098, 5), (4103, 1)]
    ⟨by decide, by decide, by decide⟩ (by decide) (by decide)

/-! ## Job processor: proofs -/

theorem enqueuePagesLoop_eq (newJob : Nat → Job) (pc : Nat) (hpc : pc < 2 ^ 64) :
    ∀ (n i : Nat) (jq : JobQueue), pc ≤ i + n →
      enqueuePagesLoop newJob pc n i jq
        = ((List.range' i (pc - i)).map newJob).foldl enqueueJob jq := by
  intro n
  induction n with
  | zero =>
    intro i jq h
    have : pc - i = 0 := by omega
    simp [enqueuePagesLoop, this]
  | succ n ih =>
    intro i jq h
    unfold enqueuePagesLoop
    by_cases hlt : i < pc
    · rw [if_pos hlt, wrap64_of_lt (by omega), ih (i + 1) _ (by omega)]
      have : pc - i = (pc - (i + 1)) + 1 := by omega
      rw [this, List.range'_succ]
      simp
    · rw [if_neg hlt]
      have : pc - i = 0 := by omega
      simp [this]

theorem pageCount_eq_of_no_wrap {T L : Nat} (hL : 0 < L) (hsum : T + L - 1 < 2 ^ 64) :
    pageCount T L = (T + L - 1) / L := by
  unfold pageCount
  rw [if_pos (by omega), wrap64_of_lt hsum]

theorem pageCount_ceil {T L : Nat} (hL : 0 < L) (hsum : T + L - 1 < 2 ^ 64) :
    T ≤ L * pageCount T L ∧ L * pageCount T L < T + L := by
  rw [pageCount_eq_of_no_wrap hL hsum]
  have h1 := Nat.div_add_mod (T + L - 1) L
  have h2 := Nat.mod_lt (T + L - 1) hL
  constructor <;> omega

theorem pageCount_lt (T L : Nat) : pageCount T L < 2 ^ 64 := by
  unfold pageCount
  split
  · exact Nat.lt_of_le_of_lt (Nat.div_le_self _ _) (Nat.mod_lt _ (by decide))
  · decide

theorem page_offset_lt {T L i : Nat} (hL : 0 < L) (hsum : T + L - 1 < 2 ^ 64)
    (hi : i < pageCount T L) : L * i < T := by
  have h := (pageCount_ceil hL hsum).2
  have h1 : L * (i + 1) ≤ L * pageCount T L := Nat.mul_le_mul_left L hi
  rw [Nat.mul_add, Nat.mul_one] at h1
  omega

/-! ### The copy functions and their checks -/

theorem escapeLoop_eq : ∀ (buf : Buffer),
    escapeLoop buf = buf.flatMap fun ch => if ch = '"' then ['"', '"'] else [ch]
  | [] => rfl
  | ch :: rest => by
    rw [escapeLoop, escapeLoop_eq rest, List.flatMap_cons]
    by_cases h : ch = '"'
    · rw [if_pos h, if_pos h, h]
      rfl
    · rw [if_neg h, if_neg h]
      rfl

/-- The count that `copyStringAndEscapeCommas` allocates is the number of
bytes that its loop writes. -/
theorem escapeLoop_length : ∀ (buf : Buffer),
    (escapeLoop buf).length = buf.length + buf.count '"'
  | [] => rfl
  | ch :: rest => by
    rw [escapeLoop]
    by_cases h : ch = '"'
    · rw [if_pos h, h, List.count_cons_self]
      simp only [List.length_cons, escapeLoop_length rest]
      omega
    · rw [if_neg h, List.count_cons_of_ne (fun e => h e.symm)]
      simp only [List.length_cons, escapeLoop_length rest]
      omega

theorem check_passes (useChecks : Bool) (element : json_Element) (fieldName : Buffer)
    (h : useChecks = true → stringOrAbsent element fieldName = true) :
    (useChecks && !isStringOrInvalid (json_getElement element (some fieldName))) = false := by
  cases useChecks
  · rfl
  · have h1 : isStringOrInvalid (json_getElement element (some fieldName)) = true := h rfl
    rw [h1]
    rfl

theorem copyString_eq (useChecks : Bool) (element : json_Element) (fieldName : Buffer)
    (h : useChecks = true → stringOrAbsent element fieldName = true) :
    copyString useChecks element fieldName =
      some (if (json_getElement element (some fieldName)).type ≠ .json_INVALID_ELEMENT then
        (json_getElement element (some fieldName)).value else []) := by
  unfold copyString
  simp only [check_passes useChecks element fieldName h, Bool.false_eq_true, if_false]
  rfl

theorem copyString_name (useChecks : Bool) (playlistJson : json_Element)
    (h : useChecks = true → stringOrAbsent playlistJson (CS "name") = true) :
    copyString useChecks playlistJson (CS "name") = some (playlistNameOf playlistJson) := by
  rw [copyString_eq useChecks playlistJson (CS "name") h]
  unfold playlistNameOf
  simp only
  by_cases hv : (json_getElement playlistJson (some (CS "name"))).type = .json_INVALID_ELEMENT
  · rw [if_neg (by simpa using hv), if_pos hv]
  · rw [if_pos hv, if_neg hv]

theorem copyStringAndEscapeCommas_eq (useChecks : Bool) (element : json_Element)
    (fieldName : Buffer) (h : useChecks = true → stringOrAbsent element fieldName = true) :
    copyStringAndEscapeCommas useChecks element fieldName =
      some (escapedField element fieldName) := by
  unfold copyStringAndEscapeCommas escapedField
  simp only [check_passes useChecks element fieldName h, Bool.false_eq_true, if_false,
    escapeLoop_eq]

theorem json_getArrayCountLoop_mod : ∀ (children : List json_Element) (count : Nat),
    json_getArrayCountLoop children count % 2 ^ 64 = (count + children.length) % 2 ^ 64 := by
  intro children
  induction children with
  | nil => intro count; rfl
  | cons child rest ih =>
    intro count
    rw [json_getArrayCountLoop, ih, wrap64, List.length_cons, Nat.mod_add_mod]
    congr 1
    omega

theorem json_getArrayCountLoop_lt : ∀ (children : List json_Element) (count : Nat),
    count < 2 ^ 64 → json_getArrayCountLoop children count < 2 ^ 64 := by
  intro children
  induction children with
  | nil => intro count h; exact h
  | cons child rest ih =>
    intro count _
    rw [json_getArrayCountLoop]
    exact ih _ (Nat.mod_lt _ (by decide))

theorem json_getArrayCount_array (array : json_Element) (h : array.type = .json_ARRAY) :
    json_getArrayCount array = array.children.length % 2 ^ 64 := by
  unfold json_getArrayCount
  rw [if_pos h, ← Nat.mod_eq_of_lt (json_getArrayCountLoop_lt array.children 0 (by decide)),
    json_getArrayCountLoop_mod, Nat.zero_add]

theorem readArtistsLoop_eq (useChecks : Bool) (artistCount : Nat) :
    ∀ (artists : List json_Element) (artistIndex : Nat),
      (useChecks = true → artistIndex + artists.length ≤ artistCount ∧ artistCount < 2 ^ 64 ∧
        ∀ artist ∈ artists, stringOrAbsent artist (CS "name") = true) →
      readArtistsLoop useChecks artistCount artists artistIndex =
        some (artists.map fun artist => escapedField artist (CS "name")) := by
  intro artists
  induction artists with
  | nil => intros; rfl
  | cons artist rest ih =>
    intro artistIndex h
    have hidx : (useChecks && !decide (artistIndex < artistCount)) = false := by
      cases useChecks
      · rfl
      · have := (h rfl).1
        simp only [List.length_cons] at this
        simp only [Bool.true_and, Bool.not_eq_false', decide_eq_true_eq]
        omega
    rw [readArtistsLoop, hidx]
    simp only [Bool.false_eq_true, if_false]
    rw [copyStringAndEscapeCommas_eq useChecks artist (CS "name")
      (fun hc => (h hc).2.2 artist (List.mem_cons_self _ _))]
    simp only
    rw [ih (wrap64 (artistIndex + 1)) (fun hc => by
      obtain ⟨h1, h2, h3⟩ := h hc
      simp only [List.length_cons] at h1
      rw [wrap64_of_lt (by omega)]
      exact ⟨by omega, h2, fun a ha => h3 a (List.mem_cons_of_mem _ ha)⟩)]
    rfl

/-- The track that the loop of `readTracksAndCopyToFileIfDone` builds from an
item is the record of the item; a build with the checks compiled in gets
there when the copied fields of the item pass the checks. -/
theorem readTrack_eq (useChecks : Bool) (numberToU64 : json_Element → Nat) (item : json_Element)
    (h : useChecks = true → itemChecked item = true) :
    readTrack useChecks numberToU64 item (json_getElement item (some (CS "track"))) =
      some (trackOfItem numberToU64 item) := by
  have hname : useChecks = true →
      stringOrAbsent (json_getElement item (some (CS "track"))) (CS "name") = true := by
    intro hc
    have := h hc
    unfold itemChecked at this
    simp only [Bool.and_eq_true] at this
    exact this.1.1.1
  have halbum : useChecks = true →
      stringOrAbsent (json_getElement (json_getElement item (some (CS "track")))
        (some (CS "album"))) (CS "name") = true := by
    intro hc
    have := h hc
    unfold itemChecked at this
    simp only [Bool.and_eq_true] at this
    exact this.1.1.2
  have hdate : useChecks = true → stringOrAbsent item (CS "added_at") = true := by
    intro hc
    have := h hc
    unfold itemChecked at this
    simp only [Bool.and_eq_true] at this
    exact this.1.2
  unfold readTrack trackOfItem
  rw [copyStringAndEscapeCommas_eq useChecks _ _ hname]
  simp only
  rw [copyStringAndEscapeCommas_eq useChecks _ _ halbum,
    copyStringAndEscapeCommas_eq useChecks _ _ hdate]
  simp only
  by_cases harr : (json_getElement (json_getElement item (some (CS "track")))
      (some (CS "artists"))).type = .json_ARRAY
  · have hcount := json_getArrayCount_array _ harr
    rw [if_pos harr, if_pos harr, if_pos harr,
      readArtistsLoop_eq useChecks _ _ 0 (fun hc => by
        have := h hc
        unfold itemChecked at this
        simp only [Bool.and_eq_true, Bool.or_eq_true, decide_eq_true_eq, List.all_eq_true]
          at this
        rcases this.2 with h1 | ⟨h1, h2⟩
        · exact absurd harr h1
        · rw [hcount, Nat.mod_eq_of_lt h1]
          exact ⟨by omega, h1, h2⟩)]
    simp only [hcount]
  · rw [if_neg harr, if_neg harr, if_neg harr]

theorem itemChecked_of_page {useChecks : Bool} {page : json_Element}
    (h : useChecks = true → pageChecked page = true) :
    ∀ item ∈ pageItems page, useChecks = true → itemChecked item = true := by
  intro item hitem hc
  have := h hc
  unfold pageChecked at this
  rw [List.all_eq_true] at this
  exact this item hitem

theorem readTracks_jq (useChecks : Bool) (numberToU64 : json_Element → Nat) (st st1 : ProcState)
    (playlistIndex : Nat) (tracksJson : json_Element) (trackOffset : Nat)
    (h : readTracksAndCopyToFileIfDone useChecks numberToU64 st playlistIndex tracksJson
      trackOffset = some st1) : st1.jq = st.jq := by
  unfold readTracksAndCopyToFileIfDone at h
  simp only at h
  split at h
  · cases h
  · split at h
    · cases h
    · split at h
      · split at h
        · cases h
        · cases h; rfl
      · cases h; rfl

theorem printWarning_jq (useChecks : Bool) (st st1 : ProcState)
    (h : printWarning useChecks st = some st1) : st1.jq = st.jq := by
  unfold printWarning at h
  split at h
  · cases h
  · cases h; rfl

theorem processJob_playlistHeader_jq (useChecks : Bool) (numberToU64 : json_Element → Nat)
    (st st1 : ProcState) (job : Job) (hty : job.type = .Job_playlistHeader)
    (hvalid : job.json.type ≠ .json_INVALID_ELEMENT)
    (h : processJob useChecks numberToU64 st job = some st1) :
    st1.jq =
      ((List.range' 1
          (pageCount
            (numberToU64 (json_getElement (json_getElement job.json (some (CS "tracks")))
              (some (CS "total"))))
            (numberToU64 (json_getElement (json_getElement job.json (some (CS "tracks")))
              (some (CS "limit")))) - 1)).map
        (trackListPageJob job
          (json_getElement (json_getElement job.json (some (CS "tracks"))) (some (CS "limit")))
          (numberToU64 (json_getElement (json_getElement job.json (some (CS "tracks")))
            (some (CS "limit")))))).foldl enqueueJob st.jq := by
  unfold processJob at h
  rw [hty] at h
  simp only [if_neg hvalid] at h
  split at h
  · cases h
  · split at h
    · cases h
    · rename_i st2 hw
      have hjq : st2.jq = st.jq := by
        split at hw
        · exact printWarning_jq _ _ _ hw
        · cases hw; rfl
      split at h
      · cases h
      · have := readTracks_jq _ _ _ _ _ _ _ h
        rw [this]
        simp only
        rw [enqueuePagesLoop_eq _ _ (pageCount_lt _ _) _ _ _ (by omega), hjq]

theorem processJob_playlistListHeader_jq (useChecks : Bool) (numberToU64 : json_Element → Nat)
    (st st1 : ProcState) (job : Job) (hty : job.type = .Job_playlistListHeader)
    (h : processJob useChecks numberToU64 st job = some st1) :
    readPlaylistIdsLoop useChecks
        { data := List.replicate (numberToU64 (json_getElement job.json (some (CS "total"))))
            Playlist.zero
          count := numberToU64 (json_getElement job.json (some (CS "total"))) }
        (pageItems job.json) job.offset
        (((List.range' 1
          (pageCount (numberToU64 (json_getElement job.json (some (CS "total"))))
            (numberToU64 (json_getElement job.json (some (CS "limit")))) - 1)).map
          (playlistListPageJob job (json_getElement job.json (some (CS "limit")))
            (numberToU64 (json_getElement job.json (some (CS "limit")))))).foldl
          enqueueJob st.jq)
      = some st1.jq := by
  unfold processJob at h
  rw [hty] at h
  simp only at h
  split at h
  · cases h
  · split at h
    · cases h
    · split at h
      · cases h
      · unfold readPlaylistIdsAndQueueJobs at h
        simp only at h
        rw [enqueuePagesLoop_eq _ _ (pageCount_lt _ _) _ _ _ (by omega)] at h
        split at h
        · cases h
        · rename_i jq2 hjq
          cases h
          exact hjq

theorem readTracksLoop_isSome (numberToU64 : json_Element → Nat) :
    ∀ (items : List json_Element) (trackIndex : Nat) (playlist : Playlist) (warnings : Nat),
      (readTracksLoop false numberToU64 items trackIndex playlist warnings).isSome = true := by
  intro items
  induction items with
  | nil => intros; rfl
  | cons item rest ih =>
    intro trackIndex playlist warnings
    unfold readTracksLoop
    simp only
    split
    · simp only [Bool.false_eq_true, if_false]
      exact ih _ _ _
    · rw [readTrack_eq false numberToU64 item (fun h => Bool.noConfusion h)]
      exact ih _ _ _

theorem readTracks_isSome (numberToU64 : json_Element → Nat) (st : ProcState)
    (playlistIndex : Nat) (tracksJson : json_Element) (trackOffset : Nat) :
    (readTracksAndCopyToFileIfDone false numberToU64 st playlistIndex tracksJson
      trackOffset).isSome = true := by
  unfold readTracksAndCopyToFileIfDone
  simp only [Bool.false_and, Bool.false_eq_true, if_false]
  have h := readTracksLoop_isSome numberToU64
    (json_getElement tracksJson (some (CS "items"))).children trackOffset
    (st.playlistArray.data.getD playlistIndex Playlist.zero) st.warnings
  split
  · rename_i heq
    rw [heq] at h
    cases h
  · split <;> rfl

theorem readPlaylistIdsLoop_isSome (playlistArray : PlaylistArray) :
    ∀ (items : List json_Element) (playlistIndex : Nat) (jq : JobQueue),
      (readPlaylistIdsLoop false playlistArray items playlistIndex jq).isSome = true := by
  intro items
  induction items with
  | nil => intros; rfl
  | cons item rest ih =>
    intro playlistIndex jq
    unfold readPlaylistIdsLoop
    rw [copyString_eq false item (CS "id") (fun h => Bool.noConfusion h)]
    simp only [Bool.false_and, Bool.false_eq_true, if_false]
    exact ih _ _

theorem processJob_header_isSome (numberToU64 : json_Element → Nat) (st : ProcState) (job : Job)
    (hvalid : job.json.type ≠ .json_INVALID_ELEMENT)
    (hty : job.type = .Job_playlistHeader ∨
      (job.type = .Job_playlistListHeader ∧
        (json_getElement job.json (some (CS "items"))).type = .json_ARRAY)) :
    (processJob false numberToU64 st job).isSome = true := by
  unfold processJob
  rcases hty with hty | ⟨hty, hitems⟩
  · rw [hty]
    simp only [if_neg hvalid, Bool.false_and, Bool.false_eq_true, if_false]
    rw [copyString_name false job.json (fun h => Bool.noConfusion h)]
    simp only
    split
    · rename_i hw
      split at hw
      · simp [printWarning] at hw
      · cases hw
    · exact readTracks_isSome _ _ _ _ _
  · rw [hty]
    simp only [if_neg hvalid, Bool.false_and, Bool.false_eq_true, if_false, hitems,
      ne_eq, not_true_eq_false]
    unfold readPlaylistIdsAndQueueJobs
    simp only
    split
    · rename_i heq
      have h := readPlaylistIdsLoop_isSome
        { data := List.replicate (numberToU64 (json_getElement job.json (some (CS "total"))))
            Playlist.zero
          count := numberToU64 (json_getElement job.json (some (CS "total"))) }
        (json_getElement job.json (some (CS "items"))).children job.offset
        (enqueuePagesLoop
          (playlistListPageJob job (json_getElement job.json (some (CS "limit")))
            (numberToU64 (json_getElement job.json (some (CS "limit")))))
          (pageCount (numberToU64 (json_getElement job.json (some (CS "total"))))
            (numberToU64 (json_getElement job.json (some (CS "limit")))))
          (pageCount (numberToU64 (json_getElement job.json (some (CS "total"))))
            (numberToU64 (json_getElement job.json (some (CS "limit")))))
          1 st.jq)
      rw [heq] at h
      cases h
    · rfl

/-! ### Claims about pagination -/

/-- C7 (as stated, at a concrete input): for a playlist response with
`total = 3 * 2^62` and `limit = 2^62 + 1024` the sum `total + limit - 1` wraps
in `u64`, the page count comes out as 0 although three pages are needed to
cover `total`, and the header job enqueues no follow-up job although the
offsets `limit` and `2 * limit` lie below `total`. -/
theorem C7_page_count_wraps :
    decimalToU64 (jsonNumber "total" "13835058055282163712") = 3 * 2 ^ 62 ∧
    decimalToU64 (jsonNumber "limit" "4611686018427388928") = 2 ^ 62 + 1024 ∧
    pageCount (3 * 2 ^ 62) (2 ^ 62 + 1024) = 0 ∧
    ¬ 3 * 2 ^ 62 ≤ (2 ^ 62 + 1024) * pageCount (3 * 2 ^ 62) (2 ^ 62 + 1024) ∧
    (2 ^ 62 + 1024) * 1 < 3 * 2 ^ 62 ∧
    (2 ^ 62 + 1024) * 2 < 3 * 2 ^ 62 ∧
    (processJob false decimalToU64 sampleProcState
        (sampleHeaderJob
          (samplePlaylist "13835058055282163712" "4611686018427388928" []))).map
      (fun s => s.jq) = some sampleProcState.jq := by
  decide

/-- C7 (amended): let `total = T` and `limit = L` be the numbers of the response
of a header job, read from the response itself for `Job_playlistListHeader` and
from its `tracks` member for `Job_playlistHeader`, and let `T + L - 1` fit in
a `u64`.  Then `pageCount` is 0 for `L = 0` and the ceiling of `T / L`
otherwise; the job built for a page index between 1 and `pageCount - 1` has
the offset `L * pageIndex`, which is below `T`, the page kind of its header
and, for track pages, the header's `playlistIndex`; and `processJob` enqueues
exactly these jobs, one for each page index from 1 to `pageCount - 1` in
increasing order (for the list header before the playlist jobs of the first
page).  Without checks `processJob` does return for such a job. -/
theorem C7_header_schedules_remaining_pages (useChecks : Bool)
    (numberToU64 : json_Element → Nat) (st : ProcState) (job : Job) (info : json_Element)
    (T L : Nat)
    (hinfo : (job.type = .Job_playlistListHeader ∧ info = job.json) ∨
      (job.type = .Job_playlistHeader ∧ info = json_getElement job.json (some (CS "tracks"))))
    (hvalid : job.json.type ≠ .json_INVALID_ELEMENT)
    (hT : numberToU64 (json_getElement info (some (CS "total"))) = T)
    (hL : numberToU64 (json_getElement info (some (CS "limit"))) = L)
    (hsum : T + L - 1 < 2 ^ 64) :
    (L = 0 → pageCount T L = 0) ∧
    (0 < L → T ≤ L * pageCount T L ∧ L * pageCount T L < T + L) ∧
    (∀ i, 1 ≤ i → i < pageCount T L →
      L * i < T ∧
      (trackListPageJob job (json_getElement info (some (CS "limit"))) L i).offset = L * i ∧
      (trackListPageJob job (json_getElement info (some (CS "limit"))) L i).type
        = .Job_trackList ∧
      (trackListPageJob job (json_getElement info (some (CS "limit"))) L i).playlistIndex
        = job.playlistIndex ∧
      (playlistListPageJob job (json_getElement info (some (CS "limit"))) L i).offset
        = L * i ∧
      (playlistListPageJob job (json_getElement info (some (CS "limit"))) L i).type
        = .Job_playlistList) ∧
    (job.type = .Job_playlistHeader →
      ∀ st1, processJob useChecks numberToU64 st job = some st1 →
        st1.jq = ((List.range' 1 (pageCount T L - 1)).map
          (trackListPageJob job (json_getElement info (some (CS "limit"))) L)).foldl
            enqueueJob st.jq) ∧
    (job.type = .Job_playlistListHeader →
      ∀ st1, processJob useChecks numberToU64 st job = some st1 →
        readPlaylistIdsLoop useChecks { data := List.replicate T Playlist.zero, count := T }
          (pageItems job.json) job.offset
          (((List.range' 1 (pageCount T L - 1)).map
            (playlistListPageJob job (json_getElement info (some (CS "limit"))) L)).foldl
              enqueueJob st.jq)
          = some st1.jq) ∧
    (job.type = .Job_playlistHeader ∨
        (json_getElement job.json (some (CS "items"))).type = .json_ARRAY →
      (processJob false numberToU64 st job).isSome = true) := by
  refine ⟨?_, ?_, ?_, ?_, ?_, ?_⟩
  · intro h0
    simp [pageCount, h0]
  · intro hpos
    exact pageCount_ceil hpos hsum
  · intro i h1 hi
    have hpos : 0 < L := by
      by_contra hc
      have h0 : L = 0 := by omega
      simp [pageCount, h0] at hi
    have hlt := page_offset_lt hpos hsum hi
    have hw : wrap64 (L * i) = L * i := wrap64_of_lt (by omega)
    exact ⟨hlt, by simp [trackListPageJob, hw], rfl, rfl, by simp [playlistListPageJob, hw], rfl⟩
  · intro hty st1 h
    rcases hinfo with ⟨hty2, _⟩ | ⟨_, hinfo⟩
    · rw [hty] at hty2; cases hty2
    · have := processJob_playlistHeader_jq useChecks numberToU64 st st1 job hty hvalid h
      rw [← hinfo, hT, hL] at this
      exact this
  · intro hty st1 h
    rcases hinfo with ⟨_, hinfo⟩ | ⟨hty2, _⟩
    · subst hinfo
      have := processJob_playlistListHeader_jq useChecks numberToU64 st st1 job hty h
      rw [hT, hL] at this
      exact this
    · rw [hty] at hty2; cases hty2
  · intro h
    apply processJob_header_isSome numberToU64 st job hvalid
    rcases h with h | h
    · exact Or.inl h
    · rcases hinfo with ⟨hty, _⟩ | ⟨hty, _⟩
      · exact Or.inr ⟨hty, h⟩
      · exact Or.inl hty

theorem C7_header_schedules_remaining_pages_witness :
    ((List.range' 1 (pageCount 55 20 - 1)).map
        (fun i => (trackListPageJob (sampleHeaderJob (samplePlaylist "55" "20" []))
          (jsonNumber "limit" "20") 20 i).offset) = [20, 40]) ∧
    ((20 = 0 → pageCount 55 20 = 0) ∧
    (0 < 20 → 55 ≤ 20 * pageCount 55 20 ∧ 20 * pageCount 55 20 < 55 + 20) ∧
    (∀ i, 1 ≤ i → i < pageCount 55 20 →
      20 * i < 55 ∧
      (trackListPageJob (sampleHeaderJob (samplePlaylist "55" "20" []))
        (json_getElement (jsonObject "tracks" [jsonNumber "total" "55",
          jsonNumber "limit" "20", jsonArray "items" []]) (some (CS "limit"))) 20 i).offset
        = 20 * i ∧
      (trackListPageJob (sampleHeaderJob (samplePlaylist "55" "20" []))
        (json_getElement (jsonObject "tracks" [jsonNumber "total" "55",
          jsonNumber "limit" "20", jsonArray "items" []]) (some (CS "limit"))) 20 i).type
        = .Job_trackList ∧
      (trackListPageJob (sampleHeaderJob (samplePlaylist "55" "20" []))
        (json_getElement (jsonObject "tracks" [jsonNumber "total" "55",
          jsonNumber "limit" "20", jsonArray "items" []]) (some (CS "limit"))) 20
        i).playlistIndex
        = (sampleHeaderJob (samplePlaylist "55" "20" [])).playlistIndex ∧
      (playlistListPageJob (sampleHeaderJob (samplePlaylist "55" "20" []))
        (json_getElement (jsonObject "tracks" [jsonNumber "total" "55",
          jsonNumber "limit" "20", jsonArray "items" []]) (some (CS "limit"))) 20 i).offset
        = 20 * i ∧
      (playlistListPageJob (sampleHeaderJob (samplePlaylist "55" "20" []))
        (json_getElement (jsonObject "tracks" [jsonNumber "total" "55",
          jsonNumber "limit" "20", jsonArray "items" []]) (some (CS "limit"))) 20 i).type
        = .Job_playlistList) ∧
    ((sampleHeaderJob (samplePlaylist "55" "20" [])).type = .Job_playlistHeader →
      ∀ st1, processJob false decimalToU64 sampleProcState
          (sampleHeaderJob (samplePlaylist "55" "20" [])) = some st1 →
        st1.jq = ((List.range' 1 (pageCount 55 20 - 1)).map
          (trackListPageJob (sampleHeaderJob (samplePlaylist "55" "20" []))
            (json_getElement (jsonObject "tracks" [jsonNumber "total" "55",
              jsonNumber "limit" "20", jsonArray "items" []]) (some (CS "limit"))) 20)).foldl
            enqueueJob sampleProcState.jq) ∧
    ((sampleHeaderJob (samplePlaylist "55" "20" [])).type = .Job_playlistListHeader →
      ∀ st1, processJob false decimalToU64 sampleProcState
          (sampleHeaderJob (samplePlaylist "55" "20" [])) = some st1 →
        readPlaylistIdsLoop false { data := List.replicate 55 Playlist.zero, count := 55 }
          (pageItems (sampleHeaderJob (samplePlaylist "55" "20" [])).json)
          (sampleHeaderJob (samplePlaylist "55" "20" [])).offset
          (((List.range' 1 (pageCount 55 20 - 1)).map
            (playlistListPageJob (sampleHeaderJob (samplePlaylist "55" "20" []))
              (json_getElement (jsonObject "tracks" [jsonNumber "total" "55",
                jsonNumber "limit" "20", jsonArray "items" []]) (some (CS "limit")))
              20)).foldl enqueueJob sampleProcState.jq)
          = some st1.jq) ∧
    ((sampleHeaderJob (samplePlaylist "55" "20" [])).type = .Job_playlistHeader ∨
        (json_getElement (sampleHeaderJob (samplePlaylist "55" "20" [])).json
          (some (CS "items"))).type = .json_ARRAY →
      (processJob false decimalToU64 sampleProcState
        (sampleHeaderJob (samplePlaylist "55" "20" []))).isSome = true)) :=
  ⟨by decide,
    C7_header_schedules_remaining_pages false decimalToU64 sampleProcState
      (sampleHeaderJob (samplePlaylist "55" "20" []))
      (jsonObject "tracks" [jsonNumber "total" "55", jsonNumber "limit" "20",
        jsonArray "items" []])
      55 20 (Or.inr ⟨by decide, by decide⟩) (by decide) (by decide) (by decide) (by decide)⟩

/-! ### Pages of a playlist: proofs -/

theorem writeCells_length : ∀ (tracks : List Track) (arr : List Track) (i : Nat),
    (writeCells arr i tracks).length = arr.length := by
  intro tracks
  induction tracks with
  | nil => intros; rfl
  | cons t ts ih =>
    intro arr i
    simp [writeCells, ih]

theorem writeCells_outside : ∀ (tracks : List Track) (arr : List Track) (i j : Nat),
    (j < i ∨ i + tracks.length ≤ j) → (writeCells arr i tracks)[j]? = arr[j]? := by
  intro tracks
  induction tracks with
  | nil => intros; rfl
  | cons t ts ih =>
    intro arr i j h
    simp only [List.length_cons] at h
    simp only [writeCells]
    rw [ih _ _ _ (by omega), List.getElem?_set_ne (by omega)]

theorem writeCells_inside : ∀ (tracks : List Track) (arr : List Track) (i k : Nat),
    i + tracks.length ≤ arr.length → k < tracks.length →
    (writeCells arr i tracks)[i + k]? = tracks[k]? := by
  intro tracks
  induction tracks with
  | nil => intro arr i k _ hk; simp at hk
  | cons t ts ih =>
    intro arr i k hlen hk
    simp only [List.length_cons] at hlen hk
    simp only [writeCells]
    cases k with
    | zero =>
      rw [writeCells_outside _ _ _ _ (by omega)]
      simp only [Nat.add_zero]
      rw [List.getElem?_set_self (by omega)]
      simp
    | succ k =>
      have := ih (arr.set i t) (i + 1) k (by simp; omega) (by omega)
      rw [show i + (k + 1) = i + 1 + k by omega, this]
      simp

theorem json_getElement_type_object {element : json_Element} {label : Option Buffer}
    (h : (json_getElement element label).type ≠ .json_INVALID_ELEMENT) :
    element.type = .json_OBJECT := by
  unfold json_getElement at h
  split at h
  · split at h
    · assumption
    · exact absurd rfl h
  · exact absurd rfl h

theorem readTracksLoop_all (useChecks : Bool) (numberToU64 : json_Element → Nat) :
    ∀ (items : List json_Element) (trackIndex : Nat) (playlist : Playlist) (warnings : Nat),
      (∀ item ∈ items, (json_getElement item (some (CS "track"))).type = .json_OBJECT) →
      (∀ item ∈ items, useChecks = true → itemChecked item = true) →
      trackIndex + items.length < 2 ^ 64 →
      playlist.filledTrackCount + items.length < 2 ^ 64 →
      readTracksLoop useChecks numberToU64 items trackIndex playlist warnings
        = some ({ playlist with
            trackArray :=
              writeCells playlist.trackArray trackIndex (items.map (trackOfItem numberToU64))
            filledTrackCount := playlist.filledTrackCount + items.length }, warnings) := by
  intro items
  induction items with
  | nil => intros; rfl
  | cons item rest ih =>
    intro trackIndex playlist warnings hall hck hidx hfill
    simp only [List.length_cons] at hidx hfill
    have hitem := hall item (List.mem_cons_self _ _)
    unfold readTracksLoop
    simp only [hitem, ne_eq, not_true_eq_false, if_false]
    rw [readTrack_eq useChecks numberToU64 item (hck item (List.mem_cons_self _ _))]
    simp only
    rw [wrap64_of_lt (by omega), wrap64_of_lt (by omega),
      ih _ _ _ (fun it hit => hall it (List.mem_cons_of_mem _ hit))
        (fun it hit => hck it (List.mem_cons_of_mem _ hit)) (by omega)
        (by simp only; omega)]
    simp only [List.map_cons, writeCells, List.length_cons]
    congr 3
    omega

/-- The playlist after a page of tracks has been stored at `offset`. -/
theorem readTracks_page (useChecks : Bool) (numberToU64 : json_Element → Nat) (st : ProcState)
    (playlistIndex : Nat) (page : json_Element) (offset : Nat) (P : Playlist)
    (hP : st.playlistArray.data[playlistIndex]? = some P)
    (hpage : PageCarries page (pageItems page).length)
    (hck : useChecks = true → pageChecked page = true)
    (hoff : offset + (pageItems page).length ≤ P.trackCount)
    (hfill : P.filledTrackCount + (pageItems page).length ≤ P.trackCount)
    (hT : P.trackCount < 2 ^ 64) :
    ∃ st1, readTracksAndCopyToFileIfDone useChecks numberToU64 st playlistIndex page offset
        = some st1 ∧
      st1.playlistArray.data[playlistIndex]? = some
        { P with
          trackArray :=
            writeCells P.trackArray offset ((pageItems page).map (trackOfItem numberToU64))
          filledTrackCount := P.filledTrackCount + (pageItems page).length } ∧
      st1.playlistArray.data.length = st.playlistArray.data.length ∧
      st1.written =
        (if P.filledTrackCount + (pageItems page).length = P.trackCount then
          st.written ++ [{ P with
            trackArray :=
              writeCells P.trackArray offset ((pageItems page).map (trackOfItem numberToU64))
            filledTrackCount := P.filledTrackCount + (pageItems page).length }]
        else st.written) := by
  obtain ⟨harr, _, hall⟩ := hpage
  have hlt : playlistIndex < st.playlistArray.data.length := by
    by_contra hc
    rw [List.getElem?_eq_none (by omega)] at hP
    cases hP
  have hget : st.playlistArray.data.getD playlistIndex Playlist.zero = P := by
    rw [List.getD_eq_getElem?_getD, hP]
    rfl
  unfold readTracksAndCopyToFileIfDone
  simp only [harr, ne_eq, not_true_eq_false, decide_False, Bool.and_false, Bool.false_eq_true,
    if_false, hget]
  rw [show (json_getElement page (some (CS "items"))).children = pageItems page from rfl,
    readTracksLoop_all useChecks numberToU64 _ _ _ _ hall (itemChecked_of_page hck) (by omega)
      (by omega)]
  simp only
  by_cases hfull : P.filledTrackCount + (pageItems page).length = P.trackCount
  · rw [if_pos (by omega), if_pos hfull]
    simp only [hfull, ne_eq, not_true_eq_false, decide_False, Bool.and_false,
      Bool.false_eq_true, if_false]
    refine ⟨_, rfl, ?_, ?_, ?_⟩
    · simp [writePlaylistIntoFile, hlt]
    · simp [writePlaylistIntoFile]
    · simp [writePlaylistIntoFile]
  · rw [if_neg (by omega), if_neg hfull]
    refine ⟨_, rfl, ?_, ?_, rfl⟩
    · simp [hlt]
    · simp

theorem processJob_trackListJob (useChecks : Bool) (numberToU64 : json_Element → Nat)
    (st : ProcState) (uri : Buffer) (page : json_Element) (playlistIndex offset : Nat)
    (hpage : page.type ≠ .json_INVALID_ELEMENT) :
    processJob useChecks numberToU64 st (trackListJob uri page playlistIndex offset)
      = readTracksAndCopyToFileIfDone useChecks numberToU64 st playlistIndex page offset := by
  simp [processJob, trackListJob, hpage]

theorem PageCarries.valid {page : json_Element} {n : Nat} (h : PageCarries page n) :
    page.type ≠ .json_INVALID_ELEMENT := by
  have h1 : (json_getElement page (some (CS "items"))).type ≠ .json_INVALID_ELEMENT := by
    rw [h.1]; decide
  rw [json_getElement_type_object h1]
  decide

theorem processJobs_append (useChecks : Bool) (numberToU64 : json_Element → Nat) :
    ∀ (a b : List Job) (st st1 : ProcState),
      processJobs useChecks numberToU64 st a = some st1 →
      processJobs useChecks numberToU64 st (a ++ b)
        = processJobs useChecks numberToU64 st1 b := by
  intro a
  induction a with
  | nil =>
    intro b st st1 h
    simp only [processJobs, Option.some.injEq] at h
    subst h
    rfl
  | cons j js ih =>
    intro b st st1 h
    simp only [processJobs, List.cons_append] at h ⊢
    split at h
    · cases h
    · exact ih b _ st1 h

/-- A run of pages that does not complete the playlist: every page is stored
at its offset and nothing is handed to `writePlaylistIntoFile`. -/
theorem run_pages_quiet (useChecks : Bool) (numberToU64 : json_Element → Nat)
    (uris : Nat → Buffer) (pages : Nat → json_Element) (playlistIndex L : Nat) :
    ∀ (order : List Nat) (st : ProcState) (P : Playlist),
      st.playlistArray.data[playlistIndex]? = some P →
      (∀ i ∈ order, PageCarries (pages i) (pageItems (pages i)).length ∧
        L * i + (pageItems (pages i)).length ≤ P.trackCount) →
      (∀ i ∈ order, useChecks = true → pageChecked (pages i) = true) →
      P.filledTrackCount + (order.map fun i => (pageItems (pages i)).length).sum
        < P.trackCount →
      P.trackCount < 2 ^ 64 →
      ∃ st1, processJobs useChecks numberToU64 st
            (order.map (pageJob uris pages playlistIndex L)) = some st1 ∧
        st1.written = st.written ∧
        st1.playlistArray.data.length = st.playlistArray.data.length ∧
        st1.playlistArray.data[playlistIndex]? = some
          { P with
            trackArray := order.foldl
              (fun arr i => writeCells arr (L * i) (pageTracks numberToU64 pages i))
              P.trackArray
            filledTrackCount := P.filledTrackCount
              + (order.map fun i => (pageItems (pages i)).length).sum } := by
  intro order
  induction order with
  | nil =>
    intro st P hP _ _ _ _
    exact ⟨st, rfl, rfl, rfl, by simpa using hP⟩
  | cons i rest ih =>
    intro st P hP hall hck hsum hT
    simp only [List.map_cons, List.sum_cons] at hsum
    obtain ⟨hcar, hoff⟩ := hall i (List.mem_cons_self _ _)
    obtain ⟨st1, h1, h2, h3, h4⟩ := readTracks_page useChecks numberToU64 st playlistIndex
      (pages i) (L * i) P hP hcar (hck i (List.mem_cons_self _ _)) hoff (by omega) hT
    rw [if_neg (by omega)] at h4
    obtain ⟨st2, g1, g2, g3, g4⟩ := ih st1 _ h2
      (fun j hj => hall j (List.mem_cons_of_mem _ hj))
      (fun j hj => hck j (List.mem_cons_of_mem _ hj)) (by simp only; omega) hT
    refine ⟨st2, ?_, ?_, ?_, ?_⟩
    · simp only [List.map_cons, processJobs, pageJob]
      rw [processJob_trackListJob _ _ _ _ _ _ _ hcar.valid, h1]
      exact g1
    · rw [g2, h4]
    · rw [g3, h3]
    · rw [g4]
      simp only [List.foldl_cons, List.map_cons, List.sum_cons, pageTracks, Nat.add_assoc]

theorem foldl_writeCells_length (tracksOf : Nat → List Track) (L : Nat) :
    ∀ (order : List Nat) (arr : List Track),
      (order.foldl (fun a i => writeCells a (L * i) (tracksOf i)) arr).length = arr.length := by
  intro order
  induction order with
  | nil => intros; rfl
  | cons i rest ih =>
    intro arr
    simp only [List.foldl_cons]
    rw [ih, writeCells_length]

theorem foldl_writeCells_outside (tracksOf : Nat → List Track) (L : Nat) :
    ∀ (order : List Nat) (arr : List Track) (j : Nat),
      (∀ i ∈ order, j < L * i ∨ L * i + (tracksOf i).length ≤ j) →
      (order.foldl (fun a i => writeCells a (L * i) (tracksOf i)) arr)[j]? = arr[j]? := by
  intro order
  induction order with
  | nil => intros; rfl
  | cons i rest ih =>
    intro arr j h
    simp only [List.foldl_cons]
    rw [ih _ _ (fun i' hi' => h i' (List.mem_cons_of_mem _ hi')),
      writeCells_outside _ _ _ _ (h i (List.mem_cons_self _ _))]

theorem foldl_writeCells_inside (tracksOf : Nat → List Track) (L : Nat) :
    ∀ (order : List Nat) (arr : List Track), order.Nodup →
      (∀ i ∈ order, (tracksOf i).length ≤ L ∧ L * i + (tracksOf i).length ≤ arr.length) →
      ∀ i ∈ order, ∀ k, k < (tracksOf i).length →
        (order.foldl (fun a i => writeCells a (L * i) (tracksOf i)) arr)[L * i + k]?
          = (tracksOf i)[k]? := by
  intro order
  induction order with
  | nil => intro arr _ _ i hi; cases hi
  | cons j rest ih =>
    intro arr hnd hall i hi k hk
    simp only [List.foldl_cons]
    obtain ⟨hj, hrest⟩ := List.nodup_cons.mp hnd
    rcases List.mem_cons.mp hi with rfl | hi'
    · rw [foldl_writeCells_outside]
      · exact writeCells_inside _ _ _ _ (hall i (List.mem_cons_self _ _)).2 hk
      · intro i' hi'
        have hne : i' ≠ i := fun h => hj (h ▸ hi')
        have hlen := (hall i (List.mem_cons_self _ _)).1
        have hlen' := (hall i' (List.mem_cons_of_mem _ hi')).1
        rcases Nat.lt_or_gt_of_ne hne with hlt | hgt
        · right
          have : L * (i' + 1) ≤ L * i := Nat.mul_le_mul_left L hlt
          rw [Nat.mul_add, Nat.mul_one] at this
          omega
        · left
          have : L * (i + 1) ≤ L * i' := Nat.mul_le_mul_left L hgt
          rw [Nat.mul_add, Nat.mul_one] at this
          omega
    · exact ih _ hrest
        (fun i' hi'' => by
          rw [writeCells_length]
          exact hall i' (List.mem_cons_of_mem _ hi''))
        i hi' k hk

/-- The header job of a playlist: the playlist is sized to `total` and the
items of the first page are stored from index 0 on. -/
theorem header_step (useChecks : Bool) (numberToU64 : json_Element → Nat) (st : ProcState)
    (header : Job) (T : Nat) (hty : header.type = .Job_playlistHeader)
    (hoff : header.offset = 0)
    (hpi : header.playlistIndex < st.playlistArray.data.length)
    (hT : numberToU64 (json_getElement (json_getElement header.json (some (CS "tracks")))
      (some (CS "total"))) = T)
    (hTlt : T < 2 ^ 64)
    (hpage : PageCarries (json_getElement header.json (some (CS "tracks")))
      (pageItems (json_getElement header.json (some (CS "tracks")))).length)
    (hname : useChecks = true → stringOrAbsent header.json (CS "name") = true)
    (hck : useChecks = true →
      pageChecked (json_getElement header.json (some (CS "tracks"))) = true)
    (hsize : (pageItems (json_getElement header.json (some (CS "tracks")))).length ≤ T) :
    ∃ st1, processJob useChecks numberToU64 st header = some st1 ∧
      st1.playlistArray.data.length = st.playlistArray.data.length ∧
      st1.playlistArray.data[header.playlistIndex]? = some
        { name := playlistNameOf header.json
          trackArray := writeCells (List.replicate T Track.zero) 0
            ((pageItems (json_getElement header.json (some (CS "tracks")))).map
              (trackOfItem numberToU64))
          trackCount := T
          filledTrackCount :=
            (pageItems (json_getElement header.json (some (CS "tracks")))).length } ∧
      st1.written =
        (if (pageItems (json_getElement header.json (some (CS "tracks")))).length = T then
          st.written ++ [
            { name := playlistNameOf header.json
              trackArray := writeCells (List.replicate T Track.zero) 0
                ((pageItems (json_getElement header.json (some (CS "tracks")))).map
                  (trackOfItem numberToU64))
              trackCount := T
              filledTrackCount :=
                (pageItems (json_getElement header.json (some (CS "tracks")))).length }]
        else st.written) := by
  have hvalid1 := hpage.valid
  have hvalid : header.json.type ≠ .json_INVALID_ELEMENT := by
    rw [json_getElement_type_object hvalid1]
    decide
  unfold processJob
  rw [hty]
  simp only [if_neg hvalid, copyString_name useChecks header.json hname, if_neg hvalid1, hoff,
    hT, ne_eq, not_true_eq_false, decide_False, Bool.and_false, Bool.false_eq_true, if_false]
  generalize enqueuePagesLoop _ _ _ _ _ = jq1
  obtain ⟨st1, h1, h2, h3, h4⟩ := readTracks_page useChecks numberToU64
    { st with
      jq := jq1
      playlistArray :=
        { st.playlistArray with
          data := st.playlistArray.data.set header.playlistIndex
            { name := playlistNameOf header.json
              trackArray := List.replicate T Track.zero
              trackCount := T
              filledTrackCount := 0 } } }
    header.playlistIndex (json_getElement header.json (some (CS "tracks"))) 0
    { name := playlistNameOf header.json
      trackArray := List.replicate T Track.zero
      trackCount := T
      filledTrackCount := 0 }
    (by simp [hpi]) hpage hck (by simp only; omega) (by simp only; omega) hTlt
  refine ⟨st1, h1, ?_, ?_, ?_⟩
  · rw [h3]; simp
  · rw [h2]; simp
  · rw [h4]; simp

theorem sum_full_pages (L T : Nat) :
    ∀ (m a : Nat), L * (a + m) ≤ T →
      ((List.range' a m).map fun i => min L (T - L * i)).sum = L * m := by
  intro m
  induction m with
  | zero => intros; simp
  | succ m ih =>
    intro a h
    rw [List.range'_succ, List.map_cons, List.sum_cons, ih (a + 1) (by
      rw [show a + 1 + m = a + (m + 1) by omega]; exact h)]
    have h1 : L * (a + (m + 1)) = L * a + L * m + L := by
      rw [Nat.mul_add, Nat.mul_add, Nat.mul_one]; omega
    have h2 : L * (m + 1) = L * m + L := by rw [Nat.mul_add, Nat.mul_one]
    rw [h2, Nat.min_eq_left (by omega)]
    omega

/-- The page sizes `min L (T - L * i)` of all pages add up to `T`. -/
theorem sum_page_sizes (L T : Nat) (hL : 0 < L) :
    min L T + ((List.range' 1 ((T + L - 1) / L - 1)).map fun i => min L (T - L * i)).sum
      = T := by
  have h1 := Nat.div_add_mod (T + L - 1) L
  have h2 := Nat.mod_lt (T + L - 1) hL
  generalize hnp : (T + L - 1) / L = np at h1
  match np, h1 with
  | 0, h1 =>
    simp only [Nat.mul_zero, Nat.zero_add] at h1
    simp only [Nat.zero_sub, List.range'_zero, List.map_nil, List.sum_nil, Nat.add_zero]
    omega
  | 1, h1 =>
    simp only [Nat.mul_one] at h1
    simp only [Nat.sub_self, List.range'_zero, List.map_nil, List.sum_nil, Nat.add_zero]
    omega
  | q + 2, h1 =>
    have e1 : L * (q + 2) = L * q + L + L := by
      rw [Nat.mul_add]; omega
    have e2 : L * (1 + q) = L * q + L := by
      rw [Nat.mul_add, Nat.mul_one]; omega
    rw [show q + 2 - 1 = q + 1 by omega, List.range'_concat, List.map_append, List.sum_append,
      sum_full_pages L T q 1 (by omega)]
    simp only [Nat.mul_one, Nat.one_mul, List.map_cons, List.map_nil, List.sum_cons,
      List.sum_nil, Nat.add_zero]
    rw [e2]
    omega

theorem one_le_sum_of_ne_nil (f : Nat → Nat) :
    ∀ (l : List Nat), l ≠ [] → (∀ i ∈ l, 1 ≤ f i) → 1 ≤ (l.map f).sum := by
  intro l hne hall
  cases l with
  | nil => exact absurd rfl hne
  | cons i rest =>
    have := hall i (List.mem_cons_self _ _)
    simp only [List.map_cons, List.sum_cons]
    omega

theorem playlist_of_getElem? {st : ProcState} {i : Nat} {P : Playlist}
    (h : st.playlistArray.data[i]? = some P) : st.playlist i = P := by
  unfold ProcState.playlist
  rw [List.getD_eq_getElem?_getD, h]
  rfl

/-! ### Claim about the pages of a playlist -/

/-- C6 (as stated, at a concrete input): a playlist with `total = 1` and
`limit = 1` whose page carries its one item, with a `track` object and the
member `added_at` set to `null`.  In a build with the checks compiled in, the
header job ends the process at the `check` of `copyStringAndEscapeCommas`:
the item is not stored and nothing is handed to `writePlaylistIntoFile`. -/
theorem C6_checked_build_stops_at_null_field :
    sampleHeaderNullDate.type = .Job_playlistHeader ∧ sampleHeaderNullDate.offset = 0 ∧
    decimalToU64 (json_getElement (json_getElement sampleHeaderNullDate.json
      (some (CS "tracks"))) (some (CS "total"))) = 1 ∧
    decimalToU64 (json_getElement (json_getElement sampleHeaderNullDate.json
      (some (CS "tracks"))) (some (CS "limit"))) = 1 ∧
    PageCarries (json_getElement sampleHeaderNullDate.json (some (CS "tracks"))) (min 1 1) ∧
    processJobs true decimalToU64 sampleProcState [sampleHeaderNullDate] = none ∧
    (∃ stf, processJobs false decimalToU64 sampleProcState [sampleHeaderNullDate] = some stf ∧
      stf.written = [stf.playlist 0]) := by
  refine ⟨by decide, by decide, by decide, by decide, ⟨by decide, by decide, by decide⟩,
    by decide, ⟨_, rfl, by decide⟩⟩

/-- C6 (amended): for a playlist with `total = T` and `limit = L > 0` whose
page at each offset `o = L * i` carries exactly `min L (T - o)` items, each
with a `track` object, and, in a build with the checks compiled in, with every
member that is copied as text (the name of the playlist, the name of a track,
of its album and of its artists, `added_at`) a string or absent: processing
the header job first and then the remaining `Job_trackList` pages in any order
stores the record of the k-th item of the page at offset `o` at index `o + k`
of the track array, brings `filledTrackCount` to `T`, and hands the playlist
to `writePlaylistIntoFile` exactly once, with the last job; as long as a page
is outstanding, `filledTrackCount` is below `T` and nothing has been handed
over. -/
theorem C6_pages_complete_playlist (useChecks : Bool) (numberToU64 : json_Element → Nat)
    (st : ProcState) (header : Job) (uris : Nat → Buffer) (pages : Nat → json_Element)
    (order : List Nat) (T L : Nat)
    (hty : header.type = .Job_playlistHeader) (hoff : header.offset = 0)
    (hpi : header.playlistIndex < st.playlistArray.data.length)
    (hT : numberToU64 (json_getElement (json_getElement header.json (some (CS "tracks")))
      (some (CS "total"))) = T)
    (_hLimit : numberToU64 (json_getElement (json_getElement header.json (some (CS "tracks")))
      (some (CS "limit"))) = L)
    (hTlt : T < 2 ^ 64) (hL : 0 < L)
    (hpage0 : PageCarries (json_getElement header.json (some (CS "tracks"))) (min L T))
    (hpages : ∀ i, 1 ≤ i → L * i < T → PageCarries (pages i) (min L (T - L * i)))
    (hname : useChecks = true → stringOrAbsent header.json (CS "name") = true)
    (hck0 : useChecks = true →
      pageChecked (json_getElement header.json (some (CS "tracks"))) = true)
    (hcks : ∀ i, 1 ≤ i → L * i < T → useChecks = true → pageChecked (pages i) = true)
    (horder : order.Perm (List.range' 1 ((T + L - 1) / L - 1))) :
    (∃ stf,
      processJobs useChecks numberToU64 st
          (header :: order.map (pageJob uris pages header.playlistIndex L)) = some stf ∧
      (stf.playlist header.playlistIndex).filledTrackCount = T ∧
      (stf.playlist header.playlistIndex).trackCount = T ∧
      stf.written = st.written ++ [stf.playlist header.playlistIndex] ∧
      (∀ k, k < min L T →
        (stf.playlist header.playlistIndex).trackArray[k]?
          = ((pageItems (json_getElement header.json (some (CS "tracks")))).map
              (trackOfItem numberToU64))[k]?) ∧
      (∀ i ∈ order, ∀ k, k < min L (T - L * i) →
        (stf.playlist header.playlistIndex).trackArray[L * i + k]?
          = (pageTracks numberToU64 pages i)[k]?)) ∧
    (∀ n, n < order.length →
      ∃ stn,
        processJobs useChecks numberToU64 st
            (header :: (order.map (pageJob uris pages header.playlistIndex L)).take n)
          = some stn ∧
        stn.written = st.written ∧
        (stn.playlist header.playlistIndex).filledTrackCount < T) := by
  -- the pages of `order`
  have hdiv := Nat.div_add_mod (T + L - 1) L
  have hmod := Nat.mod_lt (T + L - 1) hL
  have hmem : ∀ i ∈ order, 1 ≤ i ∧ L * i < T := by
    intro i hi
    have h1 := (horder.mem_iff).mp hi
    rw [List.mem_range'_1] at h1
    have h2 : L * (i + 1) ≤ L * ((T + L - 1) / L) := Nat.mul_le_mul_left L (by omega)
    rw [Nat.mul_add, Nat.mul_one] at h2
    exact ⟨h1.1, by omega⟩
  have hlen : ∀ i ∈ order, (pageItems (pages i)).length = min L (T - L * i) := fun i hi =>
    (hpages i (hmem i hi).1 (hmem i hi).2).2.1
  have hcar : ∀ i ∈ order, PageCarries (pages i) (pageItems (pages i)).length := fun i hi => by
    rw [hlen i hi]
    exact hpages i (hmem i hi).1 (hmem i hi).2
  have hnd : order.Nodup := (horder.nodup_iff).mpr (List.nodup_range' 1 _)
  have hsize0 : (pageItems (json_getElement header.json (some (CS "tracks")))).length
      = min L T := hpage0.2.1
  have hcar0 : PageCarries (json_getElement header.json (some (CS "tracks")))
      (pageItems (json_getElement header.json (some (CS "tracks")))).length := by
    rw [hsize0]; exact hpage0
  have hsizes : ∀ (l : List Nat), (∀ i ∈ l, i ∈ order) →
      (l.map fun i => (pageItems (pages i)).length) = l.map fun i => min L (T - L * i) :=
    fun l hl => List.map_congr_left fun i hi => hlen i (hl i hi)
  have hsum : min L T + (order.map fun i => (pageItems (pages i)).length).sum = T := by
    rw [hsizes order (fun i hi => hi), (horder.map _).sum_eq]
    exact sum_page_sizes L T hL
  have hone : ∀ i ∈ order, 1 ≤ (pageItems (pages i)).length := by
    intro i hi
    rw [hlen i hi]
    have := (hmem i hi).2
    omega
  have hbound : ∀ i ∈ order, (pageItems (pages i)).length ≤ L ∧
      L * i + (pageItems (pages i)).length ≤ T := by
    intro i hi
    rw [hlen i hi]
    have := (hmem i hi).2
    omega
  -- the header job
  have hckd : ∀ i ∈ order, useChecks = true → pageChecked (pages i) = true := fun i hi =>
    hcks i (hmem i hi).1 (hmem i hi).2
  obtain ⟨st1, h1, h2, h3, h4⟩ := header_step useChecks numberToU64 st header T hty hoff hpi hT
    hTlt hcar0 hname hck0 (by rw [hsize0]; omega)
  rw [hsize0] at h3 h4
  constructor
  · rcases List.eq_nil_or_concat order with hnil | ⟨init, last, hcat0⟩
    · -- a single page
      subst hnil
      simp only [List.map_nil, List.sum_nil, Nat.add_zero] at hsum
      rw [if_pos hsum] at h4
      refine ⟨st1, by simp [processJobs, h1], ?_, ?_, ?_, ?_, ?_⟩
      · rw [playlist_of_getElem? h3]; exact hsum
      · rw [playlist_of_getElem? h3]
      · rw [playlist_of_getElem? h3, h4]
      · intro k hk
        rw [playlist_of_getElem? h3]
        simp only
        have := writeCells_inside
          ((pageItems (json_getElement header.json (some (CS "tracks")))).map
            (trackOfItem numberToU64))
          (List.replicate T Track.zero) 0 k
          (by simp only [List.length_map, List.length_replicate, hsize0]; omega)
          (by simp only [List.length_map, hsize0]; omega)
        rw [Nat.zero_add] at this
        exact this
      · intro i hi
        cases hi
    · -- the last page completes the playlist
      have hcat : order = init ++ [last] := by rw [hcat0, List.concat_eq_append]
      have hinit : ∀ i ∈ init, i ∈ order := fun i hi => by
        rw [hcat]; exact List.mem_append_left _ hi
      have hlast : last ∈ order := by rw [hcat]; simp
      have hsplit : (order.map fun i => (pageItems (pages i)).length).sum
          = (init.map fun i => (pageItems (pages i)).length).sum
            + (pageItems (pages last)).length := by
        rw [hcat]; simp
      have hl1 := hone last hlast
      rw [if_neg (by omega)] at h4
      obtain ⟨st2, g1, g2, g3, g4⟩ := run_pages_quiet useChecks numberToU64 uris pages
        header.playlistIndex L init st1 _ h3
        (fun i hi => ⟨hcar i (hinit i hi), (hbound i (hinit i hi)).2⟩)
        (fun i hi => hckd i (hinit i hi))
        (by simp only; omega) hTlt
      obtain ⟨st3, f1, f2, f3, f4⟩ := readTracks_page useChecks numberToU64 st2
        header.playlistIndex (pages last) (L * last) _ g4 (hcar last hlast)
        (hckd last hlast) (hbound last hlast).2 (by simp only; omega) hTlt
      rw [if_pos (by simp only; omega)] at f4
      have hrun : processJobs useChecks numberToU64 st
          (header :: order.map (pageJob uris pages header.playlistIndex L)) = some st3 := by
        simp only [processJobs, h1]
        rw [hcat, List.map_append, processJobs_append _ _ _ _ _ _ g1]
        simp only [List.map_cons, List.map_nil, processJobs, pageJob]
        rw [processJob_trackListJob _ _ _ _ _ _ _ (hcar last hlast).valid, f1]
      have hfold : (init.foldl
            (fun arr i => writeCells arr (L * i) (pageTracks numberToU64 pages i))
            (writeCells (List.replicate T Track.zero) 0
              ((pageItems (json_getElement header.json (some (CS "tracks")))).map
                (trackOfItem numberToU64)))).length = T := by
        rw [foldl_writeCells_length, writeCells_length, List.length_replicate]
      refine ⟨st3, hrun, ?_, ?_, ?_, ?_, ?_⟩
      · rw [playlist_of_getElem? f2]; simp only; omega
      · rw [playlist_of_getElem? f2]
      · rw [playlist_of_getElem? f2, f4, g2, h4]
      · intro k hk
        rw [playlist_of_getElem? f2]
        simp only
        rw [writeCells_outside _ _ _ _ (by
            left
            have := (hmem last hlast).1
            have : L * 1 ≤ L * last := Nat.mul_le_mul_left L this
            omega),
          foldl_writeCells_outside _ _ _ _ _ (by
            intro i hi
            left
            have := (hmem i (hinit i hi)).1
            have : L * 1 ≤ L * i := Nat.mul_le_mul_left L this
            omega)]
        have := writeCells_inside
          ((pageItems (json_getElement header.json (some (CS "tracks")))).map
            (trackOfItem numberToU64))
          (List.replicate T Track.zero) 0 k
          (by simp only [List.length_map, List.length_replicate, hsize0]; omega)
          (by simp only [List.length_map, hsize0]; omega)
        rw [Nat.zero_add] at this
        exact this
      · intro i hi k hk
        rw [playlist_of_getElem? f2]
        simp only
        have hfoldl : writeCells
            (init.foldl (fun arr i => writeCells arr (L * i) (pageTracks numberToU64 pages i))
              (writeCells (List.replicate T Track.zero) 0
                ((pageItems (json_getElement header.json (some (CS "tracks")))).map
                  (trackOfItem numberToU64))))
            (L * last) ((pageItems (pages last)).map (trackOfItem numberToU64))
            = order.foldl
              (fun arr i => writeCells arr (L * i) (pageTracks numberToU64 pages i))
              (writeCells (List.replicate T Track.zero) 0
                ((pageItems (json_getElement header.json (some (CS "tracks")))).map
                  (trackOfItem numberToU64))) := by
          rw [hcat, List.foldl_append]
          rfl
        rw [hfoldl]
        apply foldl_writeCells_inside (pageTracks numberToU64 pages) L order _ hnd _ i hi k
        · simp only [pageTracks, List.length_map]
          rw [hlen i hi]; exact hk
        · intro j hj
          simp only [pageTracks, List.length_map, writeCells_length, List.length_replicate]
          exact hbound j hj
  · -- while a page is outstanding
    intro n hn
    have hne : order ≠ [] := by
      intro h0
      rw [h0] at hn
      simp at hn
    have htake : ∀ i ∈ order.take n, i ∈ order := fun i hi => List.mem_of_mem_take hi
    have hdrop : ∀ i ∈ order.drop n, i ∈ order := fun i hi => List.mem_of_mem_drop hi
    have hsplit : (order.map fun i => (pageItems (pages i)).length).sum
        = ((order.take n).map fun i => (pageItems (pages i)).length).sum
          + ((order.drop n).map fun i => (pageItems (pages i)).length).sum := by
      rw [← List.sum_append, ← List.map_append, List.take_append_drop]
    have hd1 := one_le_sum_of_ne_nil (fun i => (pageItems (pages i)).length) (order.drop n)
      (by
        intro h0
        have := congrArg List.length h0
        simp at this
        omega)
      (fun i hi => hone i (hdrop i hi))
    rw [if_neg (by omega)] at h4
    obtain ⟨st2, g1, g2, _, g4⟩ := run_pages_quiet useChecks numberToU64 uris pages
      header.playlistIndex L (order.take n) st1 _ h3
      (fun i hi => ⟨hcar i (htake i hi), (hbound i (htake i hi)).2⟩)
      (fun i hi => hckd i (htake i hi))
      (by simp only; omega) hTlt
    refine ⟨st2, ?_, ?_, ?_⟩
    · simp only [processJobs, h1]
      rw [← List.map_take]
      exact g1
    · rw [g2, h4]
    · rw [playlist_of_getElem? g4]
      simp only
      omega

theorem C6_pages_complete_playlist_witness :
    ((∃ stf,
      processJobs true decimalToU64 sampleProcState
          (sampleHeaderFull :: [1].map
            (pageJob (fun _ => CS "p") samplePagesFull sampleHeaderFull.playlistIndex 2))
        = some stf ∧
      (stf.playlist sampleHeaderFull.playlistIndex).filledTrackCount = 3 ∧
      (stf.playlist sampleHeaderFull.playlistIndex).trackCount = 3 ∧
      stf.written = sampleProcState.written ++ [stf.playlist sampleHeaderFull.playlistIndex] ∧
      (∀ k, k < min 2 3 →
        (stf.playlist sampleHeaderFull.playlistIndex).trackArray[k]?
          = ((pageItems (json_getElement sampleHeaderFull.json (some (CS "tracks")))).map
              (trackOfItem decimalToU64))[k]?) ∧
      (∀ i ∈ [1], ∀ k, k < min 2 (3 - 2 * i) →
        (stf.playlist sampleHeaderFull.playlistIndex).trackArray[2 * i + k]?
          = (pageTracks decimalToU64 samplePagesFull i)[k]?)) ∧
    (∀ n, n < [1].length →
      ∃ stn,
        processJobs true decimalToU64 sampleProcState
            (sampleHeaderFull :: ([1].map
              (pageJob (fun _ => CS "p") samplePagesFull sampleHeaderFull.playlistIndex 2)).take
                n)
          = some stn ∧
        stn.written = sampleProcState.written ∧
        (stn.playlist sampleHeaderFull.playlistIndex).filledTrackCount < 3)) ∧
    pageTracks decimalToU64 samplePagesFull 1 =
      [{ title := ['c', '"', '"', 'd'], album := CS "lp", dateAdded := CS "2023-06-09",
         durationInMs := 1000, artistArray := [CS "x", CS "y"], artistCount := 2 }] :=
  ⟨C6_pages_complete_playlist true decimalToU64 sampleProcState sampleHeaderFull
    (fun _ => CS "p") samplePagesFull [1] 3 2 (by decide) (by decide) (by decide) (by decide)
    (by decide) (by decide) (by decide) ⟨by decide, by decide, by decide⟩
    (fun i h1 h2 => by
      have hi : i = 1 := by omega
      subst hi
      exact ⟨by decide, by decide, by decide⟩)
    (fun _ => by decide) (fun _ => by decide)
    (fun _ _ _ _ => (by decide : pageChecked (samplePagesFull 0) = true))
    (by decide), by decide⟩

/-! ## JSON parser: proofs -/

theorem Suffix.lt {b : Buffer} {n : Nat} {c : Char} {s : Buffer} (h : Suffix b n (c :: s)) :
    n < b.length := by
  obtain ⟨h1, h2⟩ := h
  by_contra hc
  rw [List.drop_eq_nil_of_le (by omega)] at h2
  cases h2

theorem Suffix.getD {b : Buffer} {n : Nat} {c : Char} {s : Buffer} (h : Suffix b n (c :: s)) :
    b.getD n NUL = c := by
  have hlt := h.lt
  obtain ⟨_, h2⟩ := h
  have : (b.drop n)[0]? = some c := by rw [h2]; simp
  rw [List.getElem?_drop, Nat.add_zero] at this
  rw [List.getD_eq_getElem?_getD, this]
  rfl

theorem Suffix.next {b : Buffer} {n : Nat} {c : Char} {s : Buffer} (h : Suffix b n (c :: s)) :
    Suffix b (n + 1) s := by
  refine ⟨h.lt, ?_⟩
  have := h.2
  rw [← List.drop_drop, this]
  rfl

theorem Suffix.skip {b : Buffer} : ∀ (t : Buffer) {n : Nat} {s : Buffer},
    Suffix b n (t ++ s) → Suffix b (n + t.length) s := by
  intro t
  induction t with
  | nil => intro n s h; simpa using h
  | cons c t ih =>
    intro n s h
    have := ih (n := n + 1) (s := s) (Suffix.next h)
    simp only [List.length_cons]
    rw [show n + (t.length + 1) = n + 1 + t.length by omega]
    exact this

theorem Suffix.eq_length {b : Buffer} {n : Nat} (h : Suffix b n []) : n = b.length := by
  obtain ⟨h1, h2⟩ := h
  have := congrArg List.length h2
  simp at this
  omega

theorem Suffix.viewBytes {b : Buffer} : ∀ (t : Buffer) {n : Nat} {s : Buffer},
    Suffix b n (t ++ s) → viewBytes b { data := n, count := t.length } = t := by
  intro t n s h
  unfold MySpotifyPl.viewBytes
  apply List.ext_getElem
  · simp
  · intro k h1 h2
    simp only [List.getElem_map, List.getElem_range, List.getD_eq_getElem?_getD]
    have hk : (b.drop n)[k]? = some t[k] := by
      rw [h.2, List.getElem?_append_left h2, List.getElem?_eq_getElem h2]
    rw [List.getElem?_drop] at hk
    rw [hk]
    rfl

theorem peek_cons {b : Buffer} {n : Nat} {c : Char} {s : Buffer} (e : Bool)
    (h : Suffix b n (c :: s)) : peek ⟨b, n, e⟩ = c := h.getD

theorem peek_nil {b : Buffer} {n : Nat} (e : Bool) (h : Suffix b n []) :
    peek ⟨b, n, e⟩ = NUL := by
  unfold peek
  simp only
  rw [h.eq_length, List.getD_eq_getElem?_getD, List.getElem?_eq_none (Nat.le_refl _)]
  rfl

theorem isCursorEnd_cons {b : Buffer} {n : Nat} {c : Char} {s : Buffer} (e : Bool)
    (h : Suffix b n (c :: s)) (hc : c ≠ NUL) : isCursorEnd ⟨b, n, e⟩ = false := by
  unfold isCursorEnd isInBounds
  rw [peek_cons e h]
  simp [h.lt, hc]

theorem isCursorEnd_nil {b : Buffer} {n : Nat} (e : Bool) (h : Suffix b n []) :
    isCursorEnd ⟨b, n, e⟩ = true := by
  unfold isCursorEnd isInBounds
  simp [h.eq_length]

theorem isSpace_ne_NUL {c : Char} (h : isSpace c = true) : c ≠ NUL := by
  intro hc
  subst hc
  revert h
  decide

theorem skipSpacesLoop_run {b : Buffer} (e : Bool) {s : Buffer}
    (hs : ∀ c s1, s = c :: s1 → isSpace c = false) :
    ∀ (ws : Buffer) (fuel n : Nat), ws.length ≤ fuel → Suffix b n (ws ++ s) →
      isWhitespace ws = true →
      skipSpacesLoop fuel ⟨b, n, e⟩ (peek ⟨b, n, e⟩) = ⟨b, n + ws.length, e⟩ := by
  intro ws
  induction ws with
  | nil =>
    intro fuel n _ h _
    simp only [List.nil_append] at h
    cases fuel with
    | zero => rfl
    | succ fuel =>
      unfold skipSpacesLoop
      cases s with
      | nil =>
        rw [isCursorEnd_nil e h]
        simp
      | cons c s1 =>
        rw [peek_cons e h]
        have hsp := hs c s1 rfl
        by_cases hc : c = NUL
        · have : isCursorEnd ⟨b, n, e⟩ = true := by
            unfold isCursorEnd
            rw [peek_cons e h, hc]
            simp
          rw [this]
          simp
        · simp [hsp, hc]
  | cons w ws ih =>
    intro fuel n hf h hws
    simp only [List.length_cons] at hf
    simp only [isWhitespace, List.all_cons, Bool.and_eq_true] at hws
    obtain ⟨hw, hws⟩ := hws
    cases fuel with
    | zero => omega
    | succ fuel =>
      have h' : Suffix b n (w :: (ws ++ s)) := h
      unfold skipSpacesLoop
      rw [peek_cons e h', isCursorEnd_cons e h' (isSpace_ne_NUL hw)]
      simp only [hw, Bool.true_or, Bool.not_false, Bool.and_self, if_true]
      rw [ih fuel (n + 1) (by omega) h'.next hws]
      simp only [List.length_cons, Cursor.mk.injEq, and_true, true_and]
      omega

theorem skipSpaces_run {b : Buffer} (e : Bool) {s : Buffer} (ws : Buffer) (n : Nat)
    (hs : ∀ c s1, s = c :: s1 → isSpace c = false) (h : Suffix b n (ws ++ s))
    (hws : isWhitespace ws = true) :
    skipSpaces ⟨b, n, e⟩ = ⟨b, n + ws.length, e⟩ := by
  unfold skipSpaces
  by_cases hend : isCursorEnd ⟨b, n, e⟩ = true
  · rw [if_pos hend]
    cases ws with
    | nil => rfl
    | cons w ws =>
      simp only [isWhitespace, List.all_cons, Bool.and_eq_true] at hws
      have h' : Suffix b n (w :: (ws ++ s)) := h
      rw [isCursorEnd_cons e h' (isSpace_ne_NUL hws.1)] at hend
      cases hend
  · rw [if_neg hend]
    have := (Suffix.skip ws h).1
    exact skipSpacesLoop_run e hs ws b.length n (by omega) h hws

theorem isSeparator_cases {c : Char} (h : isSeparator c = true) :
    c = ' ' ∨ c = '\t' ∨ c = '\n' ∨ c = '\r' ∨ c = Char.ofNat 11 ∨ c = ',' ∨ c = '[' ∨
      c = ']' ∨ c = '{' ∨ c = '}' ∨ c = ':' := by
  simp only [isSeparator, isSpace, Bool.or_eq_true, beq_iff_eq] at h
  tauto

theorem isSpace_isSeparator {c : Char} (h : isSpace c = true) : isSeparator c = true := by
  simp [isSeparator, h]

theorem isNumeric_ne_NUL {c : Char} (h : isNumeric c = true) : c ≠ NUL := by
  intro hc
  subst hc
  revert h
  decide

theorem isSeparator_not_numeric {c : Char} (h : isSeparator c = true) : isNumeric c = false := by
  rcases isSeparator_cases h with rfl | rfl | rfl | rfl | rfl | rfl | rfl | rfl | rfl | rfl | rfl
    <;> decide

theorem isSeparator_not_number_char {c : Char} (h : isSeparator c = true) :
    c ≠ '.' ∧ c ≠ 'e' ∧ c ≠ 'E' := by
  rcases isSeparator_cases h with rfl | rfl | rfl | rfl | rfl | rfl | rfl | rfl | rfl | rfl | rfl
    <;> decide

/-- The parser reads the same at an offset whatever the error flag is. -/
theorem digitsLoop_run {b : Buffer} (e : Bool) {s : Buffer}
    (hs : ∀ c s1, s = c :: s1 → isNumeric c = false) :
    ∀ (ds : Buffer) (fuel n : Nat), ds.length ≤ fuel → Suffix b n (ds ++ s) →
      ds.all isNumeric = true →
      digitsLoop fuel ⟨b, n, e⟩ (peek ⟨b, n, e⟩)
        = (⟨b, n + ds.length, e⟩, peek ⟨b, n + ds.length, e⟩) := by
  intro ds
  induction ds with
  | nil =>
    intro fuel n _ h _
    simp only [List.nil_append] at h
    cases fuel with
    | zero => rfl
    | succ fuel =>
      unfold digitsLoop
      simp only [List.length_nil, Nat.add_zero]
      cases s with
      | nil =>
        rw [peek_nil e h]
        simp [show isNumeric NUL = false by decide]
      | cons c s1 =>
        rw [peek_cons e h, hs c s1 rfl]
        simp
  | cons d ds ih =>
    intro fuel n hf h hds
    simp only [List.length_cons] at hf
    simp only [List.all_cons, Bool.and_eq_true] at hds
    obtain ⟨hd, hds⟩ := hds
    cases fuel with
    | zero => omega
    | succ fuel =>
      have h' : Suffix b n (d :: (ds ++ s)) := h
      unfold digitsLoop
      rw [peek_cons e h', isCursorEnd_cons e h' (isNumeric_ne_NUL hd)]
      simp only [hd, Bool.not_false, Bool.and_self, if_true]
      rw [ih fuel (n + 1) (by omega) h'.next hds]
      simp only [List.length_cons]
      rw [show n + 1 + ds.length = n + (ds.length + 1) by omega]

theorem digits_run {b : Buffer} (e : Bool) {s : Buffer} (ds : Buffer) (n : Nat)
    (hs : ∀ c s1, s = c :: s1 → isNumeric c = false) (h : Suffix b n (ds ++ s))
    (hds : ds.all isNumeric = true) :
    digitsLoop b.length ⟨b, n, e⟩ (peek ⟨b, n, e⟩)
      = (⟨b, n + ds.length, e⟩, peek ⟨b, n + ds.length, e⟩) := by
  have := (Suffix.skip ds h).1
  exact digitsLoop_run e hs ds b.length n (by omega) h hds

/-- The bytes of the exponent part of a number. -/
theorem parseNumberExponent_none {b : Buffer} (e : Bool) {s : Buffer} (n : Nat)
    (h : Suffix b n s) (hs : EndsToken s) :
    parseNumberExponent ⟨b, n, e⟩ (peek ⟨b, n, e⟩) = (.TK_NUMBER, ⟨b, n, e⟩) := by
  unfold parseNumberExponent
  cases s with
  | nil =>
    rw [peek_nil e h, isCursorEnd_nil e h]
    simp [show NUL ≠ 'e' by decide, show NUL ≠ 'E' by decide]
  | cons c s1 =>
    have hsep := hs c s1 rfl
    obtain ⟨_, h2, h3⟩ := isSeparator_not_number_char hsep
    rw [peek_cons e h]
    simp [h2, h3, hsep]

theorem isDigits_cons {ds : List Char} (h : isDigits ds = true) :
    ∃ d rest, ds = d :: rest ∧ isNumeric d = true ∧ ds.all isNumeric = true := by
  cases ds with
  | nil => simp [isDigits] at h
  | cons d rest =>
    simp only [isDigits, List.isEmpty_cons, Bool.not_false, Bool.true_and] at h
    refine ⟨d, rest, rfl, ?_, h⟩
    simp only [List.all_cons, Bool.and_eq_true] at h
    exact h.1

theorem endsToken_not_numeric {s : Buffer} (hs : EndsToken s) :
    ∀ c s1, s = c :: s1 → isNumeric c = false :=
  fun c s1 h => isSeparator_not_numeric (hs c s1 h)

theorem parseNumberExponent_run {b : Buffer} (e : Bool) {s : Buffer} (n : Nat)
    (exp : Option (Char × Option Char × List Char)) (hwf : exponentWellFormed exp = true)
    (h : Suffix b n (renderExponent exp ++ s)) (hs : EndsToken s) :
    parseNumberExponent ⟨b, n, e⟩ (peek ⟨b, n, e⟩)
      = (.TK_NUMBER, ⟨b, n + (renderExponent exp).length, e⟩) := by
  match exp, hwf, h with
  | none, _, h =>
    simp only [renderExponent, List.nil_append] at h
    simpa [renderExponent] using parseNumberExponent_none e n h hs
  | some (x, none, ds), hwf, h =>
    simp only [exponentWellFormed, Bool.and_eq_true, Bool.or_eq_true, beq_iff_eq] at hwf
    obtain ⟨hx, hds⟩ := hwf
    simp only [renderExponent, List.cons_append] at h
    obtain ⟨d, rest, hd, hdn, hall⟩ := isDigits_cons hds
    unfold parseNumberExponent
    rw [peek_cons e h]
    simp only [hx, if_true]
    have h1 := h.next
    have h1' : Suffix b (n + 1) (d :: (rest ++ s)) := by rw [hd] at h1; exact h1
    have hpk : peek ⟨b, n + 1, e⟩ = d := peek_cons e h1'
    have hnsign : ¬ (d = '+' ∨ d = '-') := by
      intro hc
      rcases hc with rfl | rfl <;> revert hdn <;> decide
    simp only [hpk, hnsign, if_false, hdn, Bool.not_true, Bool.false_eq_true]
    rw [← hpk, digits_run e ds (n + 1) (endsToken_not_numeric hs) h1 hall]
    have h2 := Suffix.skip ds h1
    simp only [renderExponent, List.length_cons]
    rw [show n + (ds.length + 1) = n + 1 + ds.length by omega]
    cases s with
    | nil =>
      rw [isCursorEnd_nil e h2]
      simp
    | cons c s1 =>
      rw [peek_cons e h2, hs c s1 rfl]
      simp
  | some (x, some sg, ds), hwf, h =>
    simp only [exponentWellFormed, Bool.and_eq_true, Bool.or_eq_true, beq_iff_eq] at hwf
    obtain ⟨⟨hx, hsg⟩, hds⟩ := hwf
    simp only [renderExponent, List.cons_append] at h
    obtain ⟨d, rest, hd, hdn, hall⟩ := isDigits_cons hds
    unfold parseNumberExponent
    rw [peek_cons e h]
    simp only [hx, if_true]
    have h1 := h.next
    have hpk : peek ⟨b, n + 1, e⟩ = sg := peek_cons e h1
    have h2 := h1.next
    have h2' : Suffix b (n + 1 + 1) (d :: (rest ++ s)) := by
      rw [hd] at h2; exact h2
    have hpk2 : peek ⟨b, n + 1 + 1, e⟩ = d := peek_cons e h2'
    simp only [hpk, hsg, if_true, hpk2, hdn, Bool.not_true, Bool.false_eq_true, if_false]
    rw [← hpk2, digits_run e ds (n + 1 + 1) (endsToken_not_numeric hs) h2 hall]
    have h3 := Suffix.skip ds h2
    simp only [renderExponent, List.length_cons]
    rw [show n + (ds.length + 1 + 1) = n + 1 + 1 + ds.length by omega]
    cases s with
    | nil =>
      rw [isCursorEnd_nil e h3]
      simp
    | cons c s1 =>
      rw [peek_cons e h3, hs c s1 rfl]
      simp

theorem exponent_head {s : Buffer} (exp : Option (Char × Option Char × List Char))
    (hwf : exponentWellFormed exp = true) (hs : EndsToken s) :
    ∀ c s1, renderExponent exp ++ s = c :: s1 → isNumeric c = false ∧ c ≠ '.' := by
  intro c s1 h
  match exp, hwf, h with
  | none, _, h =>
    simp only [renderExponent, List.nil_append] at h
    have := hs c s1 h
    exact ⟨isSeparator_not_numeric this, (isSeparator_not_number_char this).1⟩
  | some (x, none, ds), hwf, h =>
    simp only [exponentWellFormed, Bool.and_eq_true, Bool.or_eq_true, beq_iff_eq] at hwf
    simp only [renderExponent, List.cons_append, List.cons.injEq] at h
    obtain ⟨rfl, _⟩ := h
    rcases hwf.1 with rfl | rfl <;> exact ⟨by decide, by decide⟩
  | some (x, some sg, ds), hwf, h =>
    simp only [exponentWellFormed, Bool.and_eq_true, Bool.or_eq_true, beq_iff_eq] at hwf
    simp only [renderExponent, List.cons_append, List.cons.injEq] at h
    obtain ⟨rfl, _⟩ := h
    rcases hwf.1.1 with rfl | rfl <;> exact ⟨by decide, by decide⟩

theorem fraction_head {s : Buffer} (frac : Option (List Char))
    (exp : Option (Char × Option Char × List Char))
    (hwf : exponentWellFormed exp = true) (hs : EndsToken s) :
    ∀ c s1, renderFraction frac ++ renderExponent exp ++ s = c :: s1 →
      isNumeric c = false := by
  intro c s1 h
  cases frac with
  | none =>
    simp only [renderFraction, List.nil_append] at h
    exact (exponent_head exp hwf hs c s1 h).1
  | some ds =>
    simp only [renderFraction, List.cons_append, List.cons.injEq] at h
    obtain ⟨rfl, _⟩ := h
    decide

theorem parseNumberFraction_run {b : Buffer} (e : Bool) {s : Buffer} (n : Nat)
    (frac : Option (List Char)) (exp : Option (Char × Option Char × List Char))
    (hfrac : fractionWellFormed frac = true) (hexp : exponentWellFormed exp = true)
    (h : Suffix b n (renderFraction frac ++ renderExponent exp ++ s)) (hs : EndsToken s) :
    parseNumberFraction ⟨b, n, e⟩ (peek ⟨b, n, e⟩)
      = (.TK_NUMBER, ⟨b, n + (renderFraction frac).length + (renderExponent exp).length, e⟩) := by
  cases frac with
  | some ds =>
    simp only [fractionWellFormed] at hfrac
    obtain ⟨d, rest, hd, hdn, hall⟩ := isDigits_cons hfrac
    simp only [renderFraction, List.cons_append, List.append_assoc] at h
    unfold parseNumberFraction
    rw [peek_cons e h]
    simp only [ne_eq, not_true_eq_false, false_and, if_false, if_true]
    have h1 := h.next
    have h1' : Suffix b (n + 1) (d :: (rest ++ (renderExponent exp ++ s))) := by
      rw [hd] at h1; exact h1
    have hpk : peek ⟨b, n + 1, e⟩ = d := peek_cons e h1'
    simp only [hpk, hdn, Bool.not_true, Bool.false_eq_true, if_false]
    rw [← hpk, digits_run e ds (n + 1)
      (fun c s1 hc => (exponent_head exp hexp hs c s1 hc).1) h1 hall]
    have h2 := Suffix.skip ds h1
    simp only
    rw [parseNumberExponent_run e (n + 1 + ds.length) exp hexp h2 hs]
    simp only [renderFraction, List.length_cons]
    rw [show n + (ds.length + 1) = n + 1 + ds.length by omega]
  | none =>
    simp only [renderFraction, List.nil_append, List.length_nil, Nat.add_zero] at h ⊢
    unfold parseNumberFraction
    match exp, hexp, h with
    | none, _, h =>
      simp only [renderExponent, List.nil_append, List.length_nil, Nat.add_zero] at h ⊢
      cases s with
      | nil =>
        rw [peek_nil e h]
        simp [show NUL ≠ '.' by decide, show NUL ≠ 'e' by decide, show NUL ≠ 'E' by decide]
      | cons c s1 =>
        obtain ⟨h1, h2, h3⟩ := isSeparator_not_number_char (hs c s1 rfl)
        rw [peek_cons e h]
        simp [h1, h2, h3]
    | some (x, sign, ds), hexp, h =>
      have hx : (x = 'e' ∨ x = 'E') := by
        cases sign <;>
          simp only [exponentWellFormed, Bool.and_eq_true, Bool.or_eq_true, beq_iff_eq]
            at hexp
        · exact hexp.1
        · exact hexp.1.1
      have hdot : x ≠ '.' := by rcases hx with rfl | rfl <;> decide
      have hpk : peek ⟨b, n, e⟩ = x := by
        cases sign <;> simp only [renderExponent, List.cons_append] at h <;>
          exact peek_cons e h
      have := parseNumberExponent_run e n (some (x, sign, ds)) hexp h hs
      rw [hpk] at this ⊢
      rw [if_neg (by rcases hx with rfl | rfl <;> decide), if_neg hdot]
      exact this

theorem parseNumber_run {b : Buffer} (e : Bool) {s : Buffer} (n : Nat) (text : NumberText)
    (hwf : text.wellFormed = true) (h : Suffix b n (text.render ++ s)) (hs : EndsToken s) :
    parseNumber ⟨b, n, e⟩ = (.TK_NUMBER, ⟨b, n + text.render.length, e⟩) := by
  obtain ⟨neg, int, frac, exp⟩ := text
  simp only [NumberText.wellFormed, Bool.and_eq_true] at hwf
  obtain ⟨⟨hint, hfrac⟩, hexp⟩ := hwf
  obtain ⟨d, rest, hd, hdn, hall⟩ := isDigits_cons hint
  simp only [NumberText.render, List.append_assoc] at h ⊢
  -- after the sign
  have key : ∀ (n0 : Nat),
      Suffix b n0 (int ++ (renderFraction frac ++ (renderExponent exp ++ s))) →
      (if (!isNumeric (peek ⟨b, n0, e⟩)) = true then (TokenType.TK_INVALID, (⟨b, n0, e⟩ : Cursor))
        else parseNumberFraction (digitsLoop b.length ⟨b, n0, e⟩ (peek ⟨b, n0, e⟩)).1
          (digitsLoop b.length ⟨b, n0, e⟩ (peek ⟨b, n0, e⟩)).2)
        = (.TK_NUMBER,
            ⟨b, n0 + int.length + (renderFraction frac).length + (renderExponent exp).length,
              e⟩) := by
    intro n0 h0
    have h0' : Suffix b n0 (d :: (rest ++ (renderFraction frac ++ (renderExponent exp ++ s)))) := by
      rw [hd] at h0; exact h0
    have hpk : peek ⟨b, n0, e⟩ = d := peek_cons e h0'
    rw [hpk]
    simp only [hdn, Bool.not_true, Bool.false_eq_true, if_false]
    rw [← hpk, digits_run e int n0
      (by
        intro c s1 hc
        rw [← List.append_assoc] at hc
        exact fraction_head frac exp hexp hs c s1 hc) h0 hall]
    have h1 := Suffix.skip int h0
    rw [← List.append_assoc] at h1
    exact parseNumberFraction_run e (n0 + int.length) frac exp hfrac hexp h1 hs
  unfold parseNumber
  cases neg with
  | true =>
    simp only [if_true, List.singleton_append, List.cons_append] at h ⊢
    rw [peek_cons e h]
    simp only [if_true]
    have := key (n + 1) h.next
    simp only at this ⊢
    rw [this]
    simp only [List.length_cons, List.length_nil, List.length_append, Prod.mk.injEq,
      Cursor.mk.injEq, true_and, and_true]
    omega
  | false =>
    simp only [Bool.false_eq_true, if_false, List.nil_append] at h ⊢
    have h' : Suffix b n (d :: (rest ++ (renderFraction frac ++ (renderExponent exp ++ s)))) := by
      rw [hd] at h; exact h
    have hpk : peek ⟨b, n, e⟩ = d := peek_cons e h'
    have hneg : d ≠ '-' := by
      intro hc; subst hc; revert hdn; decide
    have := key n h
    rw [hpk] at this ⊢
    simp only [hneg, if_false]
    rw [this]
    simp only [List.length_append, List.length_nil, Prod.mk.injEq, Cursor.mk.injEq, true_and,
      and_true]
    omega

theorem parseStringLoop_run {b : Buffer} (e : Bool) {s : Buffer} :
    ∀ (items : List StringItem) (fuel n : Nat), (renderItems items).length ≤ fuel →
      Suffix b n (renderItems items ++ '"' :: s) →
      items.all StringItem.wellFormed = true →
      parseStringLoop fuel ⟨b, n, e⟩ (peek ⟨b, n, e⟩)
        = (⟨b, n + (renderItems items).length, e⟩, '"') := by
  intro items
  induction items with
  | nil =>
    intro fuel n _ h _
    simp only [renderItems, List.nil_append] at h
    rw [peek_cons e h]
    cases fuel with
    | zero => rfl
    | succ fuel =>
      unfold parseStringLoop
      simp [renderItems]
  | cons item items ih =>
    intro fuel n hf h hwf
    simp only [List.all_cons, Bool.and_eq_true] at hwf
    obtain ⟨hitem, hwf⟩ := hwf
    cases item with
    | plain c =>
      simp only [StringItem.wellFormed, Bool.and_eq_true, bne_iff_ne, ne_eq] at hitem
      obtain ⟨⟨hq, hb⟩, hnul⟩ := hitem
      simp only [renderItems, StringItem.render, List.singleton_append, List.cons_append,
        List.nil_append, List.length_cons] at h hf ⊢
      cases fuel with
      | zero => omega
      | succ fuel =>
        unfold parseStringLoop
        rw [peek_cons e h, isCursorEnd_cons e h hnul]
        simp only [ne_eq, hq, not_false_eq_true, decide_True, Bool.not_false, Bool.and_self,
          if_true, hb, if_false]
        rw [ih fuel (n + 1) (by omega) h.next hwf]
        rw [show n + 1 + (renderItems items).length = n + ((renderItems items).length + 1) by
          omega]
    | escaped c =>
      simp only [renderItems, StringItem.render, List.cons_append, List.nil_append,
        List.length_cons] at h hf ⊢
      cases fuel with
      | zero => omega
      | succ fuel =>
        unfold parseStringLoop
        rw [peek_cons e h, isCursorEnd_cons e h (by decide)]
        simp only [ne_eq, show ¬ ('\\' = '"') by decide, not_false_eq_true, decide_True,
          Bool.not_false, Bool.and_self, if_true]
        rw [ih fuel (n + 2) (by omega) h.next.next hwf]
        rw [show n + 2 + (renderItems items).length
          = n + ((renderItems items).length + 1 + 1) by omega]

theorem parseString_run {b : Buffer} (e : Bool) {s : Buffer} (items : List StringItem) (n : Nat)
    (h : Suffix b n ('"' :: (renderItems items ++ '"' :: s)))
    (hwf : items.all StringItem.wellFormed = true) :
    parseString ⟨b, n, e⟩ = (.TK_STRING, ⟨b, n + 1 + (renderItems items).length + 1, e⟩) := by
  unfold parseString
  have h1 := h.next
  have hlen := (Suffix.skip (renderItems items) h1).1
  simp only
  rw [parseStringLoop_run e items b.length (n + 1) (by omega) h1 hwf]
  simp

theorem parseKeywordLoop_run {b : Buffer} (e : Bool) {s : Buffer} (hs : EndsToken s) :
    ∀ (t : Buffer) (fuel n k : Nat), t.length ≤ fuel → Suffix b n (t ++ s) →
      t.all (fun c => !isSeparator c && c != NUL) = true →
      parseKeywordLoop fuel ⟨b, n, e⟩ (peek ⟨b, n, e⟩) k
        = (⟨b, n + t.length, e⟩, k + t.length) := by
  intro t
  induction t with
  | nil =>
    intro fuel n k _ h _
    simp only [List.nil_append] at h
    cases fuel with
    | zero => rfl
    | succ fuel =>
      unfold parseKeywordLoop
      cases s with
      | nil =>
        rw [isCursorEnd_nil e h]
        simp
      | cons c s1 =>
        rw [peek_cons e h, hs c s1 rfl]
        simp
  | cons c t ih =>
    intro fuel n k hf h ht
    simp only [List.length_cons] at hf
    simp only [List.all_cons, Bool.and_eq_true, Bool.not_eq_true', bne_iff_ne, ne_eq] at ht
    obtain ⟨⟨hsep, hnul⟩, ht⟩ := ht
    cases fuel with
    | zero => omega
    | succ fuel =>
      have h' : Suffix b n (c :: (t ++ s)) := h
      unfold parseKeywordLoop
      rw [peek_cons e h', isCursorEnd_cons e h' hnul]
      simp only [hsep, Bool.not_false, Bool.and_self, if_true]
      rw [ih fuel (n + 1) (k + 1) (by omega) h'.next (by
        simpa [List.all_eq_true] using ht)]
      simp only [List.length_cons, Prod.mk.injEq, Cursor.mk.injEq, true_and, and_true]
      omega

theorem areEqualLoop_self : ∀ (a : Buffer), areEqualLoop a a = true := by
  intro a
  induction a with
  | nil => rfl
  | cons c a ih => simp [areEqualLoop, ih]

theorem areEqual_self (a : Buffer) : areEqual a a = true := by
  simp [areEqual, areEqualLoop_self]

theorem parseKeyword_run {b : Buffer} (e : Bool) {s : Buffer} (kw : Buffer) (n : Nat)
    (h : Suffix b n (kw ++ s)) (hs : EndsToken s)
    (hkw : kw.all (fun c => !isSeparator c && c != NUL) = true) :
    parseKeyword ⟨b, n, e⟩ kw = (.TK_KEYWORD, ⟨b, n + kw.length, e⟩) := by
  unfold parseKeyword
  have hlen := (Suffix.skip kw h).1
  simp only
  rw [parseKeywordLoop_run e hs kw b.length n 0 (by omega) h hkw]
  simp only [Nat.zero_add]
  rw [Suffix.viewBytes kw h, areEqual_self]
  simp

theorem parseNextToken_run {b : Buffer} (e : Bool) (ws tok s : Buffer) (n : Nat) (c : Char)
    (tok1 : Buffer) (htok : tok = c :: tok1) (h : Suffix b n (ws ++ (tok ++ s)))
    (hws : isWhitespace ws = true) (hsp : isSpace c = false) (hnul : c ≠ NUL) (ty : TokenType)
    (hsw : parseNextTokenSwitch ⟨b, n + ws.length, e⟩ c
      = (ty, ⟨b, n + ws.length + tok.length, e⟩)) :
    parseNextToken ⟨b, n, e⟩
      = (⟨ty, ⟨n + ws.length, tok.length⟩⟩, ⟨b, n + ws.length + tok.length, e⟩) := by
  subst htok
  have h1 : Suffix b (n + ws.length) (c :: (tok1 ++ s)) := Suffix.skip ws h
  unfold parseNextToken
  simp only
  rw [skipSpaces_run e ws n (by
      intro c' s' hc
      simp only [List.cons_append, List.cons.injEq] at hc
      rw [← hc.1]; exact hsp) h hws,
    isCursorEnd_cons e h1 hnul, peek_cons e h1, hsw]
  simp only [Bool.false_eq_true, if_false, List.length_cons]
  rw [if_neg (by omega)]
  simp only [Token.mk.injEq, BufferView.mk.injEq, Prod.mk.injEq, true_and, and_true]
  omega

theorem punctuation_token {b : Buffer} (e : Bool) (ws s : Buffer) (n : Nat) (c : Char)
    (ty : TokenType)
    (hc : (c = '{' ∧ ty = .TK_OPEN_BRACE) ∨ (c = '}' ∧ ty = .TK_CLOSE_BRACE) ∨
      (c = '[' ∧ ty = .TK_OPEN_BRACKET) ∨ (c = ']' ∧ ty = .TK_CLOSE_BRACKET) ∨
      (c = ':' ∧ ty = .TK_COLON) ∨ (c = ',' ∧ ty = .TK_COMMA))
    (h : Suffix b n (ws ++ c :: s)) (hws : isWhitespace ws = true) :
    parseNextToken ⟨b, n, e⟩ = (⟨ty, ⟨n + ws.length, 1⟩⟩, ⟨b, n + ws.length + 1, e⟩) := by
  have := parseNextToken_run e ws [c] s n c [] rfl h hws
  rcases hc with ⟨rfl, rfl⟩ | ⟨rfl, rfl⟩ | ⟨rfl, rfl⟩ | ⟨rfl, rfl⟩ | ⟨rfl, rfl⟩ | ⟨rfl, rfl⟩ <;>
    exact this (by decide) (by decide) _ (by simp [parseNextTokenSwitch])

theorem string_token {b : Buffer} (e : Bool) (ws s : Buffer) (n : Nat) (items : List StringItem)
    (h : Suffix b n (ws ++ ('"' :: (renderItems items ++ '"' :: s))))
    (hws : isWhitespace ws = true) (hwf : items.all StringItem.wellFormed = true) :
    parseNextToken ⟨b, n, e⟩
      = (⟨.TK_STRING, ⟨n + ws.length, (renderItems items).length + 2⟩⟩,
          ⟨b, n + ws.length + ((renderItems items).length + 2), e⟩) := by
  have h1 : Suffix b (n + ws.length) ('"' :: (renderItems items ++ '"' :: s)) :=
    Suffix.skip ws h
  have := parseNextToken_run e ws ('"' :: (renderItems items ++ ['"'])) s n '"'
    (renderItems items ++ ['"']) rfl (by simpa using h) hws (by decide) (by decide) .TK_STRING
    (by
      simp only [parseNextTokenSwitch, show ¬ ('"' = '{') by decide,
        show ¬ ('"' = '}') by decide, show ¬ ('"' = '[') by decide,
        show ¬ ('"' = ']') by decide, show ¬ ('"' = ':') by decide,
        show ¬ ('"' = ',') by decide, if_false, if_true]
      rw [parseString_run e items (n + ws.length) h1 hwf]
      simp only [List.length_cons, List.length_append, List.length_nil, Prod.mk.injEq,
        Cursor.mk.injEq, true_and, and_true]
      omega)
  simpa using this

theorem keyword_token {b : Buffer} (e : Bool) (ws s : Buffer) (n : Nat) (kw : String)
    (ty : TokenType)
    (hkw : (kw = "true" ∧ ty = .TK_TRUE) ∨ (kw = "false" ∧ ty = .TK_FALSE) ∨
      (kw = "null" ∧ ty = .TK_NULL))
    (h : Suffix b n (ws ++ (CS kw ++ s))) (hws : isWhitespace ws = true) (hs : EndsToken s) :
    parseNextToken ⟨b, n, e⟩
      = (⟨ty, ⟨n + ws.length, (CS kw).length⟩⟩, ⟨b, n + ws.length + (CS kw).length, e⟩) := by
  have h1 : Suffix b (n + ws.length) (CS kw ++ s) := Suffix.skip ws h
  rcases hkw with ⟨rfl, rfl⟩ | ⟨rfl, rfl⟩ | ⟨rfl, rfl⟩
  · refine parseNextToken_run e ws (CS "true") s n 't' (CS "rue") rfl h hws (by decide)
      (by decide) _ ?_
    simp only [parseNextTokenSwitch, show ¬ ('t' = '{') by decide,
      show ¬ ('t' = '}') by decide, show ¬ ('t' = '[') by decide,
      show ¬ ('t' = ']') by decide, show ¬ ('t' = ':') by decide,
      show ¬ ('t' = ',') by decide, show ¬ ('t' = '"') by decide, if_false, if_true]
    rw [parseKeyword_run e (CS "true") (n + ws.length) h1 hs (by decide)]
    simp
  · refine parseNextToken_run e ws (CS "false") s n 'f' (CS "alse") rfl h hws (by decide)
      (by decide) _ ?_
    simp only [parseNextTokenSwitch, show ¬ ('f' = '{') by decide,
      show ¬ ('f' = '}') by decide, show ¬ ('f' = '[') by decide,
      show ¬ ('f' = ']') by decide, show ¬ ('f' = ':') by decide,
      show ¬ ('f' = ',') by decide, show ¬ ('f' = '"') by decide,
      show ¬ ('f' = 't') by decide, if_false, if_true]
    rw [parseKeyword_run e (CS "false") (n + ws.length) h1 hs (by decide)]
    simp
  · refine parseNextToken_run e ws (CS "null") s n 'n' (CS "ull") rfl h hws (by decide)
      (by decide) _ ?_
    simp only [parseNextTokenSwitch, show ¬ ('n' = '{') by decide,
      show ¬ ('n' = '}') by decide, show ¬ ('n' = '[') by decide,
      show ¬ ('n' = ']') by decide, show ¬ ('n' = ':') by decide,
      show ¬ ('n' = ',') by decide, show ¬ ('n' = '"') by decide,
      show ¬ ('n' = 't') by decide, show ¬ ('n' = 'f') by decide, if_false, if_true]
    rw [parseKeyword_run e (CS "null") (n + ws.length) h1 hs (by decide)]
    simp

theorem number_head (text : NumberText) (hwf : text.wellFormed = true) :
    ∃ c t1, text.render = c :: t1 ∧ (c = '-' ∨ isNumeric c = true) := by
  obtain ⟨neg, int, frac, exp⟩ := text
  simp only [NumberText.wellFormed, Bool.and_eq_true] at hwf
  obtain ⟨d, rest, hd, hdn, _⟩ := isDigits_cons hwf.1.1
  subst hd
  cases neg with
  | true =>
    exact ⟨'-', d :: rest ++ renderFraction frac ++ renderExponent exp,
      by simp [NumberText.render], Or.inl rfl⟩
  | false =>
    exact ⟨d, rest ++ renderFraction frac ++ renderExponent exp,
      by simp [NumberText.render], Or.inr hdn⟩

theorem number_token {b : Buffer} (e : Bool) (ws s : Buffer) (n : Nat) (text : NumberText)
    (hwf : text.wellFormed = true) (h : Suffix b n (ws ++ (text.render ++ s)))
    (hws : isWhitespace ws = true) (hs : EndsToken s) :
    parseNextToken ⟨b, n, e⟩
      = (⟨.TK_NUMBER, ⟨n + ws.length, text.render.length⟩⟩,
          ⟨b, n + ws.length + text.render.length, e⟩) := by
  have h1 : Suffix b (n + ws.length) (text.render ++ s) := Suffix.skip ws h
  obtain ⟨c, t1, hc, hhead⟩ := number_head text hwf
  have hc1 : isSpace c = false ∧ c ≠ NUL ∧ c ≠ '{' ∧ c ≠ '}' ∧ c ≠ '[' ∧ c ≠ ']' ∧ c ≠ ':' ∧
      c ≠ ',' ∧ c ≠ '"' ∧ c ≠ 't' ∧ c ≠ 'f' ∧ c ≠ 'n' := by
    rcases hhead with rfl | hnum
    · decide
    · have hsep : isSeparator c = false := by
        cases hsp : isSeparator c
        · rfl
        · rw [isSeparator_not_numeric hsp] at hnum; cases hnum
      have hspace : isSpace c = false := by
        cases hsp : isSpace c
        · rfl
        · rw [isSpace_isSeparator hsp] at hsep; cases hsep
      refine ⟨hspace, isNumeric_ne_NUL hnum, ?_, ?_, ?_, ?_, ?_, ?_, ?_, ?_, ?_, ?_⟩ <;>
        (intro hc; subst hc; revert hnum; decide)
  obtain ⟨h1s, h2s, h3, h4, h5, h6, h7, h8, h9, h10, h11, h12⟩ := hc1
  refine parseNextToken_run e ws text.render s n c t1 hc h hws h1s h2s _ ?_
  simp only [parseNextTokenSwitch, h3, h4, h5, h6, h7, h8, h9, h10, h11, h12, if_false]
  rw [if_pos hhead, parseNumber_run e (n + ws.length) text hwf h1 hs]

theorem value_head (v : JValue) (hwf : v.wellFormed = true) :
    ∃ c t, v.render = c :: t ∧ isSpace c = false ∧ c ≠ NUL := by
  cases v with
  | number text =>
    obtain ⟨c, t1, hc, hhead⟩ := number_head text hwf
    refine ⟨c, t1, hc, ?_⟩
    rcases hhead with rfl | hnum
    · exact ⟨by decide, by decide⟩
    · refine ⟨?_, isNumeric_ne_NUL hnum⟩
      cases hsp : isSpace c
      · rfl
      · rw [isSeparator_not_numeric (isSpace_isSeparator hsp)] at hnum; cases hnum
  | string items => exact ⟨'"', _, rfl, by decide, by decide⟩
  | true => exact ⟨'t', _, rfl, by decide, by decide⟩
  | false => exact ⟨'f', _, rfl, by decide, by decide⟩
  | null => exact ⟨'n', _, rfl, by decide, by decide⟩
  | array es wsc => exact ⟨'[', _, rfl, by decide, by decide⟩
  | object ms wsc => exact ⟨'{', _, rfl, by decide, by decide⟩

/-- Whitespace followed by bytes that start with a byte other than zero starts
with a byte other than zero. -/
theorem whitespace_append_head {ws s : Buffer} (hws : isWhitespace ws = true)
    (hs : ∃ c t, s = c :: t ∧ c ≠ NUL) : ∃ c t, ws ++ s = c :: t ∧ c ≠ NUL := by
  cases ws with
  | nil => simpa using hs
  | cons w ws =>
    simp only [isWhitespace, List.all_cons, Bool.and_eq_true] at hws
    exact ⟨w, ws ++ s, rfl, isSpace_ne_NUL hws.1⟩

theorem whitespace_append_ends {ws s : Buffer} (hws : isWhitespace ws = true)
    (hs : EndsToken s) : EndsToken (ws ++ s) := by
  intro c t h
  cases ws with
  | nil => exact hs c t (by simpa using h)
  | cons w ws =>
    simp only [isWhitespace, List.all_cons, Bool.and_eq_true] at hws
    simp only [List.cons_append, List.cons.injEq] at h
    rw [← h.1]
    exact isSpace_isSeparator hws.1

theorem endsToken_cons {c : Char} (s : Buffer) (hc : isSeparator c = true) :
    EndsToken (c :: s) := by
  intro c' t h
  simp only [List.cons.injEq] at h
  rw [← h.1]; exact hc

theorem endsToken_of_whitespace {ws : Buffer} (hws : isWhitespace ws = true) :
    EndsToken ws := by
  have := whitespace_append_ends (s := []) hws (fun c t h => by cases h)
  simpa using this

theorem isCursorEnd_of_head {b : Buffer} {n : Nat} {s : Buffer} (e : Bool) (h : Suffix b n s)
    (hs : ∃ c t, s = c :: t ∧ c ≠ NUL) : isCursorEnd ⟨b, n, e⟩ = false := by
  obtain ⟨c, t, rfl, hc⟩ := hs
  exact isCursorEnd_cons e h hc

theorem first_token {b : Buffer} (e : Bool) (v : JValue) (hwf : v.wellFormed = true)
    (ws s : Buffer) (n : Nat) (hws : isWhitespace ws = true)
    (h : Suffix b n (ws ++ (v.render ++ s))) (hs : EndsToken s) :
    parseNextToken ⟨b, n, e⟩
      = (⟨v.firstToken.1, ⟨n + ws.length, v.firstToken.2⟩⟩,
          ⟨b, n + ws.length + v.firstToken.2, e⟩) := by
  cases v with
  | number text => exact number_token e ws s n text hwf h hws hs
  | string items =>
    exact string_token e ws s n items (by simpa [JValue.render] using h) hws hwf
  | true => exact keyword_token e ws s n "true" _ (Or.inl ⟨rfl, rfl⟩) h hws hs
  | false => exact keyword_token e ws s n "false" _ (Or.inr (Or.inl ⟨rfl, rfl⟩)) h hws hs
  | null => exact keyword_token e ws s n "null" _ (Or.inr (Or.inr ⟨rfl, rfl⟩)) h hws hs
  | array es wsc =>
    exact punctuation_token e ws _ n '[' _ (Or.inr (Or.inr (Or.inl ⟨rfl, rfl⟩)))
      (by simpa [JValue.render] using h) hws
  | object ms wsc =>
    exact punctuation_token e ws _ n '{' _ (Or.inl ⟨rfl, rfl⟩)
      (by simpa [JValue.render] using h) hws

theorem firstToken_not_close (v : JValue) :
    v.firstToken.1 ≠ .TK_CLOSE_BRACKET ∧ v.firstToken.1 ≠ .TK_CLOSE_BRACE ∧
      v.firstToken.1 ≠ .TK_COMMA := by
  cases v <;> simp [JValue.firstToken]

theorem mirror_withLabel (v : JValue) (l1 l2 : Buffer) :
    (v.mirror l1).withLabel l2 = v.mirror l2 := by
  cases v <;> rfl

theorem elements_head (es : JElements) (hwf : es.wellFormed = true) (wsc s : Buffer)
    (c0 : Char) (hc0 : c0 ≠ NUL) (hwsc : isWhitespace wsc = true) :
    ∃ c t, es.render ++ (wsc ++ c0 :: s) = c :: t ∧ c ≠ NUL := by
  cases es with
  | nil =>
    simp only [JElements.render, List.nil_append]
    exact whitespace_append_head hwsc ⟨c0, s, rfl, hc0⟩
  | cons wsB v wsA rest =>
    simp only [JElements.wellFormed, Bool.and_eq_true] at hwf
    obtain ⟨c, t, hv, _, hnul⟩ := value_head v hwf.1.1.2
    simp only [JElements.render, List.append_assoc]
    exact whitespace_append_head hwf.1.1.1 ⟨c, _, by rw [hv]; rfl, hnul⟩

theorem members_head (ms : JMembers) (hwf : ms.wellFormed = true) (wsc s : Buffer)
    (c0 : Char) (hc0 : c0 ≠ NUL) (hwsc : isWhitespace wsc = true) :
    ∃ c t, ms.render ++ (wsc ++ c0 :: s) = c :: t ∧ c ≠ NUL := by
  cases ms with
  | nil =>
    simp only [JMembers.render, List.nil_append]
    exact whitespace_append_head hwsc ⟨c0, s, rfl, hc0⟩
  | cons wsK key wsColon wsV v wsA rest =>
    simp only [JMembers.wellFormed, Bool.and_eq_true] at hwf
    simp only [JMembers.render, List.append_assoc]
    exact whitespace_append_head hwf.1.1.1.1.1.1 ⟨'"', _, rfl, by decide⟩

/-- Behind the first token of a value that is followed by more input, the
cursor is not at the end. -/
theorem not_end_after_first_token {b : Buffer} (e : Bool) (v : JValue)
    (hwf : v.wellFormed = true) (ws s : Buffer) (n : Nat)
    (h : Suffix b n (ws ++ (v.render ++ s))) (hs : ∃ c t, s = c :: t ∧ c ≠ NUL) :
    isCursorEnd ⟨b, n + ws.length + v.firstToken.2, e⟩ = false := by
  have h1 : Suffix b (n + ws.length) (v.render ++ s) := Suffix.skip ws h
  cases v with
  | number text => exact isCursorEnd_of_head e (Suffix.skip _ h1) hs
  | string items =>
    have : Suffix b (n + ws.length + ('"' :: (renderItems items ++ ['"'])).length) s :=
      Suffix.skip _ (by simpa [JValue.render] using h1)
    simp only [List.length_cons, List.length_append, List.length_nil] at this
    exact isCursorEnd_of_head e this hs
  | true => exact isCursorEnd_of_head e (Suffix.skip (CS "true") h1) hs
  | false => exact isCursorEnd_of_head e (Suffix.skip (CS "false") h1) hs
  | null => exact isCursorEnd_of_head e (Suffix.skip (CS "null") h1) hs
  | array es wsc =>
    simp only [JValue.wellFormed, Bool.and_eq_true] at hwf
    have h2 : Suffix b (n + ws.length + 1) (es.render ++ (wsc ++ ']' :: s)) := by
      have := Suffix.next (by simpa [JValue.render] using h1 :
        Suffix b (n + ws.length) ('[' :: (es.render ++ (wsc ++ ']' :: s))))
      exact this
    exact isCursorEnd_of_head e h2 (elements_head es hwf.1 wsc s ']' (by decide) hwf.2)
  | object ms wsc =>
    simp only [JValue.wellFormed, Bool.and_eq_true] at hwf
    have h2 : Suffix b (n + ws.length + 1) (ms.render ++ (wsc ++ '}' :: s)) := by
      have := Suffix.next (by simpa [JValue.render] using h1 :
        Suffix b (n + ws.length) ('{' :: (ms.render ++ (wsc ++ '}' :: s))))
      exact this
    exact isCursorEnd_of_head e h2 (members_head ms hwf.1 wsc s '}' (by decide) hwf.2)

theorem isWhitespace_append {a c : Buffer} (ha : isWhitespace a = true)
    (hc : isWhitespace c = true) : isWhitespace (a ++ c) = true := by
  simp only [isWhitespace, List.all_append, Bool.and_eq_true] at *
  exact ⟨ha, hc⟩

theorem viewBytes_zero (b : Buffer) (n : Nat) : viewBytes b ⟨n, 0⟩ = [] := rfl

/-- One round of the loop of `parseList` on an array: the element is read and
the loop goes on with the rest of the elements. -/
theorem elements_step (wsB : Buffer) (v : JValue) (wsA : Buffer) (rest : JElements)
    (hwf : (JElements.cons wsB v wsA rest).wellFormed = true) (hv : ValueParses v)
    (hrest : ElementsParse rest) : ElementsParse (.cons wsB v wsA rest) := by
  simp only [JElements.wellFormed, Bool.and_eq_true] at hwf
  obtain ⟨⟨⟨hwsB, hvwf⟩, hwsA⟩, hrwf⟩ := hwf
  intro b n e wsc s fuel sep acc hwsc hsuf hlen hfuel
  cases fuel with
  | zero => simp only [JElements.size] at hfuel; omega
  | succ f =>
    simp only [JElements.size] at hfuel
    -- what follows the value
    have hsufV : Suffix b n (wsB ++ (v.render ++ (wsA ++
        ((if rest.isEmpty then [] else ',' :: rest.render) ++ (wsc ++ ']' :: s))))) := by
      simpa [JElements.render, List.append_assoc] using hsuf
    have htail : EndsToken ((if rest.isEmpty then [] else ',' :: rest.render)
        ++ (wsc ++ ']' :: s)) ∧
        ∃ c t, (if rest.isEmpty then [] else ',' :: rest.render) ++ (wsc ++ ']' :: s) = c :: t
          ∧ c ≠ NUL := by
      cases hr : rest.isEmpty
      · exact ⟨endsToken_cons _ (by decide),
          ⟨',', rest.render ++ (wsc ++ ']' :: s), by simp, by decide⟩⟩
      · exact ⟨by simpa using whitespace_append_ends hwsc (endsToken_cons s (by decide)),
          by simpa using whitespace_append_head hwsc ⟨']', s, rfl, by decide⟩⟩
    have hends := whitespace_append_ends hwsA htail.1
    have hhead := whitespace_append_head hwsA htail.2
    have hnotend := not_end_after_first_token e v hvwf wsB _ n hsufV hhead
    have hval := hv b n e wsB _ f hwsB hsufV hends hlen (by omega)
    have hsuf2 : Suffix b (n + wsB.length + v.render.length) (wsA ++
        ((if rest.isEmpty then [] else ',' :: rest.render) ++ (wsc ++ ']' :: s))) := by
      have := Suffix.skip v.render (Suffix.skip wsB hsufV)
      exact this
    rw [parseListLoop]
    simp only [hnotend, Bool.false_eq_true, if_false,
      show ¬ (json_ElementType.json_ARRAY = json_ElementType.json_OBJECT) by decide, hval,
      viewBytes_zero, mirror_withLabel]
    cases rest with
    | nil =>
      simp only [JElements.isEmpty, if_true, List.nil_append] at hsuf2
      have hsep := punctuation_token e (wsA ++ wsc) s (n + wsB.length + v.render.length) ']'
        .TK_CLOSE_BRACKET (Or.inr (Or.inr (Or.inr (Or.inl ⟨rfl, rfl⟩))))
        (by simpa [List.append_assoc] using hsuf2) (isWhitespace_append hwsA hwsc)
      rw [hsep]
      simp only [ne_eq, not_true_eq_false, and_false, if_false, if_true, JElements.mirror,
        JElements.render, JElements.isEmpty, List.append_nil, List.length_append,
        Prod.mk.injEq, Token.mk.injEq, BufferView.mk.injEq, Cursor.mk.injEq, true_and, and_true]
      omega
    | cons wsB2 v2 wsA2 rest2 =>
      simp only [JElements.isEmpty, Bool.false_eq_true, if_false, List.cons_append] at hsuf2
      have hsep := punctuation_token e wsA _ (n + wsB.length + v.render.length) ','
        .TK_COMMA (Or.inr (Or.inr (Or.inr (Or.inr (Or.inr ⟨rfl, rfl⟩))))) hsuf2 hwsA
      rw [hsep]
      simp only [ne_eq, not_true_eq_false, false_and, if_false,
        show ¬ (TokenType.TK_COMMA = TokenType.TK_CLOSE_BRACKET) by decide]
      -- the first token of the next element
      have hsuf3 : Suffix b (n + wsB.length + v.render.length + wsA.length + 1)
          ((JElements.cons wsB2 v2 wsA2 rest2).render ++ (wsc ++ ']' :: s)) := by
        have := Suffix.next (Suffix.skip wsA hsuf2)
        exact this
      have hrwf' := hrwf
      simp only [JElements.wellFormed, Bool.and_eq_true] at hrwf'
      obtain ⟨⟨⟨hwsB2, hvwf2⟩, hwsA2⟩, hrwf2⟩ := hrwf'
      have hsufV2 : Suffix b (n + wsB.length + v.render.length + wsA.length + 1)
          (wsB2 ++ (v2.render ++ (wsA2 ++
            ((if rest2.isEmpty then [] else ',' :: rest2.render) ++ (wsc ++ ']' :: s))))) := by
        simpa [JElements.render, List.append_assoc] using hsuf3
      have htail2 : EndsToken ((if rest2.isEmpty then [] else ',' :: rest2.render)
          ++ (wsc ++ ']' :: s)) := by
        cases hr : rest2.isEmpty
        · exact endsToken_cons _ (by decide)
        · simpa using whitespace_append_ends hwsc (endsToken_cons s (by decide))
      rw [first_token e v2 hvwf2 wsB2 _ _ hwsB2 hsufV2 (whitespace_append_ends hwsA2 htail2)]
      simp only
      have := hrest b (n + wsB.length + v.render.length + wsA.length + 1) e wsc s f
        ⟨.TK_COMMA, ⟨n + wsB.length + v.render.length + wsA.length, 1⟩⟩ (acc ++ [v.mirror []])
        hwsc hsuf3 hlen (by omega)
      rw [this]
      simp only [JElements.mirror, JElements.render, JElements.isEmpty, Bool.false_eq_true,
        if_false, List.append_assoc, List.singleton_append, List.length_append,
        List.length_cons, Prod.mk.injEq, Token.mk.injEq, BufferView.mk.injEq, Cursor.mk.injEq,
        true_and, and_true]
      omega

theorem sub64_add_two {k : Nat} (h : k + 2 < 2 ^ 64) : sub64 (k + 2) 2 = k := by
  unfold sub64
  omega

/-- One round of the loop of `parseList` on an object: the member is read,
labelled with its key, and the loop goes on with the rest of the members. -/
theorem members_step (wsK : Buffer) (key : List StringItem) (wsColon wsV : Buffer) (v : JValue)
    (wsA : Buffer) (rest : JMembers)
    (hwf : (JMembers.cons wsK key wsColon wsV v wsA rest).wellFormed = true)
    (hv : ValueParses v) (hrest : MembersParse rest) :
    MembersParse (.cons wsK key wsColon wsV v wsA rest) := by
  simp only [JMembers.wellFormed, Bool.and_eq_true] at hwf
  obtain ⟨⟨⟨⟨⟨⟨hwsK, hkey⟩, hwsColon⟩, hwsV⟩, hvwf⟩, hwsA⟩, hrwf⟩ := hwf
  intro b n e wsc s fuel sep acc hwsc hsuf hlen hfuel
  cases fuel with
  | zero => simp only [JMembers.size] at hfuel; omega
  | succ f =>
    simp only [JMembers.size] at hfuel
    have hsufK : Suffix b n (wsK ++ ('"' :: (renderItems key ++ '"' :: (wsColon ++ ':' ::
        (wsV ++ (v.render ++ (wsA ++
          ((if rest.isEmpty then [] else ',' :: rest.render) ++ (wsc ++ '}' :: s))))))))) := by
      simpa [JMembers.render, List.append_assoc] using hsuf
    have htail : EndsToken ((if rest.isEmpty then [] else ',' :: rest.render)
        ++ (wsc ++ '}' :: s)) ∧
        ∃ c t, (if rest.isEmpty then [] else ',' :: rest.render) ++ (wsc ++ '}' :: s) = c :: t
          ∧ c ≠ NUL := by
      cases hr : rest.isEmpty
      · exact ⟨endsToken_cons _ (by decide),
          ⟨',', rest.render ++ (wsc ++ '}' :: s), by simp, by decide⟩⟩
      · exact ⟨by simpa using whitespace_append_ends hwsc (endsToken_cons s (by decide)),
          by simpa using whitespace_append_head hwsc ⟨'}', s, rfl, by decide⟩⟩
    have hends := whitespace_append_ends hwsA htail.1
    have hhead := whitespace_append_head hwsA htail.2
    -- the key
    have hsufQ : Suffix b (n + wsK.length) ('"' :: (renderItems key ++ '"' :: (wsColon ++ ':' ::
        (wsV ++ (v.render ++ (wsA ++
          ((if rest.isEmpty then [] else ',' :: rest.render) ++ (wsc ++ '}' :: s)))))))) :=
      Suffix.skip wsK hsufK
    have hkeylen : (renderItems key).length + 2 < 2 ^ 64 := by
      have := (Suffix.skip (renderItems key) hsufQ.next).lt
      omega
    have hlabel : viewBytes b ⟨n + wsK.length + 1, (renderItems key).length⟩ = renderItems key :=
      Suffix.viewBytes (renderItems key) hsufQ.next
    -- the colon
    have hsufC : Suffix b (n + wsK.length + ((renderItems key).length + 2)) (wsColon ++ ':' ::
        (wsV ++ (v.render ++ (wsA ++
          ((if rest.isEmpty then [] else ',' :: rest.render) ++ (wsc ++ '}' :: s)))))) := by
      have := (Suffix.skip (renderItems key) hsufQ.next).next
      rw [show n + wsK.length + ((renderItems key).length + 2)
        = n + wsK.length + 1 + (renderItems key).length + 1 by omega]
      exact this
    have hnotend : isCursorEnd ⟨b, n + wsK.length + ((renderItems key).length + 2), e⟩ = false :=
      isCursorEnd_of_head e hsufC (whitespace_append_head hwsColon ⟨':', _, rfl, by decide⟩)
    have hcolon := punctuation_token e wsColon _
      (n + wsK.length + ((renderItems key).length + 2)) ':' .TK_COLON
      (Or.inr (Or.inr (Or.inr (Or.inr (Or.inl ⟨rfl, rfl⟩))))) hsufC hwsColon
    -- the value
    have hsufV : Suffix b (n + wsK.length + ((renderItems key).length + 2) + wsColon.length + 1)
        (wsV ++ (v.render ++ (wsA ++
          ((if rest.isEmpty then [] else ',' :: rest.render) ++ (wsc ++ '}' :: s))))) :=
      (Suffix.skip wsColon hsufC).next
    have hfirst := first_token e v hvwf wsV _ _ hwsV hsufV hends
    have hval := hv b _ e wsV _ f hwsV hsufV hends hlen (by omega)
    have hsuf2 : Suffix b (n + wsK.length + ((renderItems key).length + 2) + wsColon.length + 1
        + wsV.length + v.render.length) (wsA ++
        ((if rest.isEmpty then [] else ',' :: rest.render) ++ (wsc ++ '}' :: s))) :=
      Suffix.skip v.render (Suffix.skip wsV hsufV)
    rw [parseListLoop]
    simp only [hnotend, Bool.false_eq_true, if_false, if_true, hcolon, ne_eq, not_true_eq_false,
      takeOffQuotes, sub64_add_two hkeylen, hfirst, hval, hlabel, mirror_withLabel]
    cases rest with
    | nil =>
      simp only [JMembers.isEmpty, if_true, List.nil_append] at hsuf2
      have hsep := punctuation_token e (wsA ++ wsc) s _ '}'
        .TK_CLOSE_BRACE (Or.inr (Or.inl ⟨rfl, rfl⟩))
        (by simpa [List.append_assoc] using hsuf2) (isWhitespace_append hwsA hwsc)
      rw [hsep]
      simp only [ne_eq, not_true_eq_false, and_false, if_false, if_true, JMembers.mirror,
        JMembers.render, JMembers.isEmpty, List.append_nil, List.length_append,
        List.length_cons, Prod.mk.injEq, Token.mk.injEq, BufferView.mk.injEq, Cursor.mk.injEq,
        true_and, and_true]
      omega
    | cons wsK2 key2 wsColon2 wsV2 v2 wsA2 rest2 =>
      simp only [JMembers.isEmpty, Bool.false_eq_true, if_false, List.cons_append] at hsuf2
      have hsep := punctuation_token e wsA _ _ ','
        .TK_COMMA (Or.inr (Or.inr (Or.inr (Or.inr (Or.inr ⟨rfl, rfl⟩))))) hsuf2 hwsA
      rw [hsep]
      simp only [ne_eq, not_true_eq_false, false_and, if_false,
        show ¬ (TokenType.TK_COMMA = TokenType.TK_CLOSE_BRACE) by decide]
      -- the key of the next member
      have hsuf3 := (Suffix.skip wsA hsuf2).next
      have hrwf' := hrwf
      simp only [JMembers.wellFormed, Bool.and_eq_true] at hrwf'
      obtain ⟨⟨⟨⟨⟨⟨hwsK2, hkey2⟩, _⟩, _⟩, _⟩, _⟩, _⟩ := hrwf'
      have hsufK2 : Suffix b (n + wsK.length + ((renderItems key).length + 2) + wsColon.length
          + 1 + wsV.length + v.render.length + wsA.length + 1)
          (wsK2 ++ ('"' :: (renderItems key2 ++ '"' :: (wsColon2 ++ ':' ::
            (wsV2 ++ (v2.render ++ (wsA2 ++
              ((if rest2.isEmpty then [] else ',' :: rest2.render)
                ++ (wsc ++ '}' :: s))))))))) := by
        simpa [JMembers.render, List.append_assoc] using hsuf3
      rw [string_token e wsK2 _ _ key2 hsufK2 hwsK2 hkey2]
      simp only
      have := hrest b _ e wsc s f
        ⟨.TK_COMMA, ⟨n + wsK.length + ((renderItems key).length + 2) + wsColon.length
          + 1 + wsV.length + v.render.length + wsA.length, 1⟩⟩
        (acc ++ [v.mirror (renderItems key)]) hwsc hsuf3 hlen (by omega)
      rw [this]
      simp only [JMembers.mirror, JMembers.render, JMembers.isEmpty, Bool.false_eq_true,
        if_false, List.append_assoc, List.singleton_append, List.length_append,
        List.length_cons, Prod.mk.injEq, Token.mk.injEq, BufferView.mk.injEq, Cursor.mk.injEq,
        true_and, and_true]
      omega

theorem parse_array (es : JElements) (wsc : Buffer)
    (hwf : (JValue.array es wsc).wellFormed = true) (hE : ElementsParse es) :
    ValueParses (.array es wsc) := by
  simp only [JValue.wellFormed, Bool.and_eq_true] at hwf
  obtain ⟨heswf, hwsc⟩ := hwf
  intro b n e ws s fuel hws hsuf hends hlen hfuel
  simp only [JValue.size] at hfuel
  obtain ⟨g, rfl⟩ : ∃ g, fuel = g + 1 + 1 := ⟨fuel - 2, by omega⟩
  have hsuf1 : Suffix b (n + ws.length + 1) (es.render ++ (wsc ++ ']' :: s)) := by
    have := Suffix.next (by simpa [JValue.render] using Suffix.skip ws hsuf :
      Suffix b (n + ws.length) ('[' :: (es.render ++ (wsc ++ ']' :: s))))
    exact this
  simp only [JValue.firstToken, JValue.mirror, JValue.render]
  rw [parseElementValue]
  show parseList (g + 1) _ .json_ARRAY = _
  rw [parseList]
  simp only [show ¬ (json_ElementType.json_ARRAY = json_ElementType.json_OBJECT) by decide,
    if_false]
  cases es with
  | nil =>
    simp only [JElements.render, List.nil_append] at hsuf1
    rw [punctuation_token e wsc s _ ']' .TK_CLOSE_BRACKET
      (Or.inr (Or.inr (Or.inr (Or.inl ⟨rfl, rfl⟩)))) hsuf1 hwsc]
    simp only [if_true, JElements.mirror, JElements.render, List.nil_append, List.length_cons,
      List.length_append, List.length_nil, Prod.mk.injEq, Cursor.mk.injEq, true_and, and_true]
    omega
  | cons wsB v wsA rest =>
    have heswf' := heswf
    simp only [JElements.wellFormed, Bool.and_eq_true] at heswf'
    obtain ⟨⟨⟨hwsB, hvwf⟩, hwsA⟩, _⟩ := heswf'
    have hsufV : Suffix b (n + ws.length + 1) (wsB ++ (v.render ++ (wsA ++
        ((if rest.isEmpty then [] else ',' :: rest.render) ++ (wsc ++ ']' :: s))))) := by
      simpa [JElements.render, List.append_assoc] using hsuf1
    have htail : EndsToken ((if rest.isEmpty then [] else ',' :: rest.render)
        ++ (wsc ++ ']' :: s)) := by
      cases hr : rest.isEmpty
      · exact endsToken_cons _ (by decide)
      · simpa using whitespace_append_ends hwsc (endsToken_cons s (by decide))
    rw [first_token e v hvwf wsB _ _ hwsB hsufV (whitespace_append_ends hwsA htail)]
    simp only [(firstToken_not_close v).1, if_false]
    have := hE b (n + ws.length + 1) e wsc s g Token.zero [] hwsc hsuf1 hlen (by omega)
    rw [this]
    simp only [ne_eq, not_true_eq_false, if_false, List.nil_append, List.length_cons,
      List.length_append, List.length_nil, Prod.mk.injEq, Cursor.mk.injEq, true_and, and_true]
    omega

theorem parse_object (ms : JMembers) (wsc : Buffer)
    (hwf : (JValue.object ms wsc).wellFormed = true) (hM : MembersParse ms) :
    ValueParses (.object ms wsc) := by
  simp only [JValue.wellFormed, Bool.and_eq_true] at hwf
  obtain ⟨hmswf, hwsc⟩ := hwf
  intro b n e ws s fuel hws hsuf hends hlen hfuel
  simp only [JValue.size] at hfuel
  obtain ⟨g, rfl⟩ : ∃ g, fuel = g + 1 + 1 := ⟨fuel - 2, by omega⟩
  have hsuf1 : Suffix b (n + ws.length + 1) (ms.render ++ (wsc ++ '}' :: s)) := by
    have := Suffix.next (by simpa [JValue.render] using Suffix.skip ws hsuf :
      Suffix b (n + ws.length) ('{' :: (ms.render ++ (wsc ++ '}' :: s))))
    exact this
  simp only [JValue.firstToken, JValue.mirror, JValue.render]
  rw [parseElementValue]
  show parseList (g + 1) _ .json_OBJECT = _
  rw [parseList]
  simp only [if_true]
  cases ms with
  | nil =>
    simp only [JMembers.render, List.nil_append] at hsuf1
    rw [punctuation_token e wsc s _ '}' .TK_CLOSE_BRACE (Or.inr (Or.inl ⟨rfl, rfl⟩)) hsuf1 hwsc]
    simp only [if_true, JMembers.mirror, JMembers.render, List.nil_append, List.length_cons,
      List.length_append, List.length_nil, Prod.mk.injEq, Cursor.mk.injEq, true_and, and_true]
    omega
  | cons wsK key wsColon wsV v wsA rest =>
    have hmswf' := hmswf
    simp only [JMembers.wellFormed, Bool.and_eq_true] at hmswf'
    obtain ⟨⟨⟨⟨⟨⟨hwsK, hkey⟩, _⟩, _⟩, _⟩, _⟩, _⟩ := hmswf'
    have hsufK : Suffix b (n + ws.length + 1) (wsK ++ ('"' :: (renderItems key ++ '"' ::
        (wsColon ++ ':' :: (wsV ++ (v.render ++ (wsA ++
          ((if rest.isEmpty then [] else ',' :: rest.render) ++ (wsc ++ '}' :: s))))))))) := by
      simpa [JMembers.render, List.append_assoc] using hsuf1
    rw [string_token e wsK _ _ key hsufK hwsK hkey]
    simp only [show ¬ (TokenType.TK_STRING = TokenType.TK_CLOSE_BRACE) by decide, if_false]
    have := hM b (n + ws.length + 1) e wsc s g Token.zero [] hwsc hsuf1 hlen (by omega)
    rw [this]
    simp only [ne_eq, not_true_eq_false, if_false, List.nil_append, List.length_cons,
      List.length_append, List.length_nil, Prod.mk.injEq, Cursor.mk.injEq, true_and, and_true]
    omega

theorem parse_scalar (v : JValue) (hwf : v.wellFormed = true) (hs : v.isList = false) :
    ValueParses v := by
  intro b n e ws s fuel hws hsuf hends hlen hfuel
  have h1 : Suffix b (n + ws.length) (v.render ++ s) := Suffix.skip ws hsuf
  cases v with
  | number text =>
    simp only [JValue.size] at hfuel
    obtain ⟨f, rfl⟩ : ∃ f, fuel = f + 1 := ⟨fuel - 1, by omega⟩
    simp only [JValue.firstToken, JValue.mirror, JValue.render] at h1 ⊢
    rw [parseElementValue]
    simp only [Suffix.viewBytes text.render h1]
  | string items =>
    simp only [JValue.size] at hfuel
    obtain ⟨f, rfl⟩ : ∃ f, fuel = f + 1 := ⟨fuel - 1, by omega⟩
    simp only [JValue.firstToken, JValue.mirror, JValue.render, List.cons_append,
      List.append_assoc] at h1 ⊢
    have hlen2 : (renderItems items).length + 2 < 2 ^ 64 := by
      have := (Suffix.skip (renderItems items) h1.next).lt
      omega
    rw [parseElementValue]
    simp only [takeOffQuotes, sub64_add_two hlen2, Suffix.viewBytes (renderItems items) h1.next,
      List.length_cons, List.length_append, List.length_nil, Prod.mk.injEq, Cursor.mk.injEq,
      true_and, and_true]
  | true =>
    simp only [JValue.size] at hfuel
    obtain ⟨f, rfl⟩ : ∃ f, fuel = f + 1 := ⟨fuel - 1, by omega⟩
    simp only [JValue.firstToken, JValue.mirror, JValue.render]
    rw [parseElementValue]
    rfl
  | false =>
    simp only [JValue.size] at hfuel
    obtain ⟨f, rfl⟩ : ∃ f, fuel = f + 1 := ⟨fuel - 1, by omega⟩
    simp only [JValue.firstToken, JValue.mirror, JValue.render]
    rw [parseElementValue]
    rfl
  | null =>
    simp only [JValue.size] at hfuel
    obtain ⟨f, rfl⟩ : ∃ f, fuel = f + 1 := ⟨fuel - 1, by omega⟩
    simp only [JValue.firstToken, JValue.mirror, JValue.render]
    rw [parseElementValue]
    rfl
  | array es wsc => simp [JValue.isList] at hs
  | object ms wsc => simp [JValue.isList] at hs

mutual
/-- Every well-formed value is read as its mirror. -/
theorem value_parses : ∀ (v : JValue), v.wellFormed = true → ValueParses v
  | .number text, h => parse_scalar _ h rfl
  | .string items, h => parse_scalar _ h rfl
  | .true, h => parse_scalar _ h rfl
  | .false, h => parse_scalar _ h rfl
  | .null, h => parse_scalar _ h rfl
  | .array es wsc, h =>
    parse_array es wsc h (elements_parse es (by
      simp only [JValue.wellFormed, Bool.and_eq_true] at h; exact h.1))
  | .object ms wsc, h =>
    parse_object ms wsc h (members_parse ms (by
      simp only [JValue.wellFormed, Bool.and_eq_true] at h; exact h.1))
theorem elements_parse : ∀ (es : JElements), es.wellFormed = true → ElementsParse es
  | .nil, _ => trivial
  | .cons wsB v wsA rest, h =>
    elements_step wsB v wsA rest h
      (value_parses v (by
        simp only [JElements.wellFormed, Bool.and_eq_true] at h; exact h.1.1.2))
      (elements_parse rest (by
        simp only [JElements.wellFormed, Bool.and_eq_true] at h; exact h.2))
theorem members_parse : ∀ (ms : JMembers), ms.wellFormed = true → MembersParse ms
  | .nil, _ => trivial
  | .cons wsK key wsColon wsV v wsA rest, h =>
    members_step wsK key wsColon wsV v wsA rest h
      (value_parses v (by
        simp only [JMembers.wellFormed, Bool.and_eq_true] at h; exact h.1.1.2))
      (members_parse rest (by
        simp only [JMembers.wellFormed, Bool.and_eq_true] at h; exact h.2))
end

mutual
theorem value_size_le : ∀ (v : JValue), v.size ≤ 2 * v.render.length + 1
  | .number _ => by simp only [JValue.size]; omega
  | .string _ => by simp only [JValue.size]; omega
  | .true => by simp only [JValue.size]; omega
  | .false => by simp only [JValue.size]; omega
  | .null => by simp only [JValue.size]; omega
  | .array es wsc => by
    have := elements_size_le es
    simp only [JValue.size, JValue.render, List.length_cons, List.length_append, List.length_nil]
    omega
  | .object ms wsc => by
    have := members_size_le ms
    simp only [JValue.size, JValue.render, List.length_cons, List.length_append, List.length_nil]
    omega
theorem elements_size_le : ∀ (es : JElements), es.size ≤ 2 * es.render.length + 2
  | .nil => by simp only [JElements.size]; omega
  | .cons wsB v wsA .nil => by
    have := value_size_le v
    simp only [JElements.size, JElements.render, JElements.isEmpty, if_true, List.length_append,
      List.length_nil]
    omega
  | .cons wsB v wsA (.cons wsB2 v2 wsA2 rest) => by
    have := value_size_le v
    have := elements_size_le (.cons wsB2 v2 wsA2 rest)
    rw [JElements.size, JElements.render]
    simp only [JElements.isEmpty, Bool.false_eq_true, if_false, List.length_append,
      List.length_cons]
    omega
theorem members_size_le : ∀ (ms : JMembers), ms.size ≤ 2 * ms.render.length + 2
  | .nil => by simp only [JMembers.size]; omega
  | .cons wsK key wsColon wsV v wsA .nil => by
    have := value_size_le v
    simp only [JMembers.size, JMembers.render, JMembers.isEmpty, if_true, List.length_append,
      List.length_cons, List.length_nil]
    omega
  | .cons wsK key wsColon wsV v wsA (.cons wsK2 key2 wsColon2 wsV2 v2 wsA2 rest) => by
    have := value_size_le v
    have := members_size_le (.cons wsK2 key2 wsColon2 wsV2 v2 wsA2 rest)
    rw [JMembers.size, JMembers.render]
    simp only [JMembers.isEmpty, Bool.false_eq_true, if_false, List.length_append,
      List.length_cons]
    omega
end

theorem isList_firstToken (doc : JValue) (hlist : doc.isList = true) :
    ¬ (doc.firstToken.1 ≠ .TK_OPEN_BRACE ∧ doc.firstToken.1 ≠ .TK_OPEN_BRACKET) := by
  cases doc <;> simp [JValue.isList, JValue.firstToken] at hlist ⊢

/-- C5: for every well-formed JSON document whose top-level value is an object
or an array (numbers in the grammar of the tokenizer, string literals without
zero byte, any whitespace between the tokens, before and after the document),
`json_parseJson` records no error and returns the tree that mirrors the
document: every node has the tag of its value, the children of an array or
object stand in source order, the label of a member is its key text without
the quotes, the value of a string is its literal text without the quotes, the
escapes undecoded, and the value of a number is its source text.  The cursor
is left right behind the document. -/
theorem C5_well_formed_document_parses (doc : JValue) (before after : Buffer)
    (hwf : doc.wellFormed = true) (hlist : doc.isList = true)
    (hb : isWhitespace before = true) (ha : isWhitespace after = true)
    (hlen : (before ++ (doc.render ++ after)).length < 2 ^ 64) :
    json_parseJson (before ++ (doc.render ++ after))
      = (some (doc.mirror []),
          ⟨before ++ (doc.render ++ after), before.length + doc.render.length, false⟩) := by
  have hsuf : Suffix (before ++ (doc.render ++ after)) 0 (before ++ (doc.render ++ after)) :=
    ⟨Nat.zero_le _, rfl⟩
  have hends := endsToken_of_whitespace ha
  have htk := first_token false doc hwf before after 0 hb hsuf hends
  have hsize := value_size_le doc
  have hfuel : doc.size ≤ 3 * (before ++ (doc.render ++ after)).length + 3 := by
    simp only [List.length_append]
    omega
  have hval := value_parses doc hwf _ 0 false before after _ hb hsuf hends hlen hfuel
  simp only [Nat.zero_add] at htk hval
  unfold json_parseJson
  simp only [htk, isList_firstToken doc hlist, if_false, hval]

theorem C5_well_formed_document_parses_witness :
    json_parseJson ([' '] ++ (sampleDocument.render ++ [' ', '\n']))
      = (some (sampleDocument.mirror []),
          ⟨[' '] ++ (sampleDocument.render ++ [' ', '\n']),
            [' '].length + sampleDocument.render.length, false⟩) :=
  C5_well_formed_document_parses sampleDocument [' '] [' ', '\n'] (by decide) (by decide)
    (by decide) (by decide) (by decide)

/-! ### Growth and failure of `pushToMemoryArena`, pops and clears -/

theorem popLoop_length (base : Nat) : ∀ (n i : Nat) (mem : List Char),
    (popLoop base n i mem).length = mem.length := by
  intro n
  induction n with
  | zero => intro i mem; rfl
  | succ n ih => intro i mem; rw [popLoop, ih, List.length_set]

theorem popLoop_getElem? (base : Nat) : ∀ (n i : Nat) (mem : List Char) (j : Nat),
    i + n < 2 ^ 64 →
    (popLoop base n i mem)[j]? =
      if base + i ≤ j ∧ j < base + i + n then (mem[j]?).map (fun _ => NUL) else mem[j]? := by
  intro n
  induction n with
  | zero =>
    intro i mem j _
    have : ¬ (base + i ≤ j ∧ j < base + i + 0) := by omega
    rw [popLoop, if_neg this]
  | succ n ih =>
    intro i mem j h
    rw [popLoop, wrap64_of_lt (by omega), ih (i + 1) _ j (by omega)]
    by_cases hj : j = base + i
    · subst hj
      by_cases hn : n = 0
      · subst hn
        rw [if_neg (by omega), if_pos (by omega)]
        by_cases hlen : base + i < mem.length
        · rw [List.getElem?_set_self hlen, List.getElem?_eq_getElem hlen]; rfl
        · rw [List.getElem?_eq_none (by rw [List.length_set]; omega),
            List.getElem?_eq_none (by omega)]; rfl
      · rw [if_neg (by omega), if_pos (by omega)]
        by_cases hlen : base + i < mem.length
        · rw [List.getElem?_set_self hlen, List.getElem?_eq_getElem hlen]; rfl
        · rw [List.getElem?_eq_none (by rw [List.length_set]; omega),
            List.getElem?_eq_none (by omega)]; rfl
    · rw [List.getElem?_set_ne (Ne.symm hj)]
      by_cases hin : base + i ≤ j ∧ j < base + i + (n + 1)
      · rw [if_pos (by omega), if_pos hin]
      · rw [if_neg (by omega), if_neg hin]

theorem popFromMemoryArena_eq (a : MemoryArena) (c : Nat) :
    popFromMemoryArena a c =
      { a with count := a.count - min c a.count,
               mem := popLoop (a.count - min c a.count) (min c a.count) 0 a.mem } := by
  have hmin : (if a.count ≥ c then c else a.count) = min c a.count := by
    split <;> omega
  unfold popFromMemoryArena
  simp only [hmin]

theorem popFromMemoryArena_spec (a : MemoryArena) (c : Nat) (hwf : a.WF) :
    (popFromMemoryArena a c).count = a.count - min c a.count ∧
    (popFromMemoryArena a c).data = a.data ∧
    (popFromMemoryArena a c).maxCount = a.maxCount ∧
    (popFromMemoryArena a c).mem
      = a.mem.take (a.count - min c a.count) ++ List.replicate (min c a.count) NUL
          ++ a.mem.drop a.count := by
  have hcl := hwf.count_le
  have hml := hwf.max_lt
  have hlen := hwf.len
  rw [popFromMemoryArena_eq]
  refine ⟨rfl, rfl, rfl, ?_⟩
  show popLoop (a.count - min c a.count) (min c a.count) 0 a.mem = _
  apply List.ext_getElem?
  intro j
  rw [popLoop_getElem? _ _ _ _ j (by omega)]
  by_cases h1 : j < a.count - min c a.count
  · rw [if_neg (by omega), List.append_assoc, List.getElem?_append_left
      (by rw [List.length_take]; omega), List.getElem?_take_of_lt h1]
  · by_cases h2 : j < a.count
    · rw [if_pos (by omega), List.getElem?_eq_getElem (by omega), List.append_assoc,
        List.getElem?_append_right (by rw [List.length_take]; omega),
        List.getElem?_append_left (by
          rw [List.length_take, List.length_replicate]; omega),
        List.getElem?_replicate]
      rw [if_pos (by rw [List.length_take]; omega)]
      rfl
    · rw [if_neg (by omega), List.getElem?_append_right (by
        rw [List.length_append, List.length_take, List.length_replicate]; omega),
        List.getElem?_drop]
      congr 1
      rw [List.length_append, List.length_take, List.length_replicate]
      omega

theorem popFromMemoryArena_WF (a : MemoryArena) (c : Nat) (hwf : a.WF) :
    (popFromMemoryArena a c).WF := by
  obtain ⟨h1, _, h3, _⟩ := popFromMemoryArena_spec a c hwf
  refine ⟨?_, ?_, ?_⟩
  · rw [h1, h3]; have := hwf.count_le; omega
  · rw [h3]; exact hwf.max_lt
  · rw [h3, popFromMemoryArena_eq]
    show (popLoop _ _ _ _).length = _
    rw [popLoop_length]
    exact hwf.len

/-- What `pushToMemoryArena` does when the request does not fit and the sums do
not wrap: the commitment grows to the larger of `2 * count` and `count + n`,
unless that is not below the ceiling or the commit fails. -/
theorem pushToMemoryArena_grow (pf : Platform) (a : MemoryArena) (n : Nat) (hwf : a.WF)
    (hfit : a.maxCount - a.count < n) (hno : a.count + n < 2 ^ 64)
    (hdouble : 2 * a.count < 2 ^ 64) :
    pushToMemoryArena pf a n =
      if max (2 * a.count) (a.count + n) < reservationCeiling pf ∧
          pf.mapReservedMemory a.data (max (2 * a.count) (a.count + n)) = false then
        some (a.data + a.count,
          { a with
            count := a.count + n
            maxCount := max (2 * a.count) (a.count + n)
            mem := a.mem ++ List.replicate (max (2 * a.count) (a.count + n) - a.maxCount) NUL })
      else none := by
  have hcl := hwf.count_le
  have hml := hwf.max_lt
  have hmax : (if wrap64 (2 * a.count) > wrap64 (a.count + n) then wrap64 (2 * a.count)
      else wrap64 (a.count + n)) = max (2 * a.count) (a.count + n) := by
    rw [wrap64_of_lt hno, wrap64_of_lt hdouble]
    split <;> omega
  have hgt : max (2 * a.count) (a.count + n) > a.maxCount := by omega
  unfold pushToMemoryArena growMemoryArena
  simp only [sub64_of_le hcl hml, hmax, ge_iff_le, Nat.not_le.mpr hfit, decide_False,
    Bool.not_false, if_true, ← reservationCeiling.eq_1, hgt]
  by_cases hc : max (2 * a.count) (a.count + n) < reservationCeiling pf
  · cases hm : pf.mapReservedMemory a.data (max (2 * a.count) (a.count + n))
    · simp [hc, hm, wrap64_of_lt hno]
    · simp [hc, hm]
  · simp [hc]

theorem pushToMemoryArena_fit (pf : Platform) (a : MemoryArena) (n : Nat) (hwf : a.WF)
    (hfit : n ≤ a.maxCount - a.count) :
    pushToMemoryArena pf a n = some (a.data + a.count, { a with count := a.count + n }) := by
  have hcl := hwf.count_le
  have hml := hwf.max_lt
  unfold pushToMemoryArena
  simp only [sub64_of_le hcl hml, ge_iff_le, hfit, decide_True, Bool.not_true,
    Bool.false_eq_true, if_false, wrap64_of_lt (show a.count + n < 2 ^ 64 by omega)]

/-- C11 (as stated, at a concrete input): one of four committed bytes is in
use and four more are requested.  The request does not fit, and twice the
committed capacity, 8, would hold the 5 bytes needed; the commitment grows
to 5, not to 8. -/
theorem C11_growth_doubles_count_not_capacity :
    sub64 sampleUsedArena.maxCount sampleUsedArena.count < 4 ∧
    sampleUsedArena.count + 4 ≤ 2 * sampleUsedArena.maxCount ∧
    pushToMemoryArena samplePlatform sampleUsedArena 4
      = some (4097,
          { data := 4096, count := 5, maxCount := 5, mem := ['x', NUL, NUL, NUL, NUL] }) ∧
    (5 : Nat) ≠ 2 * sampleUsedArena.maxCount := by
  decide

/-- C11 (amended): when a request of `n` bytes does not fit in the committed
capacity (`maxCount - count < n`) and neither `count + n` nor `2 * count`
leaves the `u64` range, a `pushToMemoryArena` that returns has grown the
commitment to twice the length in use, `2 * count`, when that is more than
`count + n`, and otherwise to exactly `count + n`. -/
theorem C11_growth_target (pf : Platform) (a a1 : MemoryArena) (n p : Nat) (hwf : a.WF)
    (hfit : a.maxCount - a.count < n) (hno : a.count + n < 2 ^ 64)
    (hdouble : 2 * a.count < 2 ^ 64) (h : pushToMemoryArena pf a n = some (p, a1)) :
    a1.maxCount = (if 2 * a.count > a.count + n then 2 * a.count else a.count + n) ∧
    p = a.data + a.count ∧ a1.count = a.count + n := by
  rw [pushToMemoryArena_grow pf a n hwf hfit hno hdouble] at h
  split at h
  · cases h
    refine ⟨?_, rfl, rfl⟩
    simp only
    split <;> omega
  · cases h

theorem C11_growth_target_witness :
    (5 : Nat) = (if 2 * sampleUsedArena.count > sampleUsedArena.count + 4
      then 2 * sampleUsedArena.count else sampleUsedArena.count + 4) ∧
    (4097 : Nat) = sampleUsedArena.data + sampleUsedArena.count ∧
    (5 : Nat) = sampleUsedArena.count + 4 :=
  C11_growth_target samplePlatform sampleUsedArena
    { data := 4096, count := 5, maxCount := 5, mem := ['x', NUL, NUL, NUL, NUL] } 4 4097
    ⟨by decide, by decide, by decide⟩ (by decide) (by decide) (by decide) (by decide)

/-- C12 (as stated, at a concrete input): an arena allocated with `2^35` bytes
hands all of them out; a request for one more byte keeps `count + n = 2^35 + 1`
within the ceiling `2^36 - 2 * 4096` and the platform commits whatever it is
asked for, but the growth target `2 * count = 2^36` is above the ceiling and
the call ends the process. -/
theorem C12_doubling_exceeds_ceiling :
    (sampleHalfArena.map fun a => (a.count, a.maxCount)) = some (2 ^ 35, 2 ^ 35) ∧
    2 ^ 35 + 1 ≤ reservationCeiling samplePlatform ∧
    (allocateMemoryArena samplePlatform (2 ^ 35 + 1)).isSome = true ∧
    (sampleHalfArena.bind fun a => pushToMemoryArena samplePlatform a 1) = none := by
  decide

/-- C12 (amended): with `count + n` and `2 * count` in the `u64` range,
`pushToMemoryArena(n)` succeeds when the request fits in the committed
capacity, and when it does not fit but the growth target, the larger of
`2 * count` and `count + n`, is below the ceiling `RESERVED_BYTE_COUNT` minus
the two guard pages and the platform commit succeeds; it ends the process,
returning no region and advancing no count, when the request does not fit and
the growth target is above the ceiling or the platform commit fails. -/
theorem C12_push_fails_above_ceiling (pf : Platform) (a : MemoryArena) (n : Nat) (hwf : a.WF)
    (hno : a.count + n < 2 ^ 64) (hdouble : 2 * a.count < 2 ^ 64) :
    (n ≤ a.maxCount - a.count →
      pushToMemoryArena pf a n = some (a.data + a.count, { a with count := a.count + n })) ∧
    (a.maxCount - a.count < n →
      max (2 * a.count) (a.count + n) < reservationCeiling pf →
      pf.mapReservedMemory a.data (max (2 * a.count) (a.count + n)) = false →
      ∃ a1, pushToMemoryArena pf a n = some (a.data + a.count, a1) ∧
        a1.count = a.count + n ∧ a1.WF) ∧
    (a.maxCount - a.count < n →
      reservationCeiling pf < max (2 * a.count) (a.count + n) ∨
        pf.mapReservedMemory a.data (max (2 * a.count) (a.count + n)) = true →
      pushToMemoryArena pf a n = none) := by
  refine ⟨fun hfit => pushToMemoryArena_fit pf a n hwf hfit, ?_, ?_⟩
  · intro hfit hc hm
    have h := pushToMemoryArena_grow pf a n hwf hfit hno hdouble
    rw [if_pos ⟨hc, hm⟩] at h
    exact ⟨_, h, rfl, (pushToMemoryArena_spec pf a _ n _ h hwf hno).2.2.2.1⟩
  · intro hfit hc
    rw [pushToMemoryArena_grow pf a n hwf hfit hno hdouble, if_neg]
    rintro ⟨h1, h2⟩
    rcases hc with hc | hc
    · omega
    · rw [h2] at hc; cases hc

theorem C12_push_fails_above_ceiling_witness :
    (4 ≤ sampleArena.maxCount - sampleArena.count →
      pushToMemoryArena samplePlatform sampleArena 4
        = some (sampleArena.data + sampleArena.count,
            { sampleArena with count := sampleArena.count + 4 })) ∧
    (sampleArena.maxCount - sampleArena.count < 4 →
      max (2 * sampleArena.count) (sampleArena.count + 4) < reservationCeiling samplePlatform →
      samplePlatform.mapReservedMemory sampleArena.data
        (max (2 * sampleArena.count) (sampleArena.count + 4)) = false →
      ∃ a1, pushToMemoryArena samplePlatform sampleArena 4
          = some (sampleArena.data + sampleArena.count, a1) ∧
        a1.count = sampleArena.count + 4 ∧ a1.WF) ∧
    (sampleArena.maxCount - sampleArena.count < 4 →
      reservationCeiling samplePlatform < max (2 * sampleArena.count) (sampleArena.count + 4) ∨
        samplePlatform.mapReservedMemory sampleArena.data
          (max (2 * sampleArena.count) (sampleArena.count + 4)) = true →
      pushToMemoryArena samplePlatform sampleArena 4 = none) :=
  C12_push_fails_above_ceiling samplePlatform sampleArena 4 ⟨by decide, by decide, by decide⟩
    (by decide) (by decide)

theorem clearMemoryArena_spec (a : MemoryArena) (hwf : a.WF) :
    (clearMemoryArena a).count = 0 ∧ (clearMemoryArena a).data = a.data ∧
    (clearMemoryArena a).maxCount = a.maxCount ∧
    (clearMemoryArena a).mem = List.replicate a.count NUL ++ a.mem.drop a.count := by
  obtain ⟨h1, h2, h3, h4⟩ := popFromMemoryArena_spec a a.count hwf
  unfold clearMemoryArena
  refine ⟨by rw [h1]; omega, h2, h3, ?_⟩
  rw [h4, Nat.min_self, Nat.sub_self, List.take_zero, List.nil_append]

theorem clearMemoryArena_empty (a : MemoryArena) (h : a.count = 0) : clearMemoryArena a = a := by
  unfold clearMemoryArena
  rw [popFromMemoryArena_eq]
  cases a with
  | mk d c m mem =>
    simp only at h
    subst h
    simp [popLoop]

/-- C13: `clearMemoryArena` sets `count` to 0, sets every byte at the offsets
below the old `count` to zero and keeps the other committed bytes, and leaves
the base pointer and the committed capacity `maxCount` unchanged; clearing an
empty arena changes nothing, so a second clear changes nothing. -/
theorem C13_clear_resets_and_zeroes (a : MemoryArena) (hwf : a.WF) :
    (clearMemoryArena a).count = 0 ∧
    (clearMemoryArena a).mem = List.replicate a.count NUL ++ a.mem.drop a.count ∧
    (clearMemoryArena a).data = a.data ∧
    (clearMemoryArena a).maxCount = a.maxCount ∧
    (a.count = 0 → clearMemoryArena a = a) ∧
    clearMemoryArena (clearMemoryArena a) = clearMemoryArena a := by
  obtain ⟨h1, h2, h3, h4⟩ := clearMemoryArena_spec a hwf
  exact ⟨h1, h4, h2, h3, clearMemoryArena_empty a, clearMemoryArena_empty _ h1⟩

theorem C13_clear_resets_and_zeroes_witness :
    (clearMemoryArena sampleUsedArena).count = 0 ∧
    (clearMemoryArena sampleUsedArena).mem
      = List.replicate sampleUsedArena.count NUL ++ sampleUsedArena.mem.drop sampleUsedArena.count ∧
    (clearMemoryArena sampleUsedArena).data = sampleUsedArena.data ∧
    (clearMemoryArena sampleUsedArena).maxCount = sampleUsedArena.maxCount ∧
    (sampleUsedArena.count = 0 → clearMemoryArena sampleUsedArena = sampleUsedArena) ∧
    clearMemoryArena (clearMemoryArena sampleUsedArena) = clearMemoryArena sampleUsedArena :=
  C13_clear_resets_and_zeroes sampleUsedArena ⟨by decide, by decide, by decide⟩

theorem getD_eq_NUL_of_getElem? {mem : List Char} {i : Nat}
    (h : mem[i]? = none ∨ mem[i]? = some NUL) : mem.getD i NUL = NUL := by
  rw [List.getD_eq_getElem?_getD]
  rcases h with h | h <;> rw [h] <;> rfl

theorem getElem?_of_getD_eq_NUL {mem : List Char} {i : Nat} (h : mem.getD i NUL = NUL) :
    mem[i]? = none ∨ mem[i]? = some NUL := by
  rw [List.getD_eq_getElem?_getD] at h
  cases hm : mem[i]? with
  | none => exact Or.inl rfl
  | some c => rw [hm] at h; exact Or.inr (by rw [show c = NUL from h])

theorem allocateMemoryArena_inv (pf : Platform) (byteCount : Nat) (a : MemoryArena)
    (hb : byteCount < 2 ^ 64) (h : allocateMemoryArena pf byteCount = some a) :
    a.WF ∧ a.ZeroAbove := by
  unfold allocateMemoryArena at h
  simp only at h
  split at h
  · split at h
    · cases h
      refine ⟨⟨Nat.zero_le _, hb, List.length_replicate _ _⟩, ?_⟩
      intro i _
      apply getD_eq_NUL_of_getElem?
      simp only [List.getElem?_replicate]
      split
      · exact Or.inr rfl
      · exact Or.inl rfl
    · cases h
  · cases h

theorem pushToMemoryArena_mem (pf : Platform) (a a1 : MemoryArena) (n p : Nat)
    (h : pushToMemoryArena pf a n = some (p, a1)) :
    ∃ k, a1.mem = a.mem ++ List.replicate k NUL := by
  unfold pushToMemoryArena at h
  simp only at h
  split at h
  · cases h
  · rename_i a2 hg
    cases h
    simp only
    split at hg
    · obtain ⟨_, _, _, h4⟩ := growMemoryArena_spec pf a a2 _ hg
      exact ⟨_, h4⟩
    · cases hg
      exact ⟨0, by simp⟩

theorem pushToMemoryArena_zeroAbove (pf : Platform) (a a1 : MemoryArena) (n p : Nat)
    (h : pushToMemoryArena pf a n = some (p, a1)) (hwf : a.WF) (hz : a.ZeroAbove)
    (hno : a.count + n < 2 ^ 64) : a1.ZeroAbove := by
  obtain ⟨_, h2, _, _, _, _⟩ := pushToMemoryArena_spec pf a a1 n p h hwf hno
  obtain ⟨k, hk⟩ := pushToMemoryArena_mem pf a a1 n p h
  intro i hi
  apply getD_eq_NUL_of_getElem?
  rw [hk]
  by_cases hlt : i < a.mem.length
  · rw [List.getElem?_append_left hlt]
    exact getElem?_of_getD_eq_NUL (hz i (by omega))
  · rw [List.getElem?_append_right (by omega), List.getElem?_replicate]
    split
    · exact Or.inr rfl
    · exact Or.inl rfl

theorem popFromMemoryArena_zeroAbove (a : MemoryArena) (c : Nat) (hwf : a.WF)
    (hz : a.ZeroAbove) : (popFromMemoryArena a c).ZeroAbove := by
  obtain ⟨h1, _, _, h4⟩ := popFromMemoryArena_spec a c hwf
  have hcl := hwf.count_le
  have hlen := hwf.len
  intro i hi
  rw [h1] at hi
  apply getD_eq_NUL_of_getElem?
  rw [h4]
  by_cases h2 : i < a.count
  · rw [List.append_assoc, List.getElem?_append_right (by rw [List.length_take]; omega),
      List.getElem?_append_left (by rw [List.length_take, List.length_replicate]; omega),
      List.getElem?_replicate]
    split
    · exact Or.inr rfl
    · exact Or.inl rfl
  · rw [List.getElem?_append_right (by
      rw [List.length_append, List.length_take, List.length_replicate]; omega),
      List.getElem?_drop]
    have e : a.count + (i - (List.take (a.count - min c a.count) a.mem ++
        List.replicate (min c a.count) NUL).length) = i := by
      rw [List.length_append, List.length_take, List.length_replicate]
      omega
    rw [e]
    exact getElem?_of_getD_eq_NUL (hz i (by omega))

theorem arenaReachable_inv (a : MemoryArena) (h : ArenaReachable a) : a.WF ∧ a.ZeroAbove := by
  induction h with
  | allocate pf byteCount arena hb h => exact allocateMemoryArena_inv pf byteCount arena hb h
  | push pf arena arena1 n p _ hno h ih =>
    exact ⟨(pushToMemoryArena_spec pf arena arena1 n p h ih.1 hno).2.2.2.1,
      pushToMemoryArena_zeroAbove pf arena arena1 n p h ih.1 ih.2 hno⟩
  | write arena offset byte _ ho ih =>
    refine ⟨⟨ih.1.count_le, ih.1.max_lt, ?_⟩, ?_⟩
    · simp only [List.length_set]; exact ih.1.len
    · intro i hi
      simp only at hi
      apply getD_eq_NUL_of_getElem?
      simp only
      rw [List.getElem?_set_ne (by omega)]
      exact getElem?_of_getD_eq_NUL (ih.2 i hi)
  | pop arena n _ ih =>
    exact ⟨popFromMemoryArena_WF arena n ih.1, popFromMemoryArena_zeroAbove arena n ih.1 ih.2⟩
  | clear arena _ ih =>
    exact ⟨popFromMemoryArena_WF arena _ ih.1, popFromMemoryArena_zeroAbove arena _ ih.1 ih.2⟩

theorem eq_replicate_of_zeroAbove (mem : List Char) (n : Nat) (hn : n ≤ mem.length)
    (hz : ∀ i, mem.getD i NUL = NUL) : mem.take n = List.replicate n NUL := by
  apply List.ext_getElem?
  intro i
  rw [List.getElem?_replicate]
  by_cases hi : i < n
  · rw [List.getElem?_take_of_lt hi, if_pos hi]
    rcases getElem?_of_getD_eq_NUL (hz i) with h | h
    · rw [List.getElem?_eq_none_iff] at h; omega
    · exact h
  · rw [if_neg hi, List.getElem?_eq_none_iff, List.length_take]
    omega

/-- C14 (as stated, at a concrete input): an arena is allocated with four
bytes, two are handed out and the caller stores `a` and `b` in them; a request
for `2^64 - 1` bytes succeeds and wraps `count` from 2 to 1; the clear zeroes
one byte only, and the next region of two bytes holds the stale `b`. -/
theorem C14_stale_byte_after_wrapping_request :
    allocateMemoryArena samplePlatform 4 = some sampleArena ∧
    pushToMemoryArena samplePlatform sampleArena 2
      = some (4096, { data := 4096, count := 2, maxCount := 4, mem := [NUL, NUL, NUL, NUL] }) ∧
    pushToMemoryArena samplePlatform
        { data := 4096, count := 2, maxCount := 4, mem := ['a', 'b', NUL, NUL] } (2 ^ 64 - 1)
      = some (4098, { data := 4096, count := 1, maxCount := 4, mem := ['a', 'b', NUL, NUL] }) ∧
    clearMemoryArena { data := 4096, count := 1, maxCount := 4, mem := ['a', 'b', NUL, NUL] }
      = { data := 4096, count := 0, maxCount := 4, mem := [NUL, 'b', NUL, NUL] } ∧
    pushToMemoryArena samplePlatform
        { data := 4096, count := 0, maxCount := 4, mem := [NUL, 'b', NUL, NUL] } 2
      = some (4096, { data := 4096, count := 2, maxCount := 4, mem := [NUL, 'b', NUL, NUL] }) ∧
    regionBytes { data := 4096, count := 2, maxCount := 4, mem := [NUL, 'b', NUL, NUL] } 4096 2
      = [NUL, 'b'] := by
  decide

/-- C14 (amended): in every arena state reachable from `allocateMemoryArena`
(freshly committed memory reading as zero) through allocations whose
`count + n` stays below `2^64`, stores into the regions handed out and still
in use, pops and clears, the first `pushToMemoryArena` after a
`clearMemoryArena` returns the base of the arena and a region of `n` zero
bytes, for every request size `n`, also one larger than the length that was
in use before the clear. -/
theorem C14_first_region_after_clear_is_zero (a : MemoryArena) (h : ArenaReachable a)
    (pf : Platform) (n p : Nat) (a1 : MemoryArena) (hn : n < 2 ^ 64)
    (hp : pushToMemoryArena pf (clearMemoryArena a) n = some (p, a1)) :
    p = a.data ∧ regionBytes a1 p n = List.replicate n NUL := by
  have hinv := arenaReachable_inv _ (ArenaReachable.clear a h)
  obtain ⟨c1, c2, _, _⟩ := clearMemoryArena_spec a (arenaReachable_inv a h).1
  have hno : (clearMemoryArena a).count + n < 2 ^ 64 := by rw [c1]; omega
  obtain ⟨h1, h2, h3, hwf1, _, _⟩ := pushToMemoryArena_spec pf _ a1 n p hp hinv.1 hno
  obtain ⟨k, hk⟩ := pushToMemoryArena_mem pf _ a1 n p hp
  have hzc := hinv.2
  rw [c1] at h1 h2
  rw [c2] at h1 h3
  have hall : ∀ i, a1.mem.getD i NUL = NUL := by
    intro i
    apply getD_eq_NUL_of_getElem?
    rw [hk]
    by_cases hlt : i < (clearMemoryArena a).mem.length
    · rw [List.getElem?_append_left hlt]
      exact getElem?_of_getD_eq_NUL (hzc i (by rw [c1]; omega))
    · rw [List.getElem?_append_right (by omega), List.getElem?_replicate]
      split
      · exact Or.inr rfl
      · exact Or.inl rfl
  refine ⟨by omega, ?_⟩
  unfold regionBytes
  rw [h1, h3, Nat.add_zero, Nat.sub_self, List.drop_zero]
  exact eq_replicate_of_zeroAbove _ _ (by
    have := hwf1.len; have := hwf1.count_le; omega) hall

theorem C14_first_region_after_clear_is_zero_witness :
    (4096 : Nat) = MemoryArena.data
        { data := 4096, count := 2, maxCount := 4, mem := ['a', NUL, NUL, NUL] } ∧
    regionBytes { data := 4096, count := 6, maxCount := 6, mem := List.replicate 6 NUL } 4096 6
      = List.replicate 6 NUL :=
  C14_first_region_after_clear_is_zero
    { data := 4096, count := 2, maxCount := 4, mem := ['a', NUL, NUL, NUL] }
    (ArenaReachable.write { data := 4096, count := 2, maxCount := 4, mem := [NUL, NUL, NUL, NUL] }
      0 'a'
      (ArenaReachable.push samplePlatform sampleArena _ 2 4096
        (ArenaReachable.allocate samplePlatform 4 sampleArena (by decide) (by decide))
        (by decide) (by decide))
      (by decide))
    samplePlatform 6 4096 { data := 4096, count := 6, maxCount := 6, mem := List.replicate 6 NUL }
    (by decide) (by decide)

/-! ### Number tokens and the result of `json_parseJson` -/

/-- C15 (the code at the inputs of the claim): at `12abc`, `1.5x` and `3e4z`
`parseNextToken` returns a number token, with the content `12`, `1.5` and
`3e4`.  `parseNumber` itself returns `TK_NUMBER` for `12abc`, where it leaves
before its separator test, and `TK_INVALID` for the other two, which
`parseNextToken` does not read. -/
theorem C15_number_before_letters_is_number_token :
    parseNextToken ⟨CS "12abc", 0, false⟩
      = (⟨.TK_NUMBER, ⟨0, 2⟩⟩, ⟨CS "12abc", 2, false⟩) ∧
    parseNextToken ⟨CS "1.5x", 0, false⟩
      = (⟨.TK_NUMBER, ⟨0, 3⟩⟩, ⟨CS "1.5x", 3, false⟩) ∧
    parseNextToken ⟨CS "3e4z", 0, false⟩
      = (⟨.TK_NUMBER, ⟨0, 3⟩⟩, ⟨CS "3e4z", 3, false⟩) ∧
    (parseNumber ⟨CS "12abc", 0, false⟩).1 = .TK_NUMBER ∧
    (parseNumber ⟨CS "1.5x", 0, false⟩).1 = .TK_INVALID ∧
    (parseNumber ⟨CS "3e4z", 0, false⟩).1 = .TK_INVALID := by
  decide

/-- C16 (the code at failing inputs): a lone `-`, `1.` and `2e` are number
tokens, and the arrays `[-]` and `[1.,2e]` are parsed without error into
arrays whose elements are numbers with these texts. -/
theorem C16_malformed_number_becomes_element :
    parseNextToken ⟨CS "-", 0, false⟩ = (⟨.TK_NUMBER, ⟨0, 1⟩⟩, ⟨CS "-", 1, false⟩) ∧
    parseNextToken ⟨CS "1.", 0, false⟩ = (⟨.TK_NUMBER, ⟨0, 2⟩⟩, ⟨CS "1.", 2, false⟩) ∧
    parseNextToken ⟨CS "2e", 0, false⟩ = (⟨.TK_NUMBER, ⟨0, 2⟩⟩, ⟨CS "2e", 2, false⟩) ∧
    json_parseJson (CS "[-]")
      = (some (.mk .json_ARRAY [] [] [.mk .json_NUMBER [] (CS "-") []]),
          ⟨CS "[-]", 3, false⟩) ∧
    json_parseJson (CS "[1.,2e]")
      = (some (.mk .json_ARRAY [] []
            [.mk .json_NUMBER [] (CS "1.") [], .mk .json_NUMBER [] (CS "2e") []]),
          ⟨CS "[1.,2e]", 7, false⟩) := by
  decide

theorem parseList_type (fuel : Nat) (cur : Cursor) (listType : json_ElementType) :
    (parseList (fuel + 1) cur listType).1.type = listType := by
  rw [parseList]
  simp only
  split <;> split <;> rfl

/-- C20 (the code at failing inputs, and in general): for the empty buffer and
for a buffer whose first token is no opener `json_parseJson` returns the null
pointer, which `parseBufferToJson` dereferences; and whenever `json_parseJson`
returns a node its tag is that of an object or an array, so no input ends in
the fatal error of `parseBufferToJson`. -/
theorem C20_no_node_for_input_without_opener :
    json_parseJson [] = (none, ⟨[], 0, true⟩) ∧
    json_parseJson (CS "true") = (none, ⟨CS "true", 4, true⟩) ∧
    parseBufferToJson [] = .nullDereference ∧
    parseBufferToJson (CS "true") = .nullDereference ∧
    ∀ (text : Buffer) (message : String), parseBufferToJson text ≠ .fatal message := by
  refine ⟨by decide, by decide, by decide, by decide, ?_⟩
  intro text message
  unfold parseBufferToJson
  cases hroot : (json_parseJson text).1 with
  | none => simp
  | some root =>
    have htype : root.type = .json_OBJECT ∨ root.type = .json_ARRAY := by
      unfold json_parseJson at hroot
      simp only at hroot
      split at hroot
      · cases hroot
      · rename_i hopen
        simp only [Option.some.injEq] at hroot
        rw [← hroot, show 3 * text.length + 3 = (3 * text.length + 1) + 1 + 1 from rfl,
          parseElementValue]
        split <;> simp_all [parseList_type]
    rcases htype with h | h <;> simp [h]

/-! ### Keyword tokens -/

theorem isCursorEnd_of_le (b : Buffer) (n : Nat) (e : Bool) (h : b.length ≤ n) :
    isCursorEnd ⟨b, n, e⟩ = true := by
  unfold isCursorEnd isInBounds
  simp [Nat.not_lt.mpr h]

theorem isCursorEnd_NUL {b : Buffer} {n : Nat} {s : Buffer} (e : Bool)
    (h : Suffix b n (NUL :: s)) : isCursorEnd ⟨b, n, e⟩ = true := by
  unfold isCursorEnd
  rw [peek_cons e h]
  simp

theorem isRunChar_iff {c : Char} : isRunChar c = true ↔ isSeparator c = false ∧ c ≠ NUL := by
  unfold isRunChar
  simp

theorem parseKeywordLoop_scan {b : Buffer} (e : Bool) {s : Buffer} (hs : EndsRun s) :
    ∀ (t : Buffer) (fuel n k : Nat), t.length ≤ fuel → Suffix b n (t ++ s) →
      t.all isRunChar = true →
      parseKeywordLoop fuel ⟨b, n, e⟩ (peek ⟨b, n, e⟩) k
        = (⟨b, n + t.length, e⟩, k + t.length) := by
  intro t
  induction t with
  | nil =>
    intro fuel n k _ h _
    simp only [List.nil_append] at h
    cases fuel with
    | zero => rfl
    | succ fuel =>
      unfold parseKeywordLoop
      cases s with
      | nil =>
        rw [isCursorEnd_nil e h]
        simp
      | cons c s1 =>
        have hc := hs c s1 rfl
        by_cases hnul : c = NUL
        · subst hnul
          rw [isCursorEnd_NUL e h]
          simp
        · have hsep : isSeparator c = true := by
            by_contra hn
            have : isRunChar c = true := isRunChar_iff.mpr ⟨by simpa using hn, hnul⟩
            rw [hc] at this
            cases this
          rw [peek_cons e h, hsep]
          simp
  | cons c t ih =>
    intro fuel n k hf h ht
    simp only [List.length_cons] at hf
    simp only [List.all_cons, Bool.and_eq_true] at ht
    obtain ⟨hc, ht⟩ := ht
    obtain ⟨hsep, hnul⟩ := isRunChar_iff.mp hc
    cases fuel with
    | zero => omega
    | succ fuel =>
      have h' : Suffix b n (c :: (t ++ s)) := h
      unfold parseKeywordLoop
      rw [peek_cons e h', isCursorEnd_cons e h' hnul]
      simp only [hsep, Bool.not_false, Bool.and_self, if_true]
      rw [ih fuel (n + 1) (k + 1) (by omega) h'.next ht]
      simp only [List.length_cons, Prod.mk.injEq, Cursor.mk.injEq, true_and, and_true]
      omega

theorem areEqualLoop_eq : ∀ (a c : Buffer), a.length = c.length →
    areEqualLoop a c = true → a = c := by
  intro a
  induction a with
  | nil =>
    intro c hl _
    cases c with
    | nil => rfl
    | cons y ys => cases hl
  | cons x xs ih =>
    intro c hl h
    cases c with
    | nil => cases hl
    | cons y ys =>
      simp only [areEqualLoop] at h
      by_cases hxy : x = y
      · subst hxy
        simp only [ne_eq, not_true_eq_false, if_false] at h
        rw [ih ys (by simpa using hl) h]
      · simp [hxy] at h

theorem areEqual_iff (a c : Buffer) : areEqual a c = true ↔ a = c := by
  constructor
  · intro h
    unfold areEqual at h
    by_cases hl : a.length = c.length
    · simp only [hl, ne_eq, not_true_eq_false, if_false] at h
      exact areEqualLoop_eq a c hl h
    · simp [hl] at h
  · intro h
    rw [h]
    exact areEqual_self c

theorem parseKeyword_scan {b : Buffer} (e : Bool) {s : Buffer} (kw r : Buffer) (n : Nat)
    (h : Suffix b n (r ++ s)) (hs : EndsRun s) (hr : r.all isRunChar = true) :
    parseKeyword ⟨b, n, e⟩ kw
      = (if kw = r then .TK_KEYWORD else .TK_INVALID, ⟨b, n + r.length, e⟩) := by
  unfold parseKeyword
  have hlen := (Suffix.skip r h).1
  simp only
  rw [parseKeywordLoop_scan e hs r b.length n 0 (by omega) h hr]
  simp only [Nat.zero_add]
  rw [Suffix.viewBytes r h]
  by_cases heq : kw = r
  · rw [if_pos heq, (areEqual_iff kw r).mpr heq]
    simp
  · rw [if_neg heq]
    have : areEqual kw r = false := by
      cases hq : areEqual kw r
      · rfl
      · exact absurd ((areEqual_iff kw r).mp hq) heq
    rw [this]
    simp

/-- The token read at a byte that is neither whitespace nor zero, in terms of
the `switch` of `parseNextToken`. -/
theorem parseNextToken_at {b : Buffer} (e : Bool) (ws : Buffer) (c : Char) (t : Buffer)
    (n : Nat) (h : Suffix b n (ws ++ c :: t)) (hws : isWhitespace ws = true)
    (hsp : isSpace c = false) (hnul : c ≠ NUL) :
    parseNextToken ⟨b, n, e⟩ =
      if (parseNextTokenSwitch ⟨b, n + ws.length, e⟩ c).2.offset = n + ws.length then
        (⟨.TK_INVALID, ⟨n + ws.length, 1⟩⟩,
          { (parseNextTokenSwitch ⟨b, n + ws.length, e⟩ c).2 with
            offset := n + ws.length + 1 })
      else
        (⟨(parseNextTokenSwitch ⟨b, n + ws.length, e⟩ c).1,
            ⟨n + ws.length,
              (parseNextTokenSwitch ⟨b, n + ws.length, e⟩ c).2.offset - (n + ws.length)⟩⟩,
          (parseNextTokenSwitch ⟨b, n + ws.length, e⟩ c).2) := by
  have h1 : Suffix b (n + ws.length) (c :: t) := Suffix.skip ws h
  unfold parseNextToken
  simp only
  rw [skipSpaces_run e ws n (by
      intro c' s' hc
      simp only [List.cons.injEq] at hc
      rw [← hc.1]; exact hsp) h hws,
    isCursorEnd_cons e h1 hnul, peek_cons e h1]
  simp only [Bool.false_eq_true, if_false]
  split
  · rename_i heq
    rw [heq]
    simp
  · rfl

/-- The token read where the input ends. -/
theorem parseNextToken_end {b : Buffer} (e : Bool) (ws text : Buffer) (n : Nat)
    (h : Suffix b n (ws ++ text)) (hws : isWhitespace ws = true)
    (hend : text = [] ∨ ∃ t, text = NUL :: t) :
    parseNextToken ⟨b, n, e⟩ = ({ Token.zero with type := .TK_END }, ⟨b, n + ws.length, e⟩) := by
  have h1 : Suffix b (n + ws.length) text := Suffix.skip ws h
  have hend1 : isCursorEnd ⟨b, n + ws.length, e⟩ = true := by
    rcases hend with rfl | ⟨t, rfl⟩
    · exact isCursorEnd_nil e h1
    · exact isCursorEnd_NUL e h1
  unfold parseNextToken
  simp only
  rw [skipSpaces_run e ws n (by
      intro c' s' hc
      rcases hend with rfl | ⟨t, rfl⟩
      · cases hc
      · simp only [List.cons.injEq] at hc
        rw [← hc.1]; decide) h hws, hend1]
  simp

theorem parseString_type (cur : Cursor) :
    (parseString cur).1 = .TK_STRING ∨ (parseString cur).1 = .TK_INVALID := by
  unfold parseString
  simp only
  split
  · exact Or.inl rfl
  · exact Or.inr rfl

theorem parseKeyword_type (cur : Cursor) (kw : Buffer) :
    (parseKeyword cur kw).1 = .TK_KEYWORD ∨ (parseKeyword cur kw).1 = .TK_INVALID := by
  unfold parseKeyword
  simp only
  split
  · exact Or.inl rfl
  · exact Or.inr rfl

/-- The `switch` of `parseNextToken` yields a keyword type only in the case of
the first letter of the keyword, when `parseKeyword` finds the keyword. -/
theorem switch_keyword (cur : Cursor) (c : Char) :
    ((parseNextTokenSwitch cur c).1 = .TK_TRUE ↔
      c = 't' ∧ (parseKeyword cur (CS "true")).1 = .TK_KEYWORD) ∧
    ((parseNextTokenSwitch cur c).1 = .TK_FALSE ↔
      c = 'f' ∧ (parseKeyword cur (CS "false")).1 = .TK_KEYWORD) ∧
    ((parseNextTokenSwitch cur c).1 = .TK_NULL ↔
      c = 'n' ∧ (parseKeyword cur (CS "null")).1 = .TK_KEYWORD) := by
  have hs := parseString_type cur
  have ht := parseKeyword_type cur (CS "true")
  have hf := parseKeyword_type cur (CS "false")
  have hn := parseKeyword_type cur (CS "null")
  unfold parseNextTokenSwitch
  by_cases h1 : c = '{'
  · subst h1; simp
  by_cases h2 : c = '}'
  · subst h2; simp
  by_cases h3 : c = '['
  · subst h3; simp
  by_cases h4 : c = ']'
  · subst h4; simp
  by_cases h5 : c = ':'
  · subst h5; simp
  by_cases h6 : c = ','
  · subst h6; simp
  by_cases h7 : c = '"'
  · subst h7
    rcases hs with hs | hs <;> simp [hs]
  by_cases h8 : c = 't'
  · subst h8
    rcases ht with ht | ht <;> simp [ht]
  by_cases h9 : c = 'f'
  · subst h9
    rcases hf with hf | hf <;> simp [hf]
  by_cases h10 : c = 'n'
  · subst h10
    rcases hn with hn | hn <;> simp [hn]
  simp only [h1, h2, h3, h4, h5, h6, h7, h8, h9, h10, if_false, false_and, iff_false]
  split <;> simp

/-- The `switch` of `parseNextToken` in the case of the first letter of a
keyword. -/
theorem switch_at_keyword (cur : Cursor) :
    parseNextTokenSwitch cur 't'
      = (if (parseKeyword cur (CS "true")).1 = .TK_KEYWORD then .TK_TRUE
          else (parseKeyword cur (CS "true")).1, (parseKeyword cur (CS "true")).2) ∧
    parseNextTokenSwitch cur 'f'
      = (if (parseKeyword cur (CS "false")).1 = .TK_KEYWORD then .TK_FALSE
          else (parseKeyword cur (CS "false")).1, (parseKeyword cur (CS "false")).2) ∧
    parseNextTokenSwitch cur 'n'
      = (if (parseKeyword cur (CS "null")).1 = .TK_KEYWORD then .TK_NULL
          else (parseKeyword cur (CS "null")).1, (parseKeyword cur (CS "null")).2) := by
  refine ⟨?_, ?_, ?_⟩ <;> simp [parseNextTokenSwitch]

theorem maximalRun_cons_of_not (c : Char) (t : Buffer) (h : isRunChar c = false) :
    maximalRun (c :: t) = [] := by
  unfold maximalRun
  rw [List.takeWhile_cons, h]
  rfl

theorem maximalRun_split (text : Buffer) :
    text = maximalRun text ++ text.dropWhile isRunChar ∧
    (maximalRun text).all isRunChar = true ∧ EndsRun (text.dropWhile isRunChar) := by
  refine ⟨(List.takeWhile_append_dropWhile isRunChar text).symm, ?_, ?_⟩
  · rw [List.all_eq_true]
    intro x hx
    exact List.mem_takeWhile_imp hx
  · intro c s1 hc
    induction text with
    | nil => cases hc
    | cons x xs ih =>
      rw [List.dropWhile_cons] at hc
      split at hc
      · exact ih hc
      · rename_i hx
        simp only [List.cons.injEq] at hc
        rw [← hc.1]
        simpa using hx

/-- What `parseKeyword` does at the first byte `c` of a run. -/
theorem parseKeyword_at_run {b : Buffer} (e : Bool) (c : Char) (t kw : Buffer) (m : Nat)
    (h : Suffix b m (c :: t)) (hc : isRunChar c = true) :
    parseKeyword ⟨b, m, e⟩ kw
      = (if kw = maximalRun (c :: t) then .TK_KEYWORD else .TK_INVALID,
          ⟨b, m + (maximalRun (c :: t)).length, e⟩) ∧
    1 ≤ (maximalRun (c :: t)).length ∧
    viewBytes b ⟨m, (maximalRun (c :: t)).length⟩ = maximalRun (c :: t) := by
  obtain ⟨hsplit, hall, hends⟩ := maximalRun_split (c :: t)
  have h' : Suffix b m (maximalRun (c :: t) ++ (c :: t).dropWhile isRunChar) := by
    rw [← hsplit]; exact h
  refine ⟨parseKeyword_scan e kw _ m h' hends hall, ?_, Suffix.viewBytes _ h'⟩
  unfold maximalRun
  rw [List.takeWhile_cons, hc]
  simp

theorem maximalRun_head {c k : Char} {t r : Buffer} (h : k :: r <+: maximalRun (c :: t)) :
    c = k ∧ isRunChar c = true := by
  unfold maximalRun at h
  rw [List.takeWhile_cons] at h
  by_cases hc : isRunChar c = true
  · rw [hc] at h
    obtain ⟨u, hu⟩ := h
    simp only [if_true, List.cons_append, List.cons.injEq] at hu
    exact ⟨hu.1.symm, hc⟩
  · simp only [hc] at h
    obtain ⟨u, hu⟩ := h
    simp at hu

theorem keyword_token_iff {b : Buffer} (e : Bool) (ws : Buffer) (c : Char) (t : Buffer)
    (n : Nat) (h : Suffix b n (ws ++ c :: t)) (hws : isWhitespace ws = true)
    (hsp : isSpace c = false) (hnul : c ≠ NUL) (k : Char) (kw1 : Buffer) (ty : TokenType)
    (hty : ty ≠ .TK_INVALID)
    (hsw : ∀ cur c, (parseNextTokenSwitch cur c).1 = ty ↔
      c = k ∧ (parseKeyword cur (k :: kw1)).1 = .TK_KEYWORD)
    (hat : ∀ cur, parseNextTokenSwitch cur k
      = (if (parseKeyword cur (k :: kw1)).1 = .TK_KEYWORD then ty
          else (parseKeyword cur (k :: kw1)).1, (parseKeyword cur (k :: kw1)).2)) :
    ((parseNextToken ⟨b, n, e⟩).1.type = ty ↔ maximalRun (c :: t) = k :: kw1) ∧
    (k :: kw1 <+: maximalRun (c :: t) → maximalRun (c :: t) ≠ k :: kw1 →
      (parseNextToken ⟨b, n, e⟩).1.type = .TK_INVALID ∧
      viewBytes b (parseNextToken ⟨b, n, e⟩).1.content = maximalRun (c :: t) ∧
      (parseNextToken ⟨b, n, e⟩).2
        = ⟨b, n + ws.length + (maximalRun (c :: t)).length, e⟩) := by
  have h1 : Suffix b (n + ws.length) (c :: t) := Suffix.skip ws h
  rw [parseNextToken_at e ws c t n h hws hsp hnul]
  refine ⟨⟨?_, ?_⟩, ?_⟩
  · intro htype
    split at htype
    · exact absurd htype.symm hty
    · simp only at htype
      obtain ⟨hck, hkw⟩ := (hsw _ _).mp htype
      have hrun : isRunChar c = true := by
        by_contra hn
        have hpre : (parseKeyword ⟨b, n + ws.length, e⟩ (k :: kw1)).1 = .TK_INVALID := by
          unfold parseKeyword
          simp only
          have hloop : parseKeywordLoop b.length ⟨b, n + ws.length, e⟩
              (peek ⟨b, n + ws.length, e⟩) 0 = (⟨b, n + ws.length, e⟩, 0) := by
            have := parseKeywordLoop_scan e (s := c :: t) (fun c' s1 hc => by
              simp only [List.cons.injEq] at hc
              rw [← hc.1]; simpa using hn) [] b.length (n + ws.length) 0 (Nat.zero_le _) h1 rfl
            simpa using this
          rw [hloop]
          simp [viewBytes, areEqual]
        rw [hpre] at hkw
        cases hkw
      obtain ⟨hp, _, _⟩ := parseKeyword_at_run e c t (k :: kw1) (n + ws.length) h1 hrun
      rw [hp] at hkw
      by_cases heq : k :: kw1 = maximalRun (c :: t)
      · exact heq.symm
      · rw [if_neg heq] at hkw
        cases hkw
  · intro hrun
    obtain ⟨hck, hc⟩ := maximalRun_head (show k :: kw1 <+: maximalRun (c :: t) by
      rw [hrun])
    subst hck
    obtain ⟨hp, hlen, _⟩ := parseKeyword_at_run e c t (c :: kw1) (n + ws.length) h1 hc
    rw [hat, hp, if_pos hrun.symm]
    simp only [if_true]
    rw [if_neg (by omega)]
  · intro hpre hne
    obtain ⟨hck, hc⟩ := maximalRun_head hpre
    subst hck
    obtain ⟨hp, hlen, hview⟩ := parseKeyword_at_run e c t (c :: kw1) (n + ws.length) h1 hc
    have hne1 : ¬ (c :: kw1 = maximalRun (c :: t)) := fun hq => hne hq.symm
    have hsw1 : parseNextTokenSwitch ⟨b, n + ws.length, e⟩ c
        = (.TK_INVALID, ⟨b, n + ws.length + (maximalRun (c :: t)).length, e⟩) := by
      rw [hat, hp]
      simp [hne1]
    rw [hsw1]
    simp only
    rw [if_neg (by omega)]
    refine ⟨rfl, ?_, rfl⟩
    simp only [Nat.add_sub_cancel_left]
    exact hview

theorem dropWhile_head {p : Char → Bool} : ∀ (l : Buffer) (c : Char) (t : Buffer),
    l.dropWhile p = c :: t → p c = false := by
  intro l
  induction l with
  | nil => intro c t h; cases h
  | cons x xs ih =>
    intro c t h
    rw [List.dropWhile_cons] at h
    split at h
    · exact ih c t h
    · rename_i hx
      simp only [List.cons.injEq] at h
      rw [← h.1]
      simpa using hx

theorem isWhitespace_takeWhile (l : Buffer) : isWhitespace (l.takeWhile isSpace) = true := by
  unfold isWhitespace
  rw [List.all_eq_true]
  intro x hx
  exact List.mem_takeWhile_imp hx

/-- The input at a cursor inside the buffer: whitespace, then the text of the
next token. -/
theorem suffix_tokenText (b : Buffer) (n : Nat) (h : n ≤ b.length) :
    Suffix b n ((b.drop n).takeWhile isSpace ++ tokenText b n) :=
  ⟨h, (List.takeWhile_append_dropWhile isSpace (b.drop n)).symm⟩

theorem parseNextToken_of_le (b : Buffer) (n : Nat) (e : Bool) (h : b.length ≤ n) :
    parseNextToken ⟨b, n, e⟩ = ({ Token.zero with type := .TK_END }, ⟨b, n, e⟩) := by
  unfold parseNextToken skipSpaces
  simp [isCursorEnd_of_le b n e h]

/-- C17: `parseNextToken` returns `TK_TRUE` (`TK_FALSE`, `TK_NULL`) if and only if
the maximal run of bytes that starts where the next token starts, after the
whitespace at the cursor, and contains no separator and no end of input, is
exactly `true` (`false`, `null`); a longer run that begins with a keyword
yields one invalid token, whose content is the whole run. -/
theorem C17_keyword_iff_whole_run (b : Buffer) (n : Nat) (e : Bool) :
    ((parseNextToken ⟨b, n, e⟩).1.type = .TK_TRUE ↔ maximalRun (tokenText b n) = CS "true") ∧
    ((parseNextToken ⟨b, n, e⟩).1.type = .TK_FALSE ↔
      maximalRun (tokenText b n) = CS "false") ∧
    ((parseNextToken ⟨b, n, e⟩).1.type = .TK_NULL ↔ maximalRun (tokenText b n) = CS "null") ∧
    ∀ kw, kw = CS "true" ∨ kw = CS "false" ∨ kw = CS "null" →
      kw <+: maximalRun (tokenText b n) → maximalRun (tokenText b n) ≠ kw →
      (parseNextToken ⟨b, n, e⟩).1.type = .TK_INVALID ∧
      viewBytes b (parseNextToken ⟨b, n, e⟩).1.content = maximalRun (tokenText b n) := by
  have hnil : ∀ kw, kw = CS "true" ∨ kw = CS "false" ∨ kw = CS "null" → ¬ kw <+: [] := by
    intro kw hkw hpre
    have := List.prefix_nil.mp hpre
    rcases hkw with rfl | rfl | rfl <;> cases this
  have hEnd : ∀ tk : Token × Cursor, tk.1.type = .TK_END → maximalRun (tokenText b n) = [] →
      (tk.1.type = .TK_TRUE ↔ maximalRun (tokenText b n) = CS "true") ∧
      (tk.1.type = .TK_FALSE ↔ maximalRun (tokenText b n) = CS "false") ∧
      (tk.1.type = .TK_NULL ↔ maximalRun (tokenText b n) = CS "null") ∧
      ∀ kw, kw = CS "true" ∨ kw = CS "false" ∨ kw = CS "null" →
        kw <+: maximalRun (tokenText b n) → maximalRun (tokenText b n) ≠ kw →
        tk.1.type = .TK_INVALID ∧ viewBytes b tk.1.content = maximalRun (tokenText b n) := by
    intro tk h1 h2
    rw [h1, h2]
    refine ⟨by simp [CS], by simp [CS], by simp [CS], ?_⟩
    intro kw hkw hpre
    exact absurd hpre (hnil kw hkw)
  by_cases hn : n ≤ b.length
  · have hsuf := suffix_tokenText b n hn
    have hws := isWhitespace_takeWhile (b.drop n)
    cases htext : tokenText b n with
    | nil =>
      rw [htext] at hsuf
      have := parseNextToken_end e _ [] n hsuf hws (Or.inl rfl)
      have hrun : maximalRun (tokenText b n) = [] := by rw [htext]; rfl
      rw [htext] at hrun
      have h := hEnd (parseNextToken ⟨b, n, e⟩) (by rw [this]) (by rw [htext]; exact hrun)
      rw [htext] at h
      exact h
    | cons c t =>
      rw [htext] at hsuf
      have hsp : isSpace c = false := dropWhile_head (b.drop n) c t htext
      by_cases hnul : c = NUL
      · subst hnul
        have := parseNextToken_end e _ (NUL :: t) n hsuf hws (Or.inr ⟨t, rfl⟩)
        have hrun : maximalRun (NUL :: t) = [] := maximalRun_cons_of_not NUL t (by decide)
        have h := hEnd (parseNextToken ⟨b, n, e⟩) (by rw [this]) (by rw [htext]; exact hrun)
        rw [htext] at h
        exact h
      · have k1 := keyword_token_iff e _ c t n hsuf hws hsp hnul 't' (CS "rue") .TK_TRUE
          (by decide) (fun cur c => (switch_keyword cur c).1) (fun cur => (switch_at_keyword cur).1)
        have k2 := keyword_token_iff e _ c t n hsuf hws hsp hnul 'f' (CS "alse") .TK_FALSE
          (by decide) (fun cur c => (switch_keyword cur c).2.1)
          (fun cur => (switch_at_keyword cur).2.1)
        have k3 := keyword_token_iff e _ c t n hsuf hws hsp hnul 'n' (CS "ull") .TK_NULL
          (by decide) (fun cur c => (switch_keyword cur c).2.2)
          (fun cur => (switch_at_keyword cur).2.2)
        refine ⟨k1.1, k2.1, k3.1, ?_⟩
        intro kw hkw hpre hne
        rcases hkw with rfl | rfl | rfl
        · exact ⟨(k1.2 hpre hne).1, (k1.2 hpre hne).2.1⟩
        · exact ⟨(k2.2 hpre hne).1, (k2.2 hpre hne).2.1⟩
        · exact ⟨(k3.2 hpre hne).1, (k3.2 hpre hne).2.1⟩
  · have hdrop : b.drop n = [] := List.drop_eq_nil_of_le (by omega)
    have hrun : maximalRun (tokenText b n) = [] := by
      unfold tokenText
      rw [hdrop]
      rfl
    exact hEnd (parseNextToken ⟨b, n, e⟩)
      (by rw [parseNextToken_of_le b n e (by omega)]) hrun

/-! ### String tokens -/

theorem peek_of_le (b : Buffer) (n : Nat) (e : Bool) (h : b.length ≤ n) :
    peek ⟨b, n, e⟩ = NUL := by
  unfold peek
  simp only
  rw [List.getD_eq_getElem?_getD, List.getElem?_eq_none h]
  rfl

theorem parseStringLoop_of_le (b : Buffer) (n : Nat) (e : Bool) (h : b.length ≤ n)
    (fuel : Nat) :
    parseStringLoop fuel ⟨b, n, e⟩ (peek ⟨b, n, e⟩) = (⟨b, n, e⟩, NUL) := by
  rw [peek_of_le b n e h]
  cases fuel with
  | zero => rfl
  | succ fuel =>
    unfold parseStringLoop
    rw [isCursorEnd_of_le b n e h]
    simp

theorem closingQuote_cons (c : Char) (rest : Buffer) :
    closingQuote (c :: rest) =
      if c = '"' then some 0
      else if c = NUL then none
      else if c = '\\' then
        match rest with
        | [] => none
        | _ :: rest1 => (closingQuote rest1).map (· + 2)
      else (closingQuote rest).map (· + 1) := by
  rw [closingQuote.eq_def]
  rfl

theorem parseStringLoop_scan {b : Buffer} (e : Bool) :
    ∀ (fuel : Nat) (t : Buffer) (m : Nat), t.length ≤ fuel → Suffix b m t →
      (∀ k, closingQuote t = some k →
        parseStringLoop fuel ⟨b, m, e⟩ (peek ⟨b, m, e⟩) = (⟨b, m + k, e⟩, '"')) ∧
      (closingQuote t = none →
        (parseStringLoop fuel ⟨b, m, e⟩ (peek ⟨b, m, e⟩)).2 ≠ '"') := by
  intro fuel
  induction fuel with
  | zero =>
    intro t m hlen h
    cases t with
    | nil =>
      refine ⟨fun k hk => by simp [closingQuote] at hk, fun _ => ?_⟩
      rw [parseStringLoop, peek_nil e h]
      simp only
      decide
    | cons c rest => simp at hlen
  | succ fuel ih =>
    intro t m hlen h
    cases t with
    | nil =>
      refine ⟨fun k hk => by simp [closingQuote] at hk, fun _ => ?_⟩
      rw [parseStringLoop_of_le b m e (by rw [h.eq_length])]
      simp only
      decide
    | cons c rest =>
      simp only [List.length_cons] at hlen
      rw [closingQuote_cons, peek_cons e h]
      by_cases hq : c = '"'
      · subst hq
        refine ⟨fun k hk => ?_, fun hk => by simp at hk⟩
        simp only [if_true, Option.some.injEq] at hk
        subst hk
        rw [parseStringLoop]
        simp
      · rw [if_neg hq]
        by_cases hnul : c = NUL
        · subst hnul
          refine ⟨fun k hk => by simp at hk, fun _ => ?_⟩
          rw [parseStringLoop, isCursorEnd_NUL e h]
          simp only [Bool.not_true, Bool.and_false, Bool.false_eq_true, if_false]
          decide
        · rw [if_neg hnul]
          have hstep : parseStringLoop (fuel + 1) ⟨b, m, e⟩ c
              = parseStringLoop fuel
                  (if c = '\\' then ⟨b, m + 2, e⟩ else ⟨b, m + 1, e⟩)
                  (peek (if c = '\\' then ⟨b, m + 2, e⟩ else ⟨b, m + 1, e⟩)) := by
            rw [parseStringLoop, isCursorEnd_cons e h hnul]
            simp only [ne_eq, hq, not_false_eq_true, decide_True, Bool.not_false,
              Bool.and_self, if_true]
          rw [hstep]
          by_cases hb : c = '\\'
          · subst hb
            simp only [if_true]
            cases rest with
            | nil =>
              refine ⟨fun k hk => by simp at hk, fun _ => ?_⟩
              have hlenb := h.next.eq_length
              rw [parseStringLoop_of_le b (m + 2) e (by omega)]
              simp only
              decide
            | cons d rest1 =>
              simp only [List.length_cons] at hlen
              obtain ⟨i1, i2⟩ := ih rest1 (m + 2) (by omega) h.next.next
              refine ⟨fun k hk => ?_, fun hk => ?_⟩
              · simp only [Option.map_eq_some'] at hk
                obtain ⟨k1, hk1, rfl⟩ := hk
                rw [i1 k1 hk1]
                simp only [Prod.mk.injEq, Cursor.mk.injEq, true_and, and_true]
                omega
              · simp only [Option.map_eq_none'] at hk
                exact i2 hk
          · simp only [if_neg hb]
            obtain ⟨i1, i2⟩ := ih rest (m + 1) (by omega) h.next
            refine ⟨fun k hk => ?_, fun hk => ?_⟩
            · simp only [Option.map_eq_some'] at hk
              obtain ⟨k1, hk1, rfl⟩ := hk
              rw [i1 k1 hk1]
              simp only [Prod.mk.injEq, Cursor.mk.injEq, true_and, and_true]
              omega
            · simp only [Option.map_eq_none'] at hk
              exact i2 hk

theorem closingQuote_getElem? : ∀ (fuel : Nat) (t : Buffer) (k : Nat), t.length ≤ fuel →
    closingQuote t = some k → t[k]? = some '"' := by
  intro fuel
  induction fuel with
  | zero =>
    intro t k hlen hk
    cases t with
    | nil => simp [closingQuote] at hk
    | cons c rest => simp at hlen
  | succ fuel ih =>
    intro t k hlen hk
    cases t with
    | nil => simp [closingQuote] at hk
    | cons c rest =>
      simp only [List.length_cons] at hlen
      rw [closingQuote_cons] at hk
      by_cases hq : c = '"'
      · subst hq
        simp only [if_true, Option.some.injEq] at hk
        subst hk
        simp
      · rw [if_neg hq] at hk
        by_cases hnul : c = NUL
        · rw [if_pos hnul] at hk; cases hk
        · rw [if_neg hnul] at hk
          by_cases hb : c = '\\'
          · rw [if_pos hb] at hk
            cases rest with
            | nil => cases hk
            | cons d rest1 =>
              simp only [List.length_cons] at hlen
              simp only [Option.map_eq_some'] at hk
              obtain ⟨k1, hk1, rfl⟩ := hk
              have := ih rest1 k1 (by omega) hk1
              simpa using this
          · rw [if_neg hb] at hk
            simp only [Option.map_eq_some'] at hk
            obtain ⟨k1, hk1, rfl⟩ := hk
            have := ih rest k1 (by omega) hk1
            simpa using this

theorem parseString_scan {b : Buffer} (e : Bool) (t : Buffer) (m : Nat)
    (h : Suffix b m ('"' :: t)) :
    (∀ k, closingQuote t = some k →
      parseString ⟨b, m, e⟩ = (.TK_STRING, ⟨b, m + (k + 2), e⟩)) ∧
    (closingQuote t = none → (parseString ⟨b, m, e⟩).1 = .TK_INVALID) := by
  have hlen : t.length ≤ b.length := by
    have := (Suffix.skip t (s := []) (by simpa using h.next)).1
    omega
  obtain ⟨i1, i2⟩ := parseStringLoop_scan e b.length t (m + 1) hlen h.next
  unfold parseString
  simp only
  refine ⟨fun k hk => ?_, fun hk => ?_⟩
  · rw [i1 k hk]
    simp only [if_true, Prod.mk.injEq, Cursor.mk.injEq, true_and, and_true]
    omega
  · rw [if_neg (i2 hk)]

theorem switch_at_quote (cur : Cursor) : parseNextTokenSwitch cur '"' = parseString cur := by
  simp [parseNextTokenSwitch]

theorem tokenText_le {b : Buffer} {n : Nat} {c : Char} {t : Buffer}
    (h : tokenText b n = c :: t) : n ≤ b.length := by
  by_contra hn
  unfold tokenText at h
  rw [List.drop_eq_nil_of_le (by omega)] at h
  cases h

/-- C18: on input whose next non-space byte is a double quote, `parseNextToken`
returns a string token whose content runs from the opening quote through the
first later double quote that is not the byte consumed after a backslash (a
backslash consumes the byte behind it, whatever it is; newlines are bytes like
others), and leaves the cursor behind that quote; when there is no such quote
before the end of the input the token is invalid. -/
theorem C18_string_token_ends_at_closing_quote (b : Buffer) (n : Nat) (e : Bool) (t : Buffer)
    (h : tokenText b n = '"' :: t) :
    (∀ k, closingQuote t = some k →
      t[k]? = some '"' ∧
      (parseNextToken ⟨b, n, e⟩).1.type = .TK_STRING ∧
      viewBytes b (parseNextToken ⟨b, n, e⟩).1.content = '"' :: t.take (k + 1) ∧
      (parseNextToken ⟨b, n, e⟩).2
        = ⟨b, (parseNextToken ⟨b, n, e⟩).1.content.data + (k + 2), e⟩) ∧
    (closingQuote t = none → (parseNextToken ⟨b, n, e⟩).1.type = .TK_INVALID) := by
  have hsuf := suffix_tokenText b n (tokenText_le h)
  rw [h] at hsuf
  have hws := isWhitespace_takeWhile (b.drop n)
  have h1 : Suffix b (n + ((b.drop n).takeWhile isSpace).length) ('"' :: t) :=
    Suffix.skip _ hsuf
  obtain ⟨i1, i2⟩ := parseString_scan e t _ h1
  rw [parseNextToken_at e _ '"' t n hsuf hws (by decide) (by decide), switch_at_quote]
  refine ⟨fun k hk => ?_, fun hk => ?_⟩
  · have hq := closingQuote_getElem? t.length t k (Nat.le_refl _) hk
    have hklt : k < t.length := by
      by_contra hn
      rw [List.getElem?_eq_none (by omega)] at hq
      cases hq
    rw [i1 k hk]
    simp only
    rw [if_neg (by omega)]
    refine ⟨hq, rfl, ?_, rfl⟩
    simp only [Nat.add_sub_cancel_left]
    have h2 : Suffix b (n + ((b.drop n).takeWhile isSpace).length)
        (('"' :: t.take (k + 1)) ++ t.drop (k + 1)) := by
      simpa using h1
    have := Suffix.viewBytes _ h2
    rw [show ('"' :: t.take (k + 1)).length = k + 2 by
      rw [List.length_cons, List.length_take]; omega] at this
    exact this
  · split
    · rfl
    · exact i2 hk

theorem C18_string_token_ends_at_closing_quote_witness :
    (∀ k, closingQuote (CS "a\\\"\nb\" ,") = some k →
      (CS "a\\\"\nb\" ,")[k]? = some '"' ∧
      (parseNextToken ⟨CS " \"a\\\"\nb\" ,", 0, false⟩).1.type = .TK_STRING ∧
      viewBytes (CS " \"a\\\"\nb\" ,") (parseNextToken ⟨CS " \"a\\\"\nb\" ,", 0, false⟩).1.content
        = '"' :: (CS "a\\\"\nb\" ,").take (k + 1) ∧
      (parseNextToken ⟨CS " \"a\\\"\nb\" ,", 0, false⟩).2
        = ⟨CS " \"a\\\"\nb\" ,",
            (parseNextToken ⟨CS " \"a\\\"\nb\" ,", 0, false⟩).1.content.data + (k + 2), false⟩) ∧
    (closingQuote (CS "a\\\"\nb\" ,") = none →
      (parseNextToken ⟨CS " \"a\\\"\nb\" ,", 0, false⟩).1.type = .TK_INVALID) :=
  C18_string_token_ends_at_closing_quote (CS " \"a\\\"\nb\" ,") 0 false (CS "a\\\"\nb\" ,")
    (by decide)

/-! ### Structural errors of lists -/

theorem SameInput.rfl (c : Cursor) : SameInput c c := ⟨Eq.refl _, Eq.refl _⟩

theorem SameInput.trans {c1 c2 c3 : Cursor} (h1 : SameInput c1 c2) (h2 : SameInput c2 c3) :
    SameInput c1 c3 := ⟨h2.1.trans h1.1, h2.2.trans h1.2⟩

theorem SameInput.offset (c : Cursor) (o : Nat) : SameInput c { c with offset := o } :=
  ⟨Eq.refl _, Eq.refl _⟩

theorem skipSpacesLoop_same : ∀ (fuel : Nat) (cur : Cursor) (ch : Char),
    SameInput cur (skipSpacesLoop fuel cur ch) := by
  intro fuel
  induction fuel with
  | zero => intro cur ch; exact SameInput.rfl cur
  | succ fuel ih =>
    intro cur ch
    unfold skipSpacesLoop
    split
    · exact (SameInput.offset cur _).trans (ih _ _)
    · exact SameInput.rfl cur

theorem skipSpaces_same (cur : Cursor) : SameInput cur (skipSpaces cur) := by
  unfold skipSpaces
  split
  · exact SameInput.rfl cur
  · exact skipSpacesLoop_same _ _ _

theorem parseStringLoop_same : ∀ (fuel : Nat) (cur : Cursor) (ch : Char),
    SameInput cur (parseStringLoop fuel cur ch).1 := by
  intro fuel
  induction fuel with
  | zero => intro cur ch; exact SameInput.rfl cur
  | succ fuel ih =>
    intro cur ch
    unfold parseStringLoop
    split
    · refine SameInput.trans ?_ (ih _ _)
      split
      · exact SameInput.offset cur _
      · exact SameInput.offset cur _
    · exact SameInput.rfl cur

theorem parseString_same (cur : Cursor) : SameInput cur (parseString cur).2 := by
  unfold parseString
  simp only
  have h := (SameInput.offset cur (cur.offset + 1)).trans
    (parseStringLoop_same cur.buf.length { cur with offset := cur.offset + 1 }
      (peek { cur with offset := cur.offset + 1 }))
  split
  · exact h.trans (SameInput.offset _ _)
  · exact h

theorem parseKeywordLoop_same : ∀ (fuel : Nat) (cur : Cursor) (ch : Char) (k : Nat),
    SameInput cur (parseKeywordLoop fuel cur ch k).1 := by
  intro fuel
  induction fuel with
  | zero => intro cur ch k; exact SameInput.rfl cur
  | succ fuel ih =>
    intro cur ch k
    unfold parseKeywordLoop
    split
    · exact (SameInput.offset cur _).trans (ih _ _ _)
    · exact SameInput.rfl cur

theorem parseKeyword_same (cur : Cursor) (kw : Buffer) :
    SameInput cur (parseKeyword cur kw).2 := by
  unfold parseKeyword
  simp only
  split <;> exact parseKeywordLoop_same _ _ _ _

theorem digitsLoop_same : ∀ (fuel : Nat) (cur : Cursor) (ch : Char),
    SameInput cur (digitsLoop fuel cur ch).1 := by
  intro fuel
  induction fuel with
  | zero => intro cur ch; exact SameInput.rfl cur
  | succ fuel ih =>
    intro cur ch
    unfold digitsLoop
    split
    · exact (SameInput.offset cur _).trans (ih _ _)
    · exact SameInput.rfl cur

theorem parseNumberExponent_same (cur : Cursor) (ch : Char) :
    SameInput cur (parseNumberExponent cur ch).2 := by
  unfold parseNumberExponent
  simp only
  split_ifs <;>
    first
    | exact SameInput.rfl _
    | exact SameInput.offset _ _
    | exact (SameInput.offset cur _).trans (digitsLoop_same _ _ _)

theorem parseNumberFraction_same (cur : Cursor) (ch : Char) :
    SameInput cur (parseNumberFraction cur ch).2 := by
  have key : ∀ c1 : Cursor, SameInput cur c1 →
      SameInput cur
        (if !isNumeric (peek c1) then (TokenType.TK_INVALID, c1)
          else parseNumberExponent (digitsLoop c1.buf.length c1 (peek c1)).1
            (digitsLoop c1.buf.length c1 (peek c1)).2).2 := by
    intro c1 h
    split
    · exact h
    · exact (h.trans (digitsLoop_same _ _ _)).trans (parseNumberExponent_same _ _)
  unfold parseNumberFraction
  by_cases hA : ch ≠ '.' ∧ ch ≠ 'e' ∧ ch ≠ 'E'
  · rw [if_pos hA]
    exact SameInput.rfl cur
  · rw [if_neg hA]
    by_cases hB : ch = '.'
    · rw [if_pos hB]
      exact key { cur with offset := cur.offset + 1 } (SameInput.offset cur _)
    · rw [if_neg hB]
      exact parseNumberExponent_same _ _

theorem parseNumber_same (cur : Cursor) : SameInput cur (parseNumber cur).2 := by
  have key : ∀ r : Cursor × Char, SameInput cur r.1 →
      SameInput cur
        (if !isNumeric r.2 then (TokenType.TK_INVALID, r.1)
          else parseNumberFraction (digitsLoop r.1.buf.length r.1 r.2).1
            (digitsLoop r.1.buf.length r.1 r.2).2).2 := by
    intro r h
    split
    · exact h
    · exact (h.trans (digitsLoop_same _ _ _)).trans (parseNumberFraction_same _ _)
  unfold parseNumber
  by_cases hm : peek cur = '-'
  · exact key (if peek cur = '-' then
        (({ cur with offset := cur.offset + 1 } : Cursor),
          peek { cur with offset := cur.offset + 1 })
      else (cur, peek cur)) (by rw [if_pos hm]; exact SameInput.offset cur _)
  · exact key (if peek cur = '-' then
        (({ cur with offset := cur.offset + 1 } : Cursor),
          peek { cur with offset := cur.offset + 1 })
      else (cur, peek cur)) (by rw [if_neg hm]; exact SameInput.rfl cur)

theorem parseNextTokenSwitch_same (cur : Cursor) (ch : Char) :
    SameInput cur (parseNextTokenSwitch cur ch).2 := by
  unfold parseNextTokenSwitch
  by_cases h0 : ch = '{'
  · rw [if_pos h0]
    exact SameInput.offset cur _
  rw [if_neg h0]
  by_cases h1 : ch = '}'
  · rw [if_pos h1]
    exact SameInput.offset cur _
  rw [if_neg h1]
  by_cases h2 : ch = '['
  · rw [if_pos h2]
    exact SameInput.offset cur _
  rw [if_neg h2]
  by_cases h3 : ch = ']'
  · rw [if_pos h3]
    exact SameInput.offset cur _
  rw [if_neg h3]
  by_cases h4 : ch = ':'
  · rw [if_pos h4]
    exact SameInput.offset cur _
  rw [if_neg h4]
  by_cases h5 : ch = ','
  · rw [if_pos h5]
    exact SameInput.offset cur _
  rw [if_neg h5]
  by_cases hq : ch = '"'
  · rw [if_pos hq]
    exact parseString_same cur
  rw [if_neg hq]
  by_cases ht : ch = 't'
  · rw [if_pos ht]
    exact parseKeyword_same cur _
  rw [if_neg ht]
  by_cases hf : ch = 'f'
  · rw [if_pos hf]
    exact parseKeyword_same cur _
  rw [if_neg hf]
  by_cases hn : ch = 'n'
  · rw [if_pos hn]
    exact parseKeyword_same cur _
  rw [if_neg hn]
  by_cases hd : ch = '-' ∨ isNumeric ch = true
  · rw [if_pos hd]
    exact parseNumber_same cur
  · rw [if_neg hd]
    exact SameInput.rfl cur

theorem parseNextToken_same (cur : Cursor) : SameInput cur (parseNextToken cur).2 := by
  unfold parseNextToken
  simp only
  have h0 := skipSpaces_same cur
  split
  · exact h0
  · have h1 := h0.trans (parseNextTokenSwitch_same (skipSpaces cur) (peek (skipSpaces cur)))
    split
    · exact h1.trans (SameInput.offset _ _)
    · exact h1

theorem parseNextToken_flag (cur : Cursor) :
    (parseNextToken cur).2.errorOccurred = cur.errorOccurred := (parseNextToken_same cur).2

/-- One round of the loop of `parseList` at a cursor that is not at the end:
`cur1` and `valueTk` are the cursor and the token at which the value of the
entry is parsed. -/
theorem parseListLoop_step (fuel : Nat) (cur : Cursor) (listType : json_ElementType)
    (closing : TokenType) (tk sep : Token) (children : List json_Element)
    (hend : isCursorEnd cur = false) :
    ∃ (cur1 : Cursor) (valueTk : Token) (children1 : List json_Element),
      ((listType = .json_OBJECT ∧
          cur1 = (parseNextToken (afterLabel tk (parseNextToken cur))).2 ∧
          valueTk = (parseNextToken (afterLabel tk (parseNextToken cur))).1) ∨
        (listType ≠ .json_OBJECT ∧ cur1 = cur ∧ valueTk = tk)) ∧
      parseListLoop (fuel + 1) cur listType closing tk sep children =
        if (parseNextToken (parseElementValue fuel cur1 valueTk).2).1.type = closing then
          (children1, (parseNextToken (parseElementValue fuel cur1 valueTk).2).1,
            afterSeparator closing (parseNextToken (parseElementValue fuel cur1 valueTk).2))
        else
          parseListLoop fuel
            (parseNextToken
              (afterSeparator closing
                (parseNextToken (parseElementValue fuel cur1 valueTk).2))).2
            listType closing
            (parseNextToken
              (afterSeparator closing
                (parseNextToken (parseElementValue fuel cur1 valueTk).2))).1
            (parseNextToken (parseElementValue fuel cur1 valueTk).2).1 children1 := by
  by_cases hobj : listType = .json_OBJECT
  · refine ⟨(parseNextToken (afterLabel tk (parseNextToken cur))).2,
      (parseNextToken (afterLabel tk (parseNextToken cur))).1,
      children ++ [(parseElementValue fuel (parseNextToken (afterLabel tk (parseNextToken cur))).2
          (parseNextToken (afterLabel tk (parseNextToken cur))).1).1.withLabel
        (viewBytes (parseElementValue fuel (parseNextToken (afterLabel tk (parseNextToken cur))).2
          (parseNextToken (afterLabel tk (parseNextToken cur))).1).2.buf
          (takeOffQuotes tk.content))],
      Or.inl ⟨hobj, rfl, rfl⟩, ?_⟩
    rw [parseListLoop]
    simp only [hend, Bool.false_eq_true, if_false, hobj, if_true]
    rfl
  · refine ⟨cur, tk,
      children ++ [(parseElementValue fuel cur tk).1.withLabel
        (viewBytes (parseElementValue fuel cur tk).2.buf { data := 0, count := 0 })],
      Or.inr ⟨hobj, rfl, rfl⟩, ?_⟩
    rw [parseListLoop]
    simp only [hend, Bool.false_eq_true, if_false, hobj]
    rfl

theorem parseListLoop_end (fuel : Nat) (cur : Cursor) (listType : json_ElementType)
    (closing : TokenType) (tk sep : Token) (children : List json_Element)
    (hend : isCursorEnd cur = true) :
    parseListLoop (fuel + 1) cur listType closing tk sep children = (children, sep, cur) := by
  rw [parseListLoop]
  simp only [hend, if_true]

theorem parseList_step (fuel : Nat) (cur : Cursor) (listType : json_ElementType) :
    parseList (fuel + 1) cur listType =
      if (parseNextToken cur).1.type = closingOf listType then
        (.mk listType [] [] [], (parseNextToken cur).2)
      else
        (.mk listType [] []
          (parseListLoop fuel (parseNextToken cur).2 listType (closingOf listType)
            (parseNextToken cur).1 Token.zero []).1,
          if (parseListLoop fuel (parseNextToken cur).2 listType (closingOf listType)
              (parseNextToken cur).1 Token.zero []).2.1.type ≠ closingOf listType then
            parsingError
              (parseListLoop fuel (parseNextToken cur).2 listType (closingOf listType)
                (parseNextToken cur).1 Token.zero []).2.2
          else
            (parseListLoop fuel (parseNextToken cur).2 listType (closingOf listType)
              (parseNextToken cur).1 Token.zero []).2.2) := by
  rw [parseList]
  rfl

theorem tokenTypes_zero (cur : Cursor) : tokenTypes 0 cur = [] := rfl

/-- The parser at defective lists: two elements without a comma, the closer of
the other kind, no closer, a label that is no string, a missing colon, a comma
before the closer. -/
theorem sample_defects_record_error :
    (json_parseJson (CS "[1 2]")).2.errorOccurred = true ∧
    (json_parseJson (CS "\x7b\"a\":1 \"b\":2\x7d")).2.errorOccurred = true ∧
    (json_parseJson (CS "[1\x7d")).2.errorOccurred = true ∧
    (json_parseJson (CS "\x7b\"a\":1]")).2.errorOccurred = true ∧
    (json_parseJson (CS "[1")).2.errorOccurred = true ∧
    (json_parseJson (CS "[[1]")).2.errorOccurred = true ∧
    (json_parseJson (CS "\x7b1:2\x7d")).2.errorOccurred = true ∧
    (json_parseJson (CS "\x7b\"a\" 1\x7d")).2.errorOccurred = true ∧
    (json_parseJson (CS "[1,]")).2.errorOccurred = true := by
  decide

theorem digitsLoop_offset_le : ∀ (fuel : Nat) (cur : Cursor) (ch : Char),
    cur.offset ≤ (digitsLoop fuel cur ch).1.offset := by
  intro fuel
  induction fuel with
  | zero => intro cur ch; exact Nat.le_refl _
  | succ fuel ih =>
    intro cur ch
    unfold digitsLoop
    split
    · exact Nat.le_trans (Nat.le_succ _) (ih { cur with offset := cur.offset + 1 } _)
    · exact Nat.le_refl _

theorem parseNumberExponent_offset_le (cur : Cursor) (ch : Char) :
    cur.offset ≤ (parseNumberExponent cur ch).2.offset := by
  have key : ∀ r : Cursor × Char, cur.offset ≤ r.1.offset →
      cur.offset ≤
        (if !isNumeric r.2 then (TokenType.TK_INVALID, r.1)
          else
            if !isSeparator (digitsLoop r.1.buf.length r.1 r.2).2 &&
                !isCursorEnd (digitsLoop r.1.buf.length r.1 r.2).1 then
              (TokenType.TK_INVALID, (digitsLoop r.1.buf.length r.1 r.2).1)
            else (TokenType.TK_NUMBER, (digitsLoop r.1.buf.length r.1 r.2).1)).2.offset := by
    intro r h
    split
    · exact h
    · split
      · exact Nat.le_trans h (digitsLoop_offset_le _ _ _)
      · exact Nat.le_trans h (digitsLoop_offset_le _ _ _)
  unfold parseNumberExponent
  by_cases he : ch = 'e' ∨ ch = 'E'
  · rw [if_pos he]
    by_cases hs : peek { cur with offset := cur.offset + 1 } = '+' ∨
        peek { cur with offset := cur.offset + 1 } = '-'
    · exact key (if peek { cur with offset := cur.offset + 1 } = '+' ∨
            peek { cur with offset := cur.offset + 1 } = '-' then
          (({ cur with offset := cur.offset + 1 + 1 } : Cursor),
            peek { cur with offset := cur.offset + 1 + 1 })
        else ({ cur with offset := cur.offset + 1 },
          peek { cur with offset := cur.offset + 1 })) (by
        rw [if_pos hs]
        simp only
        omega)
    · exact key (if peek { cur with offset := cur.offset + 1 } = '+' ∨
            peek { cur with offset := cur.offset + 1 } = '-' then
          (({ cur with offset := cur.offset + 1 + 1 } : Cursor),
            peek { cur with offset := cur.offset + 1 + 1 })
        else ({ cur with offset := cur.offset + 1 },
          peek { cur with offset := cur.offset + 1 })) (by
        rw [if_neg hs]
        simp only
        omega)
  · rw [if_neg he]
    split <;> exact Nat.le_refl _

theorem parseNumberFraction_offset_le (cur : Cursor) (ch : Char) :
    cur.offset ≤ (parseNumberFraction cur ch).2.offset := by
  have key : ∀ c1 : Cursor, cur.offset ≤ c1.offset →
      cur.offset ≤
        (if !isNumeric (peek c1) then (TokenType.TK_INVALID, c1)
          else parseNumberExponent (digitsLoop c1.buf.length c1 (peek c1)).1
            (digitsLoop c1.buf.length c1 (peek c1)).2).2.offset := by
    intro c1 h
    split
    · exact h
    · exact Nat.le_trans (Nat.le_trans h (digitsLoop_offset_le _ _ _))
        (parseNumberExponent_offset_le _ _)
  unfold parseNumberFraction
  by_cases hA : ch ≠ '.' ∧ ch ≠ 'e' ∧ ch ≠ 'E'
  · rw [if_pos hA]
  · rw [if_neg hA]
    by_cases hB : ch = '.'
    · rw [if_pos hB]
      exact key { cur with offset := cur.offset + 1 } (Nat.le_succ _)
    · rw [if_neg hB]
      exact parseNumberExponent_offset_le _ _

/-- The function `parseNumber` moves the cursor when it stands at a minus sign
or a digit. -/
theorem parseNumber_advances {b : Buffer} (e : Bool) (c : Char) (t : Buffer) (m : Nat)
    (h : Suffix b m (c :: t)) (hc : c = '-' ∨ isNumeric c = true) :
    m < (parseNumber ⟨b, m, e⟩).2.offset := by
  have key : ∀ r : Cursor × Char, m < (digitsLoop r.1.buf.length r.1 r.2).1.offset →
      m ≤ r.1.offset → (isNumeric r.2 = false → m < r.1.offset) →
      m < (if !isNumeric r.2 then (TokenType.TK_INVALID, r.1)
          else parseNumberFraction (digitsLoop r.1.buf.length r.1 r.2).1
            (digitsLoop r.1.buf.length r.1 r.2).2).2.offset := by
    intro r h1 h2 h3
    by_cases hn : isNumeric r.2 = true
    · rw [if_neg (by simp [hn])]
      exact Nat.lt_of_lt_of_le h1 (parseNumberFraction_offset_le _ _)
    · rw [if_pos (by simpa using hn)]
      exact h3 (by simpa using hn)
  have hpeek := peek_cons e h
  unfold parseNumber
  by_cases hm : c = '-'
  · subst hm
    refine key (if peek ⟨b, m, e⟩ = '-' then
        ((⟨b, m + 1, e⟩ : Cursor), peek ⟨b, m + 1, e⟩)
      else (⟨b, m, e⟩, peek ⟨b, m, e⟩)) ?_ ?_ ?_
    · rw [if_pos hpeek]
      exact Nat.lt_of_lt_of_le (Nat.lt_succ_self m) (digitsLoop_offset_le _ ⟨b, m + 1, e⟩ _)
    · rw [if_pos hpeek]
      exact Nat.le_succ m
    · intro _
      rw [if_pos hpeek]
      exact Nat.lt_succ_self m
  · have hnum : isNumeric c = true := by
      rcases hc with hc | hc
      · exact absurd hc hm
      · exact hc
    have hnul : c ≠ NUL := isNumeric_ne_NUL hnum
    have hlen : b.length = (b.length - 1) + 1 := by
      have := h.lt
      omega
    refine key (if peek ⟨b, m, e⟩ = '-' then
        ((⟨b, m + 1, e⟩ : Cursor), peek ⟨b, m + 1, e⟩)
      else (⟨b, m, e⟩, peek ⟨b, m, e⟩)) ?_ ?_ ?_
    · rw [if_neg (by rw [hpeek]; exact hm)]
      simp only [hpeek]
      rw [hlen, digitsLoop, isCursorEnd_cons e h hnul]
      simp only [hnum, Bool.not_false, Bool.and_self, if_true]
      exact Nat.lt_of_lt_of_le (Nat.lt_succ_self m) (digitsLoop_offset_le _ ⟨b, m + 1, e⟩ _)
    · rw [if_neg (by rw [hpeek]; exact hm)]
    · intro hq
      rw [if_neg (by rw [hpeek]; exact hm)] at hq
      simp only [hpeek] at hq
      rw [hnum] at hq
      cases hq

theorem switch_at_number (cur : Cursor) (c : Char) (hc : c = '-' ∨ isNumeric c = true) :
    parseNextTokenSwitch cur c = (.TK_NUMBER, (parseNumber cur).2) := by
  have hne : ∀ d : Char, d ≠ '-' → isNumeric d = false → c ≠ d := by
    intro d h1 h2 hcd
    subst hcd
    rcases hc with hc | hc
    · exact h1 hc
    · rw [h2] at hc; cases hc
  unfold parseNextTokenSwitch
  rw [if_neg (hne '{' (by decide) (by decide)), if_neg (hne '}' (by decide) (by decide)),
    if_neg (hne '[' (by decide) (by decide)), if_neg (hne ']' (by decide) (by decide)),
    if_neg (hne ':' (by decide) (by decide)), if_neg (hne ',' (by decide) (by decide)),
    if_neg (hne '"' (by decide) (by decide)), if_neg (hne 't' (by decide) (by decide)),
    if_neg (hne 'f' (by decide) (by decide)), if_neg (hne 'n' (by decide) (by decide)),
    if_pos hc]

/-- Whatever follows, the token read at a minus sign or a digit is a number
token: the result of `parseNumber` is not read. -/
theorem number_start_is_number_token {b : Buffer} (e : Bool) (ws : Buffer) (c : Char)
    (t : Buffer) (n : Nat) (h : Suffix b n (ws ++ c :: t)) (hws : isWhitespace ws = true)
    (hc : c = '-' ∨ isNumeric c = true) :
    (parseNextToken ⟨b, n, e⟩).1.type = .TK_NUMBER := by
  have hsp : isSpace c = false := by
    rcases hc with rfl | hc
    · decide
    · cases hq : isSpace c
      · rfl
      · have := isSeparator_not_numeric (isSpace_isSeparator hq)
        rw [hc] at this
        cases this
  have hnul : c ≠ NUL := by
    rcases hc with rfl | hc
    · decide
    · exact isNumeric_ne_NUL hc
  have hadv := parseNumber_advances e c t (n + ws.length) (Suffix.skip ws h) hc
  rw [parseNextToken_at e ws c t n h hws hsp hnul, switch_at_number _ c hc]
  simp only
  rw [if_neg (by omega)]

/-! ## Accessors of the tree and the zero job -/

theorem json_getElementLoop_find (label : Buffer) : ∀ (children : List json_Element),
    json_getElementLoop label children
      = (children.find? fun child => decide (child.label = label)).getD json_Element.zero := by
  intro children
  induction children with
  | nil => rfl
  | cons child rest ih =>
    rw [json_getElementLoop, List.find?_cons]
    by_cases h : child.label = label
    · have he : areEqual label child.label = true := (areEqual_iff _ _).mpr h.symm
      rw [if_pos he]
      simp [h]
    · have he : areEqual label child.label = false := by
        cases hq : areEqual label child.label
        · rfl
        · exact absurd ((areEqual_iff _ _).mp hq).symm h
      simp [he, h, ih]

/-- C23: for an object and a label whose data pointer is not null,
`json_getElement` returns the first child in source order whose label has the
bytes of `label` (same length, same bytes), and the zero element when no child
has; it returns the zero element for every element that is no object, arrays
included, and for a label whose data pointer is null. -/
theorem C23_getElement_first_match (element : json_Element) (label : Option Buffer) :
    json_getElement element label =
      match label with
      | some l =>
        if element.type = .json_OBJECT then
          (element.children.find? fun child => decide (child.label = l)).getD json_Element.zero
        else json_Element.zero
      | none => json_Element.zero := by
  cases label with
  | none => rfl
  | some l =>
    simp only [json_getElement]
    split
    · exact json_getElementLoop_find l _
    · rfl

theorem json_getArrayCountLoop_eq : ∀ (children : List json_Element) (count : Nat),
    count + children.length < 2 ^ 64 →
    json_getArrayCountLoop children count = count + children.length := by
  intro children
  induction children with
  | nil => intro count _; rfl
  | cons child rest ih =>
    intro count h
    simp only [List.length_cons] at h
    rw [json_getArrayCountLoop, wrap64_of_lt (by omega), ih _ (by omega)]
    simp only [List.length_cons]
    omega

theorem mirror_length : ∀ (es : JElements), es.mirror.length = es.count
  | .nil => rfl
  | .cons _ _ _ rest => by
    have := mirror_length rest
    simp only [JElements.mirror, JElements.count, List.length_cons, this]

theorem count_le_render : ∀ (es : JElements), es.count ≤ es.render.length + 1
  | .nil => by simp only [JElements.count]; omega
  | .cons wsB v wsA .nil => by simp only [JElements.count]; omega
  | .cons wsB v wsA (.cons wsB2 v2 wsA2 rest) => by
    have := count_le_render (.cons wsB2 v2 wsA2 rest)
    rw [JElements.count, JElements.render]
    simp only [JElements.isEmpty, Bool.false_eq_true, if_false, List.length_append,
      List.length_cons]
    omega

/-- The parser on a well-formed document. -/
theorem json_parseJson_document (doc : JValue) (before after : Buffer)
    (hwf : doc.wellFormed = true) (hlist : doc.isList = true)
    (hb : isWhitespace before = true) (ha : isWhitespace after = true)
    (hlen : (before ++ (doc.render ++ after)).length < 2 ^ 64) :
    json_parseJson (before ++ (doc.render ++ after))
      = (some (doc.mirror []),
          ⟨before ++ (doc.render ++ after), before.length + doc.render.length, false⟩) := by
  have hsuf : Suffix (before ++ (doc.render ++ after)) 0 (before ++ (doc.render ++ after)) :=
    ⟨Nat.zero_le _, rfl⟩
  have hends := endsToken_of_whitespace ha
  have htk := first_token false doc hwf before after 0 hb hsuf hends
  have hsize := value_size_le doc
  have hfuel : doc.size ≤ 3 * (before ++ (doc.render ++ after)).length + 3 := by
    simp only [List.length_append]
    omega
  have hval := value_parses doc hwf _ 0 false before after _ hb hsuf hends hlen hfuel
  simp only [Nat.zero_add] at htk hval
  unfold json_parseJson
  simp only [htk, isList_firstToken doc hlist, if_false, hval]

/-- C24: `json_getArrayCount` returns the number of children of an array
element, the length of its chain of children, and 0 for every element that is
no array, objects included; for the array parsed from a well-formed document
that is the number of elements written in the source.  The chain of an element
has fewer than `2^64` nodes. -/
theorem C24_array_count (array : json_Element) (hlen : array.children.length < 2 ^ 64) :
    (array.type = .json_ARRAY → json_getArrayCount array = array.children.length) ∧
    (array.type ≠ .json_ARRAY → json_getArrayCount array = 0) ∧
    (∀ (es : JElements) (wsc before after : Buffer),
      (JValue.array es wsc).wellFormed = true → isWhitespace before = true →
      isWhitespace after = true →
      (before ++ ((JValue.array es wsc).render ++ after)).length < 2 ^ 64 →
      (json_parseJson (before ++ ((JValue.array es wsc).render ++ after))).1.map
        json_getArrayCount = some es.count) := by
  refine ⟨fun h => ?_, fun h => ?_, ?_⟩
  · rw [json_getArrayCount, if_pos h, json_getArrayCountLoop_eq _ _ (by omega), Nat.zero_add]
  · rw [json_getArrayCount, if_neg h]
  · intro es wsc before after hwf hb ha hl
    rw [json_parseJson_document _ before after hwf rfl hb ha hl]
    have hc := count_le_render es
    have hl2 : es.count < 2 ^ 64 := by
      simp only [JValue.render, List.length_append, List.length_cons, List.length_nil] at hl
      omega
    simp only [Option.map_some', JValue.mirror, Option.some.injEq]
    rw [json_getArrayCount]
    simp only [json_Element.type, json_Element.children, if_true]
    rw [json_getArrayCountLoop_eq _ _ (by rw [mirror_length]; omega), mirror_length, Nat.zero_add]

theorem C24_array_count_witness :
    ((jsonArray "items" [sampleItem "a", sampleItem "b"]).type = .json_ARRAY →
      json_getArrayCount (jsonArray "items" [sampleItem "a", sampleItem "b"])
        = (jsonArray "items" [sampleItem "a", sampleItem "b"]).children.length) ∧
    ((jsonArray "items" [sampleItem "a", sampleItem "b"]).type ≠ .json_ARRAY →
      json_getArrayCount (jsonArray "items" [sampleItem "a", sampleItem "b"]) = 0) ∧
    (∀ (es : JElements) (wsc before after : Buffer),
      (JValue.array es wsc).wellFormed = true → isWhitespace before = true →
      isWhitespace after = true →
      (before ++ ((JValue.array es wsc).render ++ after)).length < 2 ^ 64 →
      (json_parseJson (before ++ ((JValue.array es wsc).render ++ after))).1.map
        json_getArrayCount = some es.count) :=
  C24_array_count (jsonArray "items" [sampleItem "a", sampleItem "b"]) (by decide)

/-- C27: the zero job is not acted on.  `dequeueJob` on an empty queue returns
the all-zero job and leaves the queue as it is; `addRequest` called with the
all-zero job changes neither the slot table nor the queue; `processJob` called
with a job of kind `Job_zero`, whatever its other fields, returns with the
queue, the playlist array and the outputs unchanged. -/
theorem C27_zero_job_is_not_acted_on (nst : NetworkState) (jq : JobQueue) (useChecks : Bool)
    (numberToU64 : json_Element → Nat) (st : ProcState) (uri : Buffer) (json : json_Element)
    (playlistIndex offset : Nat) :
    dequeueJob { jq with count := 0 } = (Job.zero, { jq with count := 0 }) ∧
    addRequest nst jq Job.zero = (nst, jq) ∧
    addRequest nst jq (dequeueJob { jq with count := 0 }).1 = (nst, jq) ∧
    processJob useChecks numberToU64 st
      { type := .Job_zero, uri := uri, json := json, playlistIndex := playlistIndex,
        offset := offset } = some st := by
  have h1 := dequeueJob_empty { jq with count := 0 } rfl
  refine ⟨h1, ?_, ?_, rfl⟩
  · simp [addRequest, Job.zero]
  · rw [h1]
    simp [addRequest, Job.zero]

/-- C29 (as stated, at a concrete input): in a build without checks,
`processJob` on a `Job_playlistHeader` job whose response has the invalid tag
prints a warning and returns; the run goes on. -/
theorem C29_playlist_header_only_warns :
    (sampleHeaderJob json_Element.zero).type = .Job_playlistHeader ∧
    (sampleHeaderJob json_Element.zero).json.type = .json_INVALID_ELEMENT ∧
    processJob false decimalToU64 sampleProcState (sampleHeaderJob json_Element.zero)
      = some { sampleProcState with warnings := 1 } := by
  decide

/-- C29 (amended): on a job whose parsed response has the invalid tag,
`processJob` ends the run with a fatal error for `Job_playlistListHeader`; for
`Job_playlistHeader` it prints the warning that the playlist is skipped, which
ends the run in a build with checks, and returns in a build without checks.
Where it returns, no job has been enqueued and no collection allocated: the
queue and the playlist array are as before. -/
theorem C29_invalid_header_response (useChecks : Bool) (numberToU64 : json_Element → Nat)
    (st : ProcState) (job : Job) (hjson : job.json.type = .json_INVALID_ELEMENT) :
    (job.type = .Job_playlistListHeader → processJob useChecks numberToU64 st job = none) ∧
    (job.type = .Job_playlistHeader →
      processJob useChecks numberToU64 st job =
        if useChecks then none else some { st with warnings := st.warnings + 1 }) := by
  refine ⟨fun h => ?_, fun h => ?_⟩
  · simp [processJob, h, hjson]
  · simp [processJob, h, hjson, printWarning]

theorem C29_invalid_header_response_witness :
    ((sampleListHeaderJob json_Element.zero).type = .Job_playlistListHeader →
      processJob false decimalToU64 sampleProcState (sampleListHeaderJob json_Element.zero)
        = none) ∧
    ((sampleListHeaderJob json_Element.zero).type = .Job_playlistHeader →
      processJob false decimalToU64 sampleProcState (sampleListHeaderJob json_Element.zero) =
        if false then none
        else some { sampleProcState with warnings := sampleProcState.warnings + 1 }) :=
  C29_invalid_header_response false decimalToU64 sampleProcState
    (sampleListHeaderJob json_Element.zero) (by decide)

/-! ## Completed requests -/

theorem clearMemoryArena_count (arena : MemoryArena) : (clearMemoryArena arena).count = 0 := by
  simp [clearMemoryArena, popFromMemoryArena]

/-- What a round of the loop of `processFinishedRequests` that returns has
done: the slot is released, its arena cleared, and the job processor has run on
the job of the round, which is the zero job (after a re-enqueue of the bound
job) or the bound job, with the parsed response in its `json` field. -/
theorem finishRequest_returned (useChecks : Bool) (numberToU64 : json_Element → Nat)
    (st st1 : State) (renew renew1 : Bool) (handleIndex : Nat) (responseCode : Int)
    (h : finishRequest useChecks numberToU64 st renew handleIndex responseCode
      = .returned st1 renew1) :
    st1.networkState = removeEasyHandleFromMulti st.networkState handleIndex ∧
    st1.handleToArenaMap = st.handleToArenaMap.set handleIndex
      (clearMemoryArena (st.handleToArenaMap.getD handleIndex MemoryArena.zero)) ∧
    (useChecks = true → st.networkState.busyHandleCount ≠ 0) ∧
    ∃ root, parseBufferToJson
        (arenaText (st.handleToArenaMap.getD handleIndex MemoryArena.zero)) = .returned root ∧
      ((responseCode = EXPIRED_TOKEN_RESPONSE ∧ renew1 = true ∧
          processJob useChecks numberToU64
            { st.proc with
              jq := enqueueJob st.proc.jq
                (st.networkState.handleToJobMap.getD handleIndex Job.zero) }
            { Job.zero with json := root } = some st1.proc) ∨
        (responseCode = OK_RESPONSE ∧ renew1 = renew ∧
          processJob useChecks numberToU64 st.proc
            { st.networkState.handleToJobMap.getD handleIndex Job.zero with json := root }
            = some st1.proc)) := by
  unfold finishRequest at h
  simp only at h
  split at h
  · cases h
  · rename_i hcode
    split at h
    · cases h
    · cases h
    · rename_i root hroot
      split at h
      · cases h
      · rename_i hcheck
        split at h
        · cases h
        · rename_i proc hproc
          simp only [FinishOutcome.returned.injEq] at h
          obtain ⟨h1, h2⟩ := h
          subst h1
          refine ⟨rfl, rfl, ?_, root, hroot, ?_⟩
          · intro hu hz
            apply hcheck
            simp [hu, hz]
          · by_cases hexp : responseCode = EXPIRED_TOKEN_RESPONSE
            · left
              simp only [hexp, decide_True, if_true] at hproc h2
              exact ⟨hexp, h2.symm, hproc⟩
            · right
              have hok : responseCode = OK_RESPONSE := by
                by_contra hne
                exact hcode ⟨hexp, hne⟩
              simp only [hexp, decide_False, Bool.false_eq_true, if_false] at hproc h2
              exact ⟨hok, h2.symm, hproc⟩

/-- A completion with the expired-credential status whose body parses to a
node: the bound job is appended to the queue as it is, the job processor gets
the zero job and changes nothing, and the renewal flag is set. -/
theorem finishRequest_expired (useChecks : Bool) (numberToU64 : json_Element → Nat)
    (st : State) (renew : Bool) (handleIndex : Nat) (root : json_Element)
    (hroot : parseBufferToJson
      (arenaText (st.handleToArenaMap.getD handleIndex MemoryArena.zero)) = .returned root)
    (hbusy : useChecks = true → st.networkState.busyHandleCount ≠ 0) :
    finishRequest useChecks numberToU64 st renew handleIndex EXPIRED_TOKEN_RESPONSE =
      .returned
        { networkState := removeEasyHandleFromMulti st.networkState handleIndex
          handleToArenaMap := st.handleToArenaMap.set handleIndex
            (clearMemoryArena (st.handleToArenaMap.getD handleIndex MemoryArena.zero))
          proc :=
            { st.proc with
              jq := enqueueJob st.proc.jq
                (st.networkState.handleToJobMap.getD handleIndex Job.zero) } }
        true := by
  have hcheck : (useChecks && decide (st.networkState.busyHandleCount = 0)) = false := by
    cases useChecks
    · rfl
    · simpa using hbusy rfl
  unfold finishRequest
  simp only [hroot, hcheck]
  simp [EXPIRED_TOKEN_RESPONSE, OK_RESPONSE, processJob, Job.zero]

/-- C25 (the code at failing inputs, and where it does what the claim says): a
completion with status 401 whose response body is empty, or does not start
with an opening brace or bracket, ends in the dereference of the null pointer
inside `parseBufferToJson`, in a build with checks and in one without; when
the body parses to a node, the bound job is appended to the queue as it is,
the playlist array and the outputs stay as they are, and the round returns. -/
theorem C25_expired_status_with_unparsed_body :
    finishRequest false decimalToU64 (sampleState []) false 1 EXPIRED_TOKEN_RESPONSE
      = .nullDereference ∧
    finishRequest true decimalToU64 (sampleState []) false 1 EXPIRED_TOKEN_RESPONSE
      = .nullDereference ∧
    finishRequest false decimalToU64 (sampleState (CS "expired")) false 1 EXPIRED_TOKEN_RESPONSE
      = .nullDereference ∧
    ∀ (useChecks : Bool) (numberToU64 : json_Element → Nat) (st : State) (renew : Bool)
      (handleIndex : Nat) (root : json_Element),
      parseBufferToJson (arenaText (st.handleToArenaMap.getD handleIndex MemoryArena.zero))
        = .returned root →
      (useChecks = true → st.networkState.busyHandleCount ≠ 0) →
      finishRequest useChecks numberToU64 st renew handleIndex EXPIRED_TOKEN_RESPONSE =
        .returned
          { networkState := removeEasyHandleFromMulti st.networkState handleIndex
            handleToArenaMap := st.handleToArenaMap.set handleIndex
              (clearMemoryArena (st.handleToArenaMap.getD handleIndex MemoryArena.zero))
            proc :=
              { st.proc with
                jq := enqueueJob st.proc.jq
                  (st.networkState.handleToJobMap.getD handleIndex Job.zero) } }
          true :=
  ⟨by decide, by decide, by decide,
    fun useChecks numberToU64 st renew handleIndex root hroot hbusy =>
      finishRequest_expired useChecks numberToU64 st renew handleIndex root hroot hbusy⟩

theorem count_true_pos : ∀ (flags : List Bool) (i : Nat), flags[i]? = some true →
    0 < flags.count true := by
  intro flags i h
  apply List.count_pos_iff.mpr
  obtain ⟨hlt, hget⟩ := List.getElem?_eq_some.mp h
  exact hget ▸ List.getElem_mem hlt

/-- C26: after a round of the loop of `processFinishedRequests` has handled a
completion for slot `i` and returned, with status 200 or 401, the busy flag of
slot `i` is clear, `busyHandleCount` is one less than before the round, the
response arena of slot `i` has length 0, and no other slot has its busy flag,
its bound job or its arena changed.  Slot `i` was busy before the round and
`busyHandleCount` was the number of busy slots, a `u64`. -/
theorem C26_completion_releases_slot (useChecks : Bool) (numberToU64 : json_Element → Nat)
    (st st1 : State) (renew renew1 : Bool) (i : Nat) (responseCode : Int)
    (hbusy : st.networkState.busyHandleFlagArray[i]? = some true)
    (hcount : st.networkState.busyHandleCount = st.networkState.busyHandleFlagArray.count true)
    (hu64 : st.networkState.busyHandleCount < 2 ^ 64)
    (harena : i < st.handleToArenaMap.length)
    (hret : finishRequest useChecks numberToU64 st renew i responseCode
      = .returned st1 renew1) :
    (responseCode = OK_RESPONSE ∨ responseCode = EXPIRED_TOKEN_RESPONSE) ∧
    st1.networkState.busyHandleFlagArray[i]? = some false ∧
    st1.networkState.busyHandleCount + 1 = st.networkState.busyHandleCount ∧
    (st1.handleToArenaMap[i]?).map (fun arena => arena.count) = some 0 ∧
    ∀ j, j ≠ i →
      st1.networkState.busyHandleFlagArray[j]? = st.networkState.busyHandleFlagArray[j]? ∧
      st1.networkState.handleToJobMap[j]? = st.networkState.handleToJobMap[j]? ∧
      st1.handleToArenaMap[j]? = st.handleToArenaMap[j]? := by
  obtain ⟨hnst, harenas, _, root, _, hcase⟩ :=
    finishRequest_returned useChecks numberToU64 st st1 renew renew1 i responseCode hret
  have hpos := count_true_pos _ _ hbusy
  have hlt : i < st.networkState.busyHandleFlagArray.length := by
    by_contra hc
    rw [List.getElem?_eq_none (by omega)] at hbusy
    cases hbusy
  refine ⟨?_, ?_, ?_, ?_, ?_⟩
  · rcases hcase with ⟨h, _⟩ | ⟨h, _⟩
    · exact Or.inr h
    · exact Or.inl h
  · rw [hnst]
    simp [removeEasyHandleFromMulti, hlt]
  · rw [hnst]
    simp only [removeEasyHandleFromMulti]
    rw [sub64_of_le (by omega) hu64]
    omega
  · rw [harenas]
    simp [harena, clearMemoryArena_count]
  · intro j hj
    rw [hnst, harenas]
    refine ⟨?_, rfl, ?_⟩
    · simp only [removeEasyHandleFromMulti]
      rw [List.getElem?_set_ne (Ne.symm hj)]
    · rw [List.getElem?_set_ne (Ne.symm hj)]

theorem C26_completion_releases_slot_witness :
    ((401 : Int) = OK_RESPONSE ∨ (401 : Int) = EXPIRED_TOKEN_RESPONSE) ∧
    (removeEasyHandleFromMulti (sampleState (CS "\x7b\x7d")).networkState
      1).busyHandleFlagArray[1]? = some false ∧
    (removeEasyHandleFromMulti (sampleState (CS "\x7b\x7d")).networkState 1).busyHandleCount + 1
      = (sampleState (CS "\x7b\x7d")).networkState.busyHandleCount ∧
    ((((sampleState (CS "\x7b\x7d")).handleToArenaMap.set 1
      (clearMemoryArena
        ((sampleState (CS "\x7b\x7d")).handleToArenaMap.getD 1 MemoryArena.zero)))[1]?).map
      fun arena => arena.count) = some 0 ∧
    ∀ j, j ≠ 1 →
      (removeEasyHandleFromMulti (sampleState (CS "\x7b\x7d")).networkState
        1).busyHandleFlagArray[j]?
        = (sampleState (CS "\x7b\x7d")).networkState.busyHandleFlagArray[j]? ∧
      (removeEasyHandleFromMulti (sampleState (CS "\x7b\x7d")).networkState 1).handleToJobMap[j]?
        = (sampleState (CS "\x7b\x7d")).networkState.handleToJobMap[j]? ∧
      ((sampleState (CS "\x7b\x7d")).handleToArenaMap.set 1
        (clearMemoryArena
          ((sampleState (CS "\x7b\x7d")).handleToArenaMap.getD 1 MemoryArena.zero)))[j]?
        = (sampleState (CS "\x7b\x7d")).handleToArenaMap[j]? :=
  C26_completion_releases_slot false decimalToU64 (sampleState (CS "\x7b\x7d"))
    { networkState := removeEasyHandleFromMulti (sampleState (CS "\x7b\x7d")).networkState 1
      handleToArenaMap := (sampleState (CS "\x7b\x7d")).handleToArenaMap.set 1
        (clearMemoryArena
          ((sampleState (CS "\x7b\x7d")).handleToArenaMap.getD 1 MemoryArena.zero))
      proc := { sampleProcState with jq := enqueueJob sampleProcState.jq (sampleJob 1) } }
    false true 1 401 (by decide) (by decide) (by decide) (by decide) (by decide)

/-! ## Header jobs and their offset -/

theorem headerAtZero_zero : HeaderAtZero Job.zero := fun _ => rfl

theorem set_cells {P : Job → Prop} {cells : List Job} (i : Nat) {job : Job}
    (h : ∀ x ∈ cells, P x) (hj : P job) : ∀ x ∈ cells.set i job, P x := by
  intro x hx
  rcases List.mem_or_eq_of_mem_set hx with h1 | h1
  · exact h x h1
  · exact h1 ▸ hj

theorem getD_cells {P : Job → Prop} {cells : List Job} (i : Nat)
    (h : ∀ x ∈ cells, P x) (hz : P Job.zero) : P (cells.getD i Job.zero) := by
  rw [List.getD_eq_getElem?_getD]
  cases hget : cells[i]? with
  | none => exact hz
  | some x =>
    obtain ⟨hlt, hx⟩ := List.getElem?_eq_some.mp hget
    exact h x (hx ▸ List.getElem_mem hlt)

theorem growLoop_cells {P : Job → Prop} (jq : JobQueue) (h : ∀ x ∈ jq.data, P x)
    (hz : P Job.zero) : ∀ (n i q : Nat) (newData : List Job), (∀ x ∈ newData, P x) →
    ∀ x ∈ (growLoop jq n i q newData).2, P x := by
  intro n
  induction n with
  | zero => intro i q newData hn; exact hn
  | succ n ih =>
    intro i q newData hn
    rw [growLoop]
    exact ih _ _ _ (set_cells _ hn (getD_cells _ h hz))

theorem enqueueJob_cells {P : Job → Prop} (jq : JobQueue) (job : Job)
    (h : ∀ x ∈ jq.data, P x) (hz : P Job.zero) (hj : P job) :
    ∀ x ∈ (enqueueJob jq job).data, P x := by
  have hgrow : ∀ x ∈ (enqueueGrow jq).data, P x := by
    unfold enqueueGrow
    simp only
    split
    · exact growLoop_cells jq h hz _ _ _ _ (fun x hx => (List.eq_of_mem_replicate hx) ▸ hz)
    · exact h
  exact set_cells _ hgrow hj

theorem dequeueJob_cells {P : Job → Prop} (jq : JobQueue)
    (h : ∀ x ∈ jq.data, P x) (hz : P Job.zero) :
    P (dequeueJob jq).1 ∧ ∀ x ∈ (dequeueJob jq).2.data, P x := by
  unfold dequeueJob
  split
  · exact ⟨getD_cells _ h hz, set_cells _ h hz⟩
  · exact ⟨hz, h⟩

theorem addRequest_cells {P : Job → Prop} (nst : NetworkState) (jq : JobQueue) (job : Job)
    (hn : ∀ x ∈ nst.handleToJobMap, P x) (h : ∀ x ∈ jq.data, P x) (hz : P Job.zero)
    (hj : P job) :
    (∀ x ∈ (addRequest nst jq job).1.handleToJobMap, P x) ∧
    ∀ x ∈ (addRequest nst jq job).2.data, P x := by
  unfold addRequest
  split
  · exact ⟨hn, h⟩
  · simp only
    split
    · exact ⟨set_cells _ hn hj, h⟩
    · exact ⟨hn, enqueueJob_cells jq job h hz hj⟩

theorem enqueuePagesLoop_cells {P : Job → Prop} (newJob : Nat → Job) (pageCount : Nat)
    (hz : P Job.zero) (hnew : ∀ pageIndex, P (newJob pageIndex)) :
    ∀ (n pageIndex : Nat) (jq : JobQueue), (∀ x ∈ jq.data, P x) →
    ∀ x ∈ (enqueuePagesLoop newJob pageCount n pageIndex jq).data, P x := by
  intro n
  induction n with
  | zero => intro pageIndex jq h; exact h
  | succ n ih =>
    intro pageIndex jq h
    rw [enqueuePagesLoop]
    split
    · exact ih _ _ (enqueueJob_cells jq _ h hz (hnew _))
    · exact h

theorem readPlaylistIdsLoop_cells (useChecks : Bool) (playlistArray : PlaylistArray) :
    ∀ (items : List json_Element) (playlistIndex : Nat) (jq jq1 : JobQueue),
    (∀ x ∈ jq.data, HeaderAtZero x) →
    readPlaylistIdsLoop useChecks playlistArray items playlistIndex jq = some jq1 →
    ∀ x ∈ jq1.data, HeaderAtZero x := by
  intro items
  induction items with
  | nil =>
    intro playlistIndex jq jq1 h heq
    simp only [readPlaylistIdsLoop, Option.some.injEq] at heq
    exact heq ▸ h
  | cons item rest ih =>
    intro playlistIndex jq jq1 h heq
    rw [readPlaylistIdsLoop] at heq
    split at heq
    · cases heq
    · simp only at heq
      split at heq
      · cases heq
      · exact ih _ _ _ (enqueueJob_cells jq _ h headerAtZero_zero (fun _ => rfl)) heq

theorem readPlaylistIds_cells (useChecks : Bool) (st st1 : ProcState) (playlistOffset : Nat)
    (playlistArrayJson : json_Element) (h : ∀ x ∈ st.jq.data, HeaderAtZero x)
    (heq : readPlaylistIdsAndQueueJobs useChecks st playlistOffset playlistArrayJson = some st1) :
    ∀ x ∈ st1.jq.data, HeaderAtZero x := by
  unfold readPlaylistIdsAndQueueJobs at heq
  split at heq
  · cases heq
  · rename_i jq hjq
    cases heq
    exact readPlaylistIdsLoop_cells useChecks _ _ _ _ _ h hjq

theorem playlistListPageJob_type (job : Job) (jsonLimit : json_Element)
    (playlistsPerPage pageIndex : Nat) :
    (playlistListPageJob job jsonLimit playlistsPerPage pageIndex).type = .Job_playlistList := rfl

theorem trackListPageJob_type (job : Job) (jsonLimit : json_Element)
    (tracksPerPage pageIndex : Nat) :
    (trackListPageJob job jsonLimit tracksPerPage pageIndex).type = .Job_trackList := rfl

/-- The job processor keeps the property of the queue cells: the jobs that it
enqueues are page jobs, of a kind that is no header kind, and playlist header
jobs with offset 0. -/
theorem processJob_cells (useChecks : Bool) (numberToU64 : json_Element → Nat)
    (st st1 : ProcState) (job : Job) (h : ∀ x ∈ st.jq.data, HeaderAtZero x)
    (heq : processJob useChecks numberToU64 st job = some st1) :
    ∀ x ∈ st1.jq.data, HeaderAtZero x := by
  have hlist : ∀ jsonLimit perPage pageIndex,
      HeaderAtZero (playlistListPageJob job jsonLimit perPage pageIndex) := by
    intro jsonLimit perPage pageIndex hty
    rw [playlistListPageJob_type] at hty
    rcases hty with hty | hty <;> cases hty
  have htrack : ∀ jsonLimit perPage pageIndex,
      HeaderAtZero (trackListPageJob job jsonLimit perPage pageIndex) := by
    intro jsonLimit perPage pageIndex hty
    rw [trackListPageJob_type] at hty
    rcases hty with hty | hty <;> cases hty
  unfold processJob at heq
  split at heq
  · cases heq
    exact h
  · simp only at heq
    split at heq
    · cases heq
    · split at heq
      · cases heq
      · split at heq
        · cases heq
        · exact readPlaylistIds_cells useChecks _ _ _ _
            (enqueuePagesLoop_cells _ _ headerAtZero_zero (hlist _ _) _ _ _ h) heq
  · simp only at heq
    split at heq
    · cases heq
    · split at heq
      · cases heq
      · exact readPlaylistIds_cells useChecks _ _ _ _ h heq
  · simp only at heq
    split at heq
    · rw [printWarning_jq _ _ _ heq]
      exact h
    · split at heq
      · cases heq
      · split at heq
        · cases heq
        · rename_i st2 hw
          have hjq : st2.jq = st.jq := by
            split at hw
            · exact printWarning_jq _ _ _ hw
            · cases hw; rfl
          split at heq
          · cases heq
          · rw [readTracks_jq _ _ _ _ _ _ _ heq]
            simp only
            rw [hjq]
            exact enqueuePagesLoop_cells _ _ headerAtZero_zero (htrack _ _) _ _ _ h
  · simp only at heq
    split at heq
    · cases heq
    · rename_i st2 hw
      have hjq : st2.jq = st.jq := by
        split at hw
        · exact printWarning_jq _ _ _ hw
        · cases hw; rfl
      rw [readTracks_jq _ _ _ _ _ _ _ heq, hjq]
      exact h

/-- The invariant of the crawl: in the cells of the queue and among the jobs
bound to the slots, every job of a header kind has offset 0. -/
theorem crawl_cells (useChecks : Bool) (numberToU64 : json_Element → Nat) (st : State)
    (h : CrawlReachable useChecks numberToU64 st) :
    (∀ x ∈ st.proc.jq.data, HeaderAtZero x) ∧
    ∀ x ∈ st.networkState.handleToJobMap, HeaderAtZero x := by
  induction h with
  | start arenas =>
    refine ⟨enqueueJob_cells _ _ ?_ headerAtZero_zero (fun _ => rfl), ?_⟩
    · intro x hx
      exact (List.eq_of_mem_replicate hx) ▸ headerAtZero_zero
    · intro x hx
      exact (List.eq_of_mem_replicate hx) ▸ headerAtZero_zero
  | request _ ih =>
    obtain ⟨hq, hm⟩ := ih
    obtain ⟨hd1, hd2⟩ := dequeueJob_cells _ hq headerAtZero_zero
    obtain ⟨ha1, ha2⟩ := addRequest_cells _ _ _ hm hd2 headerAtZero_zero hd1
    exact ⟨ha2, ha1⟩
  | receive arenas _ ih => exact ih
  | finish renew renew1 handleIndex responseCode _ hret ih =>
    obtain ⟨hq, hm⟩ := ih
    obtain ⟨hnst, _, _, root, _, hcase⟩ :=
      finishRequest_returned useChecks numberToU64 _ _ renew renew1 handleIndex responseCode hret
    refine ⟨?_, ?_⟩
    · rcases hcase with ⟨_, _, hp⟩ | ⟨_, _, hp⟩
      · exact processJob_cells useChecks numberToU64 _ _ _
          (enqueueJob_cells _ _ hq headerAtZero_zero (getD_cells _ hm headerAtZero_zero)) hp
      · exact processJob_cells useChecks numberToU64 _ _ _ hq hp
    · rw [hnst]
      exact hm

/-- C30: in every state of the crawl, a job of a header kind
(`Job_playlistListHeader`, `Job_playlistHeader`) that sits in a cell of the
queue or is bound to a slot has offset 0, whether it was enqueued by `main`, by
`readPlaylistIdsAndQueueJobs` or by the re-enqueue of a bound job after a 401;
so has the job that a completion hands to `processJob`, the bound job with the
parsed response, and so has the job that the inner loop of `main` dequeues:
the tests `job.offset == 0` of `processJob` hold.  The jobs that the header
cases create for the pages, the only ones created with an offset that can
differ from 0, have the kinds `Job_playlistList` and `Job_trackList`. -/
theorem C30_header_jobs_have_offset_zero (useChecks : Bool) (numberToU64 : json_Element → Nat)
    (st : State) (h : CrawlReachable useChecks numberToU64 st) :
    (∀ job ∈ st.proc.jq.data,
      job.type = .Job_playlistListHeader ∨ job.type = .Job_playlistHeader → job.offset = 0) ∧
    (∀ job ∈ st.networkState.handleToJobMap,
      job.type = .Job_playlistListHeader ∨ job.type = .Job_playlistHeader → job.offset = 0) ∧
    (∀ (handleIndex : Nat) (root : json_Element) (job : Job),
      job = { st.networkState.handleToJobMap.getD handleIndex Job.zero with json := root } →
      job.type = .Job_playlistListHeader ∨ job.type = .Job_playlistHeader → job.offset = 0) ∧
    ((dequeueJob st.proc.jq).1.type = .Job_playlistListHeader ∨
      (dequeueJob st.proc.jq).1.type = .Job_playlistHeader →
      (dequeueJob st.proc.jq).1.offset = 0) ∧
    (∀ (job : Job) (jsonLimit : json_Element) (perPage pageIndex : Nat),
      (playlistListPageJob job jsonLimit perPage pageIndex).type = .Job_playlistList ∧
      (trackListPageJob job jsonLimit perPage pageIndex).type = .Job_trackList) := by
  obtain ⟨hq, hm⟩ := crawl_cells useChecks numberToU64 st h
  refine ⟨hq, hm, ?_, (dequeueJob_cells _ hq headerAtZero_zero).1, fun _ _ _ _ => ⟨rfl, rfl⟩⟩
  intro handleIndex root job hjob hty
  have hb := getD_cells (P := HeaderAtZero) handleIndex hm headerAtZero_zero
  subst hjob
  exact hb hty

theorem C30_header_jobs_have_offset_zero_witness :
    (∀ job ∈ (requestNext
        { networkState := initNetworkState NetworkState.zero
          handleToArenaMap := []
          proc :=
            { jq := enqueueJob (initJobQueue JobQueue.zero 1024) firstJob
              playlistArray := { data := [], count := 0 }
              written := []
              warnings := 0 } }).proc.jq.data,
      job.type = .Job_playlistListHeader ∨ job.type = .Job_playlistHeader → job.offset = 0) ∧
    (∀ job ∈ (requestNext
        { networkState := initNetworkState NetworkState.zero
          handleToArenaMap := []
          proc :=
            { jq := enqueueJob (initJobQueue JobQueue.zero 1024) firstJob
              playlistArray := { data := [], count := 0 }
              written := []
              warnings := 0 } }).networkState.handleToJobMap,
      job.type = .Job_playlistListHeader ∨ job.type = .Job_playlistHeader → job.offset = 0) :=
  ⟨(C30_header_jobs_have_offset_zero false decimalToU64 _
      (CrawlReachable.request (CrawlReachable.start []))).1,
    (C30_header_jobs_have_offset_zero false decimalToU64 _
      (CrawlReachable.request (CrawlReachable.start []))).2.1⟩

/-! ## Pages with an item that lacks a `track` object -/

theorem kept_add_skipped : ∀ (items : List json_Element),
    (items.filter hasTrack).length + (items.filter fun item => !hasTrack item).length
      = items.length := by
  intro items
  induction items with
  | nil => rfl
  | cons item rest ih =>
    cases h : hasTrack item <;> simp [List.filter_cons, h] <;> omega

/-- The loop of `readTracksAndCopyToFileIfDone` in a build without checks: the
items with a `track` object are stored in consecutive cells from `trackIndex`
on, and every other item adds a warning. -/
theorem readTracksLoop_kept (numberToU64 : json_Element → Nat) :
    ∀ (items : List json_Element) (trackIndex : Nat) (playlist : Playlist) (warnings : Nat),
      trackIndex + (items.filter hasTrack).length < 2 ^ 64 →
      playlist.filledTrackCount + (items.filter hasTrack).length < 2 ^ 64 →
      readTracksLoop false numberToU64 items trackIndex playlist warnings
        = some ({ playlist with
            trackArray := writeCells playlist.trackArray trackIndex
              ((items.filter hasTrack).map (trackOfItem numberToU64))
            filledTrackCount := playlist.filledTrackCount + (items.filter hasTrack).length },
          warnings + (items.filter fun item => !hasTrack item).length) := by
  intro items
  induction items with
  | nil => intros; rfl
  | cons item rest ih =>
    intro trackIndex playlist warnings hidx hfill
    unfold readTracksLoop
    by_cases hitem : (json_getElement item (some (CS "track"))).type = .json_OBJECT
    · have hk : hasTrack item = true := by simp [hasTrack, hitem]
      simp only [List.filter_cons, hk, if_true, List.length_cons] at hidx hfill
      simp only [hitem, ne_eq, not_true_eq_false, if_false]
      rw [readTrack_eq false numberToU64 item (fun h => Bool.noConfusion h)]
      simp only
      rw [wrap64_of_lt (by omega), wrap64_of_lt (by omega),
        ih _ _ _ (by omega) (by simp only; omega)]
      simp only [List.filter_cons, hk, if_true, List.map_cons, writeCells,
        List.length_cons, Bool.not_true, Bool.false_eq_true, if_false]
      congr 3
      omega
    · have hk : hasTrack item = false := by simp [hasTrack, hitem]
      simp only [List.filter_cons, hk, Bool.false_eq_true, if_false] at hidx hfill
      simp only [hitem, ne_eq, not_false_eq_true, if_true, Bool.false_eq_true, if_false]
      rw [ih _ _ _ hidx hfill]
      simp only [List.filter_cons, hk, Bool.false_eq_true, if_false, Bool.not_false, if_true,
        List.length_cons]
      congr 2
      omega

/-- The playlist after a page has been stored at `offset` in a build without
checks. -/
theorem readTracks_page_kept (numberToU64 : json_Element → Nat) (st : ProcState)
    (playlistIndex : Nat) (page : json_Element) (offset : Nat) (P : Playlist)
    (hP : st.playlistArray.data[playlistIndex]? = some P)
    (hoff : offset + (pageItems page).length ≤ P.trackCount)
    (hfill : P.filledTrackCount + (pageItems page).length ≤ P.trackCount)
    (hT : P.trackCount < 2 ^ 64) :
    ∃ st1, readTracksAndCopyToFileIfDone false numberToU64 st playlistIndex page offset
        = some st1 ∧
      st1.playlistArray.data[playlistIndex]? = some
        { P with
          trackArray :=
            writeCells P.trackArray offset ((keptItems page).map (trackOfItem numberToU64))
          filledTrackCount := P.filledTrackCount + (keptItems page).length } ∧
      st1.playlistArray.data.length = st.playlistArray.data.length ∧
      st1.warnings = st.warnings + (skippedItems page).length := by
  have hlt : playlistIndex < st.playlistArray.data.length := by
    by_contra hc
    rw [List.getElem?_eq_none (by omega)] at hP
    cases hP
  have hget : st.playlistArray.data.getD playlistIndex Playlist.zero = P := by
    rw [List.getD_eq_getElem?_getD, hP]
    rfl
  have hsum := kept_add_skipped (pageItems page)
  unfold readTracksAndCopyToFileIfDone
  simp only [Bool.false_and, Bool.false_eq_true, if_false, hget]
  rw [show (json_getElement page (some (CS "items"))).children = pageItems page from rfl,
    readTracksLoop_kept numberToU64 _ _ _ _ (by omega) (by omega)]
  simp only
  split
  · refine ⟨_, rfl, ?_, ?_, ?_⟩
    · simp [writePlaylistIntoFile, hlt, keptItems]
    · simp [writePlaylistIntoFile]
    · simp [writePlaylistIntoFile, skippedItems]
  · refine ⟨_, rfl, ?_, ?_, ?_⟩
    · simp [hlt, keptItems]
    · simp
    · simp [skippedItems]

theorem pageHolds_valid {page : json_Element} {n : Nat} (h : PageHolds page n) :
    page.type ≠ .json_INVALID_ELEMENT := by
  have h1 : (json_getElement page (some (CS "items"))).type ≠ .json_INVALID_ELEMENT := by
    rw [h.1]; decide
  rw [json_getElement_type_object h1]
  decide

/-- A run of pages in a build without checks: the items of every page that
have a `track` object are stored from the offset of the page on, and every
other item adds a warning. -/
theorem run_pages_kept (numberToU64 : json_Element → Nat)
    (uris : Nat → Buffer) (pages : Nat → json_Element) (playlistIndex L : Nat) :
    ∀ (order : List Nat) (st : ProcState) (P : Playlist),
      st.playlistArray.data[playlistIndex]? = some P →
      (∀ i ∈ order, PageHolds (pages i) (pageItems (pages i)).length ∧
        L * i + (pageItems (pages i)).length ≤ P.trackCount) →
      P.filledTrackCount + (order.map fun i => (pageItems (pages i)).length).sum
        ≤ P.trackCount →
      P.trackCount < 2 ^ 64 →
      ∃ st1, processJobs false numberToU64 st
            (order.map (pageJob uris pages playlistIndex L)) = some st1 ∧
        st1.warnings = st.warnings + (order.map fun i => (skippedItems (pages i)).length).sum ∧
        st1.playlistArray.data[playlistIndex]? = some
          { P with
            trackArray := order.foldl
              (fun arr i => writeCells arr (L * i) (keptTracks numberToU64 pages i))
              P.trackArray
            filledTrackCount := P.filledTrackCount
              + (order.map fun i => (keptItems (pages i)).length).sum } := by
  intro order
  induction order with
  | nil =>
    intro st P hP _ _ _
    exact ⟨st, rfl, rfl, by simpa using hP⟩
  | cons i rest ih =>
    intro st P hP hall hsum hT
    simp only [List.map_cons, List.sum_cons] at hsum
    obtain ⟨hcar, hoff⟩ := hall i (List.mem_cons_self _ _)
    obtain ⟨st1, h1, h2, _, h4⟩ := readTracks_page_kept numberToU64 st playlistIndex
      (pages i) (L * i) P hP hoff (by omega) hT
    have hks := kept_add_skipped (pageItems (pages i))
    obtain ⟨st2, g1, g2, g4⟩ := ih st1 _ h2
      (fun j hj => hall j (List.mem_cons_of_mem _ hj))
      (by simp only [keptItems]; omega) hT
    refine ⟨st2, ?_, ?_, ?_⟩
    · simp only [List.map_cons, processJobs, pageJob]
      rw [processJob_trackListJob _ _ _ _ _ _ _ (pageHolds_valid hcar), h1]
      exact g1
    · rw [g2, h4]
      simp only [List.map_cons, List.sum_cons, Nat.add_assoc]
    · rw [g4]
      simp only [List.foldl_cons, List.map_cons, List.sum_cons, keptTracks, Nat.add_assoc]

/-- The header job of a playlist in a build without checks: the playlist is
sized to `total`, the items of the first page that have a `track` object are
stored from index 0 on, and every other item adds a warning. -/
theorem header_step_kept (numberToU64 : json_Element → Nat) (st : ProcState)
    (header : Job) (T : Nat) (hty : header.type = .Job_playlistHeader)
    (hpi : header.playlistIndex < st.playlistArray.data.length)
    (hT : numberToU64 (json_getElement (json_getElement header.json (some (CS "tracks")))
      (some (CS "total"))) = T)
    (hoff : header.offset = 0)
    (hTlt : T < 2 ^ 64)
    (hpage : PageHolds (json_getElement header.json (some (CS "tracks")))
      (pageItems (json_getElement header.json (some (CS "tracks")))).length)
    (hsize : (pageItems (json_getElement header.json (some (CS "tracks")))).length ≤ T) :
    ∃ st1, processJob false numberToU64 st header = some st1 ∧
      st1.playlistArray.data[header.playlistIndex]? = some
        { name := playlistNameOf header.json
          trackArray := writeCells (List.replicate T Track.zero) 0
            ((keptItems (json_getElement header.json (some (CS "tracks")))).map
              (trackOfItem numberToU64))
          trackCount := T
          filledTrackCount :=
            (keptItems (json_getElement header.json (some (CS "tracks")))).length } ∧
      st1.warnings = st.warnings
        + (skippedItems (json_getElement header.json (some (CS "tracks")))).length := by
  have hvalid1 := pageHolds_valid hpage
  have hvalid : header.json.type ≠ .json_INVALID_ELEMENT := by
    rw [json_getElement_type_object hvalid1]
    decide
  unfold processJob
  rw [hty]
  simp only [if_neg hvalid, copyString_name false header.json (fun h => Bool.noConfusion h),
    if_neg hvalid1, hoff, hT, ne_eq, not_true_eq_false, decide_False,
    Bool.and_false, Bool.false_eq_true, if_false]
  generalize enqueuePagesLoop _ _ _ _ _ = jq1
  obtain ⟨st1, h1, h2, _, h4⟩ := readTracks_page_kept numberToU64
    { st with
      jq := jq1
      playlistArray :=
        { st.playlistArray with
          data := st.playlistArray.data.set header.playlistIndex
            { name := playlistNameOf header.json
              trackArray := List.replicate T Track.zero
              trackCount := T
              filledTrackCount := 0 } } }
    header.playlistIndex (json_getElement header.json (some (CS "tracks"))) 0
    { name := playlistNameOf header.json
      trackArray := List.replicate T Track.zero
      trackCount := T
      filledTrackCount := 0 }
    (by simp [hpi]) (by simp only; omega) (by simp only; omega) hTlt
  refine ⟨st1, h1, ?_, ?_⟩
  · rw [h2]; simp
  · rw [h4]

theorem sum_kept_add_skipped (pages : Nat → json_Element) : ∀ (order : List Nat),
    (order.map fun i => (keptItems (pages i)).length).sum
      + (order.map fun i => (skippedItems (pages i)).length).sum
      = (order.map fun i => (pageItems (pages i)).length).sum := by
  intro order
  induction order with
  | nil => rfl
  | cons i rest ih =>
    have := kept_add_skipped (pageItems (pages i))
    simp only [List.map_cons, List.sum_cons, keptItems, skippedItems] at ih ⊢
    omega

/-- C28 (as stated, at a concrete input): in a build with checks, the warning
for an item without a `track` object ends the run: the header job of a
playlist of three tracks whose first page holds two items, one of them without
a `track` object, is not processed to the end. -/
theorem C28_warning_ends_run_with_checks :
    (pageItems (json_getElement sampleHeaderBare.json (some (CS "tracks")))).length = 2 ∧
    (skippedItems (json_getElement sampleHeaderBare.json (some (CS "tracks")))).length = 1 ∧
    processJob true decimalToU64 sampleProcState sampleHeaderBare = none ∧
    processJobs true decimalToU64 sampleProcState
      (sampleHeaderBare :: [1].map
        (pageJob (fun _ => CS "p") samplePages3 sampleHeaderBare.playlistIndex 2)) = none := by
  decide

/-- C28 (amended): in a build without checks, for a playlist with `total = T`
and `limit = L > 0` whose page at each offset `o = L * i` holds `min L (T - o)`
items, exactly one item of all pages lacking a `track` object: processing the
header job and then the remaining pages in any order does not end the run,
logs one warning, and leaves the playlist with `trackCount = T` and
`filledTrackCount = T - 1`; every item with a `track` object is stored: the
k-th such item of the page at offset `o` is at index `o + k` of the track
array. -/
theorem C28_one_item_without_track (numberToU64 : json_Element → Nat)
    (st : ProcState) (header : Job) (uris : Nat → Buffer) (pages : Nat → json_Element)
    (order : List Nat) (T L : Nat)
    (hty : header.type = .Job_playlistHeader) (hoff : header.offset = 0)
    (hpi : header.playlistIndex < st.playlistArray.data.length)
    (hT : numberToU64 (json_getElement (json_getElement header.json (some (CS "tracks")))
      (some (CS "total"))) = T)
    (hTlt : T < 2 ^ 64) (hL : 0 < L)
    (hpage0 : PageHolds (json_getElement header.json (some (CS "tracks"))) (min L T))
    (hpages : ∀ i, 1 ≤ i → L * i < T → PageHolds (pages i) (min L (T - L * i)))
    (horder : order.Perm (List.range' 1 ((T + L - 1) / L - 1)))
    (hone : (skippedItems (json_getElement header.json (some (CS "tracks")))).length
      + (order.map fun i => (skippedItems (pages i)).length).sum = 1) :
    ∃ stf,
      processJobs false numberToU64 st
          (header :: order.map (pageJob uris pages header.playlistIndex L)) = some stf ∧
      stf.warnings = st.warnings + 1 ∧
      (stf.playlist header.playlistIndex).filledTrackCount = T - 1 ∧
      (stf.playlist header.playlistIndex).trackCount = T ∧
      (∀ k, k < (keptItems (json_getElement header.json (some (CS "tracks")))).length →
        (stf.playlist header.playlistIndex).trackArray[k]?
          = ((keptItems (json_getElement header.json (some (CS "tracks")))).map
              (trackOfItem numberToU64))[k]?) ∧
      (∀ i ∈ order, ∀ k, k < (keptItems (pages i)).length →
        (stf.playlist header.playlistIndex).trackArray[L * i + k]?
          = (keptTracks numberToU64 pages i)[k]?) := by
  have hdiv := Nat.div_add_mod (T + L - 1) L
  have hmod := Nat.mod_lt (T + L - 1) hL
  have hmem : ∀ i ∈ order, 1 ≤ i ∧ L * i < T := by
    intro i hi
    have h1 := (horder.mem_iff).mp hi
    rw [List.mem_range'_1] at h1
    have h2 : L * (i + 1) ≤ L * ((T + L - 1) / L) := Nat.mul_le_mul_left L (by omega)
    rw [Nat.mul_add, Nat.mul_one] at h2
    exact ⟨h1.1, by omega⟩
  have hlen : ∀ i ∈ order, (pageItems (pages i)).length = min L (T - L * i) := fun i hi =>
    (hpages i (hmem i hi).1 (hmem i hi).2).2
  have hhold : ∀ i ∈ order, PageHolds (pages i) (pageItems (pages i)).length := fun i hi => by
    rw [hlen i hi]
    exact hpages i (hmem i hi).1 (hmem i hi).2
  have hnd : order.Nodup := (horder.nodup_iff).mpr (List.nodup_range' 1 _)
  have hsize0 : (pageItems (json_getElement header.json (some (CS "tracks")))).length
      = min L T := hpage0.2
  have hhold0 : PageHolds (json_getElement header.json (some (CS "tracks")))
      (pageItems (json_getElement header.json (some (CS "tracks")))).length := by
    rw [hsize0]; exact hpage0
  have hsizes : (order.map fun i => (pageItems (pages i)).length)
      = order.map fun i => min L (T - L * i) :=
    List.map_congr_left fun i hi => hlen i hi
  have hsum : min L T + (order.map fun i => (pageItems (pages i)).length).sum = T := by
    rw [hsizes, (horder.map _).sum_eq]
    exact sum_page_sizes L T hL
  have hbound : ∀ i ∈ order, (pageItems (pages i)).length ≤ L ∧
      L * i + (pageItems (pages i)).length ≤ T := by
    intro i hi
    rw [hlen i hi]
    have := (hmem i hi).2
    omega
  have hks0 : (keptItems (json_getElement header.json (some (CS "tracks")))).length
      + (skippedItems (json_getElement header.json (some (CS "tracks")))).length
      = (pageItems (json_getElement header.json (some (CS "tracks")))).length :=
    kept_add_skipped (pageItems (json_getElement header.json (some (CS "tracks"))))
  have hks := sum_kept_add_skipped pages order
  have hkept : ∀ (page : json_Element), (keptItems page).length ≤ (pageItems page).length :=
    fun page => by
      have := kept_add_skipped (pageItems page)
      simp only [keptItems]
      omega
  -- the header job
  obtain ⟨st1, h1, h3, h4⟩ := header_step_kept numberToU64 st header T hty hpi hT hoff
    hTlt hhold0 (by rw [hsize0]; omega)
  obtain ⟨st2, g1, g2, g4⟩ := run_pages_kept numberToU64 uris pages header.playlistIndex L
    order st1 _ h3 (fun i hi => ⟨hhold i hi, (hbound i hi).2⟩) (by simp only; omega) hTlt
  refine ⟨st2, ?_, ?_, ?_, ?_, ?_, ?_⟩
  · simp only [processJobs, h1]
    exact g1
  · rw [g2, h4]
    omega
  · rw [playlist_of_getElem? g4]
    simp only
    omega
  · rw [playlist_of_getElem? g4]
  · intro k hk
    rw [playlist_of_getElem? g4]
    simp only
    have hk0 := hkept (json_getElement header.json (some (CS "tracks")))
    rw [foldl_writeCells_outside _ _ _ _ _ (by
        intro i hi
        left
        have := (hmem i hi).1
        have : L * 1 ≤ L * i := Nat.mul_le_mul_left L this
        omega)]
    have := writeCells_inside
      ((keptItems (json_getElement header.json (some (CS "tracks")))).map
        (trackOfItem numberToU64))
      (List.replicate T Track.zero) 0 k
      (by simp only [List.length_map, List.length_replicate]; omega)
      (by simp only [List.length_map]; omega)
    rw [Nat.zero_add] at this
    exact this
  · intro i hi k hk
    rw [playlist_of_getElem? g4]
    simp only
    apply foldl_writeCells_inside (keptTracks numberToU64 pages) L order _ hnd _ i hi k
    · simp only [keptTracks, List.length_map]
      exact hk
    · intro j hj
      have := hkept (pages j)
      have := hbound j hj
      simp only [keptTracks, List.length_map, writeCells_length, List.length_replicate]
      omega

theorem C28_one_item_without_track_witness :
    ∃ stf,
      processJobs false decimalToU64 sampleProcState
          (sampleHeaderBare :: [1].map
            (pageJob (fun _ => CS "p") samplePages3 sampleHeaderBare.playlistIndex 2))
        = some stf ∧
      stf.warnings = sampleProcState.warnings + 1 ∧
      (stf.playlist sampleHeaderBare.playlistIndex).filledTrackCount = 3 - 1 ∧
      (stf.playlist sampleHeaderBare.playlistIndex).trackCount = 3 ∧
      (∀ k, k < (keptItems (json_getElement sampleHeaderBare.json (some (CS "tracks")))).length →
        (stf.playlist sampleHeaderBare.playlistIndex).trackArray[k]?
          = ((keptItems (json_getElement sampleHeaderBare.json (some (CS "tracks")))).map
              (trackOfItem decimalToU64))[k]?) ∧
      (∀ i ∈ [1], ∀ k, k < (keptItems (samplePages3 i)).length →
        (stf.playlist sampleHeaderBare.playlistIndex).trackArray[2 * i + k]?
          = (keptTracks decimalToU64 samplePages3 i)[k]?) :=
  C28_one_item_without_track decimalToU64 sampleProcState sampleHeaderBare (fun _ => CS "p")
    samplePages3 [1] 3 2 (by decide) (by decide) (by decide) (by decide) (by decide) (by decide)
    ⟨by decide, by decide⟩
    (fun i h1 h2 => by
      have hi : i = 1 := by omega
      subst hi
      exact ⟨by decide, by decide⟩)
    (by decide) (by decide)

/-! ## The messages of the parser -/

theorem before_refl (lc : LoggedCursor) : lc.Before lc := ⟨List.prefix_refl _, Nat.le_refl _⟩

theorem before_trans {a b c : LoggedCursor} (h1 : a.Before b) (h2 : b.Before c) : a.Before c :=
  ⟨h1.1.trans h2.1, Nat.le_trans h2.2 h1.2⟩

theorem before_parsingErrorLog (lc : LoggedCursor) (message : String) :
    lc.Before (parsingErrorLog lc message) := by
  unfold LoggedCursor.Before LoggedCursor.budget parsingErrorLog
  cases h : lc.cur.errorOccurred <;> simp

theorem before_silent (lc : LoggedCursor) :
    lc.Before { lc with cur := parsingError lc.cur } := by
  unfold LoggedCursor.Before LoggedCursor.budget parsingError
  cases h : lc.cur.errorOccurred <;> simp

theorem before_parseNextTokenLog (lc : LoggedCursor) : lc.Before (parseNextTokenLog lc).2 := by
  unfold LoggedCursor.Before LoggedCursor.budget parseNextTokenLog
  simp only [parseNextToken_flag]
  exact ⟨List.prefix_refl _, Nat.le_refl _⟩

theorem before_readLabelLog (listType : json_ElementType) (tk : Token) (lc : LoggedCursor) :
    lc.Before (readLabelLog listType tk lc).2.2 := by
  unfold readLabelLog
  split
  · simp only
    refine before_trans ?_ (before_parseNextTokenLog _)
    refine before_trans (before_parseNextTokenLog lc) ?_
    split
    · exact before_parsingErrorLog _ _
    · split
      · exact before_parsingErrorLog _ _
      · exact before_refl _
  · exact before_refl _

theorem before_checkSeparatorLog (closing : TokenType) (separator : Token × LoggedCursor) :
    separator.2.Before (checkSeparatorLog closing separator) := by
  unfold checkSeparatorLog
  split
  · exact before_parsingErrorLog _ _
  · exact before_refl _

/-- Every function of the parser only adds lines, and adds a line only when
the flag goes from clear to set. -/
theorem before_parse : ∀ (fuel : Nat),
    (∀ (lc : LoggedCursor) (tk : Token), lc.Before (parseElementValueLog fuel lc tk).2) ∧
    (∀ (lc : LoggedCursor) (listType : json_ElementType),
      lc.Before (parseListLog fuel lc listType).2) ∧
    (∀ (lc : LoggedCursor) (listType : json_ElementType) (closing : TokenType)
      (tk sep : Token) (children : List json_Element),
      lc.Before (parseListLoopLog fuel lc listType closing tk sep children).2.2) := by
  intro fuel
  induction fuel with
  | zero =>
    refine ⟨fun lc tk => ?_, fun lc lt => ?_, fun lc lt closing tk sep ch => ?_⟩
    · rw [parseElementValueLog]; exact before_silent lc
    · rw [parseListLog]; exact before_silent lc
    · rw [parseListLoopLog]; exact before_silent lc
  | succ fuel ih =>
    obtain ⟨ihV, ihL, ihLoop⟩ := ih
    refine ⟨fun lc tk => ?_, fun lc lt => ?_, fun lc lt closing tk sep ch => ?_⟩
    · rw [parseElementValueLog]
      split
      · exact before_refl lc
      · exact before_refl lc
      · exact before_refl lc
      · exact before_refl lc
      · exact before_refl lc
      · exact ihL lc _
      · exact ihL lc _
      · exact before_parsingErrorLog lc _
    · rw [parseListLog]
      simp only
      generalize (if lt = json_ElementType.json_OBJECT then TokenType.TK_CLOSE_BRACE
        else TokenType.TK_CLOSE_BRACKET) = closing
      by_cases hc : (parseNextTokenLog lc).1.type = closing
      · rw [if_pos hc]
        exact before_parseNextTokenLog lc
      · rw [if_neg hc]
        refine before_trans (before_parseNextTokenLog lc) ?_
        refine before_trans
          (ihLoop _ lt closing (parseNextTokenLog lc).1 Token.zero []) ?_
        simp only
        split
        · exact before_parsingErrorLog _ _
        · exact before_refl _
    · rw [parseListLoopLog]
      split
      · exact before_refl lc
      · simp only
        have h1 := before_readLabelLog lt tk lc
        have h2 := ihV (readLabelLog lt tk lc).2.2 (readLabelLog lt tk lc).2.1
        have h3 := before_parseNextTokenLog
          (parseElementValueLog fuel (readLabelLog lt tk lc).2.2 (readLabelLog lt tk lc).2.1).2
        have h4 := before_checkSeparatorLog closing (parseNextTokenLog
          (parseElementValueLog fuel (readLabelLog lt tk lc).2.2 (readLabelLog lt tk lc).2.1).2)
        have h5 := before_trans (before_trans (before_trans h1 h2) h3) h4
        split
        · exact h5
        · exact before_trans (before_trans h5 (before_parseNextTokenLog _)) (ihLoop _ _ _ _ _ _)

theorem before_json_parseJsonLog (text : Buffer) :
    LoggedCursor.Before ⟨⟨text, 0, false⟩, []⟩ (json_parseJsonLog text).2 := by
  unfold json_parseJsonLog
  simp only
  split
  · exact before_trans (before_parseNextTokenLog _) (before_parsingErrorLog _ _)
  · exact before_trans (before_parseNextTokenLog _) ((before_parse _).1 _ _)

theorem parsingErrorLog_cur (lc : LoggedCursor) (message : String) :
    (parsingErrorLog lc message).cur = parsingError lc.cur := rfl

theorem parseNextTokenLog_fst (lc : LoggedCursor) :
    (parseNextTokenLog lc).1 = (parseNextToken lc.cur).1 := rfl

theorem parseNextTokenLog_cur (lc : LoggedCursor) :
    (parseNextTokenLog lc).2.cur = (parseNextToken lc.cur).2 := rfl

theorem readLabelLog_erase (listType : json_ElementType) (tk : Token) (lc : LoggedCursor) :
    (readLabelLog listType tk lc).1
        = (if listType = .json_OBJECT then takeOffQuotes tk.content
            else { data := 0, count := 0 }) ∧
    (readLabelLog listType tk lc).2.1
        = (if listType = .json_OBJECT then
            (parseNextToken (afterLabel tk (parseNextToken lc.cur))).1 else tk) ∧
    (readLabelLog listType tk lc).2.2.cur
        = (if listType = .json_OBJECT then
            (parseNextToken (afterLabel tk (parseNextToken lc.cur))).2 else lc.cur) := by
  unfold readLabelLog
  by_cases hobj : listType = .json_OBJECT
  · simp only [hobj, if_true]
    have hcur : (if tk.type ≠ .TK_STRING then
          parsingErrorLog (parseNextTokenLog lc).2 "expected string as label"
        else if (parseNextTokenLog lc).1.type ≠ .TK_COLON then
          parsingErrorLog (parseNextTokenLog lc).2 "expected colon after label"
        else (parseNextTokenLog lc).2).cur = afterLabel tk (parseNextToken lc.cur) := by
      unfold afterLabel
      by_cases h1 : tk.type ≠ .TK_STRING
      · rw [if_pos h1, if_pos h1]
        rfl
      · rw [if_neg h1, if_neg h1]
        by_cases h2 : (parseNextTokenLog lc).1.type ≠ .TK_COLON
        · rw [if_pos h2, if_pos (show (parseNextToken lc.cur).1.type ≠ .TK_COLON from h2)]
          rfl
        · rw [if_neg h2, if_neg (show ¬(parseNextToken lc.cur).1.type ≠ .TK_COLON from h2)]
          rfl
    refine ⟨by trivial, ?_, ?_⟩
    · rw [parseNextTokenLog_fst, hcur]
    · rw [parseNextTokenLog_cur, hcur]
  · simp [hobj]

theorem checkSeparatorLog_cur (closing : TokenType) (separator : Token × LoggedCursor) :
    (checkSeparatorLog closing separator).cur
      = afterSeparator closing (separator.1, separator.2.cur) := by
  unfold checkSeparatorLog afterSeparator
  split
  · rfl
  · rfl

theorem parseListLoop_unfold (fuel : Nat) (cur : Cursor) (listType : json_ElementType)
    (closing : TokenType) (tk sep : Token) (children : List json_Element)
    (hend : isCursorEnd cur = false) (label : BufferView) (valueTk : Token) (cur1 : Cursor)
    (hlabel : label = (if listType = .json_OBJECT then takeOffQuotes tk.content
      else { data := 0, count := 0 }))
    (hvalue : valueTk = (if listType = .json_OBJECT then
      (parseNextToken (afterLabel tk (parseNextToken cur))).1 else tk))
    (hcur1 : cur1 = (if listType = .json_OBJECT then
      (parseNextToken (afterLabel tk (parseNextToken cur))).2 else cur)) :
    parseListLoop (fuel + 1) cur listType closing tk sep children =
      if (parseNextToken (parseElementValue fuel cur1 valueTk).2).1.type = closing then
        (children ++ [(parseElementValue fuel cur1 valueTk).1.withLabel
            (viewBytes (parseElementValue fuel cur1 valueTk).2.buf label)],
          (parseNextToken (parseElementValue fuel cur1 valueTk).2).1,
          afterSeparator closing (parseNextToken (parseElementValue fuel cur1 valueTk).2))
      else
        parseListLoop fuel
          (parseNextToken
            (afterSeparator closing
              (parseNextToken (parseElementValue fuel cur1 valueTk).2))).2
          listType closing
          (parseNextToken
            (afterSeparator closing
              (parseNextToken (parseElementValue fuel cur1 valueTk).2))).1
          (parseNextToken (parseElementValue fuel cur1 valueTk).2).1
          (children ++ [(parseElementValue fuel cur1 valueTk).1.withLabel
            (viewBytes (parseElementValue fuel cur1 valueTk).2.buf label)]) := by
  subst hlabel hvalue hcur1
  by_cases hobj : listType = .json_OBJECT
  · rw [parseListLoop]
    simp only [hend, Bool.false_eq_true, if_false, hobj, if_true]
    rfl
  · rw [parseListLoop]
    simp only [hend, Bool.false_eq_true, if_false, hobj]
    rfl

/-- The parser with its output computes what the parser computes: the same
nodes and the same cursors. -/
theorem erase_parse : ∀ (fuel : Nat),
    (∀ (lc : LoggedCursor) (tk : Token),
      (parseElementValueLog fuel lc tk).1 = (parseElementValue fuel lc.cur tk).1 ∧
      (parseElementValueLog fuel lc tk).2.cur = (parseElementValue fuel lc.cur tk).2) ∧
    (∀ (lc : LoggedCursor) (listType : json_ElementType),
      (parseListLog fuel lc listType).1 = (parseList fuel lc.cur listType).1 ∧
      (parseListLog fuel lc listType).2.cur = (parseList fuel lc.cur listType).2) ∧
    (∀ (lc : LoggedCursor) (listType : json_ElementType) (closing : TokenType)
      (tk sep : Token) (children : List json_Element),
      (parseListLoopLog fuel lc listType closing tk sep children).1
        = (parseListLoop fuel lc.cur listType closing tk sep children).1 ∧
      (parseListLoopLog fuel lc listType closing tk sep children).2.1
        = (parseListLoop fuel lc.cur listType closing tk sep children).2.1 ∧
      (parseListLoopLog fuel lc listType closing tk sep children).2.2.cur
        = (parseListLoop fuel lc.cur listType closing tk sep children).2.2) := by
  intro fuel
  induction fuel with
  | zero =>
    refine ⟨fun lc tk => ?_, fun lc lt => ?_, fun lc lt closing tk sep ch => ?_⟩
    · rw [parseElementValueLog, parseElementValue]; exact ⟨rfl, rfl⟩
    · rw [parseListLog, parseList]; exact ⟨rfl, rfl⟩
    · rw [parseListLoopLog, parseListLoop]; exact ⟨rfl, rfl, rfl⟩
  | succ fuel ih =>
    obtain ⟨ihV, ihL, ihLoop⟩ := ih
    refine ⟨fun lc tk => ?_, fun lc lt => ?_, fun lc lt closing tk sep ch => ?_⟩
    · rw [parseElementValueLog, parseElementValue]
      cases tk.type <;> first | exact ⟨rfl, rfl⟩ | exact ihL lc _
    · rw [parseListLog, parseList_step]
      simp only
      rw [show (if lt = json_ElementType.json_OBJECT then TokenType.TK_CLOSE_BRACE
        else TokenType.TK_CLOSE_BRACKET) = closingOf lt from rfl]
      obtain ⟨l1, l2, l3⟩ := ihLoop (parseNextTokenLog lc).2 lt (closingOf lt)
        (parseNextTokenLog lc).1 Token.zero []
      rw [parseNextTokenLog_cur, parseNextTokenLog_fst] at l1 l2 l3
      rw [parseNextTokenLog_fst]
      by_cases hc : (parseNextToken lc.cur).1.type = closingOf lt
      · rw [if_pos hc, if_pos hc]
        exact ⟨rfl, rfl⟩
      · rw [if_neg hc, if_neg hc]
        simp only
        rw [l1, l2]
        refine ⟨rfl, ?_⟩
        split
        · rw [parsingErrorLog_cur, l3]
        · exact l3
    · by_cases hend : isCursorEnd lc.cur = true
      · rw [parseListLoop_end fuel lc.cur lt closing tk sep ch hend, parseListLoopLog,
          if_pos hend]
        exact ⟨rfl, rfl, rfl⟩
      · obtain ⟨e1, e2, e3⟩ := readLabelLog_erase lt tk lc
        obtain ⟨v1, v2⟩ := ihV (readLabelLog lt tk lc).2.2 (readLabelLog lt tk lc).2.1
        have hsep : (checkSeparatorLog closing (parseNextTokenLog
            (parseElementValueLog fuel (readLabelLog lt tk lc).2.2
              (readLabelLog lt tk lc).2.1).2)).cur
            = afterSeparator closing (parseNextToken (parseElementValue fuel
              (readLabelLog lt tk lc).2.2.cur (readLabelLog lt tk lc).2.1).2) := by
          rw [checkSeparatorLog_cur, parseNextTokenLog_fst, parseNextTokenLog_cur, v2]
        have hx1 : (parseNextTokenLog (checkSeparatorLog closing (parseNextTokenLog
            (parseElementValueLog fuel (readLabelLog lt tk lc).2.2
              (readLabelLog lt tk lc).2.1).2))).1
            = (parseNextToken (afterSeparator closing (parseNextToken (parseElementValue fuel
              (readLabelLog lt tk lc).2.2.cur (readLabelLog lt tk lc).2.1).2))).1 := by
          rw [parseNextTokenLog_fst, hsep]
        have hx2 : (parseNextTokenLog (checkSeparatorLog closing (parseNextTokenLog
            (parseElementValueLog fuel (readLabelLog lt tk lc).2.2
              (readLabelLog lt tk lc).2.1).2))).2.cur
            = (parseNextToken (afterSeparator closing (parseNextToken (parseElementValue fuel
              (readLabelLog lt tk lc).2.2.cur (readLabelLog lt tk lc).2.1).2))).2 := by
          rw [parseNextTokenLog_cur, hsep]
        rw [parseListLoop_unfold fuel lc.cur lt closing tk sep ch (by simpa using hend)
          (readLabelLog lt tk lc).1 (readLabelLog lt tk lc).2.1 (readLabelLog lt tk lc).2.2.cur
          e1 e2 e3, parseListLoopLog, if_neg hend]
        simp only
        rw [parseNextTokenLog_fst, v1, v2]
        by_cases hc : (parseNextToken (parseElementValue fuel (readLabelLog lt tk lc).2.2.cur
            (readLabelLog lt tk lc).2.1).2).1.type = closing
        · rw [if_pos hc, if_pos hc]
          exact ⟨rfl, rfl, hsep⟩
        · rw [if_neg hc, if_neg hc, ← hx1, ← hx2]
          exact ihLoop _ _ _ _ _ _

theorem erase_json_parseJsonLog (text : Buffer) :
    ((json_parseJsonLog text).1, (json_parseJsonLog text).2.cur) = json_parseJson text := by
  obtain ⟨h1, h2⟩ := (erase_parse (3 * text.length + 3)).1
    (parseNextTokenLog ⟨⟨text, 0, false⟩, []⟩).2 (parseNextToken ⟨text, 0, false⟩).1
  rw [parseNextTokenLog_cur] at h1 h2
  unfold json_parseJsonLog json_parseJson
  simp only [parseNextTokenLog_fst]
  by_cases hopen : (parseNextToken ⟨text, 0, false⟩).1.type ≠ .TK_OPEN_BRACE ∧
      (parseNextToken ⟨text, 0, false⟩).1.type ≠ .TK_OPEN_BRACKET
  · rw [if_pos hopen, if_pos hopen]
    simp only [parsingErrorLog_cur, parseNextTokenLog_cur]
  · rw [if_neg hopen, if_neg hopen]
    simp only [h1, h2]

/-- A later cursor of a cursor whose flag is set: the flag is still set and no
line has been written. -/
theorem before_of_flag {lc lc1 : LoggedCursor} (h : lc.Before lc1)
    (hflag : lc.cur.errorOccurred = true) :
    lc1.cur.errorOccurred = true ∧ lc1.stderr = lc.stderr := by
  obtain ⟨hpre, hbud⟩ := h
  have hlen := hpre.length_le
  unfold LoggedCursor.budget at hbud
  rw [hflag] at hbud
  simp only [if_true, Nat.add_zero] at hbud
  cases hf : lc1.cur.errorOccurred with
  | false =>
    rw [hf] at hbud
    simp only [Bool.false_eq_true, if_false] at hbud
    omega
  | true =>
    rw [hf] at hbud
    simp only [if_true, Nat.add_zero] at hbud
    exact ⟨rfl, (hpre.eq_of_length (by omega)).symm⟩

/-- C21: `parsingError` writes its message only when no error is recorded yet
and always leaves `errorOccurred` set, so a second call changes nothing; for
any document, whatever its errors, the parser writes at most one JSON error
message, and writes none unless the flag is set at the end; and the flag never
returns to clear: from a cursor whose flag is set, the tokenizer and the
parser, with any fuel, end with the flag set and write nothing.  The parser
with its output returns the same node and the same cursor as the parser. -/
theorem C21_parsingError_idempotent (lc : LoggedCursor) (m1 m2 : String) (text : Buffer) :
    (lc.cur.errorOccurred = false →
      (parsingErrorLog lc m1).stderr = lc.stderr ++ ["JSON ERROR: " ++ m1]) ∧
    (lc.cur.errorOccurred = true → (parsingErrorLog lc m1).stderr = lc.stderr) ∧
    (parsingErrorLog lc m1).cur.errorOccurred = true ∧
    parsingErrorLog (parsingErrorLog lc m1) m2 = parsingErrorLog lc m1 ∧
    parsingError (parsingError lc.cur) = parsingError lc.cur ∧
    (json_parseJsonLog text).2.stderr.length ≤ 1 ∧
    ((json_parseJsonLog text).2.stderr.length = 1 →
      (json_parseJsonLog text).2.cur.errorOccurred = true) ∧
    ((json_parseJsonLog text).2.cur.errorOccurred = false →
      (json_parseJsonLog text).2.stderr = []) ∧
    (lc.cur.errorOccurred = true →
      (parseNextTokenLog lc).2.cur.errorOccurred = true ∧
      (parseNextTokenLog lc).2.stderr = lc.stderr) ∧
    (∀ (fuel : Nat) (tk : Token), lc.cur.errorOccurred = true →
      (parseElementValueLog fuel lc tk).2.cur.errorOccurred = true ∧
      (parseElementValueLog fuel lc tk).2.stderr = lc.stderr) ∧
    ((json_parseJsonLog text).1, (json_parseJsonLog text).2.cur) = json_parseJson text := by
  have hB := before_json_parseJsonLog text
  have hbud := hB.2
  unfold LoggedCursor.budget at hbud
  simp only [List.length_nil, Bool.false_eq_true, if_false, Nat.zero_add] at hbud
  refine ⟨fun h => ?_, fun h => ?_, rfl, ?_, rfl, ?_, fun h => ?_, fun h => ?_, fun h => ?_,
    fun fuel tk h => ?_, erase_json_parseJsonLog text⟩
  · simp [parsingErrorLog, h]
  · simp [parsingErrorLog, h]
  · simp [parsingErrorLog]
  · omega
  · cases hf : (json_parseJsonLog text).2.cur.errorOccurred with
    | true => rfl
    | false =>
      rw [hf] at hbud
      simp only [Bool.false_eq_true, if_false] at hbud
      omega
  · rw [h] at hbud
    simp only [Bool.false_eq_true, if_false] at hbud
    exact List.length_eq_zero.mp (by omega)
  · exact before_of_flag (before_parseNextTokenLog lc) h
  · exact before_of_flag ((before_parse fuel).1 lc tk) h

/-- A document with two defects, a missing comma and a list that is not
closed: one line is written, for the first of them. -/
theorem sample_two_defects_one_message :
    (json_parseJsonLog (CS "[1 2")).2.stderr = ["JSON ERROR: expected a comma"] ∧
    (json_parseJsonLog (CS "[1 2")).2.cur.errorOccurred = true := by
  decide

/-! ## Numbers -/

theorem getLast?_getD_cons (d : Char) : ∀ (ds : List Char) (x : Char),
    ((d :: ds).getLast?).getD x = (ds.getLast?).getD d := by
  intro ds x
  cases ds with
  | nil => rfl
  | cons e rest => rw [List.getLast?_cons_cons]; rfl

/-- A loop of `json_getNumber` on a run of digits `ds` that starts at its
offset: the digits go into the accumulator; the loop ends behind the byte that
follows the run, with that byte in `lastRead`, or at the end of the buffer,
with the last digit in `lastRead`. -/
theorem digitLoop_digits {α : Type} (buf : Buffer) (step : α → Char → α) :
    ∀ (ds pre rest : List Char) (fuel : Nat) (lastRead : Char) (acc : α),
      buf = pre ++ (ds ++ rest) → ds.all isNumeric = true →
      (∀ c r, rest = c :: r → isNumeric c = false) →
      buf.length ≤ pre.length + fuel →
      digitLoop buf step fuel pre.length lastRead acc =
        (pre.length + ds.length + min 1 rest.length,
          (rest.head?).getD ((ds.getLast?).getD lastRead), ds.foldl step acc) := by
  intro ds
  induction ds with
  | nil =>
    intro pre rest fuel lastRead acc hbuf _ hrest hfuel
    cases rest with
    | nil =>
      have hlen : buf.length = pre.length := by rw [hbuf]; simp
      cases fuel with
      | zero => simp [digitLoop]
      | succ fuel => simp [digitLoop, isInBounds, hlen]
    | cons c r =>
      have hlen : buf.length = pre.length + (r.length + 1) := by rw [hbuf]; simp
      have hc := hrest c r rfl
      cases fuel with
      | zero => omega
      | succ fuel =>
        have hget : buf.getD pre.length NUL = c := by
          rw [hbuf, List.getD_eq_getElem?_getD, List.getElem?_append_right (Nat.le_refl _)]
          simp
        rw [digitLoop]
        simp only [isInBounds, hlen, hget, hc]
        simp
  | cons d ds ih =>
    intro pre rest fuel lastRead acc hbuf hds hrest hfuel
    have hlen : buf.length = pre.length + (ds.length + 1 + rest.length) := by
      rw [hbuf]
      simp only [List.length_append, List.length_cons]
    simp only [List.all_cons, Bool.and_eq_true] at hds
    cases fuel with
    | zero => omega
    | succ fuel =>
      have hget : buf.getD pre.length NUL = d := by
        rw [hbuf, List.getD_eq_getElem?_getD, List.getElem?_append_right (Nat.le_refl _)]
        simp
      rw [digitLoop]
      simp only [isInBounds, hlen, hget, hds.1]
      have h1 := ih (pre ++ [d]) rest fuel d (step acc d) (by rw [hbuf]; simp) hds.2 hrest
        (by simp only [List.length_append, List.length_cons, List.length_nil]; omega)
      simp only [List.length_append, List.length_cons, List.length_nil] at h1
      simp only [Nat.lt_add_right_iff_pos, Nat.add_pos_iff_pos_or_pos, Nat.lt_add_one, or_true,
        true_or, decide_True, if_true, Bool.not_true, Bool.false_eq_true, if_false]
      rw [h1, getLast?_getD_cons]
      simp only [List.length_cons, List.foldl_cons]
      congr 1
      omega

theorem digitOf_numeric {ch : Char} (h : isNumeric ch = true) :
    digitOf ch = ((ch.toNat - '0'.toNat : Nat) : Int) := by
  unfold isNumeric at h
  simp only [Bool.and_eq_true, decide_eq_true_eq] at h
  have h1 : '0'.toNat ≤ ch.toNat := h.1
  unfold digitOf
  omega

theorem foldl_digits (ds : List Char) : ∀ (acc : Nat),
    ds.foldl (fun acc ch => 10 * acc + (ch.toNat - '0'.toNat)) acc
      = acc * 10 ^ ds.length + digitsValue ds := by
  unfold digitsValue
  induction ds with
  | nil => intro acc; simp
  | cons d rest ih =>
    intro acc
    simp only [List.foldl_cons, List.length_cons]
    rw [ih (10 * acc + (d.toNat - '0'.toNat)), ih (10 * 0 + (d.toNat - '0'.toNat))]
    ring

theorem integerStep_fold : ∀ (ds : List Char), ds.all isNumeric = true → ∀ (acc : Nat),
    ds.foldl integerStep (acc : ℚ)
      = ((ds.foldl (fun acc ch => 10 * acc + (ch.toNat - '0'.toNat)) acc : Nat) : ℚ) := by
  intro ds
  induction ds with
  | nil => intro _ acc; rfl
  | cons d rest ih =>
    intro hds acc
    simp only [List.all_cons, Bool.and_eq_true] at hds
    simp only [List.foldl_cons]
    rw [← ih hds.2]
    congr 1
    unfold integerStep
    rw [digitOf_numeric hds.1]
    push_cast
    ring

theorem decimalStep_fold : ∀ (fs : List Char), fs.all isNumeric = true → ∀ (c d : ℚ),
    fs.foldl decimalStep (c, d)
      = (c / 10 ^ fs.length, d + c * (digitsValue fs : ℚ) / 10 ^ fs.length) := by
  intro fs
  induction fs with
  | nil => intro _ c d; simp [digitsValue]
  | cons f rest ih =>
    intro hfs c d
    simp only [List.all_cons, Bool.and_eq_true] at hfs
    simp only [List.foldl_cons, List.length_cons]
    rw [show decimalStep (c, d) f = (c * (1 / 10), d + c * (1 / 10) * (digitOf f : ℚ)) from rfl,
      ih hfs.2, digitOf_numeric hfs.1]
    have hv : digitsValue (f :: rest) = (f.toNat - '0'.toNat) * 10 ^ rest.length
        + digitsValue rest := by
      have := foldl_digits rest (10 * 0 + (f.toNat - '0'.toNat))
      simp only [digitsValue, List.foldl_cons]
      rw [this]
      simp [digitsValue]
    rw [hv]
    have h10 : (10 : ℚ) ^ rest.length ≠ 0 := pow_ne_zero _ (by norm_num)
    refine Prod.ext ?_ ?_
    · simp only
      rw [pow_succ]
      field_simp
      exact Or.inl (mul_comm _ _)
    · simp only
      push_cast
      field_simp
      ring

/-- The exponent loop on a run of digits whose value fits into an `s64`: the
value of the digits. -/
theorem exponentStep_fold : ∀ (xs : List Char), xs.all isNumeric = true → ∀ (acc : Nat),
    ((xs.foldl (fun acc ch => 10 * acc + (ch.toNat - '0'.toNat)) acc : Nat) : Int) ≤ S64_MAX →
    xs.foldl exponentStep (some (acc : Int)) =
      some ((xs.foldl (fun acc ch => 10 * acc + (ch.toNat - '0'.toNat)) acc : Nat) : Int) := by
  intro xs
  induction xs with
  | nil => intro _ acc _; rfl
  | cons x rest ih =>
    intro hxs acc hmax
    simp only [List.all_cons, Bool.and_eq_true] at hxs
    simp only [List.foldl_cons] at hmax ⊢
    have hge := foldl_digits rest (10 * acc + (x.toNat - '0'.toNat))
    have hpow : 1 ≤ 10 ^ rest.length := Nat.one_le_pow _ _ (by norm_num)
    have hmul : 10 * acc + (x.toNat - '0'.toNat)
        ≤ (10 * acc + (x.toNat - '0'.toNat)) * 10 ^ rest.length :=
      Nat.le_mul_of_pos_right _ hpow
    have hstep : digitOf x + 10 * (acc : Int)
        = ((10 * acc + (x.toNat - '0'.toNat) : Nat) : Int) := by
      rw [digitOf_numeric hxs.1]
      push_cast
      ring
    have hle : digitOf x + 10 * (acc : Int) ≤ S64_MAX := by
      rw [hstep]
      have : ((10 * acc + (x.toNat - '0'.toNat) : Nat) : Int)
          ≤ ((rest.foldl (fun acc ch => 10 * acc + (ch.toNat - '0'.toNat))
            (10 * acc + (x.toNat - '0'.toNat)) : Nat) : Int) := by
        rw [hge]
        exact_mod_cast (by omega : 10 * acc + (x.toNat - '0'.toNat)
          ≤ (10 * acc + (x.toNat - '0'.toNat)) * 10 ^ rest.length + digitsValue rest)
      omega
    rw [show exponentStep (some (acc : Int)) x = some (digitOf x + 10 * (acc : Int)) by
      simp [exponentStep, hle], hstep]
    exact ih hxs.2 _ hmax

/-- The result of `takePower` for a non-negative exponent `k` in exact
arithmetic: the product with the power for a positive sign, the quotient
otherwise. -/
theorem takePowerLoop_eq (exponentSign : Int) : ∀ (n fuel k : Nat) (base a : ℚ),
    k < 2 ^ n → 2 * n ≤ fuel →
    takePowerLoop exponentSign fuel base (k : Int) a =
      if exponentSign = 1 then a * base ^ k else a / base ^ k := by
  have hzero : ∀ (fuel : Nat) (base a : ℚ),
      takePowerLoop exponentSign fuel base ((0 : Nat) : Int) a =
        if exponentSign = 1 then a * base ^ 0 else a / base ^ 0 := by
    intro fuel base a
    cases fuel with
    | zero => simp [takePowerLoop]
    | succ fuel => simp [takePowerLoop]
  intro n
  induction n with
  | zero =>
    intro fuel k base a hk _
    have : k = 0 := by simpa using hk
    subst this
    exact hzero fuel base a
  | succ n ih =>
    have heven : ∀ (fuel k : Nat) (base a : ℚ), k % 2 = 0 → k < 2 ^ (n + 1) →
        2 * n + 1 ≤ fuel →
        takePowerLoop exponentSign fuel base (k : Int) a =
          if exponentSign = 1 then a * base ^ k else a / base ^ k := by
      intro fuel k base a hk2 hk hfuel
      by_cases hk0 : k = 0
      · subst hk0
        exact hzero fuel base a
      · cases fuel with
        | zero => omega
        | succ fuel =>
          have hpos : (k : Int) > 0 := by omega
          have hmod : (k : Int) % 2 = 0 := by omega
          have hdiv : (k : Int) / 2 = ((k / 2 : Nat) : Int) := by omega
          rw [takePowerLoop, if_pos hpos, if_pos hmod, hdiv,
            ih fuel (k / 2) (base * base) a (by rw [Nat.pow_succ] at hk; omega) (by omega)]
          have hk' : k = 2 * (k / 2) := by omega
          have hpow : (base * base) ^ (k / 2) = base ^ k := by
            rw [← pow_two, ← pow_mul, ← hk']
          rw [hpow]
    intro fuel k base a hk hfuel
    by_cases hk2 : k % 2 = 0
    · exact heven fuel k base a hk2 hk (by omega)
    · cases fuel with
      | zero => omega
      | succ fuel =>
        have hpos : (k : Int) > 0 := by omega
        have hmod : ¬((k : Int) % 2 = 0) := by omega
        have hsub : (k : Int) - 1 = ((k - 1 : Nat) : Int) := by omega
        rw [takePowerLoop, if_pos hpos, if_neg hmod, hsub,
          heven fuel (k - 1) base _ (by omega) (by omega) (by omega)]
        have hk' : k = (k - 1) + 1 := by omega
        by_cases hs : exponentSign = 1
        · rw [if_pos hs, if_pos hs, if_pos hs]
          conv_rhs => rw [hk', pow_succ]
          ring
        · rw [if_neg hs, if_neg hs, if_neg hs]
          conv_rhs => rw [hk', pow_succ]
          rw [div_div, mul_comm]

/-- The function `takePower` on base 10 and an exponent whose negation is an
`s64`: the power of ten, in exact arithmetic. -/
theorem takePower_ten (exponent : Int) (h1 : -S64_MAX ≤ exponent) (h2 : exponent ≤ S64_MAX) :
    takePower 10 exponent = some ((10 : ℚ) ^ exponent) := by
  unfold S64_MAX at h1 h2
  unfold takePower
  rw [if_neg (by norm_num)]
  simp only
  rw [if_neg (by unfold S64_MAX; omega)]
  by_cases hneg : exponent < 0
  · rw [if_pos hneg, if_pos hneg]
    have hk : -exponent = ((-exponent).toNat : Int) := by omega
    rw [hk, takePowerLoop_eq (-1) 64 128 _ 10 1 (by omega) (by omega), if_neg (by decide)]
    have hz : exponent = -((-exponent).toNat : Int) := by omega
    conv_rhs => rw [hz, zpow_neg, zpow_natCast]
    rw [one_div]
  · rw [if_neg hneg, if_neg hneg]
    have hk : exponent = (exponent.toNat : Int) := by omega
    rw [hk, takePowerLoop_eq 1 64 128 _ 10 1 (by omega) (by omega), if_pos rfl, one_mul,
      zpow_natCast]

theorem getD_append_head (pre rest : List Char) (c : Char) :
    (pre ++ c :: rest).getD pre.length NUL = c := by
  rw [List.getD_eq_getElem?_getD, List.getElem?_append_right (Nat.le_refl _)]
  simp

theorem getLast_numeric : ∀ (ds : List Char) (x : Char), ds.all isNumeric = true → ds ≠ [] →
    isNumeric ((ds.getLast?).getD x) = true := by
  intro ds x hall hne
  have hmem : (ds.getLast?).getD x ∈ ds := by
    rw [List.getLast?_eq_getLast _ hne]
    exact List.getLast_mem hne
  exact List.all_eq_true.mp hall _ hmem

theorem numeric_not_mark {c : Char} (h : isNumeric c = true) :
    c ≠ '-' ∧ c ≠ '+' ∧ c ≠ '.' ∧ c ≠ 'e' ∧ c ≠ 'E' := by
  refine ⟨?_, ?_, ?_, ?_, ?_⟩ <;> (rintro rfl; revert h; decide)

theorem endsToken_nil : EndsToken [] := by
  intro c s1 h
  cases h

/-- The part of `json_getNumber` before the exponent, on the text of a
well-formed number: the sign, the value of the integer digits, the fraction,
and the offset and the byte read last. -/
theorem readMantissa_text (neg : Bool) (ints : List Char) (frac : Option (List Char))
    (exp : Option (Char × Option Char × List Char))
    (hints : isDigits ints = true) (hfrac : fractionWellFormed frac = true)
    (hexp : exponentWellFormed exp = true) :
    ∃ D, isNumeric D = true ∧
      readMantissa ((if neg then ['-'] else []) ++ ints ++ renderFraction frac
          ++ renderExponent exp) =
        ((if neg then -1 else 1), (digitsValue ints : ℚ), fractionValue frac,
          ((if neg then ['-'] else []) ++ ints ++ renderFraction frac).length
            + min 1 (renderExponent exp).length,
          ((renderExponent exp).head?).getD D) := by
  obtain ⟨d0, ints1, hI, hd0, hIall⟩ := isDigits_cons hints
  have hIne : ints ≠ [] := by rw [hI]; exact List.cons_ne_nil _ _
  generalize hS : (if neg then ['-'] else []) = S
  generalize hbuf : S ++ ints ++ renderFraction frac ++ renderExponent exp = buf
  have h0 : buf.getD 0 NUL = if neg then '-' else d0 := by
    rw [← hbuf, ← hS, hI]
    cases neg <;> simp
  have hlr : (buf.getD 0 NUL = '-') ↔ neg = true := by
    rw [h0]
    cases neg
    · simp [(numeric_not_mark hd0).1]
    · simp
  have hoff : (if buf.getD 0 NUL = '-' then 1 else 0) = S.length := by
    rw [← hS]
    by_cases hn : neg = true
    · rw [if_pos (hlr.mpr hn), if_pos hn]
      rfl
    · rw [if_neg (fun h => hn (hlr.mp h)), if_neg hn]
      rfl
  have hsign : (if buf.getD 0 NUL = '-' then (-1 : Int) else 1) = if neg then -1 else 1 := by
    by_cases hn : neg = true
    · rw [if_pos (hlr.mpr hn), if_pos hn]
    · rw [if_neg (fun h => hn (hlr.mp h)), if_neg hn]
  have hrest2 : ∀ c r, renderFraction frac ++ renderExponent exp = c :: r →
      isNumeric c = false := by
    intro c r h
    exact fraction_head frac exp hexp endsToken_nil c r (by simpa using h)
  have hrestE : ∀ c r, renderExponent exp = c :: r → isNumeric c = false ∧ c ≠ '.' := by
    intro c r h
    exact exponent_head exp hexp endsToken_nil c r (by simpa using h)
  have hi := digitLoop_digits buf integerStep ints S
    (renderFraction frac ++ renderExponent exp) buf.length (buf.getD 0 NUL) 0
    (by rw [← hbuf]; simp) hIall hrest2 (by omega)
  have hval : ints.foldl integerStep 0 = (digitsValue ints : ℚ) := by
    have := integerStep_fold ints hIall 0
    rw [Nat.cast_zero] at this
    rw [this]
    rfl
  rw [hval] at hi
  have hDI := getLast_numeric ints (buf.getD 0 NUL) hIall hIne
  unfold readMantissa
  simp only
  rw [hoff, hsign, hi]
  simp only
  cases frac with
  | none =>
    simp only [renderFraction, List.nil_append, List.append_nil] at hrest2 ⊢
    refine ⟨(ints.getLast?).getD (buf.getD 0 NUL), hDI, ?_⟩
    have hne : ((renderExponent exp).head?).getD ((ints.getLast?).getD (buf.getD 0 NUL))
        ≠ '.' := by
      cases hE : renderExponent exp with
      | nil => exact (numeric_not_mark hDI).2.2.1
      | cons c r => exact (hrestE c r hE).2
    rw [if_neg hne]
    simp only [List.length_append, fractionValue]
  | some fs =>
    simp only [fractionWellFormed] at hfrac
    obtain ⟨f0, fs1, hF, _, hFall⟩ := isDigits_cons hfrac
    have hFne : fs ≠ [] := by rw [hF]; exact List.cons_ne_nil _ _
    simp only [renderFraction, List.cons_append, List.head?_cons, Option.getD_some,
      List.length_cons, if_true]
    have hmin : min 1 ((fs ++ renderExponent exp).length + 1) = 1 := by omega
    rw [hmin]
    have hf := digitLoop_digits buf decimalStep fs (S ++ ints ++ ['.']) (renderExponent exp)
      buf.length '.' (1, 0) (by rw [← hbuf]; simp [renderFraction]) hFall
      (fun c r h => (hrestE c r h).1) (by omega)
    simp only [List.length_append, List.length_cons, List.length_nil] at hf
    rw [Nat.zero_add] at hf
    rw [hf, decimalStep_fold fs hFall]
    refine ⟨(fs.getLast?).getD '.', getLast_numeric fs '.' hFall hFne, ?_⟩
    simp only [List.length_append, List.length_cons, zero_add, one_mul, one_div, fractionValue]
    rw [show S.length + ints.length + 1 + fs.length = S.length + ints.length + (fs.length + 1)
      by omega]

/-- The exponent part of `json_getNumber` on the sign and the digits of an
exponent whose value fits into an `s64`. -/
theorem readExponent_text (pre : List Char) (sign : Option Char) (digits : List Char)
    (hsign : ∀ s, sign = some s → s = '+' ∨ s = '-') (hdigits : isDigits digits = true)
    (hmax : (digitsValue digits : Int) ≤ S64_MAX) :
    readExponent (pre ++ ((match sign with | some s => [s] | none => []) ++ digits)) pre.length =
      (some (digitsValue digits : Int), if sign = some '-' then -1 else 1) := by
  obtain ⟨x0, xs1, hX, hx0, hXall⟩ := isDigits_cons hdigits
  have hfold : digits.foldl exponentStep (some 0) = some (digitsValue digits : Int) := by
    have := exponentStep_fold digits hXall 0 hmax
    rw [Nat.cast_zero] at this
    exact this
  cases sign with
  | none =>
    simp only [List.nil_append]
    have hget : (pre ++ digits).getD pre.length NUL = x0 := by
      rw [hX]; exact getD_append_head _ _ _
    have hl := digitLoop_digits (pre ++ digits) exponentStep digits pre [] (pre ++ digits).length
      x0 (some 0) (by simp) hXall (fun c r h => by cases h) (by omega)
    unfold readExponent
    simp only [hget, (numeric_not_mark hx0).1, (numeric_not_mark hx0).2.1, decide_False,
      Bool.or_self, Bool.false_eq_true, if_false]
    rw [hl, hfold]
    simp
  | some s =>
    have hget : (pre ++ ([s] ++ digits)).getD pre.length NUL = s := getD_append_head _ _ _
    have hl := digitLoop_digits (pre ++ ([s] ++ digits)) exponentStep digits (pre ++ [s]) []
      (pre ++ ([s] ++ digits)).length s (some 0) (by simp) hXall (fun c r h => by cases h)
      (by omega)
    simp only [List.length_append, List.length_cons, List.length_nil, Nat.zero_add] at hl
    have hs := hsign s rfl
    have hsigned : (decide (s = '+') || decide (s = '-')) = true := by
      rcases hs with h | h <;> simp [h]
    unfold readExponent
    simp only [hget, hsigned, if_true, List.length_append, List.length_cons, List.length_nil,
      Nat.zero_add]
    rw [hl, hfold]
    simp

/-- The function `json_getNumber`, in exact arithmetic, on a number element
whose text is a well-formed number with an exponent that fits into an `s64`:
the value that the text denotes. -/
theorem json_getNumber_text (text : NumberText) (label : Buffer) (children : List json_Element)
    (hwf : text.wellFormed = true) (hmax : text.signedExponent.natAbs < 2 ^ 63) :
    json_getNumber (.mk .json_NUMBER label text.render children) = some text.value := by
  obtain ⟨neg, ints, frac, exp⟩ := text
  simp only [NumberText.wellFormed, Bool.and_eq_true] at hwf
  obtain ⟨⟨hints, hfrac⟩, hexp⟩ := hwf
  obtain ⟨D, hD, hm⟩ := readMantissa_text neg ints frac exp hints hfrac hexp
  have hsignQ : (((if neg then -1 else 1 : Int) : Int) : ℚ) = if neg then -1 else 1 := by
    cases neg <;> simp
  unfold json_getNumber
  simp only [json_Element.type, json_Element.value, NumberText.render, ne_eq, not_true_eq_false,
    if_false]
  rw [hm]
  simp only
  match exp, hexp, hmax with
  | none, _, _ =>
    simp only [renderExponent, List.head?_nil, Option.getD_none]
    rw [if_neg (by
      intro h
      rcases h with h | h
      · exact (numeric_not_mark hD).2.2.2.1 h
      · exact (numeric_not_mark hD).2.2.2.2 h)]
    simp only
    rw [show ((0 : Int) * 1) = 0 from rfl, takePower_ten 0 (by decide) (by decide)]
    simp only [NumberText.value, NumberText.signedExponent, hsignQ]
    ring_nf
  | some (ec, none, xs), hexp, hmax =>
    simp only [exponentWellFormed, Bool.and_eq_true, Bool.or_eq_true, beq_iff_eq] at hexp
    obtain ⟨hec, hxs⟩ := hexp
    simp only [NumberText.signedExponent] at hmax
    have hdv : (digitsValue xs : Int) ≤ S64_MAX := by
      unfold S64_MAX
      omega
    have hnone : (if (none : Option Char) = some '-' then (-1 : Int) else 1) = 1 :=
      if_neg (by simp)
    simp only [renderExponent, List.head?_cons, Option.getD_some, List.length_cons]
    rw [if_pos hec]
    have hb : (if neg then ['-'] else []) ++ ints ++ renderFraction frac ++ ec :: xs
        = ((if neg then ['-'] else []) ++ ints ++ renderFraction frac ++ [ec])
          ++ ((match (none : Option Char) with | some s => [s] | none => []) ++ xs) := by
      simp
    have hl : ((if neg then ['-'] else []) ++ ints ++ renderFraction frac).length
        + min 1 (xs.length + 1)
        = ((if neg then ['-'] else []) ++ ints ++ renderFraction frac ++ [ec]).length := by
      simp only [List.length_append, List.length_cons, List.length_nil]
      omega
    rw [hb, hl, readExponent_text _ none xs (fun s h => by cases h) hxs hdv]
    simp only
    rw [hnone, Int.mul_one, takePower_ten _ (by unfold S64_MAX at hdv ⊢; omega) hdv]
    simp only [NumberText.value, NumberText.signedExponent, hsignQ]
    rw [if_neg (show ¬((none : Option Char) = some '-') by simp)]
    ring_nf
  | some (ec, some sg, xs), hexp, hmax =>
    simp only [exponentWellFormed, Bool.and_eq_true, Bool.or_eq_true, beq_iff_eq] at hexp
    obtain ⟨⟨hec, hsg⟩, hxs⟩ := hexp
    simp only [NumberText.signedExponent] at hmax
    have hdv : (digitsValue xs : Int) ≤ S64_MAX := by
      unfold S64_MAX
      split at hmax <;> omega
    simp only [renderExponent, List.head?_cons, Option.getD_some, List.length_cons]
    rw [if_pos hec]
    have hb : (if neg then ['-'] else []) ++ ints ++ renderFraction frac ++ ec :: sg :: xs
        = ((if neg then ['-'] else []) ++ ints ++ renderFraction frac ++ [ec])
          ++ ((match some sg with | some s => [s] | none => []) ++ xs) := by
      simp
    have hl : ((if neg then ['-'] else []) ++ ints ++ renderFraction frac).length
        + min 1 (xs.length + 1 + 1)
        = ((if neg then ['-'] else []) ++ ints ++ renderFraction frac ++ [ec]).length := by
      simp only [List.length_append, List.length_cons, List.length_nil]
      omega
    rw [hb, hl, readExponent_text _ (some sg) xs
      (fun s h => by cases h; exact hsg) hxs hdv]
    simp only
    have hse : (digitsValue xs : Int) * (if some sg = some '-' then -1 else 1)
        = if some sg = some '-' then -(digitsValue xs : Int) else (digitsValue xs : Int) := by
      split <;> omega
    rw [hse, takePower_ten _ (by unfold S64_MAX at hdv ⊢; split <;> omega)
      (by unfold S64_MAX at hdv ⊢; split <;> omega)]
    simp only [NumberText.value, NumberText.signedExponent, hsignQ]
    ring_nf

theorem sampleNumberText_value : sampleNumberText.value = -1250 := by
  have h1 : digitsValue ['1', '2'] = 12 := by decide
  have h2 : digitsValue ['5'] = 5 := by decide
  have h3 : digitsValue ['2'] = 2 := by decide
  simp only [sampleNumberText, NumberText.value, NumberText.signedExponent, fractionValue, h1,
    h2, h3]
  rw [if_neg (show ¬((none : Option Char) = some '-') by simp)]
  norm_num

theorem sampleZeroText_value : sampleZeroText.value = 0 := by
  have h1 : digitsValue ['0'] = 0 := by decide
  simp only [sampleZeroText, NumberText.value, NumberText.signedExponent, fractionValue, h1]
  norm_num

/-- C22 (as stated, at a concrete input): the text `1e9223372036854775808` has
the form of the claim, with integer digits `1` and exponent digits that denote
`2^63`; on it the accumulation `exponent = (lastRead - '0') + 10*exponent`
leaves the range of the `s64`, so `json_getNumber` has no defined result, and
its result is not `1 × 10^(2^63)`. -/
theorem C22_exponent_leaves_s64 :
    sampleHugeExponent.wellFormed = true ∧
    sampleHugeExponent.render = CS "1e9223372036854775808" ∧
    sampleHugeExponent.signedExponent = 2 ^ 63 ∧
    json_getNumber (numberElement sampleHugeExponent.render) = none ∧
    json_getNumber (numberElement sampleHugeExponent.render) ≠ some sampleHugeExponent.value := by
  have hnone : json_getNumber (numberElement sampleHugeExponent.render) = none := by decide
  refine ⟨by decide, by decide, by decide, hnone, ?_⟩
  rw [hnone]
  exact fun h => Option.noConfusion h

/-- C22 (amended): for every number element whose text has the form
`-?digits(.digits)?([eE][+-]?digits)?` and whose exponent digits denote a
value of at most `2^63 - 1`, `json_getNumber`, evaluated in exact rational
arithmetic, returns sign x (value of the integer digits + value of the fraction
digits as a decimal fraction) x 10^(signed exponent); in particular the text
`-12.5e2` yields -1250 and the text `0` yields 0. -/
theorem C22_getNumber_value (text : NumberText) (label : Buffer) (children : List json_Element)
    (hwf : text.wellFormed = true) (hmax : text.signedExponent.natAbs < 2 ^ 63) :
    json_getNumber (.mk .json_NUMBER label text.render children) = some text.value ∧
    json_getNumber (numberElement (CS "-12.5e2")) = some (-1250) ∧
    json_getNumber (numberElement (CS "0")) = some 0 := by
  refine ⟨json_getNumber_text text label children hwf hmax, ?_, ?_⟩
  · have h := json_getNumber_text sampleNumberText [] [] (by decide) (by decide)
    rw [sampleNumberText_value] at h
    exact h
  · have h := json_getNumber_text sampleZeroText [] [] (by decide) (by decide)
    rw [sampleZeroText_value] at h
    exact h

theorem C22_getNumber_value_witness :
    json_getNumber (.mk .json_NUMBER [] sampleNumberText.render []) = some sampleNumberText.value ∧
    json_getNumber (numberElement (CS "-12.5e2")) = some (-1250) ∧
    json_getNumber (numberElement (CS "0")) = some 0 :=
  C22_getNumber_value sampleNumberText [] [] (by decide) (by decide)

/-! ## Decimal text of an offset (`u64ToString`) -/

/-- The ASCII digit that `u64ToString` writes for the remainder `r`. -/
theorem digitChar_numeric (r : Nat) (h : r < 10) :
    isNumeric (Char.ofNat (r + '0'.toNat)) = true ∧
    (Char.ofNat (r + '0'.toNat)).toNat - '0'.toNat = r := by
  interval_cases r <;> decide

theorem digits_length_succ (x : Nat) (hx : x ≠ 0) :
    (Nat.digits 10 x).length = (Nat.digits 10 (x / 10)).length + 1 := by
  rw [Nat.digits_def' (by norm_num) (Nat.pos_of_ne_zero hx)]
  rfl

/-- The first loop of `u64ToString` counts the decimal digits of `x`. -/
theorem digitCountLoop_eq : ∀ (fuel x bufferCount : Nat), x < 10 ^ fuel →
    bufferCount + fuel < 2 ^ 64 →
    digitCountLoop fuel x bufferCount = bufferCount + (Nat.digits 10 x).length := by
  intro fuel
  induction fuel with
  | zero =>
    intro x c hx _
    have : x = 0 := by simpa using hx
    subst this
    simp [digitCountLoop]
  | succ fuel ih =>
    intro x c hx hc
    rw [digitCountLoop]
    by_cases h0 : x = 0
    · subst h0
      simp
    · rw [if_pos h0, wrap64_of_lt (by omega), ih _ _ (by
        rw [Nat.pow_succ] at hx
        exact Nat.div_lt_of_lt_mul (by omega)) (by omega), digits_length_succ x h0]
      omega

/-- The cells after the second loop of `u64ToString`: round `i` writes the
digit of `y` at the cell `bufferCount - i - 1`. -/
theorem digitFillLoop_getElem? (bufferCount : Nat) : ∀ (rounds i y : Nat) (buf : Buffer),
    i + rounds ≤ bufferCount → buf.length = bufferCount →
    (digitFillLoop bufferCount rounds i y buf).length = bufferCount ∧
    ∀ j, (digitFillLoop bufferCount rounds i y buf)[j]? =
      if bufferCount - i - rounds ≤ j ∧ j < bufferCount - i then
        some (Char.ofNat (y / 10 ^ (bufferCount - i - 1 - j) % 10 + '0'.toNat))
      else buf[j]? := by
  intro rounds
  induction rounds with
  | zero =>
    intro i y buf _ hlen
    refine ⟨hlen, fun j => ?_⟩
    rw [digitFillLoop, if_neg (by omega)]
  | succ rounds ih =>
    intro i y buf hi hlen
    rw [digitFillLoop]
    obtain ⟨h1, h2⟩ := ih (i + 1) (y / 10)
      (buf.set (bufferCount - i - 1) (Char.ofNat (y % 10 + '0'.toNat))) (by omega)
      (by rw [List.length_set]; exact hlen)
    refine ⟨h1, fun j => ?_⟩
    rw [h2 j]
    by_cases hj : bufferCount - (i + 1) - rounds ≤ j ∧ j < bufferCount - (i + 1)
    · rw [if_pos hj, if_pos (by omega)]
      have he : bufferCount - i - 1 - j = (bufferCount - (i + 1) - 1 - j) + 1 := by omega
      rw [he, Nat.pow_succ, Nat.mul_comm, ← Nat.div_div_eq_div_mul]
    · rw [if_neg hj]
      by_cases hj2 : j = bufferCount - i - 1
      · subst hj2
        rw [if_pos (by omega), List.getElem?_set_self (by omega), Nat.sub_self, Nat.pow_zero,
          Nat.div_one]
      · rw [if_neg (by omega), List.getElem?_set_ne (by omega)]

theorem digits_getD : ∀ (k n : Nat), (Nat.digits 10 n).getD k 0 = n / 10 ^ k % 10 := by
  intro k
  induction k with
  | zero =>
    intro n
    by_cases h0 : n = 0
    · subst h0; simp
    · rw [Nat.digits_def' (by norm_num) (Nat.pos_of_ne_zero h0)]
      simp
  | succ k ih =>
    intro n
    by_cases h0 : n = 0
    · subst h0; simp
    · rw [Nat.digits_def' (by norm_num) (Nat.pos_of_ne_zero h0), List.getD_cons_succ, ih,
        Nat.pow_succ, Nat.mul_comm, ← Nat.div_div_eq_div_mul]

/-- The digits that `u64ToString` writes for a number that is not zero: the
decimal digits of the number, the most significant one first. -/
theorem u64ToString_digits (n : Nat) (hn : n < 2 ^ 64) (h0 : n ≠ 0) :
    u64ToString n
      = (Nat.digits 10 n).reverse.map fun d => Char.ofNat (d + '0'.toNat) := by
  have hbc : digitCountLoop 20 (n / 10) 1 = (Nat.digits 10 n).length := by
    rw [digitCountLoop_eq 20 (n / 10) 1 (by omega) (by norm_num), digits_length_succ n h0]
    omega
  unfold u64ToString
  simp only
  rw [hbc]
  obtain ⟨h1, h2⟩ := digitFillLoop_getElem? (Nat.digits 10 n).length (Nat.digits 10 n).length 0 n
    (List.replicate (Nat.digits 10 n).length NUL) (by omega) (by simp)
  apply List.ext_getElem?
  intro j
  rw [h2 j]
  by_cases hj : j < (Nat.digits 10 n).length
  · rw [if_pos (by omega), List.getElem?_map, List.getElem?_reverse hj]
    have hk : (Nat.digits 10 n).length - 1 - j < (Nat.digits 10 n).length := by omega
    rw [List.getElem?_eq_getElem hk]
    have := digits_getD ((Nat.digits 10 n).length - 1 - j) n
    rw [List.getD_eq_getElem _ _ hk] at this
    simp only [Option.map_some', Nat.sub_zero]
    rw [this]
  · rw [if_neg (by omega), List.getElem?_eq_none (by simp; omega),
      List.getElem?_eq_none (by simp; omega)]

theorem digitsValue_reverse_digits : ∀ (ds : List Nat), (∀ d ∈ ds, d < 10) →
    digitsValue (ds.reverse.map fun d => Char.ofNat (d + '0'.toNat)) = Nat.ofDigits 10 ds := by
  intro ds
  induction ds with
  | nil => intro _; rfl
  | cons d rest ih =>
    intro h
    have hd := (digitChar_numeric d (h d (List.mem_cons_self _ _))).2
    have hr := ih (fun x hx => h x (List.mem_cons_of_mem _ hx))
    unfold digitsValue at hr ⊢
    rw [List.reverse_cons, List.map_append, List.foldl_append, hr]
    simp only [List.map_cons, List.map_nil, List.foldl_cons, List.foldl_nil, hd,
      Nat.ofDigits_cons]
    omega

theorem u64ToString_eq_decimalText (n : Nat) (hn : n < 2 ^ 64) :
    u64ToString n = decimalText n := by
  unfold decimalText
  by_cases h0 : n = 0
  · subst h0
    decide
  · rw [if_neg h0, u64ToString_digits n hn h0]

theorem decimalText_numeric (n : Nat) : ∀ c ∈ decimalText n, isNumeric c = true := by
  intro c hc
  unfold decimalText at hc
  by_cases h0 : n = 0
  · rw [if_pos h0] at hc
    rw [List.mem_singleton.mp hc]
    decide
  · rw [if_neg h0] at hc
    obtain ⟨d, hd, rfl⟩ := List.mem_map.mp hc
    exact (digitChar_numeric d
      (Nat.digits_lt_base (by norm_num) (List.mem_reverse.mp hd))).1

theorem nonZeroBytes_of_all {buf : Buffer} (h : ∀ c ∈ buf, c ≠ NUL) : nonZeroBytes buf = buf := by
  unfold nonZeroBytes
  rw [List.filter_eq_self]
  intro c hc
  simpa using h c hc

/-- What `bufferConcat5` builds for the URI of a page from the URI of the
header job, a path without zero bytes, the text that `u64ToString` returns
for the offset, `&limit=`, and the text of the limit: the bytes of the five
parts in order, zero bytes left out, and behind them as many zero bytes as
the count of the buffer leaves over. -/
theorem page_uri_bytes (uri path limit : Buffer) (offset : Nat) (hoff : offset < 2 ^ 64)
    (hpath : ∀ c ∈ path, c ≠ NUL) :
    bufferConcat5 uri path (u64ToString offset) (CS "&limit=") limit =
      pageUriText (uri.filter fun c => c ≠ NUL) path offset (limit.filter fun c => c ≠ NUL) ++
        List.replicate
          (wrap64 (pageUriText uri path offset limit).length -
            (pageUriText (uri.filter fun c => c ≠ NUL) path offset
              (limit.filter fun c => c ≠ NUL)).length) NUL := by
  unfold bufferConcat5 pageUriText
  rw [u64ToString_eq_decimalText offset hoff, nonZeroBytes_of_all hpath,
    nonZeroBytes_of_all (fun c hc => isNumeric_ne_NUL (decimalText_numeric offset c hc)),
    nonZeroBytes_of_all (show ∀ c ∈ CS "&limit=", c ≠ NUL by decide)]
  simp only [nonZeroBytes, List.length_append, Nat.add_assoc]

theorem page_uri_text (uri path limit : Buffer) (offset : Nat) (hoff : offset < 2 ^ 64)
    (hpath : ∀ c ∈ path, c ≠ NUL) (huri : ∀ c ∈ uri, c ≠ NUL) (hlimit : ∀ c ∈ limit, c ≠ NUL)
    (hlen : (pageUriText uri path offset limit).length < 2 ^ 64) :
    bufferConcat5 uri path (u64ToString offset) (CS "&limit=") limit =
      pageUriText uri path offset limit := by
  have h1 : (uri.filter fun c => c ≠ NUL) = uri := nonZeroBytes_of_all huri
  have h2 : (limit.filter fun c => c ≠ NUL) = limit := nonZeroBytes_of_all hlimit
  rw [page_uri_bytes uri path limit offset hoff hpath, h1, h2, wrap64_of_lt hlen, Nat.sub_self]
  simp

/-- C37: for every `u64` value `n`, `u64ToString` returns the canonical decimal
text of `n`: as many ASCII digits as `n` has decimal digits, the single digit
`0` for `n = 0`, no leading zero for `n > 0`, and the value of the text read as
a base-10 numeral is `n`; so the offset written into the URI of a page job is
the offset recorded in the job: the URI consists of the bytes of the URI of
the header job, the path `/tracks?offset=` (`/shows?offset=` for a page of
the list of playlists), the canonical decimal text of the offset of the job,
`&limit=`, and the text of the limit, with the zero bytes of the first and
the last part left out, and the cells that this leaves over at the end of the
buffer are zero; without zero bytes in these parts the URI is exactly that
text. -/
theorem C37_u64ToString_canonical (n : Nat) (hn : n < 2 ^ 64) :
    (u64ToString n).length = (if n = 0 then 1 else (Nat.digits 10 n).length) ∧
    (u64ToString n).all isNumeric = true ∧
    (n = 0 → u64ToString n = ['0']) ∧
    (0 < n → (u64ToString n).head? ≠ some '0') ∧
    digitsValue (u64ToString n) = n ∧
    (∀ (job : Job) (jsonLimit : json_Element) (perPage pageIndex : Nat),
      (trackListPageJob job jsonLimit perPage pageIndex).uri =
        bufferConcat5 job.uri (CS "/tracks?offset=")
          (u64ToString (trackListPageJob job jsonLimit perPage pageIndex).offset)
          (CS "&limit=") jsonLimit.value ∧
      digitsValue (u64ToString (trackListPageJob job jsonLimit perPage pageIndex).offset)
        = (trackListPageJob job jsonLimit perPage pageIndex).offset ∧
      (playlistListPageJob job jsonLimit perPage pageIndex).uri =
        bufferConcat5 job.uri (CS "/shows?offset=")
          (u64ToString (playlistListPageJob job jsonLimit perPage pageIndex).offset)
          (CS "&limit=") jsonLimit.value ∧
      digitsValue (u64ToString (playlistListPageJob job jsonLimit perPage pageIndex).offset)
        = (playlistListPageJob job jsonLimit perPage pageIndex).offset) ∧
    (∀ (job : Job) (jsonLimit : json_Element) (perPage pageIndex : Nat),
      (trackListPageJob job jsonLimit perPage pageIndex).offset = perPage * pageIndex % 2 ^ 64 ∧
      (trackListPageJob job jsonLimit perPage pageIndex).uri =
        pageUriText (job.uri.filter fun c => c ≠ NUL) ("/tracks?offset=".toList)
            (perPage * pageIndex % 2 ^ 64) (jsonLimit.value.filter fun c => c ≠ NUL) ++
          List.replicate
            ((pageUriText job.uri ("/tracks?offset=".toList) (perPage * pageIndex % 2 ^ 64)
                jsonLimit.value).length % 2 ^ 64 -
              (pageUriText (job.uri.filter fun c => c ≠ NUL) ("/tracks?offset=".toList)
                (perPage * pageIndex % 2 ^ 64)
                (jsonLimit.value.filter fun c => c ≠ NUL)).length) NUL ∧
      ((∀ c ∈ job.uri, c ≠ NUL) → (∀ c ∈ jsonLimit.value, c ≠ NUL) →
        (pageUriText job.uri ("/tracks?offset=".toList) (perPage * pageIndex % 2 ^ 64)
          jsonLimit.value).length < 2 ^ 64 →
        (trackListPageJob job jsonLimit perPage pageIndex).uri =
          job.uri ++ "/tracks?offset=".toList ++ decimalText (perPage * pageIndex % 2 ^ 64) ++
            "&limit=".toList ++ jsonLimit.value) ∧
      (playlistListPageJob job jsonLimit perPage pageIndex).offset
        = perPage * pageIndex % 2 ^ 64 ∧
      (playlistListPageJob job jsonLimit perPage pageIndex).uri =
        pageUriText (job.uri.filter fun c => c ≠ NUL) ("/shows?offset=".toList)
            (perPage * pageIndex % 2 ^ 64) (jsonLimit.value.filter fun c => c ≠ NUL) ++
          List.replicate
            ((pageUriText job.uri ("/shows?offset=".toList) (perPage * pageIndex % 2 ^ 64)
                jsonLimit.value).length % 2 ^ 64 -
              (pageUriText (job.uri.filter fun c => c ≠ NUL) ("/shows?offset=".toList)
                (perPage * pageIndex % 2 ^ 64)
                (jsonLimit.value.filter fun c => c ≠ NUL)).length) NUL ∧
      ((∀ c ∈ job.uri, c ≠ NUL) → (∀ c ∈ jsonLimit.value, c ≠ NUL) →
        (pageUriText job.uri ("/shows?offset=".toList) (perPage * pageIndex % 2 ^ 64)
          jsonLimit.value).length < 2 ^ 64 →
        (playlistListPageJob job jsonLimit perPage pageIndex).uri =
          job.uri ++ "/shows?offset=".toList ++ decimalText (perPage * pageIndex % 2 ^ 64) ++
            "&limit=".toList ++ jsonLimit.value) ∧
      digitsValue (decimalText (perPage * pageIndex % 2 ^ 64)) = perPage * pageIndex % 2 ^ 64) := by
  have hvalue : ∀ m, m < 2 ^ 64 → digitsValue (u64ToString m) = m := by
    intro m hm
    by_cases h0 : m = 0
    · subst h0
      decide
    · rw [u64ToString_digits m hm h0,
        digitsValue_reverse_digits _ (fun d hd => Nat.digits_lt_base (by norm_num) hd),
        Nat.ofDigits_digits]
  refine ⟨?_, ?_, ?_, ?_, hvalue n hn, ?_, ?_⟩
  · by_cases h0 : n = 0
    · subst h0
      decide
    · rw [if_neg h0, u64ToString_digits n hn h0]
      simp
  · by_cases h0 : n = 0
    · subst h0
      decide
    · rw [u64ToString_digits n hn h0, List.all_eq_true]
      intro c hc
      obtain ⟨d, hd, rfl⟩ := List.mem_map.mp hc
      exact (digitChar_numeric d
        (Nat.digits_lt_base (by norm_num) (List.mem_reverse.mp hd))).1
  · intro h0
    subst h0
    decide
  · intro hpos
    have h0 : n ≠ 0 := by omega
    have hne : Nat.digits 10 n ≠ [] := Nat.digits_ne_nil_iff_ne_zero.mpr h0
    have hlast := Nat.getLast_digit_ne_zero 10 h0
    rw [u64ToString_digits n hn h0, List.head?_map, List.head?_reverse,
      List.getLast?_eq_getLast _ hne]
    simp only [Option.map_some', ne_eq, Option.some.injEq]
    intro hc
    have hlt : (Nat.digits 10 n).getLast hne < 10 :=
      Nat.digits_lt_base (by norm_num) (List.getLast_mem hne)
    have h2 := (digitChar_numeric _ hlt).2
    rw [hc] at h2
    exact hlast (by
      rw [← h2]
      rfl)
  · intro job jsonLimit perPage pageIndex
    refine ⟨rfl, hvalue _ ?_, rfl, hvalue _ ?_⟩
    · exact Nat.mod_lt _ (by norm_num)
    · exact Nat.mod_lt _ (by norm_num)
  · intro job jsonLimit perPage pageIndex
    have hoff : perPage * pageIndex % 2 ^ 64 < 2 ^ 64 := Nat.mod_lt _ (by norm_num)
    have htracks : ∀ c ∈ "/tracks?offset=".toList, c ≠ NUL := by decide
    have hshows : ∀ c ∈ "/shows?offset=".toList, c ≠ NUL := by decide
    refine ⟨rfl, page_uri_bytes job.uri _ jsonLimit.value _ hoff htracks, ?_, rfl,
      page_uri_bytes job.uri _ jsonLimit.value _ hoff hshows, ?_, ?_⟩
    · intro huri hlimit hlen
      exact page_uri_text job.uri _ jsonLimit.value _ hoff htracks huri hlimit hlen
    · intro huri hlimit hlen
      exact page_uri_text job.uri _ jsonLimit.value _ hoff hshows huri hlimit hlen
    · rw [← u64ToString_eq_decimalText _ hoff]
      exact hvalue _ hoff

theorem C37_u64ToString_canonical_witness :
    ((u64ToString 120).length = (if 120 = 0 then 1 else (Nat.digits 10 120).length) ∧
    (u64ToString 120).all isNumeric = true ∧
    (120 = 0 → u64ToString 120 = ['0']) ∧
    (0 < 120 → (u64ToString 120).head? ≠ some '0') ∧
    digitsValue (u64ToString 120) = 120) ∧
    (trackListPageJob (sampleHeaderJob json_Element.zero) (jsonNumber "limit" "20") 20 2).uri =
      CS "u" ++ "/tracks?offset=".toList ++ decimalText (20 * 2 % 2 ^ 64) ++ "&limit=".toList ++
        (jsonNumber "limit" "20").value ∧
    (trackListPageJob (sampleHeaderJob json_Element.zero) (jsonNumber "limit" "20") 20 2).uri =
      "u/tracks?offset=40&limit=20".toList ∧
    (trackListPageJob (sampleHeaderJob json_Element.zero) (jsonNumber "limit" "20") 20 2).offset
      = 40 :=
  ⟨⟨(C37_u64ToString_canonical 120 (by norm_num)).1,
    (C37_u64ToString_canonical 120 (by norm_num)).2.1,
    (C37_u64ToString_canonical 120 (by norm_num)).2.2.1,
    (C37_u64ToString_canonical 120 (by norm_num)).2.2.2.1,
    (C37_u64ToString_canonical 120 (by norm_num)).2.2.2.2.1⟩,
    ((C37_u64ToString_canonical 120 (by norm_num)).2.2.2.2.2.2
      (sampleHeaderJob json_Element.zero) (jsonNumber "limit" "20") 20 2).2.2.1
      (by decide) (by decide)
      (by
        rw [pageUriText, ← u64ToString_eq_decimalText _ (Nat.mod_lt _ (by norm_num))]
        decide),
    by decide, by decide⟩

/-! ## The tag of the node that `json_parseJson` returns -/

/-- C33: whenever `json_parseJson` returns a node, the first token of the input
is an opening brace and the tag of the node is `json_OBJECT`, or the first
token is an opening bracket and the tag is `json_ARRAY`, whatever the error
flag of the cursor is at the end; `parseBufferToJson` sees the node only.  The
document `{"a" 1`, in which the colon and the closing brace are missing, is
parsed with the error flag set and yields a node with the tag `json_OBJECT`,
the tag of the node of the well-formed document `{"a":1}`, and
`parseBufferToJson` returns it. -/
theorem C33_tag_follows_first_token (text : Buffer) (root : json_Element)
    (h : (json_parseJson text).1 = some root) :
    (((parseNextToken ⟨text, 0, false⟩).1.type = .TK_OPEN_BRACE ∧ root.type = .json_OBJECT) ∨
      ((parseNextToken ⟨text, 0, false⟩).1.type = .TK_OPEN_BRACKET ∧
        root.type = .json_ARRAY)) ∧
    parseBufferToJson text = .returned root ∧
    (∃ node, (json_parseJson (CS "\x7b\"a\" 1")).1 = some node ∧
      (json_parseJson (CS "\x7b\"a\" 1")).2.errorOccurred = true ∧
      node.type = .json_OBJECT ∧
      parseBufferToJson (CS "\x7b\"a\" 1") = .returned node) ∧
    (∃ node, (json_parseJson (CS "\x7b\"a\":1\x7d")).1 = some node ∧
      (json_parseJson (CS "\x7b\"a\":1\x7d")).2.errorOccurred = false ∧
      node.type = .json_OBJECT) := by
  have htype : ((parseNextToken ⟨text, 0, false⟩).1.type = .TK_OPEN_BRACE ∧
        root.type = .json_OBJECT) ∨
      ((parseNextToken ⟨text, 0, false⟩).1.type = .TK_OPEN_BRACKET ∧
        root.type = .json_ARRAY) := by
    unfold json_parseJson at h
    simp only at h
    split at h
    · cases h
    · rename_i hopen
      simp only [Option.some.injEq] at h
      rw [← h, show 3 * text.length + 3 = (3 * text.length + 1) + 1 + 1 from rfl,
        parseElementValue]
      split <;> simp_all [parseList_type]
  refine ⟨htype, ?_, ⟨_, rfl, by decide, by decide, by decide⟩, ⟨_, rfl, by decide, by decide⟩⟩
  unfold parseBufferToJson
  rw [h]
  rcases htype with ⟨_, ht⟩ | ⟨_, ht⟩ <;> simp [ht]

theorem C33_tag_follows_first_token_witness :
    ∃ root, (json_parseJson (CS "\x7b\"a\" 1")).1 = some root ∧
      (((parseNextToken ⟨CS "\x7b\"a\" 1", 0, false⟩).1.type = .TK_OPEN_BRACE ∧
          root.type = .json_OBJECT) ∨
        ((parseNextToken ⟨CS "\x7b\"a\" 1", 0, false⟩).1.type = .TK_OPEN_BRACKET ∧
          root.type = .json_ARRAY)) :=
  ⟨_, rfl, (C33_tag_follows_first_token (CS "\x7b\"a\" 1") _ rfl).1⟩

/-! ## Powers (`takePower`) -/

/-- The loop of `takePower` is its body, repeated while the exponent is
positive. -/
theorem takePowerLoop_step (exponentSign : Int) (fuel : Nat) (base : ℚ) (exponent : Int)
    (a : ℚ) :
    takePowerLoop exponentSign (fuel + 1) base exponent a =
      if exponent > 0 then
        takePowerLoop exponentSign fuel (takePowerStep exponentSign base exponent a).1
          (takePowerStep exponentSign base exponent a).2.1
          (takePowerStep exponentSign base exponent a).2.2
      else a := by
  rw [takePowerLoop]
  unfold takePowerStep
  by_cases hpos : exponent > 0
  · rw [if_pos hpos, if_pos hpos]
    by_cases hmod : exponent % 2 = 0
    · rw [if_pos hmod, if_pos hmod]
    · rw [if_neg hmod, if_neg hmod]
  · rw [if_neg hpos, if_neg hpos]

/-- A round of the loop of `takePower` keeps `a * base^exponent`, and
`a / base^exponent` when the sign of the exponent is negative, and makes the
exponent smaller without making it negative. -/
theorem takePowerStep_invariant (exponentSign : Int) (base : ℚ) (k : Nat) (a : ℚ)
    (hk : 0 < k) :
    ∃ k1 : Nat, (takePowerStep exponentSign base (k : Int) a).2.1 = (k1 : Int) ∧ k1 < k ∧
      (exponentSign = 1 →
        (takePowerStep exponentSign base (k : Int) a).2.2
            * (takePowerStep exponentSign base (k : Int) a).1 ^ k1 = a * base ^ k) ∧
      (exponentSign ≠ 1 →
        (takePowerStep exponentSign base (k : Int) a).2.2
            / (takePowerStep exponentSign base (k : Int) a).1 ^ k1 = a / base ^ k) := by
  unfold takePowerStep
  by_cases hmod : (k : Int) % 2 = 0
  · rw [if_pos hmod]
    have hk2 : k = 2 * (k / 2) := by omega
    have hpow : (base * base) ^ (k / 2) = base ^ k := by
      rw [← pow_two, ← pow_mul, ← hk2]
    refine ⟨k / 2, by simp only; omega, by omega, fun _ => ?_, fun _ => ?_⟩
    · simp only [hpow]
    · simp only [hpow]
  · rw [if_neg hmod]
    have hk1 : k = (k - 1) + 1 := by omega
    refine ⟨k - 1, by simp only; omega, by omega, fun hs => ?_, fun hs => ?_⟩
    · simp only [if_pos hs]
      conv_rhs => rw [hk1, pow_succ]
      ring
    · simp only [if_neg hs]
      conv_rhs => rw [hk1, pow_succ]
      rw [div_div, mul_comm]

/-- The function `takePower` on an exponent whose negation is an `s64`: the
power, in exact arithmetic. -/
theorem takePower_eq (base : ℚ) (exponent : Int) (hb : base ≠ 0) (h1 : -S64_MAX ≤ exponent)
    (h2 : exponent ≤ S64_MAX) :
    takePower base exponent = some (base ^ exponent) := by
  unfold S64_MAX at h1 h2
  unfold takePower
  rw [if_neg hb]
  simp only
  rw [if_neg (by unfold S64_MAX; omega)]
  by_cases hneg : exponent < 0
  · rw [if_pos hneg, if_pos hneg]
    have hk : -exponent = ((-exponent).toNat : Int) := by omega
    rw [hk, takePowerLoop_eq (-1) 64 128 _ base 1 (by omega) (by omega), if_neg (by decide)]
    have hz : exponent = -((-exponent).toNat : Int) := by omega
    conv_rhs => rw [hz, zpow_neg, zpow_natCast]
    rw [one_div]
  · rw [if_neg hneg, if_neg hneg]
    have hk : exponent = (exponent.toNat : Int) := by omega
    rw [hk, takePowerLoop_eq 1 64 128 _ base 1 (by omega) (by omega), if_pos rfl, one_mul,
      zpow_natCast]

/-- C31 (as stated, at a concrete input): for the least `s64` exponent the
negation `exponent = -exponent` has no result in an `s64`, so `takePower` has
no defined result there, and its result is not the power. -/
theorem C31_least_exponent_has_no_negation :
    (-(2 : Int) ^ 63 < 0 ∧ S64_MAX < -(-(2 : Int) ^ 63)) ∧
    takePower 2 (-(2 : Int) ^ 63) = none ∧
    takePower 2 (-(2 : Int) ^ 63) ≠ some ((2 : ℚ) ^ (-(2 : Int) ^ 63)) := by
  have hcond : (-(2 : Int) ^ 63 < 0 ∧ S64_MAX < -(-(2 : Int) ^ 63)) := by decide
  have hnone : takePower 2 (-(2 : Int) ^ 63) = none := by
    unfold takePower
    rw [if_neg (by norm_num)]
    simp only
    rw [if_pos hcond]
  refine ⟨hcond, hnone, ?_⟩
  rw [hnone]
  exact fun h => Option.noConfusion h

/-- C31 (amended): for every base `b` that is not zero and every exponent `e`
from `-(2^63 - 1)` to `2^63 - 1`, `takePower(b, e)` terminates, within 126
rounds of its loop, and returns `b^e` in exact arithmetic, for `e < 0` the
reciprocal of `b^|e|`, obtained by dividing instead of multiplying; every round
of the loop leaves `a * base^exponent` unchanged, `a / base^exponent` for
negative `e`, and makes the exponent smaller. -/
theorem C31_takePower_is_power (b : ℚ) (e : Int) (hb : b ≠ 0) (h1 : -S64_MAX ≤ e)
    (h2 : e ≤ S64_MAX) :
    takePower b e = some (b ^ e) ∧
    (e < 0 → takePower b e = some (1 / b ^ e.natAbs)) ∧
    (∀ fuel, 126 ≤ fuel →
      takePowerLoop (if e < 0 then -1 else 1) fuel b (e.natAbs : Int) 1
        = if e < 0 then 1 / b ^ e.natAbs else b ^ e.natAbs) ∧
    (∀ (exponentSign : Int) (base a : ℚ) (k : Nat), 0 < k →
      ∃ k1 : Nat, (takePowerStep exponentSign base (k : Int) a).2.1 = (k1 : Int) ∧ k1 < k ∧
        (exponentSign = 1 →
          (takePowerStep exponentSign base (k : Int) a).2.2
              * (takePowerStep exponentSign base (k : Int) a).1 ^ k1 = a * base ^ k) ∧
        (exponentSign ≠ 1 →
          (takePowerStep exponentSign base (k : Int) a).2.2
              / (takePowerStep exponentSign base (k : Int) a).1 ^ k1 = a / base ^ k)) ∧
    (∀ (exponentSign : Int) (fuel : Nat) (base a : ℚ) (exponent : Int),
      takePowerLoop exponentSign (fuel + 1) base exponent a =
        if exponent > 0 then
          takePowerLoop exponentSign fuel (takePowerStep exponentSign base exponent a).1
            (takePowerStep exponentSign base exponent a).2.1
            (takePowerStep exponentSign base exponent a).2.2
        else a) := by
  have hmain := takePower_eq b e hb h1 h2
  refine ⟨hmain, fun hneg => ?_, fun fuel hfuel => ?_,
    fun exponentSign base a k hk => takePowerStep_invariant exponentSign base k a hk,
    fun exponentSign fuel base a exponent => takePowerLoop_step exponentSign fuel base exponent a⟩
  · rw [hmain]
    have hz : e = -((e.natAbs : Nat) : Int) := by omega
    conv_lhs => rw [hz, zpow_neg, zpow_natCast]
    rw [one_div]
  · unfold S64_MAX at h1 h2
    rw [takePowerLoop_eq _ 63 fuel e.natAbs b 1 (by omega) (by omega)]
    by_cases hneg : e < 0
    · rw [if_pos hneg, if_pos hneg, if_neg (by decide)]
    · rw [if_neg hneg, if_neg hneg, if_pos rfl, one_mul]

theorem C31_takePower_is_power_witness :
    takePower 10 (-3) = some ((10 : ℚ) ^ (-3 : Int)) ∧
    takePower 10 (-3) = some (1 / (10 : ℚ) ^ 3) :=
  ⟨(C31_takePower_is_power 10 (-3) (by norm_num) (by decide) (by decide)).1,
    (C31_takePower_is_power 10 (-3) (by norm_num) (by decide) (by decide)).2.1 (by decide)⟩

/-! ## Offsets and token contents -/

/-- C35 (the code at failing inputs): on an input that ends inside a string
literal right after a backslash, `parseString` steps over two bytes where one
is left.  For the two bytes of a quote and a backslash the token has a content
of three bytes and the offset ends at 3; for the four bytes `["a\` the parser
ends with its cursor at offset 5, and the token of the literal, which starts
at offset 1, has a content of four bytes. -/
theorem C35_backslash_at_end_passes_the_end :
    (CS "\"\\").length = 2 ∧
    parseNextToken ⟨CS "\"\\", 0, false⟩
      = (⟨.TK_INVALID, ⟨0, 3⟩⟩, ⟨CS "\"\\", 3, false⟩) ∧
    (CS "[\"a\\").length = 4 ∧
    parseNextToken ⟨CS "[\"a\\", 1, false⟩
      = (⟨.TK_INVALID, ⟨1, 4⟩⟩, ⟨CS "[\"a\\", 5, false⟩) ∧
    (json_parseJson (CS "[\"a\\")).2.offset = 5 := by
  decide

theorem label_mk (type : json_ElementType) (label value : Buffer)
    (children : List json_Element) :
    (json_Element.mk type label value children).label = label := rfl

theorem viewBytes_length (buf : Buffer) (view : BufferView) :
    (viewBytes buf view).length = view.count := by
  simp [viewBytes]

/-- C32 (the code at a failing input): in the object `{1:2}` the label position
holds the number token `1`, one byte long.  `parseList` records the error and
still applies `takeOffQuotes` to the content of the token: the count of the
label is `1 - 2`, which wraps to `2^64 - 1`, and the label of the child has
that many bytes, more than the token it was taken from. -/
theorem C32_label_count_wraps :
    (parseNextToken ⟨CS "\x7b1:2\x7d", 1, false⟩).1 = ⟨.TK_NUMBER, ⟨1, 1⟩⟩ ∧
    (takeOffQuotes ⟨1, 1⟩).count = 2 ^ 64 - 1 ∧
    (json_parseJson (CS "\x7b1:2\x7d")).2.errorOccurred = true ∧
    ∃ child, (json_parseJson (CS "\x7b1:2\x7d")).1 = some (.mk .json_OBJECT [] [] [child]) ∧
      child.label = viewBytes (CS "\x7b1:2\x7d") (takeOffQuotes ⟨1, 1⟩) ∧
      child.label.length = 2 ^ 64 - 1 := by
  have hcount : (takeOffQuotes ⟨1, 1⟩).count = 2 ^ 64 - 1 := by decide
  refine ⟨by decide, hcount, by decide,
    .mk .json_NUMBER (viewBytes (CS "\x7b1:2\x7d") (takeOffQuotes ⟨1, 1⟩)) ['2'] [], rfl,
    label_mk _ _ _ _, ?_⟩
  rw [label_mk, viewBytes_length]
  exact hcount

/-! ## A playlist with items that lack a `track` object is never written -/

/-- The playlist after a page has been stored at `offset` in a build without
checks, when the page does not complete the playlist: nothing is handed to
`writePlaylistIntoFile`. -/
theorem readTracks_page_short (numberToU64 : json_Element → Nat) (st : ProcState)
    (playlistIndex : Nat) (page : json_Element) (offset : Nat) (P : Playlist)
    (hP : st.playlistArray.data[playlistIndex]? = some P)
    (hoff : offset + (pageItems page).length ≤ P.trackCount)
    (hfill : P.filledTrackCount + (keptItems page).length < P.trackCount)
    (hT : P.trackCount < 2 ^ 64) :
    ∃ st1, readTracksAndCopyToFileIfDone false numberToU64 st playlistIndex page offset
        = some st1 ∧
      st1.playlistArray.data[playlistIndex]? = some
        { P with
          trackArray :=
            writeCells P.trackArray offset ((keptItems page).map (trackOfItem numberToU64))
          filledTrackCount := P.filledTrackCount + (keptItems page).length } ∧
      st1.written = st.written := by
  have hlt : playlistIndex < st.playlistArray.data.length := by
    by_contra hc
    rw [List.getElem?_eq_none (by omega)] at hP
    cases hP
  have hget : st.playlistArray.data.getD playlistIndex Playlist.zero = P := by
    rw [List.getD_eq_getElem?_getD, hP]
    rfl
  have hsum := kept_add_skipped (pageItems page)
  have hk : (keptItems page).length = ((pageItems page).filter hasTrack).length := rfl
  unfold readTracksAndCopyToFileIfDone
  simp only [Bool.false_and, Bool.false_eq_true, if_false, hget]
  rw [show (json_getElement page (some (CS "items"))).children = pageItems page from rfl,
    readTracksLoop_kept numberToU64 _ _ _ _ (by omega) (by omega)]
  simp only
  rw [if_neg (by rw [← hk]; omega)]
  refine ⟨_, rfl, ?_, rfl⟩
  simp [hlt, keptItems]

/-- A run of pages in a build without checks that does not complete the
playlist: nothing is handed to `writePlaylistIntoFile`. -/
theorem run_pages_short (numberToU64 : json_Element → Nat)
    (uris : Nat → Buffer) (pages : Nat → json_Element) (playlistIndex L : Nat) :
    ∀ (order : List Nat) (st : ProcState) (P : Playlist),
      st.playlistArray.data[playlistIndex]? = some P →
      (∀ i ∈ order, PageHolds (pages i) (pageItems (pages i)).length ∧
        L * i + (pageItems (pages i)).length ≤ P.trackCount) →
      P.filledTrackCount + (order.map fun i => (keptItems (pages i)).length).sum
        < P.trackCount →
      P.trackCount < 2 ^ 64 →
      ∃ st1, processJobs false numberToU64 st
            (order.map (pageJob uris pages playlistIndex L)) = some st1 ∧
        st1.written = st.written ∧
        (st1.playlist playlistIndex).trackCount = P.trackCount ∧
        (st1.playlist playlistIndex).filledTrackCount = P.filledTrackCount
          + (order.map fun i => (keptItems (pages i)).length).sum := by
  intro order
  induction order with
  | nil =>
    intro st P hP _ _ _
    refine ⟨st, rfl, rfl, ?_, ?_⟩
    · rw [playlist_of_getElem? hP]
    · rw [playlist_of_getElem? hP]
      simp
  | cons i rest ih =>
    intro st P hP hall hsum hT
    simp only [List.map_cons, List.sum_cons] at hsum
    obtain ⟨hcar, hoff⟩ := hall i (List.mem_cons_self _ _)
    obtain ⟨st1, h1, h2, h4⟩ := readTracks_page_short numberToU64 st playlistIndex
      (pages i) (L * i) P hP hoff (by omega) hT
    obtain ⟨st2, g1, g2, g3, g4⟩ := ih st1 _ h2
      (fun j hj => hall j (List.mem_cons_of_mem _ hj)) (by simp only; omega) hT
    refine ⟨st2, ?_, ?_, ?_, ?_⟩
    · simp only [List.map_cons, processJobs, pageJob]
      rw [processJob_trackListJob _ _ _ _ _ _ _ (pageHolds_valid hcar), h1]
      exact g1
    · rw [g2, h4]
    · rw [g3]
    · rw [g4]
      simp only [List.map_cons, List.sum_cons, Nat.add_assoc]

/-- The header job of a playlist in a build without checks, when the first
page does not complete the playlist. -/
theorem header_step_short (numberToU64 : json_Element → Nat) (st : ProcState)
    (header : Job) (T : Nat) (hty : header.type = .Job_playlistHeader)
    (hpi : header.playlistIndex < st.playlistArray.data.length)
    (hT : numberToU64 (json_getElement (json_getElement header.json (some (CS "tracks")))
      (some (CS "total"))) = T)
    (hoff : header.offset = 0)
    (hTlt : T < 2 ^ 64)
    (hpage : PageHolds (json_getElement header.json (some (CS "tracks")))
      (pageItems (json_getElement header.json (some (CS "tracks")))).length)
    (hsize : (pageItems (json_getElement header.json (some (CS "tracks")))).length ≤ T)
    (hshort : (keptItems (json_getElement header.json (some (CS "tracks")))).length < T) :
    ∃ st1, processJob false numberToU64 st header = some st1 ∧
      st1.playlistArray.data[header.playlistIndex]? = some
        { name := playlistNameOf header.json
          trackArray := writeCells (List.replicate T Track.zero) 0
            ((keptItems (json_getElement header.json (some (CS "tracks")))).map
              (trackOfItem numberToU64))
          trackCount := T
          filledTrackCount :=
            (keptItems (json_getElement header.json (some (CS "tracks")))).length } ∧
      st1.written = st.written := by
  have hvalid1 := pageHolds_valid hpage
  have hvalid : header.json.type ≠ .json_INVALID_ELEMENT := by
    rw [json_getElement_type_object hvalid1]
    decide
  unfold processJob
  rw [hty]
  simp only [if_neg hvalid, copyString_name false header.json (fun h => Bool.noConfusion h),
    if_neg hvalid1, hoff, hT, ne_eq, not_true_eq_false, decide_False,
    Bool.and_false, Bool.false_eq_true, if_false]
  generalize enqueuePagesLoop _ _ _ _ _ = jq1
  obtain ⟨st1, h1, h2, h4⟩ := readTracks_page_short numberToU64
    { st with
      jq := jq1
      playlistArray :=
        { st.playlistArray with
          data := st.playlistArray.data.set header.playlistIndex
            { name := playlistNameOf header.json
              trackArray := List.replicate T Track.zero
              trackCount := T
              filledTrackCount := 0 } } }
    header.playlistIndex (json_getElement header.json (some (CS "tracks"))) 0
    { name := playlistNameOf header.json
      trackArray := List.replicate T Track.zero
      trackCount := T
      filledTrackCount := 0 }
    (by simp [hpi]) (by simp only; omega) (by simp only; omega) hTlt
  refine ⟨st1, h1, ?_, ?_⟩
  · rw [h2]; simp
  · rw [h4]

/-- In a build with checks the loop of `readTracksAndCopyToFileIfDone` ends the
run at an item that lacks a `track` object. -/
theorem readTracksLoop_checked (numberToU64 : json_Element → Nat) :
    ∀ (items : List json_Element) (trackIndex : Nat) (playlist : Playlist) (warnings : Nat),
      (∃ item ∈ items, hasTrack item = false) →
      readTracksLoop true numberToU64 items trackIndex playlist warnings = none := by
  intro items
  induction items with
  | nil =>
    intro _ _ _ h
    obtain ⟨item, hmem, _⟩ := h
    cases hmem
  | cons item rest ih =>
    intro trackIndex playlist warnings h
    unfold readTracksLoop
    by_cases hitem : (json_getElement item (some (CS "track"))).type = .json_OBJECT
    · simp only [hitem, ne_eq, not_true_eq_false, if_false]
      split
      · rfl
      · apply ih
        obtain ⟨x, hmem, hx⟩ := h
        rcases List.mem_cons.mp hmem with rfl | hmem
        · simp [hasTrack, hitem] at hx
        · exact ⟨x, hmem, hx⟩
    · simp only [hitem, ne_eq, not_false_eq_true, if_true]

theorem readTracks_checked (numberToU64 : json_Element → Nat) (st : ProcState)
    (playlistIndex : Nat) (page : json_Element) (offset : Nat)
    (h : ∃ item ∈ pageItems page, hasTrack item = false) :
    readTracksAndCopyToFileIfDone true numberToU64 st playlistIndex page offset = none := by
  unfold readTracksAndCopyToFileIfDone
  simp only
  split
  · rfl
  · rw [show (json_getElement page (some (CS "items"))).children = pageItems page from rfl,
      readTracksLoop_checked numberToU64 _ _ _ _ h]

theorem processJob_page_checked (numberToU64 : json_Element → Nat) (st : ProcState)
    (uri : Buffer) (page : json_Element) (playlistIndex offset : Nat)
    (h : ∃ item ∈ pageItems page, hasTrack item = false) :
    processJob true numberToU64 st (trackListJob uri page playlistIndex offset) = none := by
  unfold processJob
  simp only [trackListJob]
  split
  · rename_i hw
    split at hw
    · rfl
    · cases hw
  · rename_i st2 hw
    split at hw
    · simp [printWarning] at hw
    · exact readTracks_checked numberToU64 _ _ _ _ h

theorem processJob_header_checked (numberToU64 : json_Element → Nat) (st : ProcState)
    (header : Job) (hty : header.type = .Job_playlistHeader)
    (h : ∃ item ∈ pageItems (json_getElement header.json (some (CS "tracks"))),
      hasTrack item = false) :
    processJob true numberToU64 st header = none := by
  unfold processJob
  rw [hty]
  simp only
  split
  · rfl
  · split
    · rfl
    · split
      · rfl
      · split
        · rfl
        · exact readTracks_checked numberToU64 _ _ _ _ h

theorem processJobs_checked (useChecks : Bool) (numberToU64 : json_Element → Nat) :
    ∀ (jobs : List Job) (st : ProcState),
      (∃ job ∈ jobs, ∀ st1, processJob useChecks numberToU64 st1 job = none) →
      processJobs useChecks numberToU64 st jobs = none := by
  intro jobs
  induction jobs with
  | nil =>
    intro _ h
    obtain ⟨job, hmem, _⟩ := h
    cases hmem
  | cons job rest ih =>
    intro st h
    rw [processJobs]
    split
    · rfl
    · rename_i st1 hst1
      apply ih
      obtain ⟨x, hmem, hx⟩ := h
      rcases List.mem_cons.mp hmem with rfl | hmem
      · rw [hx st] at hst1
        cases hst1
      · exact ⟨x, hmem, hx⟩

theorem exists_skipped_of_pos (page : json_Element) (h : 0 < (skippedItems page).length) :
    ∃ item ∈ pageItems page, hasTrack item = false := by
  obtain ⟨item, hitem⟩ := List.exists_mem_of_length_pos h
  unfold skippedItems at hitem
  obtain ⟨h1, h2⟩ := List.mem_filter.mp hitem
  exact ⟨item, h1, by simpa using h2⟩

theorem exists_pos_of_sum_pos (f : Nat → Nat) : ∀ (order : List Nat),
    0 < (order.map f).sum → ∃ i ∈ order, 0 < f i := by
  intro order
  induction order with
  | nil => intro h; simp at h
  | cons i rest ih =>
    intro h
    simp only [List.map_cons, List.sum_cons] at h
    by_cases hi : 0 < f i
    · exact ⟨i, List.mem_cons_self _ _, hi⟩
    · obtain ⟨j, hj, hfj⟩ := ih (by omega)
      exact ⟨j, List.mem_cons_of_mem _ hj, hfj⟩

/-- C34: for a playlist with `total = T` and `limit = L > 0` whose page at each
offset `o = L * i` holds `min L (T - o)` items, at least one item of some page
lacking a `track` object: in a build without checks, after the header job and
any number of the remaining pages, all of them included, `filledTrackCount` is
below `trackCount`, nothing has been handed to `writePlaylistIntoFile`, and the
check `filledTrackCount == trackCount` of `deinit` does not hold for the
playlist; and in either build a run that gets through all pages ends in such a
state (a build with checks ends the run at the warning for the item). -/
theorem C34_skipped_item_leaves_playlist_unwritten (useChecks : Bool)
    (numberToU64 : json_Element → Nat)
    (st : ProcState) (header : Job) (uris : Nat → Buffer) (pages : Nat → json_Element)
    (order : List Nat) (T L : Nat)
    (hty : header.type = .Job_playlistHeader) (hoff : header.offset = 0)
    (hpi : header.playlistIndex < st.playlistArray.data.length)
    (hT : numberToU64 (json_getElement (json_getElement header.json (some (CS "tracks")))
      (some (CS "total"))) = T)
    (hTlt : T < 2 ^ 64) (hL : 0 < L)
    (hpage0 : PageHolds (json_getElement header.json (some (CS "tracks"))) (min L T))
    (hpages : ∀ i, 1 ≤ i → L * i < T → PageHolds (pages i) (min L (T - L * i)))
    (horder : order.Perm (List.range' 1 ((T + L - 1) / L - 1)))
    (hskip : 0 < (skippedItems (json_getElement header.json (some (CS "tracks")))).length
      + (order.map fun i => (skippedItems (pages i)).length).sum) :
    (∀ n, n ≤ order.length →
      ∃ stn,
        processJobs false numberToU64 st
            (header :: (order.map (pageJob uris pages header.playlistIndex L)).take n)
          = some stn ∧
        stn.written = st.written ∧
        (stn.playlist header.playlistIndex).filledTrackCount
          < (stn.playlist header.playlistIndex).trackCount ∧
        deinitCheck (stn.playlist header.playlistIndex) = false) ∧
    (∀ stf,
      processJobs useChecks numberToU64 st
          (header :: order.map (pageJob uris pages header.playlistIndex L)) = some stf →
      stf.written = st.written ∧
      (stf.playlist header.playlistIndex).filledTrackCount
        < (stf.playlist header.playlistIndex).trackCount ∧
      deinitCheck (stf.playlist header.playlistIndex) = false) := by
  have hdiv := Nat.div_add_mod (T + L - 1) L
  have hmod := Nat.mod_lt (T + L - 1) hL
  have hmem : ∀ i ∈ order, 1 ≤ i ∧ L * i < T := by
    intro i hi
    have h1 := (horder.mem_iff).mp hi
    rw [List.mem_range'_1] at h1
    have h2 : L * (i + 1) ≤ L * ((T + L - 1) / L) := Nat.mul_le_mul_left L (by omega)
    rw [Nat.mul_add, Nat.mul_one] at h2
    exact ⟨h1.1, by omega⟩
  have hlen : ∀ i ∈ order, (pageItems (pages i)).length = min L (T - L * i) := fun i hi =>
    (hpages i (hmem i hi).1 (hmem i hi).2).2
  have hhold : ∀ i ∈ order, PageHolds (pages i) (pageItems (pages i)).length := fun i hi => by
    rw [hlen i hi]
    exact hpages i (hmem i hi).1 (hmem i hi).2
  have hsize0 : (pageItems (json_getElement header.json (some (CS "tracks")))).length
      = min L T := hpage0.2
  have hhold0 : PageHolds (json_getElement header.json (some (CS "tracks")))
      (pageItems (json_getElement header.json (some (CS "tracks")))).length := by
    rw [hsize0]; exact hpage0
  have hsizes : (order.map fun i => (pageItems (pages i)).length)
      = order.map fun i => min L (T - L * i) :=
    List.map_congr_left fun i hi => hlen i hi
  have hsum : min L T + (order.map fun i => (pageItems (pages i)).length).sum = T := by
    rw [hsizes, (horder.map _).sum_eq]
    exact sum_page_sizes L T hL
  have hbound : ∀ i ∈ order, L * i + (pageItems (pages i)).length ≤ T := by
    intro i hi
    rw [hlen i hi]
    have := (hmem i hi).2
    omega
  have hks0 : (keptItems (json_getElement header.json (some (CS "tracks")))).length
      + (skippedItems (json_getElement header.json (some (CS "tracks")))).length
      = (pageItems (json_getElement header.json (some (CS "tracks")))).length :=
    kept_add_skipped (pageItems (json_getElement header.json (some (CS "tracks"))))
  have hks := sum_kept_add_skipped pages order
  have hfirst : ∀ n, n ≤ order.length →
      ∃ stn,
        processJobs false numberToU64 st
            (header :: (order.map (pageJob uris pages header.playlistIndex L)).take n)
          = some stn ∧
        stn.written = st.written ∧
        (stn.playlist header.playlistIndex).filledTrackCount
          < (stn.playlist header.playlistIndex).trackCount ∧
        deinitCheck (stn.playlist header.playlistIndex) = false := by
    intro n _
    have htake : ∀ i ∈ order.take n, i ∈ order := fun i hi => List.mem_of_mem_take hi
    have hsplit : (order.map fun i => (keptItems (pages i)).length).sum
        = ((order.take n).map fun i => (keptItems (pages i)).length).sum
          + ((order.drop n).map fun i => (keptItems (pages i)).length).sum := by
      rw [← List.sum_append, ← List.map_append, List.take_append_drop]
    obtain ⟨st1, h1, h3, h4⟩ := header_step_short numberToU64 st header T hty hpi hT hoff
      hTlt hhold0 (by rw [hsize0]; omega) (by omega)
    obtain ⟨st2, g1, g2, g3, g4⟩ := run_pages_short numberToU64 uris pages
      header.playlistIndex L (order.take n) st1 _ h3
      (fun i hi => ⟨hhold i (htake i hi), hbound i (htake i hi)⟩) (by simp only; omega) hTlt
    simp only at g3 g4
    refine ⟨st2, ?_, ?_, ?_, ?_⟩
    · simp only [processJobs, h1]
      rw [← List.map_take]
      exact g1
    · rw [g2, h4]
    · rw [g3, g4]
      omega
    · unfold deinitCheck
      rw [g3, g4]
      simp only [beq_eq_false_iff_ne, ne_eq]
      omega
  refine ⟨hfirst, fun stf hrun => ?_⟩
  cases useChecks with
  | false =>
    obtain ⟨stn, hn1, hn2, hn3, hn4⟩ := hfirst order.length (Nat.le_refl _)
    rw [List.take_of_length_le (by simp), hrun] at hn1
    cases hn1
    exact ⟨hn2, hn3, hn4⟩
  | true =>
    have hnone : processJobs true numberToU64 st
        (header :: order.map (pageJob uris pages header.playlistIndex L)) = none := by
      apply processJobs_checked
      by_cases h0 : 0 < (skippedItems
          (json_getElement header.json (some (CS "tracks")))).length
      · exact ⟨header, List.mem_cons_self _ _, fun st1 =>
          processJob_header_checked numberToU64 st1 header hty (exists_skipped_of_pos _ h0)⟩
      · obtain ⟨i, hi, hpos⟩ := exists_pos_of_sum_pos
          (fun i => (skippedItems (pages i)).length) order (by omega)
        exact ⟨pageJob uris pages header.playlistIndex L i,
          List.mem_cons_of_mem _ (List.mem_map_of_mem _ hi), fun st1 =>
          processJob_page_checked numberToU64 st1 _ _ _ _ (exists_skipped_of_pos _ hpos)⟩
    rw [hnone] at hrun
    cases hrun

theorem C34_skipped_item_leaves_playlist_unwritten_witness :
    ∃ stf,
      processJobs false decimalToU64 sampleProcState
          (sampleHeaderBare :: [1].map
            (pageJob (fun _ => CS "p") samplePages3 sampleHeaderBare.playlistIndex 2))
        = some stf ∧
      stf.written = sampleProcState.written ∧
      (stf.playlist sampleHeaderBare.playlistIndex).filledTrackCount
        < (stf.playlist sampleHeaderBare.playlistIndex).trackCount ∧
      deinitCheck (stf.playlist sampleHeaderBare.playlistIndex) = false :=
  (C34_skipped_item_leaves_playlist_unwritten false decimalToU64 sampleProcState
    sampleHeaderBare (fun _ => CS "p") samplePages3 [1] 3 2 (by decide) (by decide)
    (by decide) (by decide) (by decide) (by decide) ⟨by decide, by decide⟩
    (fun i h1 h2 => by
      have hi : i = 1 := by omega
      subst hi
      exact ⟨by decide, by decide⟩)
    (by decide) (by decide)).1 1 (by decide)

/-! ### Termination of the parser -/

theorem Ahead.here (c : Cursor) : Ahead c c := ⟨Eq.refl _, Nat.le_refl _⟩

theorem Ahead.andThen {c1 c2 c3 : Cursor} (h1 : Ahead c1 c2) (h2 : Ahead c2 c3) :
    Ahead c1 c3 := ⟨h2.1.trans h1.1, Nat.le_trans h1.2 h2.2⟩

theorem Ahead.addOffset (c : Cursor) (k : Nat) : Ahead c { c with offset := c.offset + k } :=
  ⟨Eq.refl _, Nat.le_add_right _ _⟩

theorem Ahead.ofError (c : Cursor) : Ahead c (parsingError c) :=
  ⟨Eq.refl _, Nat.le_refl _⟩

theorem Ahead.remaining_le {c1 c2 : Cursor} (h : Ahead c1 c2) : c2.remaining ≤ c1.remaining := by
  unfold Cursor.remaining
  rw [h.1]
  have := h.2
  omega

theorem skipSpacesLoop_ahead : ∀ (fuel : Nat) (cur : Cursor) (ch : Char),
    Ahead cur (skipSpacesLoop fuel cur ch) := by
  intro fuel
  induction fuel with
  | zero => intro cur ch; exact Ahead.here cur
  | succ fuel ih =>
    intro cur ch
    unfold skipSpacesLoop
    split
    · exact (Ahead.addOffset cur 1).andThen (ih _ _)
    · exact Ahead.here cur

theorem skipSpaces_ahead (cur : Cursor) : Ahead cur (skipSpaces cur) := by
  unfold skipSpaces
  split
  · exact Ahead.here cur
  · exact skipSpacesLoop_ahead _ _ _

theorem parseStringLoop_ahead : ∀ (fuel : Nat) (cur : Cursor) (ch : Char),
    Ahead cur (parseStringLoop fuel cur ch).1 := by
  intro fuel
  induction fuel with
  | zero => intro cur ch; exact Ahead.here cur
  | succ fuel ih =>
    intro cur ch
    unfold parseStringLoop
    split
    · refine Ahead.andThen ?_ (ih _ _)
      split
      · exact Ahead.addOffset cur 2
      · exact Ahead.addOffset cur 1
    · exact Ahead.here cur

theorem parseString_ahead (cur : Cursor) : Ahead cur (parseString cur).2 := by
  unfold parseString
  simp only
  have h := (Ahead.addOffset cur 1).andThen
    (parseStringLoop_ahead cur.buf.length { cur with offset := cur.offset + 1 }
      (peek { cur with offset := cur.offset + 1 }))
  split
  · exact h.andThen (Ahead.addOffset _ 1)
  · exact h

theorem parseKeywordLoop_ahead : ∀ (fuel : Nat) (cur : Cursor) (ch : Char) (k : Nat),
    Ahead cur (parseKeywordLoop fuel cur ch k).1 := by
  intro fuel
  induction fuel with
  | zero => intro cur ch k; exact Ahead.here cur
  | succ fuel ih =>
    intro cur ch k
    unfold parseKeywordLoop
    split
    · exact (Ahead.addOffset cur 1).andThen (ih _ _ _)
    · exact Ahead.here cur

theorem parseKeyword_ahead (cur : Cursor) (kw : Buffer) :
    Ahead cur (parseKeyword cur kw).2 := by
  unfold parseKeyword
  simp only
  split <;> exact parseKeywordLoop_ahead _ _ _ _

theorem digitsLoop_ahead : ∀ (fuel : Nat) (cur : Cursor) (ch : Char),
    Ahead cur (digitsLoop fuel cur ch).1 := by
  intro fuel
  induction fuel with
  | zero => intro cur ch; exact Ahead.here cur
  | succ fuel ih =>
    intro cur ch
    unfold digitsLoop
    split
    · exact (Ahead.addOffset cur 1).andThen (ih _ _)
    · exact Ahead.here cur

theorem parseNumberExponent_ahead (cur : Cursor) (ch : Char) :
    Ahead cur (parseNumberExponent cur ch).2 := by
  unfold parseNumberExponent
  simp only
  split_ifs <;>
    first
    | exact Ahead.here _
    | exact Ahead.addOffset _ 1
    | exact (Ahead.addOffset cur 1).andThen (Ahead.addOffset _ 1)
    | exact (Ahead.addOffset cur 1).andThen (digitsLoop_ahead _ _ _)
    | exact ((Ahead.addOffset cur 1).andThen (Ahead.addOffset _ 1)).andThen (digitsLoop_ahead _ _ _)

theorem parseNumberFraction_ahead (cur : Cursor) (ch : Char) :
    Ahead cur (parseNumberFraction cur ch).2 := by
  have key : ∀ c1 : Cursor, Ahead cur c1 →
      Ahead cur
        (if !isNumeric (peek c1) then (TokenType.TK_INVALID, c1)
          else parseNumberExponent (digitsLoop c1.buf.length c1 (peek c1)).1
            (digitsLoop c1.buf.length c1 (peek c1)).2).2 := by
    intro c1 h
    split
    · exact h
    · exact (h.andThen (digitsLoop_ahead _ _ _)).andThen (parseNumberExponent_ahead _ _)
  unfold parseNumberFraction
  by_cases hA : ch ≠ '.' ∧ ch ≠ 'e' ∧ ch ≠ 'E'
  · rw [if_pos hA]
    exact Ahead.here cur
  · rw [if_neg hA]
    by_cases hB : ch = '.'
    · rw [if_pos hB]
      exact key { cur with offset := cur.offset + 1 } (Ahead.addOffset cur 1)
    · rw [if_neg hB]
      exact parseNumberExponent_ahead _ _

theorem parseNumber_ahead (cur : Cursor) : Ahead cur (parseNumber cur).2 := by
  have key : ∀ r : Cursor × Char, Ahead cur r.1 →
      Ahead cur
        (if !isNumeric r.2 then (TokenType.TK_INVALID, r.1)
          else parseNumberFraction (digitsLoop r.1.buf.length r.1 r.2).1
            (digitsLoop r.1.buf.length r.1 r.2).2).2 := by
    intro r h
    split
    · exact h
    · exact (h.andThen (digitsLoop_ahead _ _ _)).andThen (parseNumberFraction_ahead _ _)
  unfold parseNumber
  by_cases hm : peek cur = '-'
  · exact key (if peek cur = '-' then
        (({ cur with offset := cur.offset + 1 } : Cursor),
          peek { cur with offset := cur.offset + 1 })
      else (cur, peek cur)) (by rw [if_pos hm]; exact Ahead.addOffset cur 1)
  · exact key (if peek cur = '-' then
        (({ cur with offset := cur.offset + 1 } : Cursor),
          peek { cur with offset := cur.offset + 1 })
      else (cur, peek cur)) (by rw [if_neg hm]; exact Ahead.here cur)

theorem parseNextTokenSwitch_ahead (cur : Cursor) (ch : Char) :
    Ahead cur (parseNextTokenSwitch cur ch).2 := by
  unfold parseNextTokenSwitch
  by_cases h0 : ch = '{'
  · rw [if_pos h0]
    exact Ahead.addOffset cur 1
  rw [if_neg h0]
  by_cases h1 : ch = '}'
  · rw [if_pos h1]
    exact Ahead.addOffset cur 1
  rw [if_neg h1]
  by_cases h2 : ch = '['
  · rw [if_pos h2]
    exact Ahead.addOffset cur 1
  rw [if_neg h2]
  by_cases h3 : ch = ']'
  · rw [if_pos h3]
    exact Ahead.addOffset cur 1
  rw [if_neg h3]
  by_cases h4 : ch = ':'
  · rw [if_pos h4]
    exact Ahead.addOffset cur 1
  rw [if_neg h4]
  by_cases h5 : ch = ','
  · rw [if_pos h5]
    exact Ahead.addOffset cur 1
  rw [if_neg h5]
  by_cases hq : ch = '"'
  · rw [if_pos hq]
    exact parseString_ahead cur
  rw [if_neg hq]
  by_cases ht : ch = 't'
  · rw [if_pos ht]
    exact parseKeyword_ahead cur _
  rw [if_neg ht]
  by_cases hf : ch = 'f'
  · rw [if_pos hf]
    exact parseKeyword_ahead cur _
  rw [if_neg hf]
  by_cases hn : ch = 'n'
  · rw [if_pos hn]
    exact parseKeyword_ahead cur _
  rw [if_neg hn]
  by_cases hd : ch = '-' ∨ isNumeric ch = true
  · rw [if_pos hd]
    exact parseNumber_ahead cur
  · rw [if_neg hd]
    exact Ahead.here cur

theorem parseNextToken_ahead (cur : Cursor) : Ahead cur (parseNextToken cur).2 := by
  unfold parseNextToken
  simp only
  have h0 := skipSpaces_ahead cur
  split
  · exact h0
  · have h1 := h0.andThen (parseNextTokenSwitch_ahead (skipSpaces cur) (peek (skipSpaces cur)))
    split
    · exact h1.andThen (Ahead.addOffset _ 1)
    · exact h1

/-- At the end of input `parseNextToken` returns `TK_END` and leaves the
cursor where the whitespace ends. -/
theorem parseNextToken_at_end (cur : Cursor) (h : isCursorEnd (skipSpaces cur) = true) :
    (parseNextToken cur).1.type = .TK_END ∧ (parseNextToken cur).2 = skipSpaces cur := by
  unfold parseNextToken
  simp [h]

/-- Before the end of input `parseNextToken` moves the offset by at least
one byte from where the whitespace ends. -/
theorem parseNextToken_progress (cur : Cursor) (h : isCursorEnd (skipSpaces cur) = false) :
    (skipSpaces cur).offset + 1 ≤ (parseNextToken cur).2.offset := by
  have h1 := (parseNextTokenSwitch_ahead (skipSpaces cur) (peek (skipSpaces cur))).2
  unfold parseNextToken
  simp only [h, Bool.false_eq_true, if_false]
  split
  · rename_i heq
    show (skipSpaces cur).offset + 1 ≤
      (parseNextTokenSwitch (skipSpaces cur) (peek (skipSpaces cur))).2.offset + 1
    omega
  · rename_i hne
    show (skipSpaces cur).offset + 1 ≤
      (parseNextTokenSwitch (skipSpaces cur) (peek (skipSpaces cur))).2.offset
    omega

theorem isCursorEnd_congr {c1 c2 : Cursor} (hb : c2.buf = c1.buf) (ho : c2.offset = c1.offset) :
    isCursorEnd c2 = isCursorEnd c1 := by
  unfold isCursorEnd peek
  rw [hb, ho]

theorem isCursorEnd_parsingError (cur : Cursor) :
    isCursorEnd (parsingError cur) = isCursorEnd cur := rfl

theorem skipSpaces_of_end (cur : Cursor) (h : isCursorEnd cur = true) : skipSpaces cur = cur := by
  unfold skipSpaces
  rw [if_pos h]

theorem parseNextToken_of_end (cur : Cursor) (h : isCursorEnd cur = true) :
    (parseNextToken cur).1.type = .TK_END ∧ (parseNextToken cur).2 = cur := by
  have hs := skipSpaces_of_end cur h
  have := parseNextToken_at_end cur (by rw [hs]; exact h)
  rw [hs] at this
  exact this

/-- A token read leaves the cursor at the end of input or at least one byte
further. -/
theorem parseNextToken_advances (cur : Cursor) (h : isCursorEnd (parseNextToken cur).2 = false) :
    cur.offset + 1 ≤ (parseNextToken cur).2.offset := by
  by_cases hs : isCursorEnd (skipSpaces cur) = true
  · rw [(parseNextToken_at_end cur hs).2, hs] at h
    exact absurd h (by simp)
  · have := parseNextToken_progress cur (by simpa using hs)
    have := (skipSpaces_ahead cur).2
    omega

theorem offset_lt_of_not_end (cur : Cursor) (h : isCursorEnd cur = false) :
    cur.offset < cur.buf.length := by
  unfold isCursorEnd isInBounds at h
  simp only [Bool.or_eq_false_iff, Bool.not_eq_false', decide_eq_true_eq] at h
  exact h.1

theorem isCursorEnd_of_remaining (cur : Cursor) (h : cur.remaining = 0) :
    isCursorEnd cur = true := by
  obtain ⟨b, n, e⟩ := cur
  exact isCursorEnd_of_le b n e (by
    unfold Cursor.remaining at h
    simp only at h
    omega)

theorem remaining_step (cur : Cursor) (k fuel : Nat) (hk : 1 ≤ k)
    (hend : isCursorEnd cur = false) (h : cur.remaining ≤ fuel + 1) :
    ({ cur with offset := cur.offset + k } : Cursor).remaining ≤ fuel := by
  have := offset_lt_of_not_end cur hend
  unfold Cursor.remaining at h ⊢
  simp only
  omega

/-- The loop of `skipSpaces` ends by its own condition when the fuel covers
the bytes that remain. -/
theorem skipSpacesLoop_exit : ∀ (fuel : Nat) (cur : Cursor) (ch : Char),
    cur.remaining ≤ fuel → ch = peek cur →
    ((isSpace (peek (skipSpacesLoop fuel cur ch)) || peek (skipSpacesLoop fuel cur ch) == NUL) &&
      !isCursorEnd (skipSpacesLoop fuel cur ch)) = false := by
  intro fuel
  induction fuel with
  | zero =>
    intro cur ch h _
    rw [skipSpacesLoop, isCursorEnd_of_remaining cur (by omega)]
    simp
  | succ fuel ih =>
    intro cur ch h hch
    unfold skipSpacesLoop
    split
    · rename_i hc
      have hend : isCursorEnd cur = false := by
        simp only [Bool.and_eq_true, Bool.not_eq_true'] at hc
        exact hc.2
      exact ih _ _ (remaining_step cur 1 fuel (Nat.le_refl _) hend h) rfl
    · rename_i hc
      rw [← hch]
      simpa using hc

/-- The loop of `parseString` ends by its own condition. -/
theorem parseStringLoop_exit : ∀ (fuel : Nat) (cur : Cursor) (ch : Char),
    cur.remaining ≤ fuel →
    (decide ((parseStringLoop fuel cur ch).2 ≠ '"') &&
      !isCursorEnd (parseStringLoop fuel cur ch).1) = false := by
  intro fuel
  induction fuel with
  | zero =>
    intro cur ch h
    rw [parseStringLoop, isCursorEnd_of_remaining cur (by omega)]
    simp
  | succ fuel ih =>
    intro cur ch h
    unfold parseStringLoop
    split
    · rename_i hc
      have hend : isCursorEnd cur = false := by
        simp only [Bool.and_eq_true, Bool.not_eq_true'] at hc
        exact hc.2
      split
      · exact ih _ _ (remaining_step cur 2 fuel (by omega) hend h)
      · exact ih _ _ (remaining_step cur 1 fuel (Nat.le_refl _) hend h)
    · rename_i hc
      simpa using hc

/-- The loop of `parseKeyword` ends by its own condition. -/
theorem parseKeywordLoop_exit : ∀ (fuel : Nat) (cur : Cursor) (ch : Char) (count : Nat),
    cur.remaining ≤ fuel → ch = peek cur →
    (!isSeparator (peek (parseKeywordLoop fuel cur ch count).1) &&
      !isCursorEnd (parseKeywordLoop fuel cur ch count).1) = false := by
  intro fuel
  induction fuel with
  | zero =>
    intro cur ch count h _
    rw [parseKeywordLoop, isCursorEnd_of_remaining cur (by omega)]
    simp
  | succ fuel ih =>
    intro cur ch count h hch
    unfold parseKeywordLoop
    split
    · rename_i hc
      have hend : isCursorEnd cur = false := by
        simp only [Bool.and_eq_true, Bool.not_eq_true'] at hc
        exact hc.2
      exact ih _ _ _ (remaining_step cur 1 fuel (Nat.le_refl _) hend h) rfl
    · rename_i hc
      rw [← hch]
      simpa using hc

/-- The digit loop of `parseNumber` ends by its own condition. -/
theorem digitsLoop_exit : ∀ (fuel : Nat) (cur : Cursor) (ch : Char),
    cur.remaining ≤ fuel →
    (isNumeric (digitsLoop fuel cur ch).2 && !isCursorEnd (digitsLoop fuel cur ch).1) = false := by
  intro fuel
  induction fuel with
  | zero =>
    intro cur ch h
    rw [digitsLoop, isCursorEnd_of_remaining cur (by omega)]
    simp
  | succ fuel ih =>
    intro cur ch h
    unfold digitsLoop
    split
    · rename_i hc
      have hend : isCursorEnd cur = false := by
        simp only [Bool.and_eq_true, Bool.not_eq_true'] at hc
        exact hc.2
      exact ih _ _ (remaining_step cur 1 fuel (Nat.le_refl _) hend h)
    · rename_i hc
      simpa using hc

theorem remaining_le_length (cur : Cursor) : cur.remaining ≤ cur.buf.length :=
  Nat.sub_le _ _

theorem afterLabel_ahead (labelTk : Token) (colon : Token × Cursor) :
    Ahead colon.2 (afterLabel labelTk colon) := by
  unfold afterLabel
  split_ifs <;> exact Ahead.here _

theorem afterSeparator_ahead (closing : TokenType) (separator : Token × Cursor) :
    Ahead separator.2 (afterSeparator closing separator) := by
  unfold afterSeparator
  split_ifs <;> exact Ahead.here _

/-- The parser never moves the offset back and never changes the buffer. -/
theorem parse_ahead : ∀ (fuel : Nat),
    (∀ cur tk, Ahead cur (parseElementValue fuel cur tk).2) ∧
    (∀ cur listType, Ahead cur (parseList fuel cur listType).2) ∧
    (∀ cur listType closing tk sep children,
      Ahead cur (parseListLoop fuel cur listType closing tk sep children).2.2) := by
  intro fuel
  induction fuel with
  | zero =>
    refine ⟨fun cur tk => ?_, fun cur lt => ?_, fun cur lt closing tk sep ch => ?_⟩
    · rw [parseElementValue]; exact Ahead.ofError cur
    · rw [parseList]; exact Ahead.ofError cur
    · rw [parseListLoop]; exact Ahead.ofError cur
  | succ fuel ih =>
    obtain ⟨ihV, ihL, ihLoop⟩ := ih
    refine ⟨fun cur tk => ?_, fun cur lt => ?_, fun cur lt closing tk sep ch => ?_⟩
    · rw [parseElementValue]
      split
      · exact Ahead.here cur
      · exact Ahead.here cur
      · exact Ahead.here cur
      · exact Ahead.here cur
      · exact Ahead.here cur
      · exact ihL cur _
      · exact ihL cur _
      · exact Ahead.ofError cur
    · rw [parseList_step]
      have h1 := parseNextToken_ahead cur
      by_cases hc : (parseNextToken cur).1.type = closingOf lt
      · rw [if_pos hc]
        exact h1
      · rw [if_neg hc]
        simp only
        split
        · exact (h1.andThen (ihLoop _ _ _ _ _ _)).andThen (Ahead.ofError _)
        · exact h1.andThen (ihLoop _ _ _ _ _ _)
    · by_cases hend : isCursorEnd cur = true
      · rw [parseListLoop_end fuel cur lt closing tk sep ch hend]
        exact Ahead.here cur
      · obtain ⟨cur1, valueTk, ch1, hcase, heq⟩ :=
          parseListLoop_step fuel cur lt closing tk sep ch (by simpa using hend)
        have hcur1 : Ahead cur cur1 := by
          rcases hcase with ⟨_, h1, _⟩ | ⟨_, h1, _⟩
          · rw [h1]
            exact ((parseNextToken_ahead cur).andThen (afterLabel_ahead _ _)).andThen
              (parseNextToken_ahead _)
          · rw [h1]
            exact Ahead.here cur
        have hsep : Ahead cur (afterSeparator closing
            (parseNextToken (parseElementValue fuel cur1 valueTk).2)) :=
          ((hcur1.andThen (ihV cur1 valueTk)).andThen (parseNextToken_ahead _)).andThen
            (afterSeparator_ahead _ _)
        rw [heq]
        split
        · exact hsep
        · exact (hsep.andThen (parseNextToken_ahead _)).andThen (ihLoop _ _ _ _ _ _)

theorem parseListChecked_step (fuel : Nat) (cur : Cursor) (listType : json_ElementType) :
    parseListChecked (fuel + 1) cur listType =
      if (parseNextToken cur).1.type = closingOf listType then
        some (.mk listType [] [] [], (parseNextToken cur).2)
      else
        (parseListLoopChecked fuel (parseNextToken cur).2 listType (closingOf listType)
          (parseNextToken cur).1 Token.zero []).map fun l =>
            (.mk listType [] [] l.1,
              if l.2.1.type ≠ closingOf listType then parsingError l.2.2 else l.2.2) := by
  rw [parseListChecked]
  rfl

theorem parseListLoopChecked_end (fuel : Nat) (cur : Cursor) (listType : json_ElementType)
    (closing : TokenType) (tk sep : Token) (children : List json_Element)
    (hend : isCursorEnd cur = true) :
    parseListLoopChecked (fuel + 1) cur listType closing tk sep children =
      some (children, sep, cur) := by
  rw [parseListLoopChecked]
  simp only [hend, if_true]

theorem parseListLoopChecked_unfold (fuel : Nat) (cur : Cursor) (listType : json_ElementType)
    (closing : TokenType) (tk sep : Token) (children : List json_Element)
    (hend : isCursorEnd cur = false) (label : BufferView) (valueTk : Token) (cur1 : Cursor)
    (hlabel : label = (if listType = .json_OBJECT then takeOffQuotes tk.content
      else { data := 0, count := 0 }))
    (hvalue : valueTk = (if listType = .json_OBJECT then
      (parseNextToken (afterLabel tk (parseNextToken cur))).1 else tk))
    (hcur1 : cur1 = (if listType = .json_OBJECT then
      (parseNextToken (afterLabel tk (parseNextToken cur))).2 else cur)) :
    parseListLoopChecked (fuel + 1) cur listType closing tk sep children =
      (parseElementValueChecked fuel cur1 valueTk).bind fun sub =>
        if (parseNextToken sub.2).1.type = closing then
          some (children ++ [sub.1.withLabel (viewBytes sub.2.buf label)],
            (parseNextToken sub.2).1, afterSeparator closing (parseNextToken sub.2))
        else
          parseListLoopChecked fuel
            (parseNextToken (afterSeparator closing (parseNextToken sub.2))).2
            listType closing
            (parseNextToken (afterSeparator closing (parseNextToken sub.2))).1
            (parseNextToken sub.2).1
            (children ++ [sub.1.withLabel (viewBytes sub.2.buf label)]) := by
  subst hlabel hvalue hcur1
  by_cases hobj : listType = .json_OBJECT
  · rw [parseListLoopChecked]
    simp only [hend, Bool.false_eq_true, if_false, hobj, if_true]
    rfl
  · rw [parseListLoopChecked]
    simp only [hend, Bool.false_eq_true, if_false, hobj]
    rfl

theorem remaining_of_advance {c1 c2 : Cursor} (hb : c2.buf = c1.buf)
    (ho : c1.offset + 1 ≤ c2.offset) (hend : isCursorEnd c2 = false) :
    c2.remaining + 1 ≤ c1.remaining := by
  have := offset_lt_of_not_end c2 hend
  unfold Cursor.remaining
  rw [hb] at this ⊢
  omega

/-- A token read from a cursor ahead of `c` leaves a cursor at the end of
input or with fewer bytes remaining than `c` has. -/
theorem remaining_after_token {c c1 : Cursor} (h : Ahead c c1)
    (hend : isCursorEnd (parseNextToken c1).2 = false) :
    (parseNextToken c1).2.remaining + 1 ≤ c.remaining := by
  have h1 := parseNextToken_advances c1 hend
  have h2 := parseNextToken_ahead c1
  exact remaining_of_advance (h2.1.trans h.1) (by have := h.2; omega) hend

theorem loop_entry_ahead (cur : Cursor) (listType : json_ElementType) (tk : Token) :
    Ahead cur (if listType = .json_OBJECT then
      (parseNextToken (afterLabel tk (parseNextToken cur))).2 else cur) := by
  split
  · exact ((parseNextToken_ahead cur).andThen (afterLabel_ahead _ _)).andThen
      (parseNextToken_ahead _)
  · exact Ahead.here cur

/-- With three rounds of fuel for each byte that remains the parser returns
before the fuel runs out, and it returns what the parser without the check
returns. -/
theorem checked_eq : ∀ (fuel : Nat),
    (∀ cur tk, 3 * cur.remaining + 3 ≤ fuel →
      parseElementValueChecked fuel cur tk = some (parseElementValue fuel cur tk)) ∧
    (∀ cur listType, 3 * cur.remaining + 2 ≤ fuel →
      parseListChecked fuel cur listType = some (parseList fuel cur listType)) ∧
    (∀ cur listType closing tk sep children, 1 ≤ fuel →
      (isCursorEnd cur = false → 3 * cur.remaining + 4 ≤ fuel) →
      parseListLoopChecked fuel cur listType closing tk sep children =
        some (parseListLoop fuel cur listType closing tk sep children)) := by
  intro fuel
  induction fuel with
  | zero =>
    refine ⟨fun cur tk h => ?_, fun cur lt h => ?_, fun cur lt closing tk sep ch h _ => ?_⟩
    · omega
    · omega
    · omega
  | succ fuel ih =>
    obtain ⟨ihV, ihL, ihLoop⟩ := ih
    refine ⟨fun cur tk h => ?_, fun cur lt h => ?_, fun cur lt closing tk sep ch h1 h => ?_⟩
    · rw [parseElementValueChecked, parseElementValue]
      have hL := fun lt => ihL cur lt (by omega)
      cases tk.type <;> first | rfl | exact hL _
    · rw [parseListChecked_step, parseList_step]
      by_cases hc : (parseNextToken cur).1.type = closingOf lt
      · rw [if_pos hc, if_pos hc]
      · rw [if_neg hc, if_neg hc]
        rw [ihLoop (parseNextToken cur).2 lt (closingOf lt) (parseNextToken cur).1 Token.zero []
          (by omega) (fun hend => by
            have := remaining_after_token (Ahead.here cur) hend
            omega)]
        rfl
    · by_cases hend : isCursorEnd cur = true
      · rw [parseListLoopChecked_end fuel cur lt closing tk sep ch hend,
          parseListLoop_end fuel cur lt closing tk sep ch hend]
      · have hend1 : isCursorEnd cur = false := by simpa using hend
        have hfuel := h hend1
        obtain ⟨label, hlabel⟩ : ∃ label : BufferView, label =
            (if lt = .json_OBJECT then takeOffQuotes tk.content
              else { data := 0, count := 0 }) := ⟨_, rfl⟩
        obtain ⟨valueTk, hvalue⟩ : ∃ valueTk : Token, valueTk =
            (if lt = .json_OBJECT then
              (parseNextToken (afterLabel tk (parseNextToken cur))).1 else tk) := ⟨_, rfl⟩
        obtain ⟨cur1, hcur1⟩ : ∃ cur1 : Cursor, cur1 =
            (if lt = .json_OBJECT then
              (parseNextToken (afterLabel tk (parseNextToken cur))).2 else cur) := ⟨_, rfl⟩
        have hahead : Ahead cur cur1 := hcur1 ▸ loop_entry_ahead cur lt tk
        have hrem := hahead.remaining_le
        rw [parseListLoopChecked_unfold fuel cur lt closing tk sep ch hend1 label valueTk cur1
            hlabel hvalue hcur1,
          parseListLoop_unfold fuel cur lt closing tk sep ch hend1 label valueTk cur1
            hlabel hvalue hcur1,
          ihV cur1 valueTk (by omega), Option.some_bind]
        have hsub : Ahead cur (parseElementValue fuel cur1 valueTk).2 :=
          hahead.andThen ((parse_ahead fuel).1 cur1 valueTk)
        have hsep : Ahead cur (afterSeparator closing
            (parseNextToken (parseElementValue fuel cur1 valueTk).2)) :=
          (hsub.andThen (parseNextToken_ahead _)).andThen (afterSeparator_ahead _ _)
        by_cases hc : (parseNextToken (parseElementValue fuel cur1 valueTk).2).1.type = closing
        · rw [if_pos hc, if_pos hc]
        · rw [if_neg hc, if_neg hc]
          exact ihLoop _ _ _ _ _ _ (by omega) (fun hend4 => by
            have := remaining_after_token hsep hend4
            omega)

theorem json_Element.depth_mk (t : json_ElementType) (l v : Buffer)
    (children : List json_Element) :
    (json_Element.mk t l v children).depth = json_Element.depthList children + 1 := by
  rw [json_Element.depth]

theorem json_Element.depthList_nil : json_Element.depthList [] = 0 := by
  rw [json_Element.depthList]

theorem json_Element.depthList_cons (e : json_Element) (es : List json_Element) :
    json_Element.depthList (e :: es) = max e.depth (json_Element.depthList es) := by
  rw [json_Element.depthList]

theorem json_Element.depthList_append (e : json_Element) : ∀ (es : List json_Element),
    json_Element.depthList (es ++ [e]) = max (json_Element.depthList es) e.depth
  | [] => by
    simp [json_Element.depthList_cons, json_Element.depthList_nil]
  | x :: es => by
    rw [List.cons_append, json_Element.depthList_cons, json_Element.depthList_cons,
      json_Element.depthList_append e es, max_assoc]

theorem json_Element.depth_withLabel (e : json_Element) (label : Buffer) :
    (e.withLabel label).depth = e.depth := by
  cases e
  rfl

theorem json_Element.depth_zero : json_Element.zero.depth = 1 := by
  rw [json_Element.zero, json_Element.depth_mk, json_Element.depthList_nil]

/-- The tree that the parser returns is at most one level deeper than the
number of bytes that remain at the cursor. -/
theorem parse_depth : ∀ (fuel : Nat),
    (∀ cur tk, (parseElementValue fuel cur tk).1.depth ≤ cur.remaining + 1) ∧
    (∀ cur listType, (parseList fuel cur listType).1.depth ≤ cur.remaining + 1) ∧
    (∀ cur listType closing tk sep children (B : Nat),
      json_Element.depthList children ≤ B →
      (isCursorEnd cur = false → cur.remaining + 1 ≤ B) →
      json_Element.depthList
        (parseListLoop fuel cur listType closing tk sep children).1 ≤ B) := by
  intro fuel
  induction fuel with
  | zero =>
    refine ⟨fun cur tk => ?_, fun cur lt => ?_, fun cur lt closing tk sep ch B hB _ => ?_⟩
    · rw [parseElementValue, json_Element.depth_zero]; omega
    · rw [parseList, json_Element.depth_zero]; omega
    · rw [parseListLoop]; exact hB
  | succ fuel ih =>
    obtain ⟨ihV, ihL, ihLoop⟩ := ih
    refine ⟨fun cur tk => ?_, fun cur lt => ?_, fun cur lt closing tk sep ch B hB h => ?_⟩
    · rw [parseElementValue]
      have hL := fun lt => ihL cur lt
      have h0 := json_Element.depth_zero
      cases tk.type <;>
        first
        | exact hL _
        | (simp only [json_Element.depth_mk, json_Element.depthList_nil]; omega)
    · rw [parseList_step]
      by_cases hc : (parseNextToken cur).1.type = closingOf lt
      · rw [if_pos hc, json_Element.depth_mk, json_Element.depthList_nil]
        omega
      · rw [if_neg hc, json_Element.depth_mk]
        by_cases hend : isCursorEnd (parseNextToken cur).2 = true
        · have := ihLoop (parseNextToken cur).2 lt (closingOf lt) (parseNextToken cur).1
            Token.zero [] 0 (by rw [json_Element.depthList_nil]) (fun h => by
              rw [hend] at h
              exact absurd h (by simp))
          omega
        · have hend1 : isCursorEnd (parseNextToken cur).2 = false := by simpa using hend
          have hr := remaining_after_token (Ahead.here cur) hend1
          have := ihLoop (parseNextToken cur).2 lt (closingOf lt) (parseNextToken cur).1
            Token.zero [] cur.remaining
            (by rw [json_Element.depthList_nil]; omega) (fun _ => hr)
          omega
    · by_cases hend : isCursorEnd cur = true
      · rw [parseListLoop_end fuel cur lt closing tk sep ch hend]
        exact hB
      · have hend1 : isCursorEnd cur = false := by simpa using hend
        have hcur := h hend1
        obtain ⟨label, hlabel⟩ : ∃ label : BufferView, label =
            (if lt = .json_OBJECT then takeOffQuotes tk.content
              else { data := 0, count := 0 }) := ⟨_, rfl⟩
        obtain ⟨valueTk, hvalue⟩ : ∃ valueTk : Token, valueTk =
            (if lt = .json_OBJECT then
              (parseNextToken (afterLabel tk (parseNextToken cur))).1 else tk) := ⟨_, rfl⟩
        obtain ⟨cur1, hcur1⟩ : ∃ cur1 : Cursor, cur1 =
            (if lt = .json_OBJECT then
              (parseNextToken (afterLabel tk (parseNextToken cur))).2 else cur) := ⟨_, rfl⟩
        have hahead : Ahead cur cur1 := hcur1 ▸ loop_entry_ahead cur lt tk
        have hrem := hahead.remaining_le
        have hchild := ihV cur1 valueTk
        have hch1 : json_Element.depthList
            (ch ++ [(parseElementValue fuel cur1 valueTk).1.withLabel
              (viewBytes (parseElementValue fuel cur1 valueTk).2.buf label)]) ≤ B := by
          rw [json_Element.depthList_append, json_Element.depth_withLabel]
          exact max_le hB (by omega)
        have hsub : Ahead cur (parseElementValue fuel cur1 valueTk).2 :=
          hahead.andThen ((parse_ahead fuel).1 cur1 valueTk)
        have hnext : Ahead cur (parseNextToken (afterSeparator closing
            (parseNextToken (parseElementValue fuel cur1 valueTk).2))).2 :=
          ((hsub.andThen (parseNextToken_ahead _)).andThen (afterSeparator_ahead _ _)).andThen
            (parseNextToken_ahead _)
        have hrem4 := hnext.remaining_le
        rw [parseListLoop_unfold fuel cur lt closing tk sep ch hend1 label valueTk cur1
            hlabel hvalue hcur1]
        by_cases hc : (parseNextToken (parseElementValue fuel cur1 valueTk).2).1.type = closing
        · rw [if_pos hc]
          exact hch1
        · rw [if_neg hc]
          exact ihLoop _ _ _ _ _ _ B hch1 (fun _ => by omega)

theorem skipSpaces_exit (cur : Cursor) :
    ((isSpace (peek (skipSpaces cur)) || peek (skipSpaces cur) == NUL) &&
      !isCursorEnd (skipSpaces cur)) = false := by
  unfold skipSpaces
  split
  · rename_i h
    rw [h]
    simp
  · exact skipSpacesLoop_exit _ cur _ (remaining_le_length cur) rfl

theorem json_parseJsonChecked_eq (jsonString : Buffer) :
    json_parseJsonChecked jsonString = some (json_parseJson jsonString) := by
  unfold json_parseJsonChecked json_parseJson
  simp only
  split
  · rfl
  · have hrem := (parseNextToken_ahead
      ({ buf := jsonString, offset := 0, errorOccurred := false } : Cursor)).remaining_le
    have hlen := remaining_le_length
      ({ buf := jsonString, offset := 0, errorOccurred := false } : Cursor)
    rw [(checked_eq (3 * jsonString.length + 3)).1 _ _ (by
      simp only at hlen
      omega)]
    rfl

theorem json_parseJson_depth (jsonString : Buffer) (root : json_Element)
    (h : (json_parseJson jsonString).1 = some root) : root.depth ≤ jsonString.length := by
  unfold json_parseJson at h
  simp only at h
  split at h
  · exact absurd h (by simp)
  · rename_i hopen
    have hskip : isCursorEnd (skipSpaces
        ({ buf := jsonString, offset := 0, errorOccurred := false } : Cursor)) = false := by
      by_contra hs
      have := (parseNextToken_at_end _ (by simpa using hs)).1
      rw [this] at hopen
      exact hopen ⟨by decide, by decide⟩
    have hprog := parseNextToken_progress _ hskip
    have hlt := offset_lt_of_not_end _ hskip
    have hs := skipSpaces_ahead
      ({ buf := jsonString, offset := 0, errorOccurred := false } : Cursor)
    have ha := parseNextToken_ahead
      ({ buf := jsonString, offset := 0, errorOccurred := false } : Cursor)
    have hd := (parse_depth (3 * jsonString.length + 3)).1
      (parseNextToken
        ({ buf := jsonString, offset := 0, errorOccurred := false } : Cursor)).2
      (parseNextToken
        ({ buf := jsonString, offset := 0, errorOccurred := false } : Cursor)).1
    simp only [Option.some.injEq] at h
    rw [← h]
    unfold Cursor.remaining at hd
    rw [ha.1] at hd
    rw [hs.1] at hlt
    simp only at hd hlt
    omega

/-- C36: `parseNextToken` always makes progress: when the cursor is not at the
end of input once the whitespace is skipped, the call moves the offset by at
least one, and at the end of input it returns `TK_END`.  Each loop of the
tokenizer ends by its own condition.  The recursion of `parseElementValue`
and `parseList` and the loop of `parseList` return before the fuel runs out
when the fuel is three rounds for each byte that remains, so `json_parseJson`
returns on every input; and the tree it returns, whose depth is the depth
that the recursion reached, is no deeper than the input is long. -/
theorem C36_parser_terminates (cur : Cursor) (jsonString : Buffer) :
    (isCursorEnd (skipSpaces cur) = false → cur.offset + 1 ≤ (parseNextToken cur).2.offset) ∧
    (isCursorEnd (skipSpaces cur) = true → (parseNextToken cur).1.type = .TK_END) ∧
    (((isSpace (peek (skipSpaces cur)) || peek (skipSpaces cur) == NUL) &&
      !isCursorEnd (skipSpaces cur)) = false) ∧
    (∀ ch, (decide ((parseStringLoop cur.buf.length cur ch).2 ≠ '"') &&
      !isCursorEnd (parseStringLoop cur.buf.length cur ch).1) = false) ∧
    (∀ count, (!isSeparator (peek (parseKeywordLoop cur.buf.length cur (peek cur) count).1) &&
      !isCursorEnd (parseKeywordLoop cur.buf.length cur (peek cur) count).1) = false) ∧
    (∀ ch, (isNumeric (digitsLoop cur.buf.length cur ch).2 &&
      !isCursorEnd (digitsLoop cur.buf.length cur ch).1) = false) ∧
    (∀ fuel tk, 3 * cur.remaining + 3 ≤ fuel →
      parseElementValueChecked fuel cur tk = some (parseElementValue fuel cur tk)) ∧
    (∀ fuel listType, 3 * cur.remaining + 2 ≤ fuel →
      parseListChecked fuel cur listType = some (parseList fuel cur listType)) ∧
    (∀ fuel listType closing tk sep children, 3 * cur.remaining + 4 ≤ fuel →
      parseListLoopChecked fuel cur listType closing tk sep children =
        some (parseListLoop fuel cur listType closing tk sep children)) ∧
    json_parseJsonChecked jsonString = some (json_parseJson jsonString) ∧
    (∀ root, (json_parseJson jsonString).1 = some root → root.depth ≤ jsonString.length) := by
  refine ⟨fun h => ?_, fun h => (parseNextToken_at_end cur h).1, skipSpaces_exit cur,
    fun ch => parseStringLoop_exit _ cur ch (remaining_le_length cur),
    fun count => parseKeywordLoop_exit _ cur _ count (remaining_le_length cur) rfl,
    fun ch => digitsLoop_exit _ cur ch (remaining_le_length cur),
    fun fuel tk h => (checked_eq fuel).1 cur tk h,
    fun fuel lt h => (checked_eq fuel).2.1 cur lt h,
    fun fuel lt closing tk sep ch h =>
      (checked_eq fuel).2.2 cur lt closing tk sep ch (by omega) (fun _ => h),
    json_parseJsonChecked_eq jsonString, json_parseJson_depth jsonString⟩
  have h1 := parseNextToken_progress cur h
  have h2 := (skipSpaces_ahead cur).2
  omega

theorem C36_parser_terminates_witness :
    0 + 1 ≤ (parseNextToken ⟨CS " [1]", 0, false⟩).2.offset ∧
    json_parseJsonChecked (CS "[[1], 2]") = some (json_parseJson (CS "[[1], 2]")) ∧
    (∀ root, (json_parseJson (CS "[[1], 2]")).1 = some root → root.depth ≤ 8) :=
  ⟨(C36_parser_terminates ⟨CS " [1]", 0, false⟩ (CS "[[1], 2]")).1 (by decide),
    (C36_parser_terminates ⟨CS " [1]", 0, false⟩ (CS "[[1], 2]")).2.2.2.2.2.2.2.2.2.1,
    (C36_parser_terminates ⟨CS " [1]", 0, false⟩ (CS "[[1], 2]")).2.2.2.2.2.2.2.2.2.2⟩

end MySpotifyPl
